import Mathlib

/-! # MQ-ECN software prototype: D(W)RR scheduler with token bucket and ECN marking

A shallow embedding of the two kernel modules of the repository,
`sch_dwrr/main.c` (namespace `sch_dwrr`) and `sch_dwrr2/main.c`
(namespace `sch_dwrr2`), together with the properties proved about them.

Conventions of the embedding.

* C unsigned 32/64-bit values are natural numbers; every operation that can
  wrap is followed by an explicit reduction modulo `2^32` or `2^64`.
  Signed 64-bit values are integers, wrapped by `s64`.
* The sysctl variables of `params.c` are collected in a record that is an
  argument of every operation (they may be rewritten between two calls).
* `ktime_get_ns()` is an input: an operation receives the sequence `clk` of the
  readings it will observe, `clk 0` being the first call of `ktime_get_ns()`.
* The inner per-class queue is the kernel's byte FIFO (`bfifo`), a list of
  packets with a byte limit.
* A packet records its length (`skb->len`), the TOS byte of its IP header when
  it has one, whether the scheduler has asked for the CE codepoint, and whether
  its head can be made writable.
* A division by zero is a trap in the kernel.  The arithmetic definitions are
  total (the quotient is 0 there); the predicates `dwrr_enqueue_traps`,
  `dwrr_dequeue_traps`, `dwrr_qdisc_enqueue_traps` and
  `dwrr_qdisc_dequeue_traps` say which calls meet such a division, and
  `dwrr_enqueue_run`, `dwrr_dequeue_run` and their `sch_dwrr` counterparts give
  what a call comes to in the kernel: a result, or a trap.
-/

/-! ## Machine arithmetic -/

/-- Conversion of a C integer to `unsigned int` / `u32`. -/
def u32_of_int (x : Int) : Nat := (x % 4294967296).toNat

/-- Conversion of a C integer to `u64`. -/
def u64_of_int (x : Int) : Nat := (x % 18446744073709551616).toNat

/-- Wrapping of an integer into the range of `s64`. -/
def s64 (x : Int) : Int := (x + 9223372036854775808) % 18446744073709551616 - 9223372036854775808

/-- Addition of two `u32` values. -/
def u32_add (a b : Nat) : Nat := (a + b) % 4294967296

/-- Subtraction of two `u32` values. -/
def u32_sub (a b : Nat) : Nat := (a % 4294967296 + 4294967296 - b % 4294967296) % 4294967296

/-- Kernel helper `div_u64(u64 dividend, u32 divisor)`: the divisor argument is
converted to 32 bits.  A zero divisor traps in the kernel (`div_u64_traps` says
when); the quotient 0 given here in that case is no result of the program, and
the calls that meet such a division are told apart by `dwrr_enqueue_traps` and
`dwrr_dequeue_traps`. -/
def div_u64 (dividend divisor : Nat) : Nat := dividend % 18446744073709551616 / (divisor % 4294967296)

/-- Kernel helper `div64_u64(u64 dividend, u64 divisor)`. -/
def div64_u64 (dividend divisor : Nat) : Nat := dividend % 18446744073709551616 / (divisor % 18446744073709551616)

/-- Kernel helper `div_s64(s64 dividend, s32 divisor)`: C division, rounding towards zero. -/
def div_s64 (dividend divisor : Int) : Int := Int.tdiv dividend divisor

/-! ## Packets and the inner byte FIFO -/

/-- The part of `struct sk_buff` the scheduler looks at. -/
structure sk_buff where
  /-- Length `skb->len` in bytes. -/
  len : Nat
  /-- TOS byte of the IP header, `none` when `ip_hdr(skb)` is null. -/
  tos : Option Nat
  /-- Whether the scheduler has applied the CE marking helper to the packet. -/
  ce : Bool
  /-- Whether the head of the packet can be made writable (`skb_make_writable` finds
  it writable or manages to copy it). -/
  writable : Bool
  deriving DecidableEq, Repr

/-- Kernel helper `INET_ECN_set_ce` / `IP_ECN_set_ce`, recorded as a request on the packet. -/
def INET_ECN_set_ce (skb : sk_buff) : sk_buff := { skb with ce := true }

/-- Kernel helper `skb_make_writable(skb, writable_len)`: it fails when the packet
is shorter than `writable_len` bytes or its head cannot be made writable. -/
def skb_make_writable (skb : sk_buff) (writable_len : Nat) : Bool :=
  decide (writable_len ≤ skb.len) && skb.writable

/-- Return code `NET_XMIT_SUCCESS`. -/
def NET_XMIT_SUCCESS : Int := 0

/-- Return code `NET_XMIT_DROP`. -/
def NET_XMIT_DROP : Int := 1

/-- Bytes held by a byte FIFO (`qstats.backlog`). -/
def bfifo_backlog (fifo : List sk_buff) : Nat := (fifo.map (fun p => p.len)).sum

/-- Kernel `bfifo_enqueue`: the packet is appended when the backlog stays within
the limit, otherwise it is refused (`none`, the caller sees `NET_XMIT_DROP`). -/
def bfifo_enqueue (limit : Nat) (skb : sk_buff) (fifo : List sk_buff) : Option (List sk_buff) :=
  if bfifo_backlog fifo + skb.len ≤ limit then some (fifo ++ [skb]) else none

namespace sch_dwrr2

/-! ## sch_dwrr2: constants of params.h -/

def dwrr_max_pkt_bytes : Nat := 1538
def dwrr_min_pkt_bytes : Nat := 64
def dwrr_max_buffer_bytes : Nat := 2000000
def dwrr_shared_buffer : Int := 0
def dwrr_static_buffer : Int := 1
def dwrr_disable_ecn : Int := 0
def dwrr_queue_ecn : Int := 1
def dwrr_port_ecn : Int := 2
def dwrr_mq_ecn : Int := 3
def dwrr_max_iteration : Int := 10
def dwrr_round_alpha_shift : Nat := 10
def dwrr_disable : Int := 0
def dwrr_enable : Int := 1

/-- The sysctl variables of `params.c` (all of C type `int`). -/
structure dwrr_params where
  dwrr_buffer_mode : Int
  dwrr_shared_buffer_bytes : Int
  dwrr_bucket_bytes : Int
  dwrr_port_thresh_bytes : Int
  dwrr_ecn_scheme : Int
  dwrr_round_alpha : Int
  dwrr_idle_interval_ns : Int
  dwrr_enable_wrr : Int
  dwrr_enable_dequeue_ecn : Int
  dwrr_queue_thresh_bytes : Nat → Int
  dwrr_queue_dscp : Nat → Int
  dwrr_queue_quantum : Nat → Int
  dwrr_queue_buffer_bytes : Nat → Int

/-- The values the variables have after `dwrr_params_init`. -/
def dwrr_params_init : dwrr_params where
  dwrr_buffer_mode := dwrr_shared_buffer
  dwrr_shared_buffer_bytes := dwrr_max_buffer_bytes
  dwrr_bucket_bytes := 2500
  dwrr_port_thresh_bytes := 32000
  dwrr_ecn_scheme := dwrr_queue_ecn
  dwrr_round_alpha := (3 * 2 ^ dwrr_round_alpha_shift) / 4
  dwrr_idle_interval_ns := 12000
  dwrr_enable_wrr := dwrr_disable
  dwrr_enable_dequeue_ecn := dwrr_disable
  dwrr_queue_thresh_bytes := fun _ => 32000
  dwrr_queue_dscp := fun i => i
  dwrr_queue_quantum := fun _ => dwrr_max_pkt_bytes
  dwrr_queue_buffer_bytes := fun _ => dwrr_max_buffer_bytes

structure dwrr_rate_cfg where
  rate_bps : Nat
  mult : Nat
  shift : Nat
  deriving DecidableEq, Repr

/-- A class of service queue (`struct dwrr_class`); `qdisc` is the inner byte
FIFO and `qdisc_drops` its drop counter. -/
structure dwrr_class where
  qdisc : List sk_buff
  qdisc_drops : Nat
  id : Nat
  deficit : Nat
  len_bytes : Nat
  start_time : Int
  last_pkt_time : Int
  quantum : Nat
  deriving DecidableEq, Repr

/-- The scheduler (`struct dwrr_sched_data`) with the fields of the enclosing
`struct Qdisc` that the module writes: `qlen`, the drop and over-limit counters
and the deadline of the watchdog timer. -/
structure dwrr_sched_data where
  queues : Fin 8 → dwrr_class
  rate : dwrr_rate_cfg
  active : List (Fin 8)
  tokens : Int
  sum_len_bytes : Nat
  time_ns : Int
  round_time : Int
  last_idle_time : Int
  qlen : Nat
  drops : Nat
  overlimits : Nat
  watchdog : Option Int

/-- Exponential weighted moving average for `s64` values. -/
def s64_ewma (smooth sample weight : Int) (shift : Nat) : Int :=
  let val := s64 (smooth * weight)
  let val := s64 (val + s64 (sample * (2 ^ shift - weight)))
  val >>> shift

/-- On-wire size of a packet. -/
def skb_size (skb : sk_buff) : Nat :=
  u32_add (max (u32_add skb.len 4) dwrr_min_pkt_bytes) 20

def precompute_ratedata (r : dwrr_rate_cfg) : dwrr_rate_cfg :=
  if r.rate_bps > 0 then
    { r with shift := 15, mult := div64_u64 (8 * 1000000000 * 2 ^ 15) r.rate_bps % 4294967296 }
  else
    { r with shift := 0, mult := 1 }

/-- Length in bytes to time in nanoseconds. -/
def l2t_ns (r : dwrr_rate_cfg) (len_bytes : Nat) : Nat :=
  ((len_bytes * r.mult) % 18446744073709551616) >>> r.shift

/-- Linear scan of `dwrr_classify`: index of the class a packet goes to. -/
def dwrr_classify (cfg : dwrr_params) (skb : sk_buff) : Fin 8 :=
  match skb.tos with
  | none => 0
  | some tos =>
    let dscp : Int := ((tos % 256) >>> 2 : Nat)
    match (List.finRange 8).find? (fun i => decide (dscp = cfg.dwrr_queue_dscp i.val)) with
    | some i => i
    | none => 0

/-- Decision of `dwrr_mq_ecn_marking`: the ECN threshold in bytes.  The two
divisions trap when their 32-bit divisor is zero (`dwrr_mq_ecn_marking_traps`
says when); the value given here in that case is no result of the program. -/
def dwrr_mq_ecn_thresh (cfg : dwrr_params) (q : dwrr_sched_data) (cl : dwrr_class) : Nat :=
  let estimate_rate_bps :=
    if q.round_time > 0 then
      div_u64 (cl.quantum <<< 33) (u32_of_int q.round_time)
    else
      q.rate.rate_bps
  let estimate_rate_bps := min (estimate_rate_bps % 18446744073709551616) (q.rate.rate_bps % 18446744073709551616)
  div_u64 (estimate_rate_bps * u64_of_int cfg.dwrr_port_thresh_bytes) q.rate.rate_bps

/-- MQ-ECN marking. -/
def dwrr_mq_ecn_marking (cfg : dwrr_params) (skb : sk_buff) (q : dwrr_sched_data)
    (cl : dwrr_class) : sk_buff :=
  if cl.len_bytes > dwrr_mq_ecn_thresh cfg q cl then INET_ECN_set_ce skb else skb

/-- ECN marking: per-queue, per-port and MQ-ECN. -/
def dwrr_ecn_marking (cfg : dwrr_params) (skb : sk_buff) (q : dwrr_sched_data)
    (cl : dwrr_class) : sk_buff :=
  if cfg.dwrr_ecn_scheme = dwrr_queue_ecn then
    if cl.len_bytes > u32_of_int (cfg.dwrr_queue_thresh_bytes cl.id) then INET_ECN_set_ce skb else skb
  else if cfg.dwrr_ecn_scheme = dwrr_port_ecn then
    if q.sum_len_bytes > u32_of_int cfg.dwrr_port_thresh_bytes then INET_ECN_set_ce skb else skb
  else if cfg.dwrr_ecn_scheme = dwrr_mq_ecn then
    dwrr_mq_ecn_marking cfg skb q cl
  else
    skb

/-- Token bucket: tokens left after sending `len` bytes at time `now` (negative
when the packet cannot be sent yet). -/
def tbf_schedule (cfg : dwrr_params) (len : Nat) (q : dwrr_sched_data) (now : Int) : Int :=
  let toks := s64 (now - q.time_ns)
  let toks := min toks (s64 (l2t_ns q.rate (u32_of_int cfg.dwrr_bucket_bytes)))
  let toks := s64 (toks + q.tokens)
  let pkt_ns := s64 (l2t_ns q.rate len)
  s64 (toks - pkt_ns)

/-- The ways `dwrr_dequeue` returns. -/
inductive deq_exit where
  /-- The active list is empty on entry: `NULL`. -/
  | idle
  /-- Branch `!cl` of the loop: `NULL`. -/
  | no_class
  /-- The inner queue of the head class has no packet to peek: `NULL`. -/
  | no_packet
  /-- Not enough tokens: the watchdog is armed, `NULL`. -/
  | overlimit
  /-- A packet of class `cl` is returned. -/
  | sent (cl : Fin 8) (skb : sk_buff)
  deriving DecidableEq, Repr

/-- The packet returned by `dwrr_dequeue`. -/
def deq_exit.skb : deq_exit → Option sk_buff
  | .sent _ skb => some skb
  | _ => none

/-- Outcome of one pass through the body of the `while (1)` loop of `dwrr_dequeue`:
either the function returns, or the head class gives up its turn and the loop goes on. -/
inductive iter_result where
  | exit (q : dwrr_sched_data) (r : deq_exit)
  | again (q : dwrr_sched_data) (cl : Fin 8)

/-- State left by the branch of `dwrr_dequeue` taken when the tokens do not
suffice for a packet of on-wire length `len`: the watchdog is armed for
`now - result` and the over-limit counter is increased. -/
def dwrr_dequeue_throttle (cfg : dwrr_params) (now : Int) (q : dwrr_sched_data) (len : Nat) :
    dwrr_sched_data :=
  { q with
    watchdog := some (s64 (now - tbf_schedule cfg len q now))
    overlimits := q.overlimits + 1 }

/-- Class `i` after its head packet `skb` has been taken from its FIFO, `tl`
being the packets left. -/
def dwrr_dequeue_release_class (now : Int) (q : dwrr_sched_data) (i : Fin 8) (skb : sk_buff)
    (tl : List sk_buff) : dwrr_class :=
  { q.queues i with
    qdisc := tl
    len_bytes := u32_sub (q.queues i).len_bytes (skb_size skb)
    deficit := u32_sub (q.queues i).deficit (skb_size skb)
    last_pkt_time := s64 (now + l2t_ns q.rate (skb_size skb)) }

/-- State left by the branch of `dwrr_dequeue` that releases the head packet
`skb` of the class `i` at the head of the active list (`rest` is the remainder
of the list, `tl` the remainder of the FIFO).  When the FIFO is emptied the class
leaves the list, the round time takes a sample and, if the port is empty, the
idle period starts. -/
def dwrr_dequeue_release (cfg : dwrr_params) (now : Int) (q : dwrr_sched_data) (i : Fin 8)
    (rest : List (Fin 8)) (skb : sk_buff) (tl : List sk_buff) : dwrr_sched_data :=
  { q with
    queues := Function.update q.queues i (dwrr_dequeue_release_class now q i skb tl)
    sum_len_bytes := u32_sub q.sum_len_bytes (skb_size skb)
    qlen := u32_sub q.qlen 1
    active := if tl = [] then rest else i :: rest
    round_time :=
      if tl = [] then
        s64_ewma q.round_time
          (s64 ((dwrr_dequeue_release_class now q i skb tl).last_pkt_time -
            (dwrr_dequeue_release_class now q i skb tl).start_time))
          cfg.dwrr_round_alpha dwrr_round_alpha_shift
      else q.round_time
    last_idle_time :=
      if tl = [] ∧ u32_sub q.sum_len_bytes (skb_size skb) = 0 then now else q.last_idle_time
    time_ns := now
    tokens := min (tbf_schedule cfg (skb_size skb) q now)
      (s64 (l2t_ns q.rate (u32_of_int cfg.dwrr_bucket_bytes))) }

/-- The packet returned by the releasing branch of `dwrr_dequeue`: marked by
`dwrr_ecn_marking` on the state after the release when dequeue marking is enabled. -/
def dwrr_dequeue_packet (cfg : dwrr_params) (now : Int) (q : dwrr_sched_data) (i : Fin 8)
    (rest : List (Fin 8)) (skb : sk_buff) (tl : List sk_buff) : sk_buff :=
  if cfg.dwrr_enable_dequeue_ecn = dwrr_enable then
    dwrr_ecn_marking cfg skb (dwrr_dequeue_release cfg now q i rest skb tl)
      (dwrr_dequeue_release_class now q i skb tl)
  else skb

/-- Class `i` after the `else` branch of the loop of `dwrr_dequeue`: its head
packet does not fit the deficit and the class gives up its turn. -/
def dwrr_dequeue_yield_class (cfg : dwrr_params) (q : dwrr_sched_data) (i : Fin 8) : dwrr_class :=
  { q.queues i with
    start_time := (q.queues i).last_pkt_time
    quantum := u32_of_int (cfg.dwrr_queue_quantum (q.queues i).id)
    deficit :=
      if cfg.dwrr_enable_wrr = dwrr_enable then
        u32_of_int (cfg.dwrr_queue_quantum (q.queues i).id)
      else
        u32_add (q.queues i).deficit (u32_of_int (cfg.dwrr_queue_quantum (q.queues i).id)) }

/-- State left by the `else` branch of the loop of `dwrr_dequeue`: round time
sample, new quantum and deficit for class `i`, and class `i` moved to the tail of
the active list. -/
def dwrr_dequeue_yield (cfg : dwrr_params) (q : dwrr_sched_data) (i : Fin 8)
    (rest : List (Fin 8)) : dwrr_sched_data :=
  { q with
    queues := Function.update q.queues i (dwrr_dequeue_yield_class cfg q i)
    round_time := s64_ewma q.round_time
      (s64 ((q.queues i).last_pkt_time - (q.queues i).start_time))
      cfg.dwrr_round_alpha dwrr_round_alpha_shift
    active := rest ++ [i] }

/-- One pass through the body of the loop of `dwrr_dequeue`. -/
def dwrr_dequeue_iter (cfg : dwrr_params) (now : Int) (q : dwrr_sched_data) : iter_result :=
  match q.active with
  | [] => .exit q .no_class
  | i :: rest =>
    match (q.queues i).qdisc with
    | [] => .exit q .no_packet
    | skb :: tl =>
      if skb_size skb ≤ (q.queues i).deficit then
        if tbf_schedule cfg (skb_size skb) q now < 0 then
          .exit (dwrr_dequeue_throttle cfg now q (skb_size skb)) .overlimit
        else
          .exit (dwrr_dequeue_release cfg now q i rest skb tl)
            (.sent i (dwrr_dequeue_packet cfg now q i rest skb tl))
      else
        .again (dwrr_dequeue_yield cfg q i rest) i

/-- The loop of `dwrr_dequeue`, bounded by `fuel` passes (`none`: the bound was
reached).  The third component lists the classes that gave up their turn. -/
def dwrr_dequeue_loop (cfg : dwrr_params) (now : Int) :
    Nat → dwrr_sched_data → Option (dwrr_sched_data × deq_exit × List (Fin 8))
  | 0, _ => none
  | fuel + 1, q =>
    match dwrr_dequeue_iter cfg now q with
    | .exit q1 r => some (q1, r, [])
    | .again q1 i =>
      match dwrr_dequeue_loop cfg now fuel q1 with
      | some (q2, r, ys) => some (q2, r, i :: ys)
      | none => none

/-- Function `dwrr_dequeue`; `now` is the reading of the clock taken on entry. -/
def dwrr_dequeue (fuel : Nat) (cfg : dwrr_params) (now : Int) (q : dwrr_sched_data) :
    Option (dwrr_sched_data × deq_exit × List (Fin 8)) :=
  if q.active = [] then some (q, .idle, []) else dwrr_dequeue_loop cfg now fuel q

/-- Buffer admission test. -/
def dwrr_buffer_overfill (cfg : dwrr_params) (len : Nat) (cl : dwrr_class)
    (q : dwrr_sched_data) : Bool :=
  if cfg.dwrr_buffer_mode = dwrr_shared_buffer ∧
      u32_add q.sum_len_bytes len > u32_of_int cfg.dwrr_shared_buffer_bytes then
    true
  else if cfg.dwrr_buffer_mode = dwrr_static_buffer ∧
      u32_add cl.len_bytes len > u32_of_int (cfg.dwrr_queue_buffer_bytes cl.id) then
    true
  else
    false

/-- Ageing of the round time at the start of `dwrr_enqueue`. -/
def dwrr_idle_ageing (cfg : dwrr_params) (clk : Nat → Int) (q : dwrr_sched_data) : Int :=
  let interval_num : Int :=
    if q.sum_len_bytes = 0 ∧ cfg.dwrr_ecn_scheme = dwrr_mq_ecn ∧ cfg.dwrr_idle_interval_ns > 0 then
      div_s64 (s64 (clk 0 - q.last_idle_time)) cfg.dwrr_idle_interval_ns
    else 0
  if interval_num > 0 ∧ interval_num ≤ dwrr_max_iteration then
    Nat.iterate (fun rt => s64_ewma rt 0 cfg.dwrr_round_alpha dwrr_round_alpha_shift)
      interval_num.toNat q.round_time
  else if interval_num > dwrr_max_iteration then 0
  else q.round_time

/-- State left by the dropping branches of `dwrr_enqueue`: the drop counter of
the port goes up by one and the drop counter of the inner queue of class `i` by
`n` (one from `qdisc_qstats_drop(cl->qdisc)`, and one more when the inner queue
itself refused the packet). -/
def dwrr_enqueue_drop (q : dwrr_sched_data) (i : Fin 8) (n : Nat) : dwrr_sched_data :=
  { q with
    drops := q.drops + 1
    queues := Function.update q.queues i
      { q.queues i with qdisc_drops := (q.queues i).qdisc_drops + n } }

/-- Class `i` after `dwrr_enqueue` has put `skb` into its FIFO and updated its
counters; `t` is the reading of the clock used for `start_time`. -/
def dwrr_enqueue_class (cfg : dwrr_params) (t : Int) (q : dwrr_sched_data) (i : Fin 8)
    (skb : sk_buff) : dwrr_class :=
  if ((q.queues i).qdisc ++ [skb]).length = 1 then
    { q.queues i with
      qdisc := (q.queues i).qdisc ++ [skb]
      len_bytes := u32_add (q.queues i).len_bytes (skb_size skb)
      start_time := t
      quantum := u32_of_int (cfg.dwrr_queue_quantum (q.queues i).id)
      deficit := u32_of_int (cfg.dwrr_queue_quantum (q.queues i).id) }
  else
    { q.queues i with
      qdisc := (q.queues i).qdisc ++ [skb]
      len_bytes := u32_add (q.queues i).len_bytes (skb_size skb) }

/-- State of `dwrr_enqueue` after the packet has been accepted by the inner FIFO
of class `i` and the counters and the active list have been updated, before
the ECN marking. -/
def dwrr_enqueue_accept (cfg : dwrr_params) (t : Int) (q : dwrr_sched_data) (i : Fin 8)
    (skb : sk_buff) : dwrr_sched_data :=
  { q with
    qlen := u32_add q.qlen 1
    sum_len_bytes := u32_add q.sum_len_bytes (skb_size skb)
    active := if ((q.queues i).qdisc ++ [skb]).length = 1 then q.active ++ [i] else q.active
    queues := Function.update q.queues i (dwrr_enqueue_class cfg t q i skb) }

/-- Final state of an accepting `dwrr_enqueue`: the packet stored at the tail of
the FIFO of class `i` carries the mark decided by `dwrr_ecn_marking` on the
updated state. -/
def dwrr_enqueue_mark (cfg : dwrr_params) (t : Int) (q : dwrr_sched_data) (i : Fin 8)
    (skb : sk_buff) : dwrr_sched_data :=
  { dwrr_enqueue_accept cfg t q i skb with
    queues := Function.update q.queues i
      { dwrr_enqueue_class cfg t q i skb with
        qdisc := (q.queues i).qdisc ++
          [dwrr_ecn_marking cfg skb (dwrr_enqueue_accept cfg t q i skb)
            (dwrr_enqueue_class cfg t q i skb)] } }

/-- Number of clock readings `dwrr_enqueue` makes before it classifies the packet. -/
def dwrr_enqueue_reads (cfg : dwrr_params) (q : dwrr_sched_data) : Nat :=
  if q.sum_len_bytes = 0 ∧ cfg.dwrr_ecn_scheme = dwrr_mq_ecn ∧ cfg.dwrr_idle_interval_ns > 0 then 1
  else 0

/-- Function `dwrr_enqueue`: return code and new state. -/
def dwrr_enqueue (cfg : dwrr_params) (clk : Nat → Int) (skb : sk_buff) (q : dwrr_sched_data) :
    Int × dwrr_sched_data :=
  let q0 : dwrr_sched_data := { q with round_time := dwrr_idle_ageing cfg clk q }
  let i := dwrr_classify cfg skb
  if dwrr_buffer_overfill cfg (skb_size skb) (q0.queues i) q0 then
    (NET_XMIT_DROP, dwrr_enqueue_drop q0 i 1)
  else
    match bfifo_enqueue dwrr_max_buffer_bytes skb (q0.queues i).qdisc with
    | none => (NET_XMIT_DROP, dwrr_enqueue_drop q0 i 2)
    | some _ => (NET_XMIT_SUCCESS, dwrr_enqueue_mark cfg (clk (dwrr_enqueue_reads cfg q)) q0 i skb)

/-- State set up by `dwrr_init` followed by `dwrr_change` with a rate of `rate` bytes per second. -/
def dwrr_init (clk : Nat → Int) (rate : Nat) : dwrr_sched_data where
  queues := fun i =>
    { qdisc := []
      qdisc_drops := 0
      id := i.val
      deficit := 0
      len_bytes := 0
      start_time := clk (2 + 2 * i.val)
      last_pkt_time := clk (3 + 2 * i.val)
      quantum := 0 }
  rate := precompute_ratedata { rate_bps := (rate % 4294967296) <<< 3, mult := 0, shift := 0 }
  active := []
  tokens := 0
  sum_len_bytes := 0
  time_ns := clk 0
  round_time := 0
  last_idle_time := clk 1
  qlen := 0
  drops := 0
  overlimits := 0
  watchdog := none

end sch_dwrr2

namespace sch_dwrr

/-! ## sch_dwrr: constants of params.h -/

def DWRR_QDISC_MTU_BYTES : Nat := 1538
def DWRR_QDISC_MIN_PKT_BYTES : Nat := 64
def DWRR_QDISC_MAX_BUFFER_BYTES : Nat := 2000000
def DWRR_QDISC_SHARED_BUFFER : Int := 0
def DWRR_QDISC_STATIC_BUFFER : Int := 1
def DWRR_QDISC_DISABLE_ECN : Int := 0
def DWRR_QDISC_QUEUE_ECN : Int := 1
def DWRR_QDISC_PORT_ECN : Int := 2
def DWRR_QDISC_MQ_ECN : Int := 3
def DWRR_QDISC_MAX_ITERATION : Int := 10
def DWRR_QDISC_WRR_OFF : Int := 0
def DWRR_QDISC_WRR_ON : Int := 1
def DWRR_QDISC_DEQUEUE_ECN_OFF : Int := 0
def DWRR_QDISC_DEQUEUE_ECN_ON : Int := 1

/-- The sysctl variables of `params.c` (all of C type `int`). -/
structure dwrr_params where
  DWRR_QDISC_BUFFER_MODE : Int
  DWRR_QDISC_SHARED_BUFFER_BYTES : Int
  DWRR_QDISC_BUCKET_NS : Int
  DWRR_QDISC_PORT_THRESH_BYTES : Int
  DWRR_QDISC_ECN_SCHEME : Int
  DWRR_QDISC_ROUND_ALPHA : Int
  DWRR_QDISC_IDLE_INTERVAL_NS : Int
  DWRR_QDISC_ENABLE_WRR : Int
  DWRR_QDISC_ENABLE_DEQUEUE_ECN : Int
  DWRR_QDISC_QUEUE_THRESH_BYTES : Nat → Int
  DWRR_QDISC_QUEUE_DSCP : Nat → Int
  DWRR_QDISC_QUEUE_QUANTUM : Nat → Int
  DWRR_QDISC_QUEUE_BUFFER_BYTES : Nat → Int

/-- The values the variables have after `dwrr_qdisc_params_init`. -/
def dwrr_qdisc_params_init : dwrr_params where
  DWRR_QDISC_BUFFER_MODE := DWRR_QDISC_SHARED_BUFFER
  DWRR_QDISC_SHARED_BUFFER_BYTES := DWRR_QDISC_MAX_BUFFER_BYTES
  DWRR_QDISC_BUCKET_NS := 20000
  DWRR_QDISC_PORT_THRESH_BYTES := 30000
  DWRR_QDISC_ECN_SCHEME := DWRR_QDISC_QUEUE_ECN
  DWRR_QDISC_ROUND_ALPHA := 750
  DWRR_QDISC_IDLE_INTERVAL_NS := 12000
  DWRR_QDISC_ENABLE_WRR := DWRR_QDISC_WRR_OFF
  DWRR_QDISC_ENABLE_DEQUEUE_ECN := DWRR_QDISC_DEQUEUE_ECN_OFF
  DWRR_QDISC_QUEUE_THRESH_BYTES := fun _ => 30000
  DWRR_QDISC_QUEUE_DSCP := fun i => i
  DWRR_QDISC_QUEUE_QUANTUM := fun _ => DWRR_QDISC_MTU_BYTES
  DWRR_QDISC_QUEUE_BUFFER_BYTES := fun _ => DWRR_QDISC_MAX_BUFFER_BYTES

structure dwrr_rate_cfg where
  rate_bps : Nat
  mult : Nat
  shift : Nat
  deriving DecidableEq, Repr

/-- A class of service queue (`struct dwrr_class`); `qdisc` is the inner byte
FIFO and `qdisc_drops` its drop counter. -/
structure dwrr_class where
  id : Nat
  qdisc : List sk_buff
  qdisc_drops : Nat
  deficitCounter : Nat
  active : Nat
  curr : Nat
  len_bytes : Nat
  start_time_ns : Int
  last_pkt_time_ns : Int
  last_pkt_len_ns : Int
  quantum : Nat
  deriving DecidableEq, Repr

/-- The scheduler (`struct dwrr_sched_data`) with the fields of the enclosing
`struct Qdisc` that the module writes. -/
structure dwrr_sched_data where
  queues : Fin 8 → dwrr_class
  rate : dwrr_rate_cfg
  activeList : List (Fin 8)
  tokens : Int
  sum_len_bytes : Nat
  time_ns : Int
  round_time_ns : Int
  last_idle_time_ns : Int
  qlen : Nat
  drops : Nat
  overlimits : Nat
  watchdog : Option Int

/-- On-wire size of a packet. -/
def skb_size (skb : sk_buff) : Nat :=
  u32_add (max (u32_add skb.len 4) DWRR_QDISC_MIN_PKT_BYTES) 20

def dwrr_qdisc_precompute_ratedata (r : dwrr_rate_cfg) : dwrr_rate_cfg :=
  if r.rate_bps > 0 then
    { r with shift := 15, mult := div64_u64 (8 * 1000000000 * 2 ^ 15) r.rate_bps % 4294967296 }
  else
    { r with shift := 0, mult := 1 }

/-- Length in bytes to time in nanoseconds. -/
def l2t_ns (r : dwrr_rate_cfg) (len_bytes : Nat) : Nat :=
  ((len_bytes * r.mult) % 18446744073709551616) >>> r.shift

/-- Size of `struct iphdr` in bytes. -/
def sizeof_iphdr : Nat := 20

/-- Marking helper `dwrr_qdisc_ecn`: the CE helper is applied only when the IP
header can be made writable and `ip_hdr(skb)` is not null. -/
def dwrr_qdisc_ecn (skb : sk_buff) : sk_buff :=
  if skb_make_writable skb sizeof_iphdr = true ∧ skb.tos.isSome = true then INET_ECN_set_ce skb
  else skb

/-- Linear scan of `dwrr_qdisc_classify`: index of the class a packet goes to. -/
def dwrr_qdisc_classify (cfg : dwrr_params) (skb : sk_buff) : Fin 8 :=
  match skb.tos with
  | none => 0
  | some tos =>
    let dscp : Int := ((tos % 256) >>> 2 : Nat)
    match (List.finRange 8).find? (fun i => decide (dscp = cfg.DWRR_QDISC_QUEUE_DSCP i.val)) with
    | some i => i
    | none => 0

/-- Update of the round time with a new sample (the expression written twice in
`dwrr_qdisc_dequeue`). -/
def round_time_update (cfg : dwrr_params) (round_time_ns sample_ns : Int) : Int :=
  Int.tdiv (s64 (s64 (cfg.DWRR_QDISC_ROUND_ALPHA * round_time_ns) +
    s64 ((1000 - cfg.DWRR_QDISC_ROUND_ALPHA) * sample_ns))) 1000

/-- MQ-ECN threshold as written in the dequeue path (`ecn_thresh_bytes`).  With a
positive round time the division by `rate_bps` traps when `rate_bps` is zero
(`ecn_thresh_traps` says when); the value given here in that case is no result
of the program. -/
def dequeue_ecn_thresh_bytes (cfg : dwrr_params) (q : dwrr_sched_data) (cl : dwrr_class) : Nat :=
  if q.round_time_ns > 0 then
    (min (u64_of_int (Int.tdiv (s64 (cl.quantum * 8000000000)) q.round_time_ns))
        (q.rate.rate_bps % 18446744073709551616)
      * u64_of_int cfg.DWRR_QDISC_PORT_THRESH_BYTES) % 18446744073709551616
      / (q.rate.rate_bps % 18446744073709551616)
  else
    u64_of_int cfg.DWRR_QDISC_PORT_THRESH_BYTES

/-- ECN marking block of `dwrr_qdisc_dequeue`. -/
def dequeue_ecn (cfg : dwrr_params) (skb : sk_buff) (q : dwrr_sched_data) (cl : dwrr_class) :
    sk_buff :=
  if cfg.DWRR_QDISC_ENABLE_DEQUEUE_ECN = DWRR_QDISC_DEQUEUE_ECN_ON then
    if cfg.DWRR_QDISC_ECN_SCHEME = DWRR_QDISC_QUEUE_ECN ∧
        cl.len_bytes > u32_of_int (cfg.DWRR_QDISC_QUEUE_THRESH_BYTES cl.id) then
      dwrr_qdisc_ecn skb
    else if cfg.DWRR_QDISC_ECN_SCHEME = DWRR_QDISC_PORT_ECN ∧
        q.sum_len_bytes > u32_of_int cfg.DWRR_QDISC_PORT_THRESH_BYTES then
      dwrr_qdisc_ecn skb
    else if cfg.DWRR_QDISC_ECN_SCHEME = DWRR_QDISC_MQ_ECN then
      if cl.len_bytes > dequeue_ecn_thresh_bytes cfg q cl then dwrr_qdisc_ecn skb else skb
    else skb
  else skb

/-- MQ-ECN threshold as written in the enqueue path (`ecn_thresh_bytes`).  With a
positive round time the division by `rate_bps` traps when `rate_bps` is zero
(`ecn_thresh_traps` says when); the value given here in that case is no result
of the program. -/
def enqueue_ecn_thresh_bytes (cfg : dwrr_params) (q : dwrr_sched_data) (cl : dwrr_class) : Nat :=
  if q.round_time_ns > 0 then
    (min (u64_of_int (Int.tdiv (s64 (cl.quantum * 8000000000)) q.round_time_ns))
        (q.rate.rate_bps % 18446744073709551616)
      * u64_of_int cfg.DWRR_QDISC_PORT_THRESH_BYTES) % 18446744073709551616
      / (q.rate.rate_bps % 18446744073709551616)
  else
    u64_of_int cfg.DWRR_QDISC_PORT_THRESH_BYTES

/-- ECN marking block of `dwrr_qdisc_enqueue`. -/
def enqueue_ecn (cfg : dwrr_params) (skb : sk_buff) (q : dwrr_sched_data) (cl : dwrr_class) :
    sk_buff :=
  if cfg.DWRR_QDISC_ENABLE_DEQUEUE_ECN = DWRR_QDISC_DEQUEUE_ECN_OFF then
    if cfg.DWRR_QDISC_ECN_SCHEME = DWRR_QDISC_QUEUE_ECN ∧
        cl.len_bytes > u32_of_int (cfg.DWRR_QDISC_QUEUE_THRESH_BYTES cl.id) then
      dwrr_qdisc_ecn skb
    else if cfg.DWRR_QDISC_ECN_SCHEME = DWRR_QDISC_PORT_ECN ∧
        q.sum_len_bytes > u32_of_int cfg.DWRR_QDISC_PORT_THRESH_BYTES then
      dwrr_qdisc_ecn skb
    else if cfg.DWRR_QDISC_ECN_SCHEME = DWRR_QDISC_MQ_ECN then
      if cl.len_bytes > enqueue_ecn_thresh_bytes cfg q cl then dwrr_qdisc_ecn skb else skb
    else skb
  else skb

/-- The ways `dwrr_qdisc_dequeue` returns. -/
inductive deq_exit where
  /-- The active list is empty on entry: `NULL`. -/
  | idle
  /-- Branch `!cl` of the loop: `NULL`. -/
  | no_class
  /-- The inner queue of the head class has no packet to peek: warning, `NULL`. -/
  | no_packet
  /-- Not enough tokens: the watchdog is armed, `NULL`. -/
  | overlimit
  /-- A packet of class `cl` is returned. -/
  | sent (cl : Fin 8) (skb : sk_buff)
  deriving DecidableEq, Repr

/-- The packet returned by `dwrr_qdisc_dequeue`. -/
def deq_exit.skb : deq_exit → Option sk_buff
  | .sent _ skb => some skb
  | _ => none

/-- Outcome of one pass through the body of the `while (1)` loop of
`dwrr_qdisc_dequeue`. -/
inductive iter_result where
  | exit (q : dwrr_sched_data) (r : deq_exit)
  | again (q : dwrr_sched_data) (cl : Fin 8)

/-- Class `i` after the start of a pass of the loop of `dwrr_qdisc_dequeue`: a
class not yet being served gets its quantum added to its deficit counter. -/
def dwrr_qdisc_dequeue_visit_class (q : dwrr_sched_data) (i : Fin 8) : dwrr_class :=
  if (q.queues i).curr = 0 then
    { q.queues i with
      curr := 1
      deficitCounter := u32_add (q.queues i).deficitCounter (q.queues i).quantum }
  else q.queues i

/-- State after the start of a pass of the loop of `dwrr_qdisc_dequeue`. -/
def dwrr_qdisc_dequeue_visit (q : dwrr_sched_data) (i : Fin 8) : dwrr_sched_data :=
  { q with queues := Function.update q.queues i (dwrr_qdisc_dequeue_visit_class q i) }

/-- Tokens available at time `now` (variable `toks` of `dwrr_qdisc_dequeue`). -/
def dwrr_qdisc_toks (cfg : dwrr_params) (now : Int) (q : dwrr_sched_data) : Int :=
  s64 (min (s64 (now - q.time_ns)) cfg.DWRR_QDISC_BUCKET_NS + q.tokens)

/-- State left by the branch of `dwrr_qdisc_dequeue` taken when the tokens do not
suffice for a packet of on-wire length `len` (`q` is the state after the start
of the pass). -/
def dwrr_qdisc_dequeue_throttle (cfg : dwrr_params) (now : Int) (q : dwrr_sched_data)
    (len : Nat) : dwrr_sched_data :=
  { q with
    watchdog := some (s64 (s64 (now + s64 (l2t_ns q.rate len)) - dwrr_qdisc_toks cfg now q))
    overlimits := q.overlimits + 1 }

/-- Class `i` after its head packet `skb` has been taken from its FIFO and its
counters updated (`t` is the reading of the clock stored in `last_pkt_time_ns`). -/
def dwrr_qdisc_dequeue_sent_class (t : Int) (q : dwrr_sched_data) (i : Fin 8) (skb : sk_buff)
    (tl : List sk_buff) : dwrr_class :=
  { q.queues i with
    qdisc := tl
    len_bytes := u32_sub (q.queues i).len_bytes (skb_size skb)
    deficitCounter := u32_sub (q.queues i).deficitCounter (skb_size skb)
    last_pkt_len_ns := s64 (l2t_ns q.rate (skb_size skb))
    last_pkt_time_ns := t }

/-- State of `dwrr_qdisc_dequeue` after the head packet of class `i` has been
taken and the counters updated, at the point where the dequeue ECN marking is done. -/
def dwrr_qdisc_dequeue_sent (t : Int) (q : dwrr_sched_data) (i : Fin 8) (skb : sk_buff)
    (tl : List sk_buff) : dwrr_sched_data :=
  { q with
    queues := Function.update q.queues i (dwrr_qdisc_dequeue_sent_class t q i skb tl)
    sum_len_bytes := u32_sub q.sum_len_bytes (skb_size skb)
    qlen := u32_sub q.qlen 1 }

/-- Class `i` at the end of the releasing branch: when its FIFO is empty it is
marked inactive and not being served, and in WRR mode its deficit counter is
reset. -/
def dwrr_qdisc_dequeue_release_class (cfg : dwrr_params) (t : Int) (q : dwrr_sched_data)
    (i : Fin 8) (skb : sk_buff) (tl : List sk_buff) : dwrr_class :=
  if tl = [] then
    { dwrr_qdisc_dequeue_sent_class t q i skb tl with
      active := 0
      curr := 0
      deficitCounter :=
        if cfg.DWRR_QDISC_ENABLE_WRR = DWRR_QDISC_WRR_ON then 0
        else (dwrr_qdisc_dequeue_sent_class t q i skb tl).deficitCounter }
  else dwrr_qdisc_dequeue_sent_class t q i skb tl

/-- State left by the releasing branch of `dwrr_qdisc_dequeue`; `q` is the state
after the start of the pass, `clk 0` the reading `now`, `clk 1` the one stored
in `last_pkt_time_ns` and `clk 2` the one stored in `last_idle_time_ns`. -/
def dwrr_qdisc_dequeue_release (cfg : dwrr_params) (clk : Nat → Int) (q : dwrr_sched_data)
    (i : Fin 8) (rest : List (Fin 8)) (skb : sk_buff) (tl : List sk_buff) : dwrr_sched_data :=
  { q with
    queues := Function.update q.queues i (dwrr_qdisc_dequeue_release_class cfg (clk 1) q i skb tl)
    sum_len_bytes := u32_sub q.sum_len_bytes (skb_size skb)
    qlen := u32_sub q.qlen 1
    activeList := if tl = [] then rest else i :: rest
    round_time_ns :=
      if tl = [] then
        round_time_update cfg q.round_time_ns
          (max (s64 ((dwrr_qdisc_dequeue_sent_class (clk 1) q i skb tl).last_pkt_time_ns -
              (dwrr_qdisc_dequeue_sent_class (clk 1) q i skb tl).start_time_ns))
            (dwrr_qdisc_dequeue_sent_class (clk 1) q i skb tl).last_pkt_len_ns)
      else q.round_time_ns
    last_idle_time_ns :=
      if tl = [] ∧ u32_sub q.sum_len_bytes (skb_size skb) = 0 then clk 2
      else q.last_idle_time_ns
    time_ns := clk 0
    tokens := min (s64 (dwrr_qdisc_toks cfg (clk 0) q - s64 (l2t_ns q.rate (skb_size skb))))
      cfg.DWRR_QDISC_BUCKET_NS }

/-- Class `i` after the `else` branch of the loop of `dwrr_qdisc_dequeue`: its
head packet does not fit the deficit counter and the class gives up its turn
(`t` is the reading of the clock stored in `start_time_ns`). -/
def dwrr_qdisc_dequeue_yield_class (cfg : dwrr_params) (t : Int) (q : dwrr_sched_data)
    (i : Fin 8) : dwrr_class :=
  { q.queues i with
    curr := 0
    start_time_ns := t
    quantum := u32_of_int (cfg.DWRR_QDISC_QUEUE_QUANTUM (q.queues i).id)
    deficitCounter :=
      if cfg.DWRR_QDISC_ENABLE_WRR = DWRR_QDISC_WRR_ON then 0 else (q.queues i).deficitCounter }

/-- State left by the `else` branch of the loop of `dwrr_qdisc_dequeue` (`q` is
the state after the start of the pass). -/
def dwrr_qdisc_dequeue_yield (cfg : dwrr_params) (t : Int) (q : dwrr_sched_data) (i : Fin 8)
    (rest : List (Fin 8)) : dwrr_sched_data :=
  { q with
    queues := Function.update q.queues i (dwrr_qdisc_dequeue_yield_class cfg t q i)
    round_time_ns := round_time_update cfg q.round_time_ns
      (max (s64 ((q.queues i).last_pkt_time_ns - (q.queues i).start_time_ns))
        (q.queues i).last_pkt_len_ns)
    activeList := rest ++ [i] }

/-- One pass through the body of the loop of `dwrr_qdisc_dequeue`; `clk` gives the
readings of the clock made from this pass on. -/
def dwrr_qdisc_dequeue_iter (cfg : dwrr_params) (clk : Nat → Int) (q : dwrr_sched_data) :
    iter_result :=
  match q.activeList with
  | [] => .exit q .no_class
  | i :: rest =>
    let qv := dwrr_qdisc_dequeue_visit q i
    match (q.queues i).qdisc with
    | [] => .exit qv .no_packet
    | skb :: tl =>
      if skb_size skb ≤ (qv.queues i).deficitCounter then
        if dwrr_qdisc_toks cfg (clk 0) qv > s64 (l2t_ns qv.rate (skb_size skb)) then
          .exit (dwrr_qdisc_dequeue_release cfg clk qv i rest skb tl)
            (.sent i (dequeue_ecn cfg skb (dwrr_qdisc_dequeue_sent (clk 1) qv i skb tl)
              (dwrr_qdisc_dequeue_sent_class (clk 1) qv i skb tl)))
        else
          .exit (dwrr_qdisc_dequeue_throttle cfg (clk 0) qv (skb_size skb)) .overlimit
      else
        .again (dwrr_qdisc_dequeue_yield cfg (clk 0) qv i rest) i

/-- The loop of `dwrr_qdisc_dequeue`, bounded by `fuel` passes (`none`: the bound
was reached).  The third component lists the classes that gave up their turn. -/
def dwrr_qdisc_dequeue_loop (cfg : dwrr_params) :
    Nat → (Nat → Int) → dwrr_sched_data → Option (dwrr_sched_data × deq_exit × List (Fin 8))
  | 0, _, _ => none
  | fuel + 1, clk, q =>
    match dwrr_qdisc_dequeue_iter cfg clk q with
    | .exit q1 r => some (q1, r, [])
    | .again q1 i =>
      match dwrr_qdisc_dequeue_loop cfg fuel (fun n => clk (n + 1)) q1 with
      | some (q2, r, ys) => some (q2, r, i :: ys)
      | none => none

/-- Function `dwrr_qdisc_dequeue`. -/
def dwrr_qdisc_dequeue (fuel : Nat) (cfg : dwrr_params) (clk : Nat → Int) (q : dwrr_sched_data) :
    Option (dwrr_sched_data × deq_exit × List (Fin 8)) :=
  if q.activeList = [] then some (q, .idle, []) else dwrr_qdisc_dequeue_loop cfg fuel clk q

/-- Admission condition written inline in `dwrr_qdisc_enqueue`. -/
def enqueue_overfill (cfg : dwrr_params) (len : Nat) (cl : dwrr_class) (q : dwrr_sched_data) :
    Bool :=
  (cfg.DWRR_QDISC_BUFFER_MODE = DWRR_QDISC_SHARED_BUFFER ∧
      u32_add q.sum_len_bytes len > u32_of_int cfg.DWRR_QDISC_SHARED_BUFFER_BYTES) ∨
    (cfg.DWRR_QDISC_BUFFER_MODE = DWRR_QDISC_STATIC_BUFFER ∧
      u32_add cl.len_bytes len > u32_of_int (cfg.DWRR_QDISC_QUEUE_BUFFER_BYTES cl.id))

/-- Ageing of the round time at the start of `dwrr_qdisc_enqueue`. -/
def dwrr_qdisc_idle_ageing (cfg : dwrr_params) (clk : Nat → Int) (q : dwrr_sched_data) : Int :=
  let interval := s64 (clk 0 - q.last_idle_time_ns)
  if q.sum_len_bytes = 0 ∧ cfg.DWRR_QDISC_ECN_SCHEME = DWRR_QDISC_MQ_ECN then
    if cfg.DWRR_QDISC_IDLE_INTERVAL_NS > 0 then
      let intervalNum := Int.tdiv interval cfg.DWRR_QDISC_IDLE_INTERVAL_NS
      if intervalNum ≤ DWRR_QDISC_MAX_ITERATION then
        Nat.iterate (fun rt => Int.tdiv (s64 (rt * cfg.DWRR_QDISC_ROUND_ALPHA)) 1000)
          intervalNum.toNat q.round_time_ns
      else 0
    else 0
  else q.round_time_ns

/-- State left by the dropping branches of `dwrr_qdisc_enqueue`: the drop
counter of the port goes up by one and the drop counter of the inner queue of
class `i` by `n` (one from `qdisc_qstats_drop(cl->qdisc)`, and one more when the
inner queue itself refused the packet). -/
def dwrr_qdisc_enqueue_drop (q : dwrr_sched_data) (i : Fin 8) (n : Nat) : dwrr_sched_data :=
  { q with
    drops := q.drops + 1
    queues := Function.update q.queues i
      { q.queues i with qdisc_drops := (q.queues i).qdisc_drops + n } }

/-- Class `i` after `dwrr_qdisc_enqueue` has put `skb` into its FIFO and updated
its counters; `t` is the reading of the clock used for `start_time_ns`. -/
def dwrr_qdisc_enqueue_class (cfg : dwrr_params) (t : Int) (q : dwrr_sched_data) (i : Fin 8)
    (skb : sk_buff) : dwrr_class :=
  if (q.queues i).active = 0 then
    { q.queues i with
      qdisc := (q.queues i).qdisc ++ [skb]
      len_bytes := u32_add (q.queues i).len_bytes (skb_size skb)
      deficitCounter := 0
      active := 1
      curr := 0
      start_time_ns := t
      quantum := u32_of_int (cfg.DWRR_QDISC_QUEUE_QUANTUM (q.queues i).id) }
  else
    { q.queues i with
      qdisc := (q.queues i).qdisc ++ [skb]
      len_bytes := u32_add (q.queues i).len_bytes (skb_size skb) }

/-- State of `dwrr_qdisc_enqueue` after the packet has been accepted by the inner
FIFO of class `i` and the counters and the active list have been updated,
before the ECN marking. -/
def dwrr_qdisc_enqueue_accept (cfg : dwrr_params) (t : Int) (q : dwrr_sched_data) (i : Fin 8)
    (skb : sk_buff) : dwrr_sched_data :=
  { q with
    qlen := u32_add q.qlen 1
    sum_len_bytes := u32_add q.sum_len_bytes (skb_size skb)
    activeList := if (q.queues i).active = 0 then q.activeList ++ [i] else q.activeList
    queues := Function.update q.queues i (dwrr_qdisc_enqueue_class cfg t q i skb) }

/-- Final state of an accepting `dwrr_qdisc_enqueue`: the packet stored at the
tail of the FIFO of class `i` carries the mark decided by the enqueue ECN block
on the updated state. -/
def dwrr_qdisc_enqueue_mark (cfg : dwrr_params) (t : Int) (q : dwrr_sched_data) (i : Fin 8)
    (skb : sk_buff) : dwrr_sched_data :=
  { dwrr_qdisc_enqueue_accept cfg t q i skb with
    queues := Function.update q.queues i
      { dwrr_qdisc_enqueue_class cfg t q i skb with
        qdisc := (q.queues i).qdisc ++
          [enqueue_ecn cfg skb (dwrr_qdisc_enqueue_accept cfg t q i skb)
            (dwrr_qdisc_enqueue_class cfg t q i skb)] } }

/-- Function `dwrr_qdisc_enqueue`: return code and new state. -/
def dwrr_qdisc_enqueue (cfg : dwrr_params) (clk : Nat → Int) (skb : sk_buff)
    (q : dwrr_sched_data) : Int × dwrr_sched_data :=
  let q0 : dwrr_sched_data := { q with round_time_ns := dwrr_qdisc_idle_ageing cfg clk q }
  let i := dwrr_qdisc_classify cfg skb
  if enqueue_overfill cfg (skb_size skb) (q0.queues i) q0 then
    (NET_XMIT_DROP, dwrr_qdisc_enqueue_drop q0 i 1)
  else
    match bfifo_enqueue DWRR_QDISC_MAX_BUFFER_BYTES skb (q0.queues i).qdisc with
    | some _ => (NET_XMIT_SUCCESS, dwrr_qdisc_enqueue_mark cfg (clk 1) q0 i skb)
    | none => (NET_XMIT_DROP, dwrr_qdisc_enqueue_drop q0 i 2)

/-- State set up by `dwrr_qdisc_init` followed by `dwrr_qdisc_change` with a rate
of `rate` bytes per second. -/
def dwrr_qdisc_init (clk : Nat → Int) (rate : Nat) : dwrr_sched_data where
  queues := fun i =>
    { id := i.val
      qdisc := []
      qdisc_drops := 0
      deficitCounter := 0
      active := 0
      curr := 0
      len_bytes := 0
      start_time_ns := clk (2 + 2 * i.val)
      last_pkt_time_ns := clk (3 + 2 * i.val)
      last_pkt_len_ns := 0
      quantum := 0 }
  rate := dwrr_qdisc_precompute_ratedata
    { rate_bps := (rate % 4294967296) <<< 3, mult := 0, shift := 0 }
  activeList := []
  tokens := 0
  sum_len_bytes := 0
  time_ns := clk 0
  round_time_ns := 0
  last_idle_time_ns := clk 1
  qlen := 0
  drops := 0
  overlimits := 0
  watchdog := none

end sch_dwrr

/-! ## Reachable states -/

namespace sch_dwrr2

/-- States reachable from the state set up by `dwrr_init` through calls of
`dwrr_enqueue` and completed calls of `dwrr_dequeue`, each made while the sysctl
variables satisfy `P`. -/
inductive Reachable (P : dwrr_params → Prop) : dwrr_sched_data → Prop
  | init (clk : Nat → Int) (rate : Nat) : Reachable P (dwrr_init clk rate)
  | enqueue {q : dwrr_sched_data} (cfg : dwrr_params) (clk : Nat → Int) (skb : sk_buff) :
      P cfg → Reachable P q → Reachable P (dwrr_enqueue cfg clk skb q).2
  | dequeue {q q1 : dwrr_sched_data} {r : deq_exit} {ys : List (Fin 8)} (fuel : Nat)
      (cfg : dwrr_params) (now : Int) :
      P cfg → Reachable P q → dwrr_dequeue fuel cfg now q = some (q1, r, ys) → Reachable P q1

/-- States in which the loop of `dwrr_dequeue` examines the head of the active
list: the state on entry, when the list is not empty, and the state after each
turn given up. -/
inductive Examined (P : dwrr_params → Prop) : dwrr_sched_data → Prop
  | entry {q : dwrr_sched_data} : Reachable P q → q.active ≠ [] → Examined P q
  | again {q q1 : dwrr_sched_data} {i : Fin 8} (cfg : dwrr_params) (now : Int) :
      P cfg → Examined P q → dwrr_dequeue_iter cfg now q = .again q1 i → Examined P q1

end sch_dwrr2

namespace sch_dwrr

/-- States reachable from the state set up by `dwrr_qdisc_init` through calls of
`dwrr_qdisc_enqueue` and completed calls of `dwrr_qdisc_dequeue`, each made while
the sysctl variables satisfy `P`. -/
inductive Reachable (P : dwrr_params → Prop) : dwrr_sched_data → Prop
  | init (clk : Nat → Int) (rate : Nat) : Reachable P (dwrr_qdisc_init clk rate)
  | enqueue {q : dwrr_sched_data} (cfg : dwrr_params) (clk : Nat → Int) (skb : sk_buff) :
      P cfg → Reachable P q → Reachable P (dwrr_qdisc_enqueue cfg clk skb q).2
  | dequeue {q q1 : dwrr_sched_data} {r : deq_exit} {ys : List (Fin 8)} (fuel : Nat)
      (cfg : dwrr_params) (clk : Nat → Int) :
      P cfg → Reachable P q → dwrr_qdisc_dequeue fuel cfg clk q = some (q1, r, ys) →
      Reachable P q1

/-- States in which the loop of `dwrr_qdisc_dequeue` examines the head of the
active list. -/
inductive Examined (P : dwrr_params → Prop) : dwrr_sched_data → Prop
  | entry {q : dwrr_sched_data} : Reachable P q → q.activeList ≠ [] → Examined P q
  | again {q q1 : dwrr_sched_data} {i : Fin 8} (cfg : dwrr_params) (clk : Nat → Int) :
      P cfg → Examined P q → dwrr_qdisc_dequeue_iter cfg clk q = .again q1 i → Examined P q1

end sch_dwrr

/-! ## Statements of the specification used for comparison -/

namespace sch_dwrr2

/-- Admission decision as the specification words it, with the sums and the
comparison taken over the integers: reject when the mode is shared and the port
occupancy plus the length exceeds the shared capacity, or when the mode is static
and the class occupancy plus the length exceeds the reserved bytes of the class. -/
def buffer_overfill_plain (cfg : dwrr_params) (len : Nat) (cl : dwrr_class)
    (q : dwrr_sched_data) : Prop :=
  (cfg.dwrr_buffer_mode = dwrr_shared_buffer ∧
      (q.sum_len_bytes : Int) + len > cfg.dwrr_shared_buffer_bytes) ∨
    (cfg.dwrr_buffer_mode = dwrr_static_buffer ∧
      (cl.len_bytes : Int) + len > cfg.dwrr_queue_buffer_bytes cl.id)

end sch_dwrr2

namespace sch_dwrr

/-- Admission decision as the specification words it, over the integers. -/
def enqueue_overfill_plain (cfg : dwrr_params) (len : Nat) (cl : dwrr_class)
    (q : dwrr_sched_data) : Prop :=
  (cfg.DWRR_QDISC_BUFFER_MODE = DWRR_QDISC_SHARED_BUFFER ∧
      (q.sum_len_bytes : Int) + len > cfg.DWRR_QDISC_SHARED_BUFFER_BYTES) ∨
    (cfg.DWRR_QDISC_BUFFER_MODE = DWRR_QDISC_STATIC_BUFFER ∧
      (cl.len_bytes : Int) + len > cfg.DWRR_QDISC_QUEUE_BUFFER_BYTES cl.id)

end sch_dwrr

/-! ## Scenario: static buffer of 4000 bytes for class 2 -/

/-- Packet of on-wire length 1500 whose DSCP is 2. -/
def pkt_1500 : sk_buff := { len := 1476, tos := some 8, ce := false, writable := true }

namespace sch_dwrr2

/-- Initial parameter values, but static buffer mode with 4000 bytes reserved for class 2. -/
def static_cfg : dwrr_params :=
  { dwrr_params_init with
    dwrr_buffer_mode := dwrr_static_buffer
    dwrr_queue_buffer_bytes := fun i => if i = 2 then 4000 else 2000000 }

/-- One packet enqueued into the initial state (rate 1 Gbit/s). -/
def after_one : Int × dwrr_sched_data :=
  dwrr_enqueue static_cfg (fun _ => 10) pkt_1500 (dwrr_init (fun _ => 0) 125000000)

/-- A second packet enqueued. -/
def after_two : Int × dwrr_sched_data :=
  dwrr_enqueue static_cfg (fun _ => 20) pkt_1500 after_one.2

/-- A third packet offered. -/
def after_three : Int × dwrr_sched_data :=
  dwrr_enqueue static_cfg (fun _ => 30) pkt_1500 after_two.2

end sch_dwrr2

namespace sch_dwrr

/-- Initial parameter values, but static buffer mode with 4000 bytes reserved for class 2. -/
def static_cfg : dwrr_params :=
  { dwrr_qdisc_params_init with
    DWRR_QDISC_BUFFER_MODE := DWRR_QDISC_STATIC_BUFFER
    DWRR_QDISC_QUEUE_BUFFER_BYTES := fun i => if i = 2 then 4000 else 2000000 }

/-- One packet enqueued into the initial state (rate 1 Gbit/s). -/
def after_one : Int × dwrr_sched_data :=
  dwrr_qdisc_enqueue static_cfg (fun _ => 10) pkt_1500 (dwrr_qdisc_init (fun _ => 0) 125000000)

/-- A second packet enqueued. -/
def after_two : Int × dwrr_sched_data :=
  dwrr_qdisc_enqueue static_cfg (fun _ => 20) pkt_1500 after_one.2

/-- A third packet offered. -/
def after_three : Int × dwrr_sched_data :=
  dwrr_qdisc_enqueue static_cfg (fun _ => 30) pkt_1500 after_two.2

end sch_dwrr

/-! ## Invariants -/

namespace sch_dwrr2

/-- Conservation of bytes: the port counter is the sum of the class counters in
32-bit arithmetic. -/
def conserved (q : dwrr_sched_data) : Prop :=
  q.sum_len_bytes = (∑ i, (q.queues i).len_bytes) % 4294967296

/-- The active list holds each class at most once, and exactly the classes whose
FIFO is not empty. -/
def active_ok (q : dwrr_sched_data) : Prop :=
  q.active.Nodup ∧ ∀ i, i ∈ q.active ↔ (q.queues i).qdisc ≠ []

/-- The rate is one set up by the initialisation and the tokens do not exceed
the bucket depth for a bucket of `b` bytes. -/
def tokens_ok (b : Int) (q : dwrr_sched_data) : Prop :=
  (∃ rate, q.rate =
    precompute_ratedata { rate_bps := (rate % 4294967296) <<< 3, mult := 0, shift := 0 }) ∧
  q.tokens ≤ (l2t_ns q.rate (u32_of_int b) : Int)

end sch_dwrr2

namespace sch_dwrr

/-- Conservation of bytes: the port counter is the sum of the class counters in
32-bit arithmetic. -/
def conserved (q : dwrr_sched_data) : Prop :=
  q.sum_len_bytes = (∑ i, (q.queues i).len_bytes) % 4294967296

/-- The active list holds each class at most once; the classes in it have the
flag `active` set and a FIFO that is not empty, the other classes have the flag
clear and an empty FIFO. -/
def active_ok (q : dwrr_sched_data) : Prop :=
  q.activeList.Nodup ∧
  ∀ i, (i ∈ q.activeList → (q.queues i).active = 1 ∧ (q.queues i).qdisc ≠ []) ∧
    (i ∉ q.activeList → (q.queues i).active = 0 ∧ (q.queues i).qdisc = [])

end sch_dwrr

namespace sch_dwrr2

/-- Scenario: a dequeue at time 100000 after the three enqueues. -/
def after_dequeue : dwrr_sched_data × deq_exit × List (Fin 8) :=
  (dwrr_dequeue 1 static_cfg 100000 after_three.2).getD (after_three.2, .idle, [])

end sch_dwrr2

namespace sch_dwrr

/-- Scenario: a dequeue at time 100000 after the three enqueues. -/
def after_dequeue : dwrr_sched_data × deq_exit × List (Fin 8) :=
  (dwrr_qdisc_dequeue 1 static_cfg (fun _ => 100000) after_three.2).getD
    (after_three.2, .idle, [])

end sch_dwrr

/-! ## Token starvation -/

namespace sch_dwrr2

/-- The packet `dwrr_dequeue` looks at first: the head packet of the class at the
head of the active list. -/
def dwrr_head_packet (q : dwrr_sched_data) : Option sk_buff :=
  match q.active with
  | [] => none
  | i :: _ => (q.queues i).qdisc.head?

/-- The tokens available at time `now` do not suffice for the packet at the head
of the class at the head of the active list. -/
def tokens_short (cfg : dwrr_params) (now : Int) (q : dwrr_sched_data) : Prop :=
  ∃ skb, dwrr_head_packet q = some skb ∧ tbf_schedule cfg (skb_size skb) q now < 0

/-- State `q1` has the FIFO contents, byte counters, tokens and time check-point of `q`. -/
def untouched (q q1 : dwrr_sched_data) : Prop :=
  (∀ i, (q1.queues i).qdisc = (q.queues i).qdisc ∧
    (q1.queues i).len_bytes = (q.queues i).len_bytes) ∧
  q1.sum_len_bytes = q.sum_len_bytes ∧ q1.tokens = q.tokens ∧ q1.time_ns = q.time_ns

/-- Scenario: a dequeue at time 100 after the three enqueues, too early for the
tokens of a 1500-byte packet. -/
def after_starved : dwrr_sched_data × deq_exit × List (Fin 8) :=
  (dwrr_dequeue 1 static_cfg 100 after_three.2).getD (after_three.2, .idle, [])

end sch_dwrr2

namespace sch_dwrr

/-- The packet `dwrr_qdisc_dequeue` looks at first: the head packet of the class
at the head of the active list. -/
def dwrr_qdisc_head_packet (q : dwrr_sched_data) : Option sk_buff :=
  match q.activeList with
  | [] => none
  | i :: _ => (q.queues i).qdisc.head?

/-- The tokens available at time `now` do not suffice for the packet at the head
of the class at the head of the active list (the release needs `toks > pkt_ns`). -/
def tokens_short (cfg : dwrr_params) (now : Int) (q : dwrr_sched_data) : Prop :=
  ∃ skb, dwrr_qdisc_head_packet q = some skb ∧
    ¬ dwrr_qdisc_toks cfg now q > s64 (l2t_ns q.rate (skb_size skb))

/-- State `q1` has the FIFO contents, byte counters, tokens and time check-point of `q`. -/
def untouched (q q1 : dwrr_sched_data) : Prop :=
  (∀ i, (q1.queues i).qdisc = (q.queues i).qdisc ∧
    (q1.queues i).len_bytes = (q.queues i).len_bytes) ∧
  q1.sum_len_bytes = q.sum_len_bytes ∧ q1.tokens = q.tokens ∧ q1.time_ns = q.time_ns

/-- Scenario: a dequeue at time 100 after the three enqueues, too early for the
tokens of a 1500-byte packet. -/
def after_starved : dwrr_sched_data × deq_exit × List (Fin 8) :=
  (dwrr_qdisc_dequeue 1 static_cfg (fun _ => 100) after_three.2).getD
    (after_three.2, .idle, [])

end sch_dwrr

/-! ## Dynamic ECN threshold -/

/-- Dynamic threshold as the specification gives it, over the integers, with
divisions rounded down: `K * min(8*10^9*Q / T, R) / R` when `T > 0`, else `K`. -/
def mq_ecn_thresh_spec (T Q R K : Int) : Int :=
  if T > 0 then K * min (8000000000 * Q / T) R / R else K

/-- The same formula with the factor `2^33` that `dwrr_mq_ecn_marking` of sch_dwrr2
uses in place of `8*10^9`. -/
def mq_ecn_thresh_shift (T Q R K : Int) : Int :=
  if T > 0 then K * min (8589934592 * Q / T) R / R else K

namespace sch_dwrr

/-- Parameter values after initialisation, but MQ-ECN with port threshold `K`. -/
def mq_cfg (K : Int) : dwrr_params :=
  { dwrr_qdisc_params_init with
    DWRR_QDISC_ECN_SCHEME := DWRR_QDISC_MQ_ECN
    DWRR_QDISC_PORT_THRESH_BYTES := K }

/-- Initial state for a rate of `rate` bytes per second, with round time `T`. -/
def mq_state (rate : Nat) (T : Int) : dwrr_sched_data :=
  { dwrr_qdisc_init (fun _ => 0) rate with round_time_ns := T }

/-- Class 0 with quantum `Q` and `len` bytes queued. -/
def mq_class (Q len : Nat) : dwrr_class :=
  { (dwrr_qdisc_init (fun _ => 0) 0).queues 0 with quantum := Q, len_bytes := len }

/-- Packet of on-wire length 1500 whose head cannot be made writable. -/
def pkt_read_only : sk_buff := { len := 1476, tos := some 8, ce := false, writable := false }

end sch_dwrr

namespace sch_dwrr2

/-- Parameter values after initialisation, but MQ-ECN with port threshold `K`. -/
def mq_cfg (K : Int) : dwrr_params :=
  { dwrr_params_init with dwrr_ecn_scheme := dwrr_mq_ecn, dwrr_port_thresh_bytes := K }

/-- Initial state for a rate of `rate` bytes per second, with round time `T`. -/
def mq_state (rate : Nat) (T : Int) : dwrr_sched_data :=
  { dwrr_init (fun _ => 0) rate with round_time := T }

/-- Class 0 with quantum `Q` and `len` bytes queued. -/
def mq_class (Q len : Nat) : dwrr_class :=
  { (dwrr_init (fun _ => 0) 0).queues 0 with quantum := Q, len_bytes := len }

end sch_dwrr2

/-! ## Executions seen pass by pass, and the bytes a class sends -/

namespace sch_dwrr2

/-- Input of one step of an execution seen at the level of the passes of the
dequeue loop: a call of `dwrr_enqueue`, or one pass of the loop of `dwrr_dequeue`. -/
inductive step_input where
  | enqueue (cfg : dwrr_params) (clk : Nat → Int) (skb : sk_buff)
  | pass (cfg : dwrr_params) (now : Int)

/-- Values of the sysctl variables during a step. -/
def step_input.cfg : step_input → dwrr_params
  | .enqueue cfg _ _ => cfg
  | .pass cfg _ => cfg

/-- State after one step. -/
def step (q : dwrr_sched_data) : step_input → dwrr_sched_data
  | .enqueue cfg clk skb => (dwrr_enqueue cfg clk skb q).2
  | .pass cfg now =>
    match dwrr_dequeue_iter cfg now q with
    | .exit q1 _ => q1
    | .again q1 _ => q1

/-- On-wire bytes class `i` sends in one step. -/
def step_bytes (i : Fin 8) (q : dwrr_sched_data) : step_input → Nat
  | .enqueue _ _ _ => 0
  | .pass cfg now =>
    match dwrr_dequeue_iter cfg now q with
    | .exit _ (.sent j skb) => if j = i then skb_size skb else 0
    | _ => 0

/-- Number of times (0 or 1) class `i` gives up its turn in one step. -/
def step_yields (i : Fin 8) (q : dwrr_sched_data) : step_input → Nat
  | .enqueue _ _ _ => 0
  | .pass cfg now =>
    match dwrr_dequeue_iter cfg now q with
    | .again _ j => if j = i then 1 else 0
    | _ => 0

/-- On-wire bytes of class `i` in the result of a dequeue call. -/
def sent_bytes (i : Fin 8) : deq_exit → Nat
  | .sent j skb => if j = i then skb_size skb else 0
  | _ => 0

/-- State after a sequence of steps. -/
def run : List step_input → dwrr_sched_data → dwrr_sched_data
  | [], q => q
  | op :: ops, q => run ops (step q op)

/-- On-wire bytes class `i` sends during a sequence of steps. -/
def run_bytes (i : Fin 8) : List step_input → dwrr_sched_data → Nat
  | [], _ => 0
  | op :: ops, q => step_bytes i q op + run_bytes i ops (step q op)

/-- Number of times class `i` gives up its turn during a sequence of steps. -/
def run_yields (i : Fin 8) : List step_input → dwrr_sched_data → Nat
  | [], _ => 0
  | op :: ops, q => step_yields i q op + run_yields i ops (step q op)

/-- Class `i` has a packet queued before and after every step of the sequence:
it stays in the rotation throughout. -/
def stays (i : Fin 8) : List step_input → dwrr_sched_data → Prop
  | [], q => (q.queues i).qdisc ≠ []
  | op :: ops, q => (q.queues i).qdisc ≠ [] ∧ stays i ops (step q op)

/-- The next pass of the dequeue loop makes class `i` give up its turn. -/
def gives_up (q : dwrr_sched_data) (i : Fin 8) : Prop :=
  ∃ cfg now q1, dwrr_dequeue_iter cfg now q = .again q1 i

/-- Every class carries its index as identifier and every queued packet is one
the inner byte FIFO can have accepted. -/
def well_formed (q : dwrr_sched_data) : Prop :=
  ∀ j, (q.queues j).id = j.val ∧ ∀ p ∈ (q.queues j).qdisc, p.len ≤ dwrr_max_buffer_bytes

end sch_dwrr2

namespace sch_dwrr

/-- Input of one step of an execution seen at the level of the passes of the
dequeue loop: a call of `dwrr_qdisc_enqueue`, or one pass of the loop of
`dwrr_qdisc_dequeue`. -/
inductive step_input where
  | enqueue (cfg : dwrr_params) (clk : Nat → Int) (skb : sk_buff)
  | pass (cfg : dwrr_params) (clk : Nat → Int)

/-- Values of the sysctl variables during a step. -/
def step_input.cfg : step_input → dwrr_params
  | .enqueue cfg _ _ => cfg
  | .pass cfg _ => cfg

/-- State after one step. -/
def step (q : dwrr_sched_data) : step_input → dwrr_sched_data
  | .enqueue cfg clk skb => (dwrr_qdisc_enqueue cfg clk skb q).2
  | .pass cfg clk =>
    match dwrr_qdisc_dequeue_iter cfg clk q with
    | .exit q1 _ => q1
    | .again q1 _ => q1

/-- On-wire bytes class `i` sends in one step. -/
def step_bytes (i : Fin 8) (q : dwrr_sched_data) : step_input → Nat
  | .enqueue _ _ _ => 0
  | .pass cfg clk =>
    match dwrr_qdisc_dequeue_iter cfg clk q with
    | .exit _ (.sent j skb) => if j = i then skb_size skb else 0
    | _ => 0

/-- Number of times (0 or 1) class `i` gives up its turn in one step. -/
def step_yields (i : Fin 8) (q : dwrr_sched_data) : step_input → Nat
  | .enqueue _ _ _ => 0
  | .pass cfg clk =>
    match dwrr_qdisc_dequeue_iter cfg clk q with
    | .again _ j => if j = i then 1 else 0
    | _ => 0

/-- On-wire bytes of class `i` in the result of a dequeue call. -/
def sent_bytes (i : Fin 8) : deq_exit → Nat
  | .sent j skb => if j = i then skb_size skb else 0
  | _ => 0

/-- State after a sequence of steps. -/
def run : List step_input → dwrr_sched_data → dwrr_sched_data
  | [], q => q
  | op :: ops, q => run ops (step q op)

/-- On-wire bytes class `i` sends during a sequence of steps. -/
def run_bytes (i : Fin 8) : List step_input → dwrr_sched_data → Nat
  | [], _ => 0
  | op :: ops, q => step_bytes i q op + run_bytes i ops (step q op)

/-- Number of times class `i` gives up its turn during a sequence of steps. -/
def run_yields (i : Fin 8) : List step_input → dwrr_sched_data → Nat
  | [], _ => 0
  | op :: ops, q => step_yields i q op + run_yields i ops (step q op)

/-- Class `i` has its flag `active` set before and after every step of the
sequence: it stays in the rotation throughout. -/
def stays (i : Fin 8) : List step_input → dwrr_sched_data → Prop
  | [], q => (q.queues i).active = 1
  | op :: ops, q => (q.queues i).active = 1 ∧ stays i ops (step q op)

/-- The next pass of the dequeue loop makes class `i` give up its turn. -/
def gives_up (q : dwrr_sched_data) (i : Fin 8) : Prop :=
  ∃ cfg clk q1, dwrr_qdisc_dequeue_iter cfg clk q = .again q1 i

/-- Deficit of a class as the dequeue loop will see it at its next visit: the
deficit counter, plus the quantum when the class is not being served yet. -/
def deficit_at_visit (cl : dwrr_class) : Nat :=
  cl.deficitCounter + (if cl.curr = 0 then cl.quantum else 0)

/-- Every class carries its index as identifier and every queued packet is one
the inner byte FIFO can have accepted. -/
def well_formed (q : dwrr_sched_data) : Prop :=
  ∀ j, (q.queues j).id = j.val ∧ ∀ p ∈ (q.queues j).qdisc, p.len ≤ DWRR_QDISC_MAX_BUFFER_BYTES

end sch_dwrr

/-! ## Classes continuously in the rotation -/

/-- Value 1 when class `i` stands before class `j` in the list `l`, else 0. -/
def ahead (i j : Fin 8) (l : List (Fin 8)) : Int :=
  if l.indexOf i < l.indexOf j then 1 else 0

namespace sch_dwrr2

/-- A window of steps in DRR mode throughout which every class of `S` has a
packet queued, class `j` of `S` having the quantum `Qf j` in every step; the
window starts in a state with a right active list where the deficit of class
`j` is below `Qf j` plus the largest on-wire length. -/
def continuously_active (S : Finset (Fin 8)) (Qf : Fin 8 → Nat) (ops : List step_input)
    (q : dwrr_sched_data) : Prop :=
  well_formed q ∧ active_ok q ∧
  (∀ j ∈ S, Qf j + 2000024 ≤ 4294967296 ∧ (q.queues j).deficit < Qf j + 2000024 ∧
    stays j ops q) ∧
  ∀ op ∈ ops, op.cfg.dwrr_enable_wrr ≠ dwrr_enable ∧
    ∀ j ∈ S, u32_of_int (op.cfg.dwrr_queue_quantum j.val) = Qf j

end sch_dwrr2

namespace sch_dwrr

/-- A window of steps in DRR mode throughout which every class of `S` has its
flag `active` set, class `j` of `S` having the quantum `Qf j` in every step and
in its field `quantum`; the window starts in a state with a right active list
where the deficit class `j` will be seen with is below `Qf j` plus the largest
on-wire length. -/
def continuously_active (S : Finset (Fin 8)) (Qf : Fin 8 → Nat) (ops : List step_input)
    (q : dwrr_sched_data) : Prop :=
  well_formed q ∧ active_ok q ∧
  (∀ j ∈ S, Qf j + 2000024 ≤ 4294967296 ∧ (q.queues j).quantum = Qf j ∧
    deficit_at_visit (q.queues j) < Qf j + 2000024 ∧ stays j ops q) ∧
  ∀ op ∈ ops, op.cfg.DWRR_QDISC_ENABLE_WRR ≠ DWRR_QDISC_WRR_ON ∧
    ∀ j ∈ S, u32_of_int (op.cfg.DWRR_QDISC_QUEUE_QUANTUM j.val) = Qf j

end sch_dwrr

/-! ## Scenario: two classes sharing the port -/

/-- Packet of on-wire length 1538 whose DSCP is `d`. -/
def fair_pkt (d : Nat) : sk_buff :=
  { len := 1514, tos := some (4 * d), ce := false, writable := true }

namespace sch_dwrr2

/-- Three packets for class 2 and three for class 1 are enqueued with the
initial parameter values (rate 1 Gbit/s), and one pass of the dequeue loop
releases the first packet of class 2. -/
def fair_setup : List step_input :=
  [.enqueue dwrr_params_init (fun _ => 10) (fair_pkt 2),
   .enqueue dwrr_params_init (fun _ => 20) (fair_pkt 2),
   .enqueue dwrr_params_init (fun _ => 30) (fair_pkt 2),
   .enqueue dwrr_params_init (fun _ => 40) (fair_pkt 1),
   .enqueue dwrr_params_init (fun _ => 50) (fair_pkt 1),
   .enqueue dwrr_params_init (fun _ => 60) (fair_pkt 1),
   .pass dwrr_params_init 100000]

/-- State in which class 2 is about to give up its turn. -/
def fair_start : dwrr_sched_data := run fair_setup (dwrr_init (fun _ => 0) 125000000)

/-- Four passes: class 2 gives up its turn, class 1 sends a packet and gives up
its turn, class 2 sends a packet. -/
def fair_ops : List step_input :=
  [.pass dwrr_params_init 200000, .pass dwrr_params_init 200000,
   .pass dwrr_params_init 300000, .pass dwrr_params_init 300000]

end sch_dwrr2

namespace sch_dwrr

/-- Three packets for class 2 and three for class 1 are enqueued with the
initial parameter values (rate 1 Gbit/s), and one pass of the dequeue loop
releases the first packet of class 2. -/
def fair_setup : List step_input :=
  [.enqueue dwrr_qdisc_params_init (fun _ => 10) (fair_pkt 2),
   .enqueue dwrr_qdisc_params_init (fun _ => 20) (fair_pkt 2),
   .enqueue dwrr_qdisc_params_init (fun _ => 30) (fair_pkt 2),
   .enqueue dwrr_qdisc_params_init (fun _ => 40) (fair_pkt 1),
   .enqueue dwrr_qdisc_params_init (fun _ => 50) (fair_pkt 1),
   .enqueue dwrr_qdisc_params_init (fun _ => 60) (fair_pkt 1),
   .pass dwrr_qdisc_params_init (fun _ => 100000)]

/-- State in which class 2 is about to give up its turn. -/
def fair_start : dwrr_sched_data := run fair_setup (dwrr_qdisc_init (fun _ => 0) 125000000)

/-- Four passes: class 2 gives up its turn, class 1 sends a packet and gives up
its turn, class 2 sends a packet. -/
def fair_ops : List step_input :=
  [.pass dwrr_qdisc_params_init (fun _ => 200000), .pass dwrr_qdisc_params_init (fun _ => 200000),
   .pass dwrr_qdisc_params_init (fun _ => 300000), .pass dwrr_qdisc_params_init (fun _ => 300000)]

end sch_dwrr

/-! ## Scenario: dequeue marking enabled, threshold of 1000 bytes per queue -/

namespace sch_dwrr2

/-- Initial parameter values, but dequeue ECN marking enabled and a marking
threshold of 1000 bytes for every queue. -/
def mark_cfg : dwrr_params :=
  { dwrr_params_init with
    dwrr_enable_dequeue_ecn := dwrr_enable
    dwrr_queue_thresh_bytes := fun _ => 1000 }

/-- Two packets of class 2 enqueued into the initial state (rate 1 Gbit/s). -/
def mark_two : dwrr_sched_data :=
  (dwrr_enqueue mark_cfg (fun _ => 20) pkt_1500
    (dwrr_enqueue mark_cfg (fun _ => 10) pkt_1500 (dwrr_init (fun _ => 0) 125000000)).2).2

end sch_dwrr2

namespace sch_dwrr

/-- Initial parameter values, but dequeue ECN marking enabled and a marking
threshold of 1000 bytes for every queue. -/
def mark_cfg : dwrr_params :=
  { dwrr_qdisc_params_init with
    DWRR_QDISC_ENABLE_DEQUEUE_ECN := DWRR_QDISC_DEQUEUE_ECN_ON
    DWRR_QDISC_QUEUE_THRESH_BYTES := fun _ => 1000 }

/-- Two packets of class 2 enqueued into the initial state (rate 1 Gbit/s). -/
def mark_two : dwrr_sched_data :=
  (dwrr_qdisc_enqueue mark_cfg (fun _ => 20) pkt_1500
    (dwrr_qdisc_enqueue mark_cfg (fun _ => 10) pkt_1500
      (dwrr_qdisc_init (fun _ => 0) 125000000)).2).2

end sch_dwrr

/-! ## Scenario: one packet waiting for tokens -/

namespace sch_dwrr2

/-- One packet of 1500 bytes on the wire enqueued into the initial state, with
the initial parameter values (rate 1 Gbit/s: the packet costs 12000 ns). -/
def gate_state : dwrr_sched_data :=
  (dwrr_enqueue dwrr_params_init (fun _ => 0) pkt_1500 (dwrr_init (fun _ => 0) 125000000)).2

end sch_dwrr2

namespace sch_dwrr

/-- One packet of 1500 bytes on the wire enqueued into the initial state, with
the initial parameter values (rate 1 Gbit/s: the packet costs 12000 ns). -/
def gate_state : dwrr_sched_data :=
  (dwrr_qdisc_enqueue dwrr_qdisc_params_init (fun _ => 0) pkt_1500
    (dwrr_qdisc_init (fun _ => 0) 125000000)).2

end sch_dwrr

/-! ## Scenario: a short packet sent right after a long one -/

/-- Packet of on-wire length 84 whose DSCP is 2. -/
def pkt_84 : sk_buff := { len := 60, tos := some 8, ce := false, writable := true }

namespace sch_dwrr2

/-- A packet of 1500 bytes and a packet of 84 bytes of class 2 enqueued at times
10 and 20 into the initial state (rate 1 Gbit/s), initial parameter values. -/
def drain_start : dwrr_sched_data :=
  (dwrr_enqueue dwrr_params_init (fun _ => 20) pkt_84
    (dwrr_enqueue dwrr_params_init (fun _ => 10) pkt_1500
      (dwrr_init (fun _ => 0) 125000000)).2).2

/-- The dequeue at time 100000, which sends the long packet. -/
def drain_first : dwrr_sched_data × deq_exit × List (Fin 8) :=
  (dwrr_dequeue 1 dwrr_params_init 100000 drain_start).getD (drain_start, .idle, [])

/-- The dequeue at time 100001: class 2 gives up its turn once, then the short
packet is sent and the FIFO of class 2 is empty. -/
def drain_second : dwrr_sched_data × deq_exit × List (Fin 8) :=
  (dwrr_dequeue 2 dwrr_params_init 100001 drain_first.1).getD (drain_first.1, .idle, [])

end sch_dwrr2

/-! ## Scenario: packets longer than the quantum -/

/-- Packet of on-wire length 3024 whose DSCP is 2. -/
def pkt_3000 : sk_buff := { len := 3000, tos := some 8, ce := false, writable := true }

/-- Packet of on-wire length 5024 whose DSCP is 2. -/
def pkt_5000 : sk_buff := { len := 5000, tos := some 8, ce := false, writable := true }

namespace sch_dwrr2

/-- Initial parameter values, but WRR enabled. -/
def wrr_cfg : dwrr_params := { dwrr_params_init with dwrr_enable_wrr := dwrr_enable }

/-- One packet of 3024 bytes on the wire enqueued in WRR mode into the initial state. -/
def wrr_state : dwrr_sched_data :=
  (dwrr_enqueue wrr_cfg (fun _ => 0) pkt_3000 (dwrr_init (fun _ => 0) 125000000)).2

/-- One packet of 5024 bytes on the wire enqueued in DRR mode into the initial state. -/
def long_state : dwrr_sched_data :=
  (dwrr_enqueue dwrr_params_init (fun _ => 0) pkt_5000 (dwrr_init (fun _ => 0) 125000000)).2

end sch_dwrr2

/-! ## Ranges of the token bucket -/

namespace sch_dwrr2

/-- The rate is one set up by the initialisation and the tokens are not negative
and below 2^49 ns. -/
def tokens_range (q : dwrr_sched_data) : Prop :=
  (∃ rate, q.rate =
    precompute_ratedata { rate_bps := (rate % 4294967296) <<< 3, mult := 0, shift := 0 }) ∧
  0 ≤ q.tokens ∧ q.tokens < 562949953421312

/-- Tokens available at time `now`, as `tbf_schedule` computes them without
wrap-around: `min(now - time_ns, bucket_ns) + tokens`. -/
def tbf_toks (cfg : dwrr_params) (q : dwrr_sched_data) (now : Int) : Int :=
  min (now - q.time_ns) (l2t_ns q.rate (u32_of_int cfg.dwrr_bucket_bytes)) + q.tokens

end sch_dwrr2

namespace sch_dwrr2

end sch_dwrr2

/-! ## Exact byte counters -/

namespace sch_dwrr2

/-- The byte counters are exact: every queued packet has a length of at least
one byte, every FIFO is within its byte limit, the counter of each class is the
sum of the on-wire lengths of its packets and the port counter is the sum of the
class counters, without reduction modulo 2^32. -/
def counters_exact (q : dwrr_sched_data) : Prop :=
  (∀ i, (∀ p ∈ (q.queues i).qdisc, 1 ≤ p.len) ∧
    bfifo_backlog (q.queues i).qdisc ≤ dwrr_max_buffer_bytes ∧
    (q.queues i).len_bytes = ((q.queues i).qdisc.map skb_size).sum) ∧
  q.sum_len_bytes = ∑ i, (q.queues i).len_bytes

/-- A step that does not enqueue a packet of length zero. -/
def step_input.nonempty : step_input → Prop
  | .enqueue _ _ skb => 1 ≤ skb.len
  | .pass _ _ => True

end sch_dwrr2

namespace sch_dwrr2

/-- Every deficit counter holds a 32-bit value (`u32 deficit`). -/
def deficit_u32 (q : dwrr_sched_data) : Prop :=
  ∀ j, (q.queues j).deficit < 4294967296

end sch_dwrr2

namespace sch_dwrr2

/-- Scenario: a dequeue at time 100000 in the state with one packet waiting, when
the tokens suffice. -/
def gate_sent : dwrr_sched_data × deq_exit × List (Fin 8) :=
  (dwrr_dequeue 1 dwrr_params_init 100000 gate_state).getD (gate_state, .idle, [])

end sch_dwrr2

/-! ## Runs that differ in the ECN settings only -/

namespace sch_dwrr2

/-- Two packets that differ at most in the CE mark. -/
def ce_equiv (a b : sk_buff) : Prop := a.len = b.len ∧ a.tos = b.tos ∧ a.writable = b.writable

/-- Two settings of the sysctl variables that differ at most in the ECN settings:
ECN scheme, port and per-queue thresholds, dequeue-marking flag, round alpha and
idle interval. -/
structure ecn_only (a b : dwrr_params) : Prop where
  buffer_mode : a.dwrr_buffer_mode = b.dwrr_buffer_mode
  shared_buffer_bytes : a.dwrr_shared_buffer_bytes = b.dwrr_shared_buffer_bytes
  bucket_bytes : a.dwrr_bucket_bytes = b.dwrr_bucket_bytes
  enable_wrr : a.dwrr_enable_wrr = b.dwrr_enable_wrr
  queue_dscp : a.dwrr_queue_dscp = b.dwrr_queue_dscp
  queue_quantum : a.dwrr_queue_quantum = b.dwrr_queue_quantum
  queue_buffer_bytes : a.dwrr_queue_buffer_bytes = b.dwrr_queue_buffer_bytes

/-- Two classes equal in every field but `start_time`, with FIFOs that hold the
same packets up to the CE mark. -/
structure class_equiv (a b : dwrr_class) : Prop where
  qdisc : List.Forall₂ ce_equiv a.qdisc b.qdisc
  qdisc_drops : a.qdisc_drops = b.qdisc_drops
  id : a.id = b.id
  deficit : a.deficit = b.deficit
  len_bytes : a.len_bytes = b.len_bytes
  last_pkt_time : a.last_pkt_time = b.last_pkt_time
  quantum : a.quantum = b.quantum

/-- Two scheduler states equal in every field but `round_time`, the `start_time`
of the classes and the CE marks of the queued packets. -/
structure sched_equiv (a b : dwrr_sched_data) : Prop where
  queues : ∀ i, class_equiv (a.queues i) (b.queues i)
  rate : a.rate = b.rate
  active : a.active = b.active
  tokens : a.tokens = b.tokens
  sum_len_bytes : a.sum_len_bytes = b.sum_len_bytes
  time_ns : a.time_ns = b.time_ns
  last_idle_time : a.last_idle_time = b.last_idle_time
  qlen : a.qlen = b.qlen
  drops : a.drops = b.drops
  overlimits : a.overlimits = b.overlimits
  watchdog : a.watchdog = b.watchdog

/-- Two states whose classes carry the same `start_time`. -/
def start_equiv (a b : dwrr_sched_data) : Prop :=
  ∀ i, (a.queues i).start_time = (b.queues i).start_time

/-- Two results of `dwrr_dequeue` that are the same up to the CE mark of the
packet returned. -/
def exit_equiv : deq_exit → deq_exit → Prop
  | .idle, .idle => True
  | .no_class, .no_class => True
  | .no_packet, .no_packet => True
  | .overlimit, .overlimit => True
  | .sent i p, .sent j r => i = j ∧ ce_equiv p r
  | _, _ => False

/-- A call made to the qdisc: `dwrr_enqueue` of a packet with the readings of the
clock the call gets, or `dwrr_dequeue` with the reading of the clock it gets and
a bound on the passes of its loop. -/
inductive call where
  | enqueue (clk : Nat → Int) (skb : sk_buff)
  | dequeue (fuel : Nat) (now : Int)

/-- What a call returns: the return code of `dwrr_enqueue`, or the result of
`dwrr_dequeue` with the classes that gave up their turn. -/
inductive call_result where
  | code (ret : Int)
  | deq (r : deq_exit) (ys : List (Fin 8))

/-- One call made while the sysctl variables are `cfg` (`none`: the loop of
`dwrr_dequeue` reached the bound). -/
def exec_call (cfg : dwrr_params) (q : dwrr_sched_data) :
    call → Option (dwrr_sched_data × call_result)
  | .enqueue clk skb =>
    some ((dwrr_enqueue cfg clk skb q).2, .code (dwrr_enqueue cfg clk skb q).1)
  | .dequeue fuel now =>
    match dwrr_dequeue fuel cfg now q with
    | some (q1, r, ys) => some (q1, .deq r ys)
    | none => none

/-- A sequence of calls, each made with its own values of the sysctl variables:
the final state and the list of results. -/
def exec_calls : List (dwrr_params × call) → dwrr_sched_data →
    Option (dwrr_sched_data × List call_result)
  | [], q => some (q, [])
  | (cfg, c) :: cs, q =>
    match exec_call cfg q c with
    | none => none
    | some (q1, r) =>
      match exec_calls cs q1 with
      | none => none
      | some (q2, rs) => some (q2, r :: rs)

/-- Two results of calls that are the same up to the CE mark of a packet returned. -/
def result_equiv : call_result → call_result → Prop
  | .code a, .code b => a = b
  | .deq r ys, .deq s zs => exit_equiv r s ∧ ys = zs
  | _, _ => False

/-- No packet waiting in the queues carries the CE mark. -/
def unmarked (q : dwrr_sched_data) : Prop :=
  ∀ i, ∀ p ∈ (q.queues i).qdisc, p.ce = false

end sch_dwrr2

namespace sch_dwrr2

/-- Initial parameter values, but the ECN scheme disabled. -/
def plain_cfg : dwrr_params :=
  { dwrr_params_init with dwrr_ecn_scheme := dwrr_disable_ecn }

/-- Scenario: two packets of class 2 are enqueued and one is dequeued at time
100000. -/
def two_in_one_out (cfg : dwrr_params) : List (dwrr_params × call) :=
  [(cfg, .enqueue (fun _ => 10) pkt_1500), (cfg, .enqueue (fun _ => 20) pkt_1500),
    (cfg, .dequeue 1 100000)]

end sch_dwrr2

/-! ## The two variants side by side -/

/-- Values of the sysctl variables of sch_dwrr and of sch_dwrr2 that agree on the
scheduling settings: quanta, WRR flag, buffer mode and capacities, DSCP table. -/
structure same_config (a : sch_dwrr.dwrr_params) (b : sch_dwrr2.dwrr_params) : Prop where
  buffer_mode : a.DWRR_QDISC_BUFFER_MODE = b.dwrr_buffer_mode
  shared_buffer_bytes : a.DWRR_QDISC_SHARED_BUFFER_BYTES = b.dwrr_shared_buffer_bytes
  enable_wrr : a.DWRR_QDISC_ENABLE_WRR = b.dwrr_enable_wrr
  queue_dscp : a.DWRR_QDISC_QUEUE_DSCP = b.dwrr_queue_dscp
  queue_quantum : a.DWRR_QDISC_QUEUE_QUANTUM = b.dwrr_queue_quantum
  queue_buffer_bytes : a.DWRR_QDISC_QUEUE_BUFFER_BYTES = b.dwrr_queue_buffer_bytes

/-- The quanta of the eight classes lie in the range the sysctl table accepts
(`dwrr_quantum_min` to `dwrr_quantum_max`). -/
def quanta_permitted (b : sch_dwrr2.dwrr_params) : Prop :=
  ∀ n, n < 8 → 1538 ≤ b.dwrr_queue_quantum n ∧ b.dwrr_queue_quantum n ≤ 204800

/-- Class `j` of sch_dwrr and class `j` of sch_dwrr2 in step: same identifier,
same packets up to the CE mark, same byte and drop counters, same quantum. -/
structure class_sim (j : Fin 8) (a : sch_dwrr.dwrr_class) (b : sch_dwrr2.dwrr_class) : Prop where
  id_left : a.id = j.val
  id_right : b.id = j.val
  qdisc : List.Forall₂ sch_dwrr2.ce_equiv a.qdisc b.qdisc
  bounded : ∀ p ∈ a.qdisc, p.len ≤ 2000000
  qdisc_drops : a.qdisc_drops = b.qdisc_drops
  len_bytes : a.len_bytes = b.len_bytes
  quantum : a.quantum = b.quantum

/-- The simulation relation between a state of sch_dwrr and a state of
sch_dwrr2: equal rotation order and byte counters, classes in step, and for each
class in the rotation the deficit of sch_dwrr2 is the deficit counter of sch_dwrr
plus the quantum when the class is not being served yet (`curr == 0`). -/
structure sim (a : sch_dwrr.dwrr_sched_data) (b : sch_dwrr2.dwrr_sched_data) : Prop where
  active_ok : sch_dwrr.active_ok a
  active : a.activeList = b.active
  sum_len_bytes : a.sum_len_bytes = b.sum_len_bytes
  qlen : a.qlen = b.qlen
  drops : a.drops = b.drops
  queues : ∀ j, class_sim j (a.queues j) (b.queues j)
  deficit : ∀ j, j ∈ a.activeList →
    (b.queues j).deficit = sch_dwrr.deficit_at_visit (a.queues j) ∧
      (b.queues j).deficit < 4294967296

/-- A result of `dwrr_qdisc_dequeue` and a result of `dwrr_dequeue` that are the
same up to the CE mark of the packet returned. -/
def exit_sim : sch_dwrr.deq_exit → sch_dwrr2.deq_exit → Prop
  | .idle, .idle => True
  | .no_class, .no_class => True
  | .no_packet, .no_packet => True
  | .overlimit, .overlimit => True
  | .sent i p, .sent j r => i = j ∧ sch_dwrr2.ce_equiv p r
  | _, _ => False

namespace sch_dwrr

/-- A call made to the qdisc: `dwrr_qdisc_enqueue` of a packet, or
`dwrr_qdisc_dequeue` with a bound on the passes of its loop, each with the
readings of the clock the call gets. -/
inductive call where
  | enqueue (clk : Nat → Int) (skb : sk_buff)
  | dequeue (fuel : Nat) (clk : Nat → Int)

/-- What a call returns: the return code of `dwrr_qdisc_enqueue`, or the result
of `dwrr_qdisc_dequeue` with the classes that gave up their turn. -/
inductive call_result where
  | code (ret : Int)
  | deq (r : deq_exit) (ys : List (Fin 8))

/-- One call made while the sysctl variables are `cfg` (`none`: the loop of
`dwrr_qdisc_dequeue` reached the bound). -/
def exec_call (cfg : dwrr_params) (q : dwrr_sched_data) :
    call → Option (dwrr_sched_data × call_result)
  | .enqueue clk skb =>
    some ((dwrr_qdisc_enqueue cfg clk skb q).2, .code (dwrr_qdisc_enqueue cfg clk skb q).1)
  | .dequeue fuel clk =>
    match dwrr_qdisc_dequeue fuel cfg clk q with
    | some (q1, r, ys) => some (q1, .deq r ys)
    | none => none

/-- A sequence of calls, each made with its own values of the sysctl variables:
the final state and the list of results. -/
def exec_calls : List (dwrr_params × call) → dwrr_sched_data →
    Option (dwrr_sched_data × List call_result)
  | [], q => some (q, [])
  | (cfg, c) :: cs, q =>
    match exec_call cfg q c with
    | none => none
    | some (q1, r) =>
      match exec_calls cs q1 with
      | none => none
      | some (q2, rs) => some (q2, r :: rs)

/-- The same call made to sch_dwrr2, which reads the clock once on entry of
`dwrr_dequeue`. -/
def call.refactored : call → sch_dwrr2.call
  | .enqueue clk skb => .enqueue clk skb
  | .dequeue fuel clk => .dequeue fuel (clk 0)

end sch_dwrr

/-- A result of a call of sch_dwrr and a result of a call of sch_dwrr2 that are
the same up to the CE mark of a packet returned. -/
def result_sim : sch_dwrr.call_result → sch_dwrr2.call_result → Prop
  | .code a, .code b => a = b
  | .deq r ys, .deq s zs => exit_sim r s ∧ ys = zs
  | _, _ => False

/-- The token gate defers in no call of the run. -/
def sch_dwrr.never_defers (rs : List sch_dwrr.call_result) : Prop :=
  ∀ ys, sch_dwrr.call_result.deq .overlimit ys ∉ rs

/-- The token gate defers in no call of the run. -/
def sch_dwrr2.never_defers (rs : List sch_dwrr2.call_result) : Prop :=
  ∀ ys, sch_dwrr2.call_result.deq .overlimit ys ∉ rs

/-- Scenario for sch_dwrr: two packets of class 2 are enqueued and both are
dequeued, at times 100000 and 200000. -/
def sch_dwrr.two_in_two_out : List (sch_dwrr.dwrr_params × sch_dwrr.call) :=
  [(sch_dwrr.dwrr_qdisc_params_init, .enqueue (fun _ => 10) pkt_1500),
    (sch_dwrr.dwrr_qdisc_params_init, .enqueue (fun _ => 20) pkt_1500),
    (sch_dwrr.dwrr_qdisc_params_init, .dequeue 2 (fun _ => 100000)),
    (sch_dwrr.dwrr_qdisc_params_init, .dequeue 2 (fun _ => 200000))]

/-- The same scenario for sch_dwrr2. -/
def sch_dwrr2.two_in_two_out : List (sch_dwrr2.dwrr_params × sch_dwrr2.call) :=
  [(sch_dwrr2.dwrr_params_init, .enqueue (fun _ => 10) pkt_1500),
    (sch_dwrr2.dwrr_params_init, .enqueue (fun _ => 20) pkt_1500),
    (sch_dwrr2.dwrr_params_init, .dequeue 2 100000),
    (sch_dwrr2.dwrr_params_init, .dequeue 2 200000)]

namespace sch_dwrr

/-- Scenario: a dequeue at time 100000 in the state with one packet waiting, when
the tokens suffice. -/
def gate_sent : dwrr_sched_data × deq_exit × List (Fin 8) :=
  (dwrr_qdisc_dequeue 1 dwrr_qdisc_params_init (fun _ => 100000) gate_state).getD
    (gate_state, .idle, [])

end sch_dwrr

/-! ## Occupancy and capacity -/

namespace sch_dwrr2

/-- The buffer settings are fixed: mode `m`, shared capacity `S` and per-class
capacities `B`. -/
def buffer_config (m S : Int) (B : Nat → Int) (cfg : dwrr_params) : Prop :=
  cfg.dwrr_buffer_mode = m ∧ cfg.dwrr_shared_buffer_bytes = S ∧
    ∀ n, n < 8 → cfg.dwrr_queue_buffer_bytes n = B n

/-- Occupancy within capacity: every class carries its index and counts exactly
the on-wire bytes of its FIFO; in shared mode the port counter is the exact sum
of the class counters and at most `S`; in static mode every class counter is at
most the capacity of its class. -/
def within_capacity (m S : Int) (B : Nat → Int) (q : dwrr_sched_data) : Prop :=
  (∀ i, (q.queues i).id = i.val ∧
    (q.queues i).len_bytes = ((q.queues i).qdisc.map skb_size).sum) ∧
  (m = dwrr_shared_buffer →
    q.sum_len_bytes = ∑ i, (q.queues i).len_bytes ∧ (q.sum_len_bytes : Int) ≤ S) ∧
  (m = dwrr_static_buffer → ∀ i, ((q.queues i).len_bytes : Int) ≤ B i.val)

end sch_dwrr2

namespace sch_dwrr

/-- The buffer settings are fixed: mode `m`, shared capacity `S` and per-class
capacities `B`. -/
def buffer_config (m S : Int) (B : Nat → Int) (cfg : dwrr_params) : Prop :=
  cfg.DWRR_QDISC_BUFFER_MODE = m ∧ cfg.DWRR_QDISC_SHARED_BUFFER_BYTES = S ∧
    ∀ n, n < 8 → cfg.DWRR_QDISC_QUEUE_BUFFER_BYTES n = B n

/-- Occupancy within capacity: every class carries its index and counts exactly
the on-wire bytes of its FIFO; in shared mode the port counter is the exact sum
of the class counters and at most `S`; in static mode every class counter is at
most the capacity of its class. -/
def within_capacity (m S : Int) (B : Nat → Int) (q : dwrr_sched_data) : Prop :=
  (∀ i, (q.queues i).id = i.val ∧
    (q.queues i).len_bytes = ((q.queues i).qdisc.map skb_size).sum) ∧
  (m = DWRR_QDISC_SHARED_BUFFER →
    q.sum_len_bytes = ∑ i, (q.queues i).len_bytes ∧ (q.sum_len_bytes : Int) ≤ S) ∧
  (m = DWRR_QDISC_STATIC_BUFFER → ∀ i, ((q.queues i).len_bytes : Int) ≤ B i.val)

end sch_dwrr

/-! ## Deficit credit of the classes waiting in the rotation -/

namespace sch_dwrr2

/-- The quanta are fixed: class `n` has the quantum `Q n`. -/
def quanta_config (Q : Nat → Int) (cfg : dwrr_params) : Prop :=
  ∀ n, n < 8 → cfg.dwrr_queue_quantum n = Q n

/-- Every class of the rotation other than the head holds a deficit of at least
its quantum. -/
def tail_credit (Q : Nat → Int) (q : dwrr_sched_data) : Prop :=
  ∀ j ∈ q.active.tail, Q j.val ≤ ((q.queues j).deficit : Int)

end sch_dwrr2

namespace sch_dwrr

/-- The quanta are fixed: class `n` has the quantum `Q n`. -/
def quanta_config (Q : Nat → Int) (cfg : dwrr_params) : Prop :=
  ∀ n, n < 8 → cfg.DWRR_QDISC_QUEUE_QUANTUM n = Q n

/-- Every class of the rotation other than the head is not being served yet
(`curr == 0`), so that its next visit adds its quantum, stores its configured
quantum, and has a deficit counter far from the 32-bit limit. -/
def tail_credit (Q : Nat → Int) (q : dwrr_sched_data) : Prop :=
  ∀ j ∈ q.activeList.tail, (q.queues j).curr = 0 ∧ ((q.queues j).quantum : Int) = Q j.val ∧
    (q.queues j).deficitCounter ≤ 2000024

end sch_dwrr

namespace sch_dwrr2

/-- Scenario: two packets of 1500 bytes of class 2 enqueued into the initial
state with the initial parameter values. -/
def two_queued : dwrr_sched_data :=
  (dwrr_enqueue dwrr_params_init (fun _ => 20) pkt_1500 gate_state).2

/-- Scenario: the first of the two packets has been dequeued at time 100000; the
class is left with a deficit of 38 bytes and a packet of 1500 bytes. -/
def one_left : dwrr_sched_data × deq_exit × List (Fin 8) :=
  (dwrr_dequeue 1 dwrr_params_init 100000 two_queued).getD (two_queued, .idle, [])

end sch_dwrr2

/-! ## Rate conformance -/

namespace sch_dwrr2

/-- Transmit cost of the packet a call returned, 0 when it returned none. -/
def sent_cost (rate : dwrr_rate_cfg) : call_result → Nat
  | .deq (.sent _ p) _ => l2t_ns rate (skb_size p)
  | _ => 0

/-- Sum of the transmit costs of the packets returned by the calls of a run. -/
def total_cost (rate : dwrr_rate_cfg) (rs : List call_result) : Nat :=
  (rs.map (sent_cost rate)).sum

/-- The clock does not run backwards: the dequeue calls of the list read times
not before `lo`, in non-decreasing order. -/
def clock_ordered : Int → List (dwrr_params × call) → Prop
  | _, [] => True
  | lo, (_, .enqueue _ _) :: cs => clock_ordered lo cs
  | lo, (_, .dequeue _ now) :: cs => lo ≤ now ∧ clock_ordered now cs

/-- No dequeue call of the list reads a time after `t1`. -/
def clock_before (t1 : Int) (l : List (dwrr_params × call)) : Prop :=
  ∀ x ∈ l, ∀ fuel now, x.2 = .dequeue fuel now → now ≤ t1

end sch_dwrr2

namespace sch_dwrr

/-- Transmit cost of the packet a call returned, 0 when it returned none. -/
def sent_cost (rate : dwrr_rate_cfg) : call_result → Nat
  | .deq (.sent _ p) _ => l2t_ns rate (skb_size p)
  | _ => 0

/-- Sum of the transmit costs of the packets returned by the calls of a run. -/
def total_cost (rate : dwrr_rate_cfg) (rs : List call_result) : Nat :=
  (rs.map (sent_cost rate)).sum

/-- The clock does not run backwards: every reading made by a dequeue call of the
list is not before `lo` and not after any reading of a later dequeue call. -/
def clock_ordered : Int → List (dwrr_params × call) → Prop
  | _, [] => True
  | lo, (_, .enqueue _ _) :: cs => clock_ordered lo cs
  | lo, (_, .dequeue _ clk) :: cs => (∀ k, lo ≤ clk k) ∧ ∀ k, clock_ordered (clk k) cs

/-- No dequeue call of the list reads a time after `t1`. -/
def clock_before (t1 : Int) (l : List (dwrr_params × call)) : Prop :=
  ∀ x ∈ l, ∀ fuel clk, x.2 = .dequeue fuel clk → ∀ k, clk k ≤ t1

end sch_dwrr

/-! ## Divisions by zero in the ECN marking

The kernel takes a divide error when a divisor is zero; the arithmetic
definitions above give the quotient 0 in that case.  The definitions of this
section say when a call meets such a division, and what a call comes to in the
kernel: it returns, or it traps. -/

/-- Whether `div_u64(dividend, divisor)` traps: the divisor, converted to `u32`,
is zero. -/
def div_u64_traps (divisor : Nat) : Bool := decide (divisor % 4294967296 = 0)

namespace sch_dwrr2

/-- Whether `dwrr_mq_ecn_marking` traps: in the division by the round time, made
when the round time is positive, or in the division by the rate. -/
def dwrr_mq_ecn_marking_traps (q : dwrr_sched_data) : Bool :=
  (decide (q.round_time > 0) && div_u64_traps (u32_of_int q.round_time)) ||
    div_u64_traps q.rate.rate_bps

/-- Whether `dwrr_ecn_marking` traps: only the MQ-ECN case divides. -/
def dwrr_ecn_marking_traps (cfg : dwrr_params) (q : dwrr_sched_data) : Bool :=
  decide (cfg.dwrr_ecn_scheme = dwrr_mq_ecn) && dwrr_mq_ecn_marking_traps q

/-- Whether a pass of the loop of `dwrr_dequeue` traps: the pass takes the
releasing branch, dequeue marking is enabled, and `dwrr_ecn_marking`, called on
the state the release leaves, traps. -/
def dwrr_dequeue_iter_traps (cfg : dwrr_params) (now : Int) (q : dwrr_sched_data) : Bool :=
  match q.active with
  | [] => false
  | i :: rest =>
    match (q.queues i).qdisc with
    | [] => false
    | skb :: tl =>
      decide (skb_size skb ≤ (q.queues i).deficit) &&
        (!decide (tbf_schedule cfg (skb_size skb) q now < 0) &&
          (decide (cfg.dwrr_enable_dequeue_ecn = dwrr_enable) &&
            dwrr_ecn_marking_traps cfg (dwrr_dequeue_release cfg now q i rest skb tl)))

/-- Whether the loop of `dwrr_dequeue` traps within `fuel` passes. -/
def dwrr_dequeue_loop_traps (cfg : dwrr_params) (now : Int) : Nat → dwrr_sched_data → Bool
  | 0, _ => false
  | fuel + 1, q =>
    match dwrr_dequeue_iter cfg now q with
    | .exit _ _ => dwrr_dequeue_iter_traps cfg now q
    | .again q1 _ => dwrr_dequeue_loop_traps cfg now fuel q1

/-- Whether a call of `dwrr_dequeue` traps. -/
def dwrr_dequeue_traps (fuel : Nat) (cfg : dwrr_params) (now : Int) (q : dwrr_sched_data) :
    Bool :=
  if q.active = [] then false else dwrr_dequeue_loop_traps cfg now fuel q

/-- What a call of `dwrr_dequeue` comes to in the kernel. -/
inductive deq_run where
  /-- The call returns: the state it leaves, the way it returns and the classes
  that gave up their turn. -/
  | returned (q : dwrr_sched_data) (r : deq_exit) (ys : List (Fin 8))
  /-- After the classes of `ys` have given up their turn the call takes the
  releasing branch and traps in the ECN marking. -/
  | trapped (ys : List (Fin 8))
  /-- The loop has not left within the bound on its passes. -/
  | unfinished

/-- A call of `dwrr_dequeue` as the kernel runs it. -/
def dwrr_dequeue_run (fuel : Nat) (cfg : dwrr_params) (now : Int) (q : dwrr_sched_data) :
    deq_run :=
  match dwrr_dequeue fuel cfg now q with
  | none => .unfinished
  | some (q1, r, ys) =>
    if dwrr_dequeue_traps fuel cfg now q = true then .trapped ys else .returned q1 r ys

/-- Whether a call of `dwrr_enqueue` traps: the packet is accepted and
`dwrr_ecn_marking`, called on the updated state, traps. -/
def dwrr_enqueue_traps (cfg : dwrr_params) (clk : Nat → Int) (skb : sk_buff)
    (q : dwrr_sched_data) : Bool :=
  let q0 : dwrr_sched_data := { q with round_time := dwrr_idle_ageing cfg clk q }
  let i := dwrr_classify cfg skb
  if dwrr_buffer_overfill cfg (skb_size skb) (q0.queues i) q0 then false
  else
    match bfifo_enqueue dwrr_max_buffer_bytes skb (q0.queues i).qdisc with
    | none => false
    | some _ =>
      dwrr_ecn_marking_traps cfg
        (dwrr_enqueue_accept cfg (clk (dwrr_enqueue_reads cfg q)) q0 i skb)

/-- A call of `dwrr_enqueue` as the kernel runs it: `none` when it traps. -/
def dwrr_enqueue_run (cfg : dwrr_params) (clk : Nat → Int) (skb : sk_buff)
    (q : dwrr_sched_data) : Option (Int × dwrr_sched_data) :=
  if dwrr_enqueue_traps cfg clk skb q = true then none else some (dwrr_enqueue cfg clk skb q)

/-- Whether a call traps. -/
def call_traps (cfg : dwrr_params) (q : dwrr_sched_data) : call → Bool
  | .enqueue clk skb => dwrr_enqueue_traps cfg clk skb q
  | .dequeue fuel now => dwrr_dequeue_traps fuel cfg now q

/-- Whether a call of the run traps, the calls before it having returned. -/
def exec_calls_trap : List (dwrr_params × call) → dwrr_sched_data → Bool
  | [], _ => false
  | (cfg, c) :: cs, q =>
    call_traps cfg q c ||
      match exec_call cfg q c with
      | none => false
      | some (q1, _) => exec_calls_trap cs q1

/-- State in which the loop of `dwrr_dequeue` makes its next pass after the
classes of `ys` have given up their turn one after the other, each at the head of
the rotation. -/
def dwrr_dequeue_yields (cfg : dwrr_params) : List (Fin 8) → dwrr_sched_data → dwrr_sched_data
  | [], q => q
  | i :: ys, q => dwrr_dequeue_yields cfg ys (dwrr_dequeue_yield cfg q i q.active.tail)

/-- Turns a class needs at most to cover a head packet with quanta of at least
1538 bytes: the on-wire length divided by 1538, rounded up. -/
def turns_needed (cl : dwrr_class) : Nat :=
  match cl.qdisc with
  | [] => 0
  | skb :: _ => (skb_size skb + 1537) / 1538

/-- Sum of `turns_needed` over the classes of the rotation. -/
def yield_bound (q : dwrr_sched_data) : Nat :=
  (q.active.map (fun i => turns_needed (q.queues i))).sum

end sch_dwrr2

namespace sch_dwrr

/-- Whether the MQ-ECN branch of a marking block traps: with a positive round
time the threshold is divided by `rate_bps`. -/
def ecn_thresh_traps (q : dwrr_sched_data) : Bool :=
  decide (q.round_time_ns > 0) && decide (q.rate.rate_bps % 18446744073709551616 = 0)

/-- Whether the ECN marking block of `dwrr_qdisc_enqueue` traps. -/
def enqueue_ecn_traps (cfg : dwrr_params) (q : dwrr_sched_data) (cl : dwrr_class) : Bool :=
  if cfg.DWRR_QDISC_ENABLE_DEQUEUE_ECN = DWRR_QDISC_DEQUEUE_ECN_OFF then
    if cfg.DWRR_QDISC_ECN_SCHEME = DWRR_QDISC_QUEUE_ECN ∧
        cl.len_bytes > u32_of_int (cfg.DWRR_QDISC_QUEUE_THRESH_BYTES cl.id) then
      false
    else if cfg.DWRR_QDISC_ECN_SCHEME = DWRR_QDISC_PORT_ECN ∧
        q.sum_len_bytes > u32_of_int cfg.DWRR_QDISC_PORT_THRESH_BYTES then
      false
    else if cfg.DWRR_QDISC_ECN_SCHEME = DWRR_QDISC_MQ_ECN then ecn_thresh_traps q
    else false
  else false

/-- Whether the ECN marking block of `dwrr_qdisc_dequeue` traps. -/
def dequeue_ecn_traps (cfg : dwrr_params) (q : dwrr_sched_data) (cl : dwrr_class) : Bool :=
  if cfg.DWRR_QDISC_ENABLE_DEQUEUE_ECN = DWRR_QDISC_DEQUEUE_ECN_ON then
    if cfg.DWRR_QDISC_ECN_SCHEME = DWRR_QDISC_QUEUE_ECN ∧
        cl.len_bytes > u32_of_int (cfg.DWRR_QDISC_QUEUE_THRESH_BYTES cl.id) then
      false
    else if cfg.DWRR_QDISC_ECN_SCHEME = DWRR_QDISC_PORT_ECN ∧
        q.sum_len_bytes > u32_of_int cfg.DWRR_QDISC_PORT_THRESH_BYTES then
      false
    else if cfg.DWRR_QDISC_ECN_SCHEME = DWRR_QDISC_MQ_ECN then ecn_thresh_traps q
    else false
  else false

/-- Whether a pass of the loop of `dwrr_qdisc_dequeue` traps: the pass takes the
releasing branch and its ECN marking block traps. -/
def dwrr_qdisc_dequeue_iter_traps (cfg : dwrr_params) (clk : Nat → Int) (q : dwrr_sched_data) :
    Bool :=
  match q.activeList with
  | [] => false
  | i :: _ =>
    let qv := dwrr_qdisc_dequeue_visit q i
    match (q.queues i).qdisc with
    | [] => false
    | skb :: tl =>
      decide (skb_size skb ≤ (qv.queues i).deficitCounter) &&
        (decide (dwrr_qdisc_toks cfg (clk 0) qv > s64 (l2t_ns qv.rate (skb_size skb))) &&
          dequeue_ecn_traps cfg (dwrr_qdisc_dequeue_sent (clk 1) qv i skb tl)
            (dwrr_qdisc_dequeue_sent_class (clk 1) qv i skb tl))

/-- Whether the loop of `dwrr_qdisc_dequeue` traps within `fuel` passes. -/
def dwrr_qdisc_dequeue_loop_traps (cfg : dwrr_params) :
    Nat → (Nat → Int) → dwrr_sched_data → Bool
  | 0, _, _ => false
  | fuel + 1, clk, q =>
    match dwrr_qdisc_dequeue_iter cfg clk q with
    | .exit _ _ => dwrr_qdisc_dequeue_iter_traps cfg clk q
    | .again q1 _ => dwrr_qdisc_dequeue_loop_traps cfg fuel (fun n => clk (n + 1)) q1

/-- Whether a call of `dwrr_qdisc_dequeue` traps. -/
def dwrr_qdisc_dequeue_traps (fuel : Nat) (cfg : dwrr_params) (clk : Nat → Int)
    (q : dwrr_sched_data) : Bool :=
  if q.activeList = [] then false else dwrr_qdisc_dequeue_loop_traps cfg fuel clk q

/-- What a call of `dwrr_qdisc_dequeue` comes to in the kernel. -/
inductive deq_run where
  /-- The call returns: the state it leaves, the way it returns and the classes
  that gave up their turn. -/
  | returned (q : dwrr_sched_data) (r : deq_exit) (ys : List (Fin 8))
  /-- After the classes of `ys` have given up their turn the call takes the
  releasing branch and traps in the ECN marking. -/
  | trapped (ys : List (Fin 8))
  /-- The loop has not left within the bound on its passes. -/
  | unfinished

/-- A call of `dwrr_qdisc_dequeue` as the kernel runs it. -/
def dwrr_qdisc_dequeue_run (fuel : Nat) (cfg : dwrr_params) (clk : Nat → Int)
    (q : dwrr_sched_data) : deq_run :=
  match dwrr_qdisc_dequeue fuel cfg clk q with
  | none => .unfinished
  | some (q1, r, ys) =>
    if dwrr_qdisc_dequeue_traps fuel cfg clk q = true then .trapped ys else .returned q1 r ys

/-- Whether a call of `dwrr_qdisc_enqueue` traps: the packet is accepted and the
ECN marking block, run on the updated state, traps. -/
def dwrr_qdisc_enqueue_traps (cfg : dwrr_params) (clk : Nat → Int) (skb : sk_buff)
    (q : dwrr_sched_data) : Bool :=
  let q0 : dwrr_sched_data := { q with round_time_ns := dwrr_qdisc_idle_ageing cfg clk q }
  let i := dwrr_qdisc_classify cfg skb
  if enqueue_overfill cfg (skb_size skb) (q0.queues i) q0 then false
  else
    match bfifo_enqueue DWRR_QDISC_MAX_BUFFER_BYTES skb (q0.queues i).qdisc with
    | some _ =>
      enqueue_ecn_traps cfg (dwrr_qdisc_enqueue_accept cfg (clk 1) q0 i skb)
        (dwrr_qdisc_enqueue_class cfg (clk 1) q0 i skb)
    | none => false

/-- A call of `dwrr_qdisc_enqueue` as the kernel runs it: `none` when it traps. -/
def dwrr_qdisc_enqueue_run (cfg : dwrr_params) (clk : Nat → Int) (skb : sk_buff)
    (q : dwrr_sched_data) : Option (Int × dwrr_sched_data) :=
  if dwrr_qdisc_enqueue_traps cfg clk skb q = true then none
  else some (dwrr_qdisc_enqueue cfg clk skb q)

/-- Whether a call traps. -/
def call_traps (cfg : dwrr_params) (q : dwrr_sched_data) : call → Bool
  | .enqueue clk skb => dwrr_qdisc_enqueue_traps cfg clk skb q
  | .dequeue fuel clk => dwrr_qdisc_dequeue_traps fuel cfg clk q

/-- Whether a call of the run traps, the calls before it having returned. -/
def exec_calls_trap : List (dwrr_params × call) → dwrr_sched_data → Bool
  | [], _ => false
  | (cfg, c) :: cs, q =>
    call_traps cfg q c ||
      match exec_call cfg q c with
      | none => false
      | some (q1, _) => exec_calls_trap cs q1

/-- Turns a class needs at most to cover a head packet with quanta of at least
1538 bytes: the on-wire length divided by 1538, rounded up. -/
def turns_needed (cl : dwrr_class) : Nat :=
  match cl.qdisc with
  | [] => 0
  | skb :: _ => (skb_size skb + 1537) / 1538

/-- Sum of `turns_needed` over the classes of the rotation. -/
def yield_bound (q : dwrr_sched_data) : Nat :=
  (q.activeList.map (fun i => turns_needed (q.queues i))).sum

end sch_dwrr

/-! ## Scenario: a dequeue that returns a packet after one turn given up -/

namespace sch_dwrr2

/-- Scenario: the second of the two packets is dequeued at time 200000, after
class 2 has given up its turn once. -/
def one_yield_sent : dwrr_sched_data × deq_exit × List (Fin 8) :=
  (dwrr_dequeue 2 dwrr_params_init 200000 one_left.1).getD (one_left.1, .idle, [])

end sch_dwrr2

/-! ## Turns a class still has to give up in DRR mode -/

namespace sch_dwrr2

/-- Turns class `cl` still has to give up before its deficit covers its head
packet, each turn adding at least 1538 bytes: the bytes missing divided by 1538,
rounded up. -/
def turns_short (cl : dwrr_class) : Nat :=
  match cl.qdisc with
  | [] => 0
  | skb :: _ => (skb_size skb - cl.deficit + 1537) / 1538

/-- Sum of `turns_short` over the classes of the rotation. -/
def yields_left (q : dwrr_sched_data) : Nat :=
  (q.active.map (fun i => turns_short (q.queues i))).sum

end sch_dwrr2

namespace sch_dwrr

/-- Turns class `i` still has to give up before the deficit counter it is seen
with at a visit covers its head packet, each turn adding at least 1538 bytes. -/
def turns_short (q : dwrr_sched_data) (i : Fin 8) : Nat :=
  match (q.queues i).qdisc with
  | [] => 0
  | skb :: _ =>
    (skb_size skb - ((dwrr_qdisc_dequeue_visit q i).queues i).deficitCounter + 1537) / 1538

/-- Sum of `turns_short` over the classes of the rotation. -/
def yields_left (q : dwrr_sched_data) : Nat := (q.activeList.map (turns_short q)).sum

end sch_dwrr


namespace sch_dwrr

/-- One packet of 5024 bytes on the wire enqueued in DRR mode into the initial state. -/
def long_state : dwrr_sched_data :=
  (dwrr_qdisc_enqueue dwrr_qdisc_params_init (fun _ => 0) pkt_5000
    (dwrr_qdisc_init (fun _ => 0) 125000000)).2

end sch_dwrr

/-! ## Theorems -/

/-! ### Classifier -/

theorem finRange_eight : List.finRange 8 = [0, 1, 2, 3, 4, 5, 6, 7] := by decide

theorem find_first_match (p : Fin 8 → Bool) (i : Fin 8) (hi : p i = true)
    (hlt : ∀ j, j < i → p j = false) : (List.finRange 8).find? p = some i := by
  rw [finRange_eight]
  have h0 := hlt 0
  have h1 := hlt 1
  have h2 := hlt 2
  have h3 := hlt 3
  have h4 := hlt 4
  have h5 := hlt 5
  have h6 := hlt 6
  fin_cases i <;> simp_all [List.find?]

theorem find_no_match (p : Fin 8 → Bool) (h : ∀ j, p j = false) :
    (List.finRange 8).find? p = none := by
  rw [finRange_eight]
  simp [List.find?, h]

namespace sch_dwrr2

theorem dwrr_classify_first (cfg : dwrr_params) (skb : sk_buff) (tos : Nat)
    (ht : skb.tos = some tos) (i : Fin 8)
    (hi : cfg.dwrr_queue_dscp i.val = (((tos % 256) >>> 2 : Nat) : Int))
    (hlt : ∀ j : Fin 8, j < i → cfg.dwrr_queue_dscp j.val ≠ (((tos % 256) >>> 2 : Nat) : Int)) :
    dwrr_classify cfg skb = i := by
  unfold dwrr_classify
  rw [ht]
  simp only
  rw [find_first_match _ i]
  · simp [hi]
  · intro j hj
    have := hlt j hj
    simp [Ne.symm this]

theorem dwrr_classify_default (cfg : dwrr_params) (skb : sk_buff) (tos : Nat)
    (ht : skb.tos = some tos)
    (hne : ∀ j : Fin 8, cfg.dwrr_queue_dscp j.val ≠ (((tos % 256) >>> 2 : Nat) : Int)) :
    dwrr_classify cfg skb = 0 := by
  unfold dwrr_classify
  rw [ht]
  simp only
  rw [find_no_match]
  intro j
  have := hne j
  simp [Ne.symm this]

theorem dwrr_classify_no_header (cfg : dwrr_params) (skb : sk_buff) (ht : skb.tos = none) :
    dwrr_classify cfg skb = 0 := by
  unfold dwrr_classify
  rw [ht]

end sch_dwrr2

namespace sch_dwrr

theorem dwrr_qdisc_classify_first (cfg : dwrr_params) (skb : sk_buff) (tos : Nat)
    (ht : skb.tos = some tos) (i : Fin 8)
    (hi : cfg.DWRR_QDISC_QUEUE_DSCP i.val = (((tos % 256) >>> 2 : Nat) : Int))
    (hlt : ∀ j : Fin 8, j < i →
      cfg.DWRR_QDISC_QUEUE_DSCP j.val ≠ (((tos % 256) >>> 2 : Nat) : Int)) :
    dwrr_qdisc_classify cfg skb = i := by
  unfold dwrr_qdisc_classify
  rw [ht]
  simp only
  rw [find_first_match _ i]
  · simp [hi]
  · intro j hj
    have := hlt j hj
    simp [Ne.symm this]

theorem dwrr_qdisc_classify_default (cfg : dwrr_params) (skb : sk_buff) (tos : Nat)
    (ht : skb.tos = some tos)
    (hne : ∀ j : Fin 8, cfg.DWRR_QDISC_QUEUE_DSCP j.val ≠ (((tos % 256) >>> 2 : Nat) : Int)) :
    dwrr_qdisc_classify cfg skb = 0 := by
  unfold dwrr_qdisc_classify
  rw [ht]
  simp only
  rw [find_no_match]
  intro j
  have := hne j
  simp [Ne.symm this]

theorem dwrr_qdisc_classify_no_header (cfg : dwrr_params) (skb : sk_buff) (ht : skb.tos = none) :
    dwrr_qdisc_classify cfg skb = 0 := by
  unfold dwrr_qdisc_classify
  rw [ht]

end sch_dwrr

/-- C10: in both variants the classifier returns the class of smallest index
whose configured DSCP equals the DSCP of the packet (bits 7..2 of the TOS byte),
and class 0 when no entry matches or the packet has no IP header; the index is
at most 7; with the table set up by the parameter initialisation (entry `i`
holds `i`) DSCP `d` goes to class `d` when `d < 8` and to class 0 otherwise.
The classifier is a function of the table and the packet only, it neither
reads nor writes the scheduler state. -/
theorem classify_first_match_or_default :
    (∀ (cfg : sch_dwrr2.dwrr_params) (skb : sk_buff),
      (skb.tos = none → sch_dwrr2.dwrr_classify cfg skb = 0) ∧
      (∀ tos, skb.tos = some tos →
        (∀ i : Fin 8, cfg.dwrr_queue_dscp i.val = (((tos % 256) >>> 2 : Nat) : Int) →
          (∀ j : Fin 8, j < i → cfg.dwrr_queue_dscp j.val ≠ (((tos % 256) >>> 2 : Nat) : Int)) →
          sch_dwrr2.dwrr_classify cfg skb = i) ∧
        ((∀ j : Fin 8, cfg.dwrr_queue_dscp j.val ≠ (((tos % 256) >>> 2 : Nat) : Int)) →
          sch_dwrr2.dwrr_classify cfg skb = 0)) ∧
      (sch_dwrr2.dwrr_classify cfg skb).val ≤ 7) ∧
    (∀ (cfg : sch_dwrr.dwrr_params) (skb : sk_buff),
      (skb.tos = none → sch_dwrr.dwrr_qdisc_classify cfg skb = 0) ∧
      (∀ tos, skb.tos = some tos →
        (∀ i : Fin 8, cfg.DWRR_QDISC_QUEUE_DSCP i.val = (((tos % 256) >>> 2 : Nat) : Int) →
          (∀ j : Fin 8, j < i →
            cfg.DWRR_QDISC_QUEUE_DSCP j.val ≠ (((tos % 256) >>> 2 : Nat) : Int)) →
          sch_dwrr.dwrr_qdisc_classify cfg skb = i) ∧
        ((∀ j : Fin 8, cfg.DWRR_QDISC_QUEUE_DSCP j.val ≠ (((tos % 256) >>> 2 : Nat) : Int)) →
          sch_dwrr.dwrr_qdisc_classify cfg skb = 0)) ∧
      (sch_dwrr.dwrr_qdisc_classify cfg skb).val ≤ 7) ∧
    (∀ (skb : sk_buff) (tos : Nat), skb.tos = some tos →
      ((sch_dwrr2.dwrr_classify sch_dwrr2.dwrr_params_init skb).val =
          if (tos % 256) >>> 2 < 8 then (tos % 256) >>> 2 else 0) ∧
      ((sch_dwrr.dwrr_qdisc_classify sch_dwrr.dwrr_qdisc_params_init skb).val =
          if (tos % 256) >>> 2 < 8 then (tos % 256) >>> 2 else 0)) := by
  refine ⟨fun cfg skb => ⟨sch_dwrr2.dwrr_classify_no_header cfg skb, fun tos ht =>
      ⟨sch_dwrr2.dwrr_classify_first cfg skb tos ht, sch_dwrr2.dwrr_classify_default cfg skb tos ht⟩,
      by omega⟩,
    fun cfg skb => ⟨sch_dwrr.dwrr_qdisc_classify_no_header cfg skb, fun tos ht =>
      ⟨sch_dwrr.dwrr_qdisc_classify_first cfg skb tos ht,
        sch_dwrr.dwrr_qdisc_classify_default cfg skb tos ht⟩, by omega⟩,
    fun skb tos ht => ?_⟩
  by_cases hd : (tos % 256) >>> 2 < 8
  · rw [if_pos hd]
    constructor
    · rw [sch_dwrr2.dwrr_classify_first _ skb tos ht ⟨(tos % 256) >>> 2, hd⟩]
      · simp [sch_dwrr2.dwrr_params_init]
      · intro j hj
        have : j.val < (tos % 256) >>> 2 := hj
        simp only [sch_dwrr2.dwrr_params_init]
        intro h
        have := Int.ofNat_inj.mp h
        omega
    · rw [sch_dwrr.dwrr_qdisc_classify_first _ skb tos ht ⟨(tos % 256) >>> 2, hd⟩]
      · simp [sch_dwrr.dwrr_qdisc_params_init]
      · intro j hj
        have : j.val < (tos % 256) >>> 2 := hj
        simp only [sch_dwrr.dwrr_qdisc_params_init]
        intro h
        have := Int.ofNat_inj.mp h
        omega
  · rw [if_neg hd]
    constructor
    · rw [sch_dwrr2.dwrr_classify_default _ skb tos ht]
      · rfl
      · intro j
        simp only [sch_dwrr2.dwrr_params_init]
        intro h
        have := Int.ofNat_inj.mp h
        omega
    · rw [sch_dwrr.dwrr_qdisc_classify_default _ skb tos ht]
      · rfl
      · intro j
        simp only [sch_dwrr.dwrr_qdisc_params_init]
        intro h
        have := Int.ofNat_inj.mp h
        omega

/-! ### Buffer admission -/

theorem u32_of_int_of_nonneg (x : Int) (h0 : 0 ≤ x) (h1 : x < 4294967296) :
    ((u32_of_int x : Nat) : Int) = x := by
  unfold u32_of_int
  rw [Int.emod_eq_of_lt h0 h1]
  exact Int.toNat_of_nonneg h0

theorem u32_gt_iff_plain (a len : Nat) (cap : Int) (h0 : 0 ≤ cap) (h1 : cap < 4294967296)
    (hs : a + len < 4294967296) :
    (a + len) % 4294967296 > u32_of_int cap ↔ (a : Int) + len > cap := by
  rw [Nat.mod_eq_of_lt hs]
  have := u32_of_int_of_nonneg cap h0 h1
  omega

namespace sch_dwrr2

theorem dwrr_buffer_overfill_iff (cfg : dwrr_params) (len : Nat) (cl : dwrr_class)
    (q : dwrr_sched_data) :
    dwrr_buffer_overfill cfg len cl q = true ↔
      (cfg.dwrr_buffer_mode = dwrr_shared_buffer ∧
        (q.sum_len_bytes + len) % 4294967296 > u32_of_int cfg.dwrr_shared_buffer_bytes) ∨
      (cfg.dwrr_buffer_mode = dwrr_static_buffer ∧
        (cl.len_bytes + len) % 4294967296 > u32_of_int (cfg.dwrr_queue_buffer_bytes cl.id)) := by
  unfold dwrr_buffer_overfill u32_add
  by_cases h1 : cfg.dwrr_buffer_mode = dwrr_shared_buffer ∧
        (q.sum_len_bytes + len) % 4294967296 > u32_of_int cfg.dwrr_shared_buffer_bytes
  · simp [h1]
  · by_cases h2 : cfg.dwrr_buffer_mode = dwrr_static_buffer ∧
        (cl.len_bytes + len) % 4294967296 > u32_of_int (cfg.dwrr_queue_buffer_bytes cl.id)
    · simp [h1, h2]
    · simp [h1, h2]

end sch_dwrr2

namespace sch_dwrr

theorem enqueue_overfill_iff (cfg : dwrr_params) (len : Nat) (cl : dwrr_class)
    (q : dwrr_sched_data) :
    enqueue_overfill cfg len cl q = true ↔
      (cfg.DWRR_QDISC_BUFFER_MODE = DWRR_QDISC_SHARED_BUFFER ∧
        (q.sum_len_bytes + len) % 4294967296 > u32_of_int cfg.DWRR_QDISC_SHARED_BUFFER_BYTES) ∨
      (cfg.DWRR_QDISC_BUFFER_MODE = DWRR_QDISC_STATIC_BUFFER ∧
        (cl.len_bytes + len) % 4294967296 >
          u32_of_int (cfg.DWRR_QDISC_QUEUE_BUFFER_BYTES cl.id)) := by
  unfold enqueue_overfill u32_add
  simp

end sch_dwrr

/-- C6, the claim as stated fails: read over the integers, the admission
predicate is not the plain comparison.  With a shared capacity of -1 (the sysctl
variable is a C `int` written without a range check) every sum exceeds the
capacity, yet `dwrr_buffer_overfill` accepts a 1500-byte packet into the empty
scheduler, the capacity being compared as the unsigned value 4294967295; and with
the default capacity of 2000000 a port occupancy of 4294966000 plus 1500 exceeds
the capacity, yet the packet is accepted, the 32-bit sum having wrapped to 204. -/
theorem buffer_overfill_plain_fails :
    (sch_dwrr2.dwrr_buffer_overfill
        { sch_dwrr2.dwrr_params_init with dwrr_shared_buffer_bytes := -1 } 1500
        ((sch_dwrr2.dwrr_init (fun _ => 0) 125000000).queues 0)
        (sch_dwrr2.dwrr_init (fun _ => 0) 125000000) = false ∧
      sch_dwrr2.buffer_overfill_plain
        { sch_dwrr2.dwrr_params_init with dwrr_shared_buffer_bytes := -1 } 1500
        ((sch_dwrr2.dwrr_init (fun _ => 0) 125000000).queues 0)
        (sch_dwrr2.dwrr_init (fun _ => 0) 125000000)) ∧
    (sch_dwrr2.dwrr_buffer_overfill sch_dwrr2.dwrr_params_init 1500
        ((sch_dwrr2.dwrr_init (fun _ => 0) 125000000).queues 0)
        { sch_dwrr2.dwrr_init (fun _ => 0) 125000000 with sum_len_bytes := 4294966000 } = false ∧
      sch_dwrr2.buffer_overfill_plain sch_dwrr2.dwrr_params_init 1500
        ((sch_dwrr2.dwrr_init (fun _ => 0) 125000000).queues 0)
        { sch_dwrr2.dwrr_init (fun _ => 0) 125000000 with sum_len_bytes := 4294966000 }) := by
  refine ⟨⟨by decide, ?_⟩, ⟨by decide, ?_⟩⟩
  · unfold sch_dwrr2.buffer_overfill_plain
    left
    decide
  · unfold sch_dwrr2.buffer_overfill_plain
    left
    decide

/-- C6 as amended: for every length, class and state `dwrr_buffer_overfill` is
true exactly when (the mode is shared and the 32-bit sum of the port occupancy
and the length exceeds the shared capacity converted to 32 bits unsigned) or (the
mode is static and the 32-bit sum of the class occupancy and the length exceeds
the reserved bytes of class `cl.id` converted likewise); where the capacities
are non-negative 32-bit values and the sums are below 2^32 this is the plain
comparison of the specification; the inline condition of `dwrr_qdisc_enqueue` in
sch_dwrr has the same two properties and returns the same decision on equal
operands. -/
theorem buffer_overfill_u32_comparison :
    (∀ (cfg : sch_dwrr2.dwrr_params) (len : Nat) (cl : sch_dwrr2.dwrr_class)
        (q : sch_dwrr2.dwrr_sched_data),
      (sch_dwrr2.dwrr_buffer_overfill cfg len cl q = true ↔
        (cfg.dwrr_buffer_mode = sch_dwrr2.dwrr_shared_buffer ∧
          (q.sum_len_bytes + len) % 4294967296 > u32_of_int cfg.dwrr_shared_buffer_bytes) ∨
        (cfg.dwrr_buffer_mode = sch_dwrr2.dwrr_static_buffer ∧
          (cl.len_bytes + len) % 4294967296 >
            u32_of_int (cfg.dwrr_queue_buffer_bytes cl.id))) ∧
      (0 ≤ cfg.dwrr_shared_buffer_bytes → cfg.dwrr_shared_buffer_bytes < 4294967296 →
        0 ≤ cfg.dwrr_queue_buffer_bytes cl.id → cfg.dwrr_queue_buffer_bytes cl.id < 4294967296 →
        q.sum_len_bytes + len < 4294967296 → cl.len_bytes + len < 4294967296 →
        (sch_dwrr2.dwrr_buffer_overfill cfg len cl q = true ↔
          sch_dwrr2.buffer_overfill_plain cfg len cl q))) ∧
    (∀ (cfg : sch_dwrr.dwrr_params) (len : Nat) (cl : sch_dwrr.dwrr_class)
        (q : sch_dwrr.dwrr_sched_data),
      (sch_dwrr.enqueue_overfill cfg len cl q = true ↔
        (cfg.DWRR_QDISC_BUFFER_MODE = sch_dwrr.DWRR_QDISC_SHARED_BUFFER ∧
          (q.sum_len_bytes + len) % 4294967296 >
            u32_of_int cfg.DWRR_QDISC_SHARED_BUFFER_BYTES) ∨
        (cfg.DWRR_QDISC_BUFFER_MODE = sch_dwrr.DWRR_QDISC_STATIC_BUFFER ∧
          (cl.len_bytes + len) % 4294967296 >
            u32_of_int (cfg.DWRR_QDISC_QUEUE_BUFFER_BYTES cl.id))) ∧
      (0 ≤ cfg.DWRR_QDISC_SHARED_BUFFER_BYTES → cfg.DWRR_QDISC_SHARED_BUFFER_BYTES < 4294967296 →
        0 ≤ cfg.DWRR_QDISC_QUEUE_BUFFER_BYTES cl.id →
        cfg.DWRR_QDISC_QUEUE_BUFFER_BYTES cl.id < 4294967296 →
        q.sum_len_bytes + len < 4294967296 → cl.len_bytes + len < 4294967296 →
        (sch_dwrr.enqueue_overfill cfg len cl q = true ↔
          sch_dwrr.enqueue_overfill_plain cfg len cl q))) ∧
    (∀ (cfg2 : sch_dwrr2.dwrr_params) (cl2 : sch_dwrr2.dwrr_class)
        (q2 : sch_dwrr2.dwrr_sched_data) (cfg1 : sch_dwrr.dwrr_params)
        (cl1 : sch_dwrr.dwrr_class) (q1 : sch_dwrr.dwrr_sched_data) (len : Nat),
      cfg1.DWRR_QDISC_BUFFER_MODE = cfg2.dwrr_buffer_mode →
      cfg1.DWRR_QDISC_SHARED_BUFFER_BYTES = cfg2.dwrr_shared_buffer_bytes →
      cfg1.DWRR_QDISC_QUEUE_BUFFER_BYTES cl1.id = cfg2.dwrr_queue_buffer_bytes cl2.id →
      q1.sum_len_bytes = q2.sum_len_bytes → cl1.len_bytes = cl2.len_bytes →
      sch_dwrr.enqueue_overfill cfg1 len cl1 q1 =
        sch_dwrr2.dwrr_buffer_overfill cfg2 len cl2 q2) := by
  refine ⟨fun cfg len cl q => ⟨sch_dwrr2.dwrr_buffer_overfill_iff cfg len cl q, ?_⟩,
    fun cfg len cl q => ⟨sch_dwrr.enqueue_overfill_iff cfg len cl q, ?_⟩, ?_⟩
  · intro h0 h1 h2 h3 hs hc
    rw [sch_dwrr2.dwrr_buffer_overfill_iff]
    unfold sch_dwrr2.buffer_overfill_plain
    rw [u32_gt_iff_plain _ _ _ h0 h1 hs, u32_gt_iff_plain _ _ _ h2 h3 hc]
  · intro h0 h1 h2 h3 hs hc
    rw [sch_dwrr.enqueue_overfill_iff]
    unfold sch_dwrr.enqueue_overfill_plain
    rw [u32_gt_iff_plain _ _ _ h0 h1 hs, u32_gt_iff_plain _ _ _ h2 h3 hc]
  · intro cfg2 cl2 q2 cfg1 cl1 q1 len hm hs hb hq hc
    rw [Bool.eq_iff_iff, sch_dwrr.enqueue_overfill_iff, sch_dwrr2.dwrr_buffer_overfill_iff,
      hm, hs, hb, hq, hc]
    rfl

/-! ### Rejection by the admission test -/

namespace sch_dwrr2

theorem dwrr_enqueue_reject (cfg : dwrr_params) (clk : Nat → Int) (skb : sk_buff)
    (q : dwrr_sched_data)
    (h : dwrr_buffer_overfill cfg (skb_size skb) (q.queues (dwrr_classify cfg skb)) q = true) :
    dwrr_enqueue cfg clk skb q = (NET_XMIT_DROP,
      { q with
        round_time := dwrr_idle_ageing cfg clk q
        drops := q.drops + 1
        queues := Function.update q.queues (dwrr_classify cfg skb)
          { q.queues (dwrr_classify cfg skb) with
            qdisc_drops := (q.queues (dwrr_classify cfg skb)).qdisc_drops + 1 } }) := by
  unfold dwrr_enqueue
  simp only [show ∀ rt : Int, dwrr_buffer_overfill cfg (skb_size skb)
      (q.queues (dwrr_classify cfg skb)) { q with round_time := rt } =
      dwrr_buffer_overfill cfg (skb_size skb) (q.queues (dwrr_classify cfg skb)) q from
    fun _ => rfl, h, if_true]
  rfl

end sch_dwrr2

namespace sch_dwrr

theorem dwrr_qdisc_enqueue_reject (cfg : dwrr_params) (clk : Nat → Int) (skb : sk_buff)
    (q : dwrr_sched_data)
    (h : enqueue_overfill cfg (skb_size skb) (q.queues (dwrr_qdisc_classify cfg skb)) q = true) :
    dwrr_qdisc_enqueue cfg clk skb q = (NET_XMIT_DROP,
      { q with
        round_time_ns := dwrr_qdisc_idle_ageing cfg clk q
        drops := q.drops + 1
        queues := Function.update q.queues (dwrr_qdisc_classify cfg skb)
          { q.queues (dwrr_qdisc_classify cfg skb) with
            qdisc_drops := (q.queues (dwrr_qdisc_classify cfg skb)).qdisc_drops + 1 } }) := by
  unfold dwrr_qdisc_enqueue
  simp only [show ∀ rt : Int, enqueue_overfill cfg (skb_size skb)
      (q.queues (dwrr_qdisc_classify cfg skb)) { q with round_time_ns := rt } =
      enqueue_overfill cfg (skb_size skb) (q.queues (dwrr_qdisc_classify cfg skb)) q from
    fun _ => rfl, h, if_true]
  rfl

end sch_dwrr

set_option maxRecDepth 100000 in
/-- C5: in both variants, whenever the admission test rejects the packet,
enqueue returns `NET_XMIT_DROP` and the new state is the old one with the drop
counter of the port and the drop counter of the target class increased by 1 and
the round time replaced by its idle-aged value: the byte counters, deficits,
active list, FIFO contents, tokens and all other fields are those of the old
state.  Scenario: static mode with 4000 bytes reserved for class 2, class 2
empty, three packets of on-wire length 1500 and DSCP 2: the first two are
accepted, the third is dropped, both drop counters go up by exactly 1 and the
byte counters and the FIFO stay as the second enqueue left them. -/
theorem admission_rejection_counted :
    (∀ (cfg : sch_dwrr2.dwrr_params) (clk : Nat → Int) (skb : sk_buff)
        (q : sch_dwrr2.dwrr_sched_data),
      sch_dwrr2.dwrr_buffer_overfill cfg (sch_dwrr2.skb_size skb)
          (q.queues (sch_dwrr2.dwrr_classify cfg skb)) q = true →
      sch_dwrr2.dwrr_enqueue cfg clk skb q = (NET_XMIT_DROP,
        { q with
          round_time := sch_dwrr2.dwrr_idle_ageing cfg clk q
          drops := q.drops + 1
          queues := Function.update q.queues (sch_dwrr2.dwrr_classify cfg skb)
            { q.queues (sch_dwrr2.dwrr_classify cfg skb) with
              qdisc_drops := (q.queues (sch_dwrr2.dwrr_classify cfg skb)).qdisc_drops + 1 } })) ∧
    (∀ (cfg : sch_dwrr.dwrr_params) (clk : Nat → Int) (skb : sk_buff)
        (q : sch_dwrr.dwrr_sched_data),
      sch_dwrr.enqueue_overfill cfg (sch_dwrr.skb_size skb)
          (q.queues (sch_dwrr.dwrr_qdisc_classify cfg skb)) q = true →
      sch_dwrr.dwrr_qdisc_enqueue cfg clk skb q = (NET_XMIT_DROP,
        { q with
          round_time_ns := sch_dwrr.dwrr_qdisc_idle_ageing cfg clk q
          drops := q.drops + 1
          queues := Function.update q.queues (sch_dwrr.dwrr_qdisc_classify cfg skb)
            { q.queues (sch_dwrr.dwrr_qdisc_classify cfg skb) with
              qdisc_drops :=
                (q.queues (sch_dwrr.dwrr_qdisc_classify cfg skb)).qdisc_drops + 1 } })) ∧
    (sch_dwrr2.skb_size pkt_1500 = 1500 ∧
      sch_dwrr2.dwrr_classify sch_dwrr2.static_cfg pkt_1500 = 2 ∧
      sch_dwrr2.after_one.1 = NET_XMIT_SUCCESS ∧
      sch_dwrr2.after_two.1 = NET_XMIT_SUCCESS ∧
      sch_dwrr2.after_three.1 = NET_XMIT_DROP ∧
      sch_dwrr2.after_three.2.drops = sch_dwrr2.after_two.2.drops + 1 ∧
      (sch_dwrr2.after_three.2.queues 2).qdisc_drops =
        (sch_dwrr2.after_two.2.queues 2).qdisc_drops + 1 ∧
      (sch_dwrr2.after_three.2.queues 2).qdisc = [pkt_1500, pkt_1500] ∧
      (sch_dwrr2.after_three.2.queues 2).len_bytes = 3000 ∧
      sch_dwrr2.after_three.2.sum_len_bytes = 3000) ∧
    (sch_dwrr.skb_size pkt_1500 = 1500 ∧
      sch_dwrr.dwrr_qdisc_classify sch_dwrr.static_cfg pkt_1500 = 2 ∧
      sch_dwrr.after_one.1 = NET_XMIT_SUCCESS ∧
      sch_dwrr.after_two.1 = NET_XMIT_SUCCESS ∧
      sch_dwrr.after_three.1 = NET_XMIT_DROP ∧
      sch_dwrr.after_three.2.drops = sch_dwrr.after_two.2.drops + 1 ∧
      (sch_dwrr.after_three.2.queues 2).qdisc_drops =
        (sch_dwrr.after_two.2.queues 2).qdisc_drops + 1 ∧
      (sch_dwrr.after_three.2.queues 2).qdisc = [pkt_1500, pkt_1500] ∧
      (sch_dwrr.after_three.2.queues 2).len_bytes = 3000 ∧
      sch_dwrr.after_three.2.sum_len_bytes = 3000) := by
  refine ⟨sch_dwrr2.dwrr_enqueue_reject, sch_dwrr.dwrr_qdisc_enqueue_reject, ?_, ?_⟩
  · decide
  · decide

/-! ### Induction over the reachable states of sch_dwrr2 -/

namespace sch_dwrr2

theorem dwrr_dequeue_iter_again {cfg : dwrr_params} {now : Int} {q q1 : dwrr_sched_data}
    {j : Fin 8} (h : dwrr_dequeue_iter cfg now q = .again q1 j) :
    ∃ rest skb tl, q.active = j :: rest ∧ (q.queues j).qdisc = skb :: tl ∧
      (q.queues j).deficit < skb_size skb ∧ q1 = dwrr_dequeue_yield cfg q j rest := by
  unfold dwrr_dequeue_iter at h
  split at h
  · simp at h
  · rename_i i rest hq
    split at h
    · simp at h
    · rename_i skb tl hf
      split at h
      · split at h <;> simp at h
      · rename_i hd
        simp only [iter_result.again.injEq] at h
        obtain ⟨h1, h2⟩ := h
        subst h2
        exact ⟨rest, skb, tl, hq, hf, not_le.mp hd, h1.symm⟩

theorem dwrr_dequeue_iter_exit {cfg : dwrr_params} {now : Int} {q q1 : dwrr_sched_data}
    {r : deq_exit} (h : dwrr_dequeue_iter cfg now q = .exit q1 r) :
    (q.active = [] ∧ q1 = q ∧ r = .no_class) ∨
    (∃ i rest, q.active = i :: rest ∧ (q.queues i).qdisc = [] ∧ q1 = q ∧ r = .no_packet) ∨
    (∃ i rest skb tl, q.active = i :: rest ∧ (q.queues i).qdisc = skb :: tl ∧
      skb_size skb ≤ (q.queues i).deficit ∧ tbf_schedule cfg (skb_size skb) q now < 0 ∧
      q1 = dwrr_dequeue_throttle cfg now q (skb_size skb) ∧ r = .overlimit) ∨
    (∃ i rest skb tl, q.active = i :: rest ∧ (q.queues i).qdisc = skb :: tl ∧
      skb_size skb ≤ (q.queues i).deficit ∧ 0 ≤ tbf_schedule cfg (skb_size skb) q now ∧
      q1 = dwrr_dequeue_release cfg now q i rest skb tl ∧
      r = .sent i (dwrr_dequeue_packet cfg now q i rest skb tl)) := by
  unfold dwrr_dequeue_iter at h
  split at h
  · rename_i hq
    simp only [iter_result.exit.injEq] at h
    exact Or.inl ⟨hq, h.1.symm, h.2.symm⟩
  · rename_i i rest hq
    split at h
    · rename_i hf
      simp only [iter_result.exit.injEq] at h
      exact Or.inr (Or.inl ⟨i, rest, hq, hf, h.1.symm, h.2.symm⟩)
    · rename_i skb tl hf
      split at h
      · rename_i hd
        split at h
        · rename_i ht
          simp only [iter_result.exit.injEq] at h
          exact Or.inr (Or.inr (Or.inl ⟨i, rest, skb, tl, hq, hf, hd, ht, h.1.symm, h.2.symm⟩))
        · rename_i ht
          simp only [iter_result.exit.injEq] at h
          exact Or.inr (Or.inr (Or.inr ⟨i, rest, skb, tl, hq, hf, hd, not_lt.mp ht, h.1.symm,
            h.2.symm⟩))
      · simp at h

theorem dwrr_enqueue_cases (cfg : dwrr_params) (clk : Nat → Int) (skb : sk_buff)
    (q : dwrr_sched_data) :
    (∃ n, dwrr_enqueue cfg clk skb q = (NET_XMIT_DROP,
        dwrr_enqueue_drop { q with round_time := dwrr_idle_ageing cfg clk q }
          (dwrr_classify cfg skb) n)) ∨
    (dwrr_buffer_overfill cfg (skb_size skb) (q.queues (dwrr_classify cfg skb)) q = false ∧
      bfifo_backlog (q.queues (dwrr_classify cfg skb)).qdisc + skb.len ≤ dwrr_max_buffer_bytes ∧
      dwrr_enqueue cfg clk skb q = (NET_XMIT_SUCCESS,
        dwrr_enqueue_mark cfg (clk (dwrr_enqueue_reads cfg q))
          { q with round_time := dwrr_idle_ageing cfg clk q } (dwrr_classify cfg skb) skb)) := by
  unfold dwrr_enqueue
  simp only
  split
  · exact Or.inl ⟨1, rfl⟩
  · rename_i ho
    split
    · exact Or.inl ⟨2, rfl⟩
    · rename_i fifo hb
      right
      refine ⟨?_, ?_, rfl⟩
      · simpa using ho
      · unfold bfifo_enqueue at hb
        split at hb
        · assumption
        · simp at hb

/-- Induction over the reachable states, block by block. -/
theorem reachable_induction (P : dwrr_params → Prop) (I : dwrr_sched_data → Prop)
    (h_init : ∀ clk rate, I (dwrr_init clk rate))
    (h_age : ∀ q rt, I q → I { q with round_time := rt })
    (h_drop : ∀ q i n, I q → I (dwrr_enqueue_drop q i n))
    (h_acc : ∀ cfg t q i skb, P cfg → I q →
      bfifo_backlog (q.queues i).qdisc + skb.len ≤ dwrr_max_buffer_bytes →
      I (dwrr_enqueue_mark cfg t q i skb))
    (h_thr : ∀ cfg now q len, I q → I (dwrr_dequeue_throttle cfg now q len))
    (h_rel : ∀ cfg now q i rest skb tl, P cfg → I q → q.active = i :: rest →
      (q.queues i).qdisc = skb :: tl → skb_size skb ≤ (q.queues i).deficit →
      I (dwrr_dequeue_release cfg now q i rest skb tl))
    (h_yld : ∀ cfg q i rest skb tl, P cfg → I q → q.active = i :: rest →
      (q.queues i).qdisc = skb :: tl → (q.queues i).deficit < skb_size skb →
      I (dwrr_dequeue_yield cfg q i rest)) :
    (∀ q, Reachable P q → I q) ∧ (∀ q, Examined P q → I q) := by
  have h_iter_exit : ∀ cfg now q q1 r, P cfg → I q →
      dwrr_dequeue_iter cfg now q = .exit q1 r → I q1 := by
    intro cfg now q q1 r hc hI h
    rcases dwrr_dequeue_iter_exit h with ⟨_, h1, _⟩ | ⟨_, _, _, _, h1, _⟩ |
      ⟨i, rest, skb, tl, _, _, _, _, h1, _⟩ | ⟨i, rest, skb, tl, hq, hf, hd, _, h1, _⟩
    · rw [h1]; exact hI
    · rw [h1]; exact hI
    · rw [h1]; exact h_thr _ _ _ _ hI
    · rw [h1]; exact h_rel _ _ _ _ _ _ _ hc hI hq hf hd
  have h_iter_again : ∀ cfg now q q1 j, P cfg → I q →
      dwrr_dequeue_iter cfg now q = .again q1 j → I q1 := by
    intro cfg now q q1 j hc hI h
    obtain ⟨rest, skb, tl, hq, hf, hd, h1⟩ := dwrr_dequeue_iter_again h
    rw [h1]; exact h_yld _ _ _ _ _ _ hc hI hq hf hd
  have h_loop : ∀ cfg now fuel q q1 r ys, P cfg → I q →
      dwrr_dequeue_loop cfg now fuel q = some (q1, r, ys) → I q1 := by
    intro cfg now fuel
    induction fuel with
    | zero => intro q q1 r ys _ _ h; simp [dwrr_dequeue_loop] at h
    | succ n ih =>
      intro q q1 r ys hc hI h
      unfold dwrr_dequeue_loop at h
      split at h
      · rename_i q2 r2 hit
        simp only [Option.some.injEq, Prod.mk.injEq] at h
        rw [← h.1]
        exact h_iter_exit _ _ _ _ _ hc hI hit
      · rename_i q2 j hit
        split at h
        · rename_i q3 r3 ys3 hl
          simp only [Option.some.injEq, Prod.mk.injEq] at h
          rw [← h.1]
          exact ih _ _ _ _ hc (h_iter_again _ _ _ _ _ hc hI hit) hl
        · simp at h
  have h_reach : ∀ q, Reachable P q → I q := by
    intro q hq
    induction hq with
    | init clk rate => exact h_init clk rate
    | enqueue cfg clk skb hc _ ih =>
      rcases dwrr_enqueue_cases cfg clk skb _ with ⟨n, h⟩ | ⟨_, hb, h⟩
      · rw [h]; exact h_drop _ _ _ (h_age _ _ ih)
      · rw [h]; exact h_acc _ _ _ _ _ hc (h_age _ _ ih) hb
    | dequeue fuel cfg now hc _ hd ih =>
      unfold dwrr_dequeue at hd
      split at hd
      · simp only [Option.some.injEq, Prod.mk.injEq] at hd
        rw [← hd.1]; exact ih
      · exact h_loop _ _ _ _ _ _ _ hc ih hd
  refine ⟨h_reach, ?_⟩
  intro q hq
  induction hq with
  | entry hr _ => exact h_reach _ hr
  | again cfg now hc _ hit ih => exact h_iter_again _ _ _ _ _ hc ih hit

theorem sum_update_nat (g : Fin 8 → Nat) (i : Fin 8) (v : Nat) :
    ∑ j, Function.update g i v j + g i = ∑ j, g j + v := by
  rw [Finset.sum_update_of_mem (Finset.mem_univ i), Finset.sdiff_singleton_eq_erase,
    ← Finset.add_sum_erase Finset.univ g (Finset.mem_univ i)]
  omega

theorem len_bytes_sum_update (f : Fin 8 → dwrr_class) (i : Fin 8) (c : dwrr_class) :
    ∑ j, (Function.update f i c j).len_bytes + (f i).len_bytes =
      ∑ j, (f j).len_bytes + c.len_bytes := by
  have h := sum_update_nat (fun j => (f j).len_bytes) i c.len_bytes
  have e : ∀ j, (Function.update f i c j).len_bytes =
      Function.update (fun j => (f j).len_bytes) i c.len_bytes j := by
    intro j
    by_cases hj : j = i
    · subst hj; simp
    · simp [Function.update_noteq hj]
  simp only [e]
  exact h

theorem conserved_same {f : Fin 8 → dwrr_class} {i : Fin 8} {C : dwrr_class} {s : Nat}
    (h : s = (∑ j, (f j).len_bytes) % 4294967296) (hC : C.len_bytes = (f i).len_bytes) :
    s = (∑ j, (Function.update f i C j).len_bytes) % 4294967296 := by
  have := len_bytes_sum_update f i C
  omega

theorem conserved_add {f : Fin 8 → dwrr_class} {i : Fin 8} {C : dwrr_class} {s d : Nat}
    (h : s = (∑ j, (f j).len_bytes) % 4294967296)
    (hC : C.len_bytes = u32_add (f i).len_bytes d) :
    u32_add s d = (∑ j, (Function.update f i C j).len_bytes) % 4294967296 := by
  have := len_bytes_sum_update f i C
  unfold u32_add at *
  omega

theorem conserved_sub {f : Fin 8 → dwrr_class} {i : Fin 8} {C : dwrr_class} {s d : Nat}
    (h : s = (∑ j, (f j).len_bytes) % 4294967296)
    (hC : C.len_bytes = u32_sub (f i).len_bytes d) :
    u32_sub s d = (∑ j, (Function.update f i C j).len_bytes) % 4294967296 := by
  have := len_bytes_sum_update f i C
  unfold u32_sub at *
  omega

theorem conserved_reachable (P : dwrr_params → Prop) :
    (∀ q, Reachable P q → conserved q) ∧ (∀ q, Examined P q → conserved q) := by
  apply reachable_induction P conserved
  · intro clk rate
    simp [conserved, dwrr_init]
  · intro q rt h
    exact h
  · intro q i n h
    exact conserved_same (f := q.queues) h rfl
  · intro cfg t q i skb _ h _
    refine conserved_add (f := q.queues) h ?_
    show (dwrr_enqueue_class cfg t q i skb).len_bytes = _
    unfold dwrr_enqueue_class; split <;> rfl
  · intro cfg now q len h
    exact h
  · intro cfg now q i rest skb tl _ h _ _ _
    exact conserved_sub (f := q.queues) h rfl
  · intro cfg q i rest skb tl _ h _ _ _
    exact conserved_same (f := q.queues) h rfl

/-- Each block of `dwrr_enqueue` and `dwrr_dequeue` keeps the active list right. -/
theorem active_ok_blocks (P : dwrr_params → Prop) :
    (∀ q rt, active_ok q → active_ok { q with round_time := rt }) ∧
    (∀ q i n, active_ok q → active_ok (dwrr_enqueue_drop q i n)) ∧
    (∀ cfg t q i skb, P cfg → active_ok q →
      bfifo_backlog (q.queues i).qdisc + skb.len ≤ dwrr_max_buffer_bytes →
      active_ok (dwrr_enqueue_mark cfg t q i skb)) ∧
    (∀ cfg now q len, active_ok q → active_ok (dwrr_dequeue_throttle cfg now q len)) ∧
    (∀ cfg now q i rest skb tl, P cfg → active_ok q → q.active = i :: rest →
      (q.queues i).qdisc = skb :: tl → skb_size skb ≤ (q.queues i).deficit →
      active_ok (dwrr_dequeue_release cfg now q i rest skb tl)) ∧
    (∀ cfg q i rest skb tl, P cfg → active_ok q → q.active = i :: rest →
      (q.queues i).qdisc = skb :: tl → (q.queues i).deficit < skb_size skb →
      active_ok (dwrr_dequeue_yield cfg q i rest)) := by
  refine ⟨?_, ?_, ?_, ?_, ?_, ?_⟩
  · intro q rt h
    exact h
  · intro q i n h
    refine ⟨h.1, fun j => ?_⟩
    show j ∈ q.active ↔ (Function.update q.queues i _ j).qdisc ≠ []
    rw [h.2 j]
    by_cases hj : j = i
    · subst hj; simp
    · simp [Function.update_noteq hj]
  · intro cfg t q i skb _ h _
    obtain ⟨hn, hm⟩ := h
    have hlen : ((q.queues i).qdisc ++ [skb]).length = 1 ↔ (q.queues i).qdisc = [] := by
      simp
    constructor
    · show (if ((q.queues i).qdisc ++ [skb]).length = 1 then q.active ++ [i] else q.active).Nodup
      split
      · rename_i h1
        have : i ∉ q.active := by
          rw [hm i]; simp [hlen.mp h1]
        exact List.Nodup.append hn (List.nodup_singleton i) (by simpa using this)
      · exact hn
    · intro j
      show j ∈ (if ((q.queues i).qdisc ++ [skb]).length = 1 then q.active ++ [i] else q.active) ↔
        (Function.update q.queues i _ j).qdisc ≠ []
      by_cases hj : j = i
      · subst hj
        simp only [Function.update_same]
        split
        · simp
        · rename_i h1
          have : (q.queues j).qdisc ≠ [] := fun h2 => h1 (hlen.mpr h2)
          simp [(hm j).mpr this]
      · simp only [Function.update_noteq hj]
        split
        · simp [hj, hm j]
        · exact hm j
  · intro cfg now q len h
    exact h
  · intro cfg now q i rest skb tl _ h hq hf _
    obtain ⟨hn, hm⟩ := h
    rw [hq] at hn
    have hn' := List.nodup_cons.mp hn
    constructor
    · show (if tl = [] then rest else i :: rest).Nodup
      split
      · exact hn'.2
      · exact hn
    · intro j
      show j ∈ (if tl = [] then rest else i :: rest) ↔
        (Function.update q.queues i (dwrr_dequeue_release_class now q i skb tl) j).qdisc ≠ []
      have hmj := hm j
      rw [hq] at hmj
      by_cases hj : j = i
      · subst hj
        simp only [Function.update_same]
        show _ ↔ tl ≠ []
        split
        · rename_i h1; simp [h1, hn'.1]
        · rename_i h1; simp [h1]
      · simp only [Function.update_noteq hj]
        rw [← hmj]
        split
        · simp [hj]
        · rfl
  · intro cfg q i rest skb tl _ h hq hf _
    obtain ⟨hn, hm⟩ := h
    rw [hq] at hn
    have hn' := List.nodup_cons.mp hn
    constructor
    · show (rest ++ [i]).Nodup
      exact List.Nodup.append hn'.2 (List.nodup_singleton i) (by simpa using hn'.1)
    · intro j
      show j ∈ rest ++ [i] ↔
        (Function.update q.queues i (dwrr_dequeue_yield_class cfg q i) j).qdisc ≠ []
      have hmj := hm j
      rw [hq] at hmj
      by_cases hj : j = i
      · subst hj
        simp only [Function.update_same]
        show _ ↔ (q.queues j).qdisc ≠ []
        simp [hf]
      · simp only [Function.update_noteq hj]
        rw [← hmj]
        simp [hj]

theorem active_ok_reachable (P : dwrr_params → Prop) :
    (∀ q, Reachable P q → active_ok q) ∧ (∀ q, Examined P q → active_ok q) := by
  obtain ⟨a, b, c, d, e, f⟩ := active_ok_blocks P
  exact reachable_induction P active_ok (by intro clk rate; simp [active_ok, dwrr_init])
    a b c d e f

theorem ids_reachable (P : dwrr_params → Prop) :
    (∀ q, Reachable P q → ∀ i, (q.queues i).id = i.val) ∧
    (∀ q, Examined P q → ∀ i, (q.queues i).id = i.val) := by
  have key : ∀ (f : Fin 8 → dwrr_class) (i : Fin 8) (C : dwrr_class),
      (∀ j, (f j).id = j.val) → C.id = (f i).id → ∀ j, (Function.update f i C j).id = j.val := by
    intro f i C hf hC j
    by_cases hj : j = i
    · subst hj; simp [hC, hf]
    · simp [Function.update_noteq hj, hf]
  apply reachable_induction P (fun q => ∀ i, (q.queues i).id = i.val)
  · intro clk rate i
    rfl
  · intro q rt h
    exact h
  · intro q i n h
    exact key _ _ _ h rfl
  · intro cfg t q i skb _ h _
    refine key _ _ _ h ?_
    show (dwrr_enqueue_class cfg t q i skb).id = _
    unfold dwrr_enqueue_class; split <;> rfl
  · intro cfg now q len h
    exact h
  · intro cfg now q i rest skb tl _ h _ _ _
    exact key _ _ _ h rfl
  · intro cfg q i rest skb tl _ h _ _ _
    exact key _ _ _ h rfl

theorem s64_of_small (x : Int) (h0 : 0 ≤ x) (h1 : x < 9223372036854775808) : s64 x = x := by
  unfold s64
  omega

theorem l2t_ns_init_bound (rate x : Nat) (hx : x < 4294967296) :
    l2t_ns (precompute_ratedata { rate_bps := (rate % 4294967296) <<< 3, mult := 0, shift := 0 }) x
      < 9223372036854775808 := by
  unfold l2t_ns precompute_ratedata
  split
  · simp only [Nat.shiftRight_eq_div_pow]
    omega
  · simp only [Nat.shiftRight_eq_div_pow]
    omega

theorem u32_of_int_lt (x : Int) : u32_of_int x < 4294967296 := by
  unfold u32_of_int
  omega

theorem tokens_ok_reachable (b : Int) :
    (∀ q, Reachable (fun cfg => cfg.dwrr_bucket_bytes = b) q → tokens_ok b q) ∧
    (∀ q, Examined (fun cfg => cfg.dwrr_bucket_bytes = b) q → tokens_ok b q) := by
  apply reachable_induction _ (tokens_ok b)
  · intro clk rate
    refine ⟨⟨rate, rfl⟩, ?_⟩
    show (0 : Int) ≤ _
    omega
  · intro q rt h
    exact h
  · intro q i n h
    exact h
  · intro cfg t q i skb _ h _
    exact h
  · intro cfg now q len h
    exact h
  · intro cfg now q i rest skb tl hc h _ _ _
    obtain ⟨⟨rate, hr⟩, _⟩ := h
    refine ⟨⟨rate, hr⟩, ?_⟩
    show min (tbf_schedule cfg (skb_size skb) q now)
      (s64 (l2t_ns q.rate (u32_of_int cfg.dwrr_bucket_bytes))) ≤ (l2t_ns q.rate (u32_of_int b) : Int)
    have hc' : cfg.dwrr_bucket_bytes = b := hc
    rw [hc', s64_of_small _ (by omega)
      (by rw [hr]; exact_mod_cast l2t_ns_init_bound rate _ (u32_of_int_lt b))]
    exact min_le_right _ _
  · intro cfg q i rest skb tl _ h _ _ _
    exact h

end sch_dwrr2

/-! ### Induction over the reachable states of sch_dwrr -/

namespace sch_dwrr

theorem visit_activeList (q : dwrr_sched_data) (i : Fin 8) :
    (dwrr_qdisc_dequeue_visit q i).activeList = q.activeList := rfl

theorem visit_class_qdisc (q : dwrr_sched_data) (i : Fin 8) :
    (dwrr_qdisc_dequeue_visit_class q i).qdisc = (q.queues i).qdisc := by
  unfold dwrr_qdisc_dequeue_visit_class
  split <;> rfl

theorem visit_qdisc (q : dwrr_sched_data) (i : Fin 8) :
    ((dwrr_qdisc_dequeue_visit q i).queues i).qdisc = (q.queues i).qdisc := by
  show (Function.update q.queues i _ i).qdisc = _
  rw [Function.update_same]
  exact visit_class_qdisc q i

theorem dwrr_qdisc_dequeue_iter_again {cfg : dwrr_params} {clk : Nat → Int}
    {q q1 : dwrr_sched_data} {j : Fin 8} (h : dwrr_qdisc_dequeue_iter cfg clk q = .again q1 j) :
    ∃ rest skb tl, q.activeList = j :: rest ∧ (q.queues j).qdisc = skb :: tl ∧
      ((dwrr_qdisc_dequeue_visit q j).queues j).deficitCounter < skb_size skb ∧
      q1 = dwrr_qdisc_dequeue_yield cfg (clk 0) (dwrr_qdisc_dequeue_visit q j) j rest := by
  unfold dwrr_qdisc_dequeue_iter at h
  split at h
  · simp at h
  · rename_i i rest hq
    simp only at h
    split at h
    · simp at h
    · rename_i skb tl hf
      split at h
      · split at h <;> simp at h
      · rename_i hd
        simp only [iter_result.again.injEq] at h
        obtain ⟨h1, h2⟩ := h
        subst h2
        exact ⟨rest, skb, tl, hq, hf, not_le.mp hd, h1.symm⟩

theorem dwrr_qdisc_dequeue_iter_exit {cfg : dwrr_params} {clk : Nat → Int}
    {q q1 : dwrr_sched_data} {r : deq_exit} (h : dwrr_qdisc_dequeue_iter cfg clk q = .exit q1 r) :
    (q.activeList = [] ∧ q1 = q ∧ r = .no_class) ∨
    (∃ i rest, q.activeList = i :: rest ∧ (q.queues i).qdisc = [] ∧
      q1 = dwrr_qdisc_dequeue_visit q i ∧ r = .no_packet) ∨
    (∃ i rest skb tl, q.activeList = i :: rest ∧ (q.queues i).qdisc = skb :: tl ∧
      skb_size skb ≤ ((dwrr_qdisc_dequeue_visit q i).queues i).deficitCounter ∧
      ¬ dwrr_qdisc_toks cfg (clk 0) (dwrr_qdisc_dequeue_visit q i) >
        s64 (l2t_ns (dwrr_qdisc_dequeue_visit q i).rate (skb_size skb)) ∧
      q1 = dwrr_qdisc_dequeue_throttle cfg (clk 0) (dwrr_qdisc_dequeue_visit q i) (skb_size skb) ∧
      r = .overlimit) ∨
    (∃ i rest skb tl, q.activeList = i :: rest ∧ (q.queues i).qdisc = skb :: tl ∧
      skb_size skb ≤ ((dwrr_qdisc_dequeue_visit q i).queues i).deficitCounter ∧
      dwrr_qdisc_toks cfg (clk 0) (dwrr_qdisc_dequeue_visit q i) >
        s64 (l2t_ns (dwrr_qdisc_dequeue_visit q i).rate (skb_size skb)) ∧
      q1 = dwrr_qdisc_dequeue_release cfg clk (dwrr_qdisc_dequeue_visit q i) i rest skb tl ∧
      r = .sent i (dequeue_ecn cfg skb
        (dwrr_qdisc_dequeue_sent (clk 1) (dwrr_qdisc_dequeue_visit q i) i skb tl)
        (dwrr_qdisc_dequeue_sent_class (clk 1) (dwrr_qdisc_dequeue_visit q i) i skb tl))) := by
  unfold dwrr_qdisc_dequeue_iter at h
  split at h
  · rename_i hq
    simp only [iter_result.exit.injEq] at h
    exact Or.inl ⟨hq, h.1.symm, h.2.symm⟩
  · rename_i i rest hq
    simp only at h
    split at h
    · rename_i hf
      simp only [iter_result.exit.injEq] at h
      exact Or.inr (Or.inl ⟨i, rest, hq, hf, h.1.symm, h.2.symm⟩)
    · rename_i skb tl hf
      split at h
      · rename_i hd
        split at h
        · rename_i ht
          simp only [iter_result.exit.injEq] at h
          exact Or.inr (Or.inr (Or.inr ⟨i, rest, skb, tl, hq, hf, hd, ht, h.1.symm, h.2.symm⟩))
        · rename_i ht
          simp only [iter_result.exit.injEq] at h
          exact Or.inr (Or.inr (Or.inl ⟨i, rest, skb, tl, hq, hf, hd, ht, h.1.symm, h.2.symm⟩))
      · simp at h

theorem dwrr_qdisc_enqueue_cases (cfg : dwrr_params) (clk : Nat → Int) (skb : sk_buff)
    (q : dwrr_sched_data) :
    (∃ n, dwrr_qdisc_enqueue cfg clk skb q = (NET_XMIT_DROP,
        dwrr_qdisc_enqueue_drop { q with round_time_ns := dwrr_qdisc_idle_ageing cfg clk q }
          (dwrr_qdisc_classify cfg skb) n)) ∨
    (enqueue_overfill cfg (skb_size skb) (q.queues (dwrr_qdisc_classify cfg skb)) q = false ∧
      bfifo_backlog (q.queues (dwrr_qdisc_classify cfg skb)).qdisc + skb.len ≤
        DWRR_QDISC_MAX_BUFFER_BYTES ∧
      dwrr_qdisc_enqueue cfg clk skb q = (NET_XMIT_SUCCESS,
        dwrr_qdisc_enqueue_mark cfg (clk 1)
          { q with round_time_ns := dwrr_qdisc_idle_ageing cfg clk q }
          (dwrr_qdisc_classify cfg skb) skb)) := by
  unfold dwrr_qdisc_enqueue
  simp only
  split
  · exact Or.inl ⟨1, rfl⟩
  · rename_i ho
    split
    · rename_i fifo hb
      right
      refine ⟨?_, ?_, rfl⟩
      · simpa using ho
      · unfold bfifo_enqueue at hb
        split at hb
        · assumption
        · simp at hb
    · exact Or.inl ⟨2, rfl⟩

/-- Induction over the reachable states, block by block. -/
theorem reachable_induction_qdisc (P : dwrr_params → Prop) (I : dwrr_sched_data → Prop)
    (h_init : ∀ clk rate, I (dwrr_qdisc_init clk rate))
    (h_age : ∀ q rt, I q → I { q with round_time_ns := rt })
    (h_drop : ∀ q i n, I q → I (dwrr_qdisc_enqueue_drop q i n))
    (h_acc : ∀ cfg t q i skb, P cfg → I q →
      bfifo_backlog (q.queues i).qdisc + skb.len ≤ DWRR_QDISC_MAX_BUFFER_BYTES →
      I (dwrr_qdisc_enqueue_mark cfg t q i skb))
    (h_vis : ∀ q i rest, I q → q.activeList = i :: rest → I (dwrr_qdisc_dequeue_visit q i))
    (h_thr : ∀ cfg now q len, I q → I (dwrr_qdisc_dequeue_throttle cfg now q len))
    (h_rel : ∀ cfg clk q i rest skb tl, P cfg → I q → q.activeList = i :: rest →
      (q.queues i).qdisc = skb :: tl → skb_size skb ≤ (q.queues i).deficitCounter →
      I (dwrr_qdisc_dequeue_release cfg clk q i rest skb tl))
    (h_yld : ∀ cfg t q i rest skb tl, P cfg → I q → q.activeList = i :: rest →
      (q.queues i).qdisc = skb :: tl → (q.queues i).deficitCounter < skb_size skb →
      I (dwrr_qdisc_dequeue_yield cfg t q i rest)) :
    (∀ q, Reachable P q → I q) ∧ (∀ q, Examined P q → I q) := by
  have h_iter_exit : ∀ cfg clk q q1 r, P cfg → I q →
      dwrr_qdisc_dequeue_iter cfg clk q = .exit q1 r → I q1 := by
    intro cfg clk q q1 r hc hI h
    rcases dwrr_qdisc_dequeue_iter_exit h with ⟨_, h1, _⟩ | ⟨i, rest, hq, _, h1, _⟩ |
      ⟨i, rest, skb, tl, hq, _, _, _, h1, _⟩ | ⟨i, rest, skb, tl, hq, hf, hd, _, h1, _⟩
    · rw [h1]; exact hI
    · rw [h1]; exact h_vis _ _ _ hI hq
    · rw [h1]; exact h_thr _ _ _ _ (h_vis _ _ _ hI hq)
    · rw [h1]
      exact h_rel _ _ _ _ _ _ _ hc (h_vis _ _ _ hI hq) hq ((visit_qdisc q i).trans hf) hd
  have h_iter_again : ∀ cfg clk q q1 j, P cfg → I q →
      dwrr_qdisc_dequeue_iter cfg clk q = .again q1 j → I q1 := by
    intro cfg clk q q1 j hc hI h
    obtain ⟨rest, skb, tl, hq, hf, hd, h1⟩ := dwrr_qdisc_dequeue_iter_again h
    rw [h1]
    exact h_yld _ _ _ _ _ _ _ hc (h_vis _ _ _ hI hq) hq ((visit_qdisc q j).trans hf) hd
  have h_loop : ∀ cfg fuel clk q q1 r ys, P cfg → I q →
      dwrr_qdisc_dequeue_loop cfg fuel clk q = some (q1, r, ys) → I q1 := by
    intro cfg fuel
    induction fuel with
    | zero => intro clk q q1 r ys _ _ h; simp [dwrr_qdisc_dequeue_loop] at h
    | succ n ih =>
      intro clk q q1 r ys hc hI h
      unfold dwrr_qdisc_dequeue_loop at h
      split at h
      · rename_i q2 r2 hit
        simp only [Option.some.injEq, Prod.mk.injEq] at h
        rw [← h.1]
        exact h_iter_exit _ _ _ _ _ hc hI hit
      · rename_i q2 j hit
        split at h
        · rename_i q3 r3 ys3 hl
          simp only [Option.some.injEq, Prod.mk.injEq] at h
          rw [← h.1]
          exact ih _ _ _ _ _ hc (h_iter_again _ _ _ _ _ hc hI hit) hl
        · simp at h
  have h_reach : ∀ q, Reachable P q → I q := by
    intro q hq
    induction hq with
    | init clk rate => exact h_init clk rate
    | enqueue cfg clk skb hc _ ih =>
      rcases dwrr_qdisc_enqueue_cases cfg clk skb _ with ⟨n, h⟩ | ⟨_, hb, h⟩
      · rw [h]; exact h_drop _ _ _ (h_age _ _ ih)
      · rw [h]; exact h_acc _ _ _ _ _ hc (h_age _ _ ih) hb
    | dequeue fuel cfg clk hc _ hd ih =>
      unfold dwrr_qdisc_dequeue at hd
      split at hd
      · simp only [Option.some.injEq, Prod.mk.injEq] at hd
        rw [← hd.1]; exact ih
      · exact h_loop _ _ _ _ _ _ _ hc ih hd
  refine ⟨h_reach, ?_⟩
  intro q hq
  induction hq with
  | entry hr _ => exact h_reach _ hr
  | again cfg clk hc _ hit ih => exact h_iter_again _ _ _ _ _ hc ih hit

theorem len_bytes_sum_update_qdisc (f : Fin 8 → dwrr_class) (i : Fin 8) (c : dwrr_class) :
    ∑ j, (Function.update f i c j).len_bytes + (f i).len_bytes =
      ∑ j, (f j).len_bytes + c.len_bytes := by
  have h := sch_dwrr2.sum_update_nat (fun j => (f j).len_bytes) i c.len_bytes
  have e : ∀ j, (Function.update f i c j).len_bytes =
      Function.update (fun j => (f j).len_bytes) i c.len_bytes j := by
    intro j
    by_cases hj : j = i
    · subst hj; simp
    · simp [Function.update_noteq hj]
  simp only [e]
  exact h

theorem conserved_same_qdisc {f : Fin 8 → dwrr_class} {i : Fin 8} {C : dwrr_class} {s : Nat}
    (h : s = (∑ j, (f j).len_bytes) % 4294967296) (hC : C.len_bytes = (f i).len_bytes) :
    s = (∑ j, (Function.update f i C j).len_bytes) % 4294967296 := by
  have := len_bytes_sum_update_qdisc f i C
  omega

theorem conserved_add_qdisc {f : Fin 8 → dwrr_class} {i : Fin 8} {C : dwrr_class} {s d : Nat}
    (h : s = (∑ j, (f j).len_bytes) % 4294967296)
    (hC : C.len_bytes = u32_add (f i).len_bytes d) :
    u32_add s d = (∑ j, (Function.update f i C j).len_bytes) % 4294967296 := by
  have := len_bytes_sum_update_qdisc f i C
  unfold u32_add at *
  omega

theorem conserved_sub_qdisc {f : Fin 8 → dwrr_class} {i : Fin 8} {C : dwrr_class} {s d : Nat}
    (h : s = (∑ j, (f j).len_bytes) % 4294967296)
    (hC : C.len_bytes = u32_sub (f i).len_bytes d) :
    u32_sub s d = (∑ j, (Function.update f i C j).len_bytes) % 4294967296 := by
  have := len_bytes_sum_update_qdisc f i C
  unfold u32_sub at *
  omega

theorem conserved_reachable_qdisc (P : dwrr_params → Prop) :
    (∀ q, Reachable P q → conserved q) ∧ (∀ q, Examined P q → conserved q) := by
  apply reachable_induction_qdisc P conserved
  · intro clk rate
    simp [conserved, dwrr_qdisc_init]
  · intro q rt h
    exact h
  · intro q i n h
    exact conserved_same_qdisc (f := q.queues) h rfl
  · intro cfg t q i skb _ h _
    refine conserved_add_qdisc (f := q.queues) h ?_
    show (dwrr_qdisc_enqueue_class cfg t q i skb).len_bytes = _
    unfold dwrr_qdisc_enqueue_class; split <;> rfl
  · intro q i rest h _
    refine conserved_same_qdisc (f := q.queues) h ?_
    unfold dwrr_qdisc_dequeue_visit_class; split <;> rfl
  · intro cfg now q len h
    exact h
  · intro cfg clk q i rest skb tl _ h _ _ _
    refine conserved_sub_qdisc (f := q.queues) h ?_
    unfold dwrr_qdisc_dequeue_release_class; split <;> rfl
  · intro cfg t q i rest skb tl _ h _ _ _
    exact conserved_same_qdisc (f := q.queues) h rfl

end sch_dwrr

namespace sch_dwrr

/-- Each block of `dwrr_qdisc_enqueue` and `dwrr_qdisc_dequeue` keeps the active
list right. -/
theorem active_ok_blocks_qdisc (P : dwrr_params → Prop) :
    (∀ q rt, active_ok q → active_ok { q with round_time_ns := rt }) ∧
    (∀ q i n, active_ok q → active_ok (dwrr_qdisc_enqueue_drop q i n)) ∧
    (∀ cfg t q i skb, P cfg → active_ok q →
      bfifo_backlog (q.queues i).qdisc + skb.len ≤ DWRR_QDISC_MAX_BUFFER_BYTES →
      active_ok (dwrr_qdisc_enqueue_mark cfg t q i skb)) ∧
    (∀ q i rest, active_ok q → q.activeList = i :: rest →
      active_ok (dwrr_qdisc_dequeue_visit q i)) ∧
    (∀ cfg now q len, active_ok q → active_ok (dwrr_qdisc_dequeue_throttle cfg now q len)) ∧
    (∀ cfg clk q i rest skb tl, P cfg → active_ok q → q.activeList = i :: rest →
      (q.queues i).qdisc = skb :: tl → skb_size skb ≤ (q.queues i).deficitCounter →
      active_ok (dwrr_qdisc_dequeue_release cfg clk q i rest skb tl)) ∧
    (∀ cfg t q i rest skb tl, P cfg → active_ok q → q.activeList = i :: rest →
      (q.queues i).qdisc = skb :: tl → (q.queues i).deficitCounter < skb_size skb →
      active_ok (dwrr_qdisc_dequeue_yield cfg t q i rest)) := by
  have key : ∀ (q : dwrr_sched_data) (i : Fin 8) (C : dwrr_class) (l : List (Fin 8)),
      active_ok q → l = q.activeList → C.active = (q.queues i).active →
      C.qdisc = (q.queues i).qdisc →
      l.Nodup ∧ ∀ j, (j ∈ l → (Function.update q.queues i C j).active = 1 ∧
          (Function.update q.queues i C j).qdisc ≠ []) ∧
        (j ∉ l → (Function.update q.queues i C j).active = 0 ∧
          (Function.update q.queues i C j).qdisc = []) := by
    intro q i C l h hl ha hq
    subst hl
    refine ⟨h.1, fun j => ?_⟩
    by_cases hj : j = i
    · subst hj
      simp only [Function.update_same, ha, hq]
      exact h.2 j
    · simp only [Function.update_noteq hj]
      exact h.2 j
  refine ⟨?_, ?_, ?_, ?_, ?_, ?_, ?_⟩
  · intro q rt h
    exact h
  · intro q i n h
    exact key q i _ _ h rfl rfl rfl
  · intro cfg t q i skb _ h _
    obtain ⟨hn, hm⟩ := h
    by_cases ha : (q.queues i).active = 0
    · have hi : i ∉ q.activeList := fun hmem => by
        have := ((hm i).1 hmem).1
        omega
      constructor
      · show (if (q.queues i).active = 0 then q.activeList ++ [i] else q.activeList).Nodup
        rw [if_pos ha]
        exact List.Nodup.append hn (List.nodup_singleton i) (by simpa using hi)
      · intro j
        show (j ∈ (if (q.queues i).active = 0 then q.activeList ++ [i] else q.activeList) →
            (Function.update q.queues i _ j).active = 1 ∧
              (Function.update q.queues i _ j).qdisc ≠ []) ∧
          (j ∉ (if (q.queues i).active = 0 then q.activeList ++ [i] else q.activeList) →
            (Function.update q.queues i _ j).active = 0 ∧
              (Function.update q.queues i _ j).qdisc = [])
        rw [if_pos ha]
        by_cases hj : j = i
        · subst hj
          simp only [Function.update_same]
          constructor
          · intro _
            constructor
            · show (dwrr_qdisc_enqueue_class cfg t q j skb).active = 1
              unfold dwrr_qdisc_enqueue_class
              rw [if_pos ha]
            · show (q.queues j).qdisc ++ [_] ≠ []
              simp
          · intro hne
            simp at hne
        · simp only [Function.update_noteq hj]
          constructor
          · intro hmem
            have : j ∈ q.activeList := by simpa [hj] using hmem
            exact (hm j).1 this
          · intro hne
            have : j ∉ q.activeList := fun hmem => hne (by simp [hmem])
            exact (hm j).2 this
    · have hi : i ∈ q.activeList := by
        by_contra hne
        exact ha ((hm i).2 hne).1
      constructor
      · show (if (q.queues i).active = 0 then q.activeList ++ [i] else q.activeList).Nodup
        rw [if_neg ha]
        exact hn
      · intro j
        show (j ∈ (if (q.queues i).active = 0 then q.activeList ++ [i] else q.activeList) →
            (Function.update q.queues i _ j).active = 1 ∧
              (Function.update q.queues i _ j).qdisc ≠ []) ∧
          (j ∉ (if (q.queues i).active = 0 then q.activeList ++ [i] else q.activeList) →
            (Function.update q.queues i _ j).active = 0 ∧
              (Function.update q.queues i _ j).qdisc = [])
        rw [if_neg ha]
        by_cases hj : j = i
        · subst hj
          simp only [Function.update_same]
          constructor
          · intro _
            constructor
            · show (dwrr_qdisc_enqueue_class cfg t q j skb).active = 1
              unfold dwrr_qdisc_enqueue_class
              rw [if_neg ha]
              exact ((hm j).1 hi).1
            · show (q.queues j).qdisc ++ [_] ≠ []
              simp
          · intro hne
            exact absurd hi hne
        · simp only [Function.update_noteq hj]
          exact hm j
  · intro q i rest h _
    refine key q i _ _ h rfl ?_ ?_
    · unfold dwrr_qdisc_dequeue_visit_class; split <;> rfl
    · unfold dwrr_qdisc_dequeue_visit_class; split <;> rfl
  · intro cfg now q len h
    exact h
  · intro cfg clk q i rest skb tl _ h hq hf _
    obtain ⟨hn, hm⟩ := h
    rw [hq] at hn
    have hn' := List.nodup_cons.mp hn
    constructor
    · show (if tl = [] then rest else i :: rest).Nodup
      split
      · exact hn'.2
      · exact hn
    · intro j
      show (j ∈ (if tl = [] then rest else i :: rest) →
          (Function.update q.queues i (dwrr_qdisc_dequeue_release_class cfg (clk 1) q i skb tl)
            j).active = 1 ∧
          (Function.update q.queues i (dwrr_qdisc_dequeue_release_class cfg (clk 1) q i skb tl)
            j).qdisc ≠ []) ∧
        (j ∉ (if tl = [] then rest else i :: rest) →
          (Function.update q.queues i (dwrr_qdisc_dequeue_release_class cfg (clk 1) q i skb tl)
            j).active = 0 ∧
          (Function.update q.queues i (dwrr_qdisc_dequeue_release_class cfg (clk 1) q i skb tl)
            j).qdisc = [])
      have hmj := hm j
      rw [hq] at hmj
      by_cases hj : j = i
      · subst hj
        simp only [Function.update_same]
        unfold dwrr_qdisc_dequeue_release_class
        by_cases ht : tl = []
        · rw [if_pos ht, if_pos ht]
          exact ⟨fun hmem => absurd hmem hn'.1, fun _ => ⟨rfl, ht⟩⟩
        · rw [if_neg ht, if_neg ht]
          refine ⟨fun _ => ⟨(hmj.1 (List.mem_cons_self _ _)).1, ht⟩, fun hne => ?_⟩
          exact absurd (List.mem_cons_self _ _) hne
      · simp only [Function.update_noteq hj]
        split
        · refine ⟨fun hmem => hmj.1 (List.mem_cons_of_mem _ hmem), fun hne => hmj.2 ?_⟩
          simpa [hj] using hne
        · exact hmj
  · intro cfg t q i rest skb tl _ h hq hf _
    obtain ⟨hn, hm⟩ := h
    rw [hq] at hn
    have hn' := List.nodup_cons.mp hn
    constructor
    · show (rest ++ [i]).Nodup
      exact List.Nodup.append hn'.2 (List.nodup_singleton i) (by simpa using hn'.1)
    · intro j
      show (j ∈ rest ++ [i] →
          (Function.update q.queues i (dwrr_qdisc_dequeue_yield_class cfg t q i) j).active = 1 ∧
          (Function.update q.queues i (dwrr_qdisc_dequeue_yield_class cfg t q i) j).qdisc ≠ []) ∧
        (j ∉ rest ++ [i] →
          (Function.update q.queues i (dwrr_qdisc_dequeue_yield_class cfg t q i) j).active = 0 ∧
          (Function.update q.queues i (dwrr_qdisc_dequeue_yield_class cfg t q i) j).qdisc = [])
      have hmj := hm j
      rw [hq] at hmj
      by_cases hj : j = i
      · subst hj
        simp only [Function.update_same]
        refine ⟨fun _ => hmj.1 (List.mem_cons_self _ _), fun hne => ?_⟩
        simp at hne
      · simp only [Function.update_noteq hj]
        refine ⟨fun hmem => hmj.1 ?_, fun hne => hmj.2 ?_⟩
        · simpa [hj] using hmem
        · simpa [hj] using hne

theorem active_ok_reachable_qdisc (P : dwrr_params → Prop) :
    (∀ q, Reachable P q → active_ok q) ∧ (∀ q, Examined P q → active_ok q) := by
  obtain ⟨a, b, c, d, e, f, g⟩ := active_ok_blocks_qdisc P
  exact reachable_induction_qdisc P active_ok
    (by intro clk rate; simp [active_ok, dwrr_qdisc_init]) a b c d e f g

theorem ids_reachable_qdisc (P : dwrr_params → Prop) :
    (∀ q, Reachable P q → ∀ i, (q.queues i).id = i.val) ∧
    (∀ q, Examined P q → ∀ i, (q.queues i).id = i.val) := by
  have key : ∀ (f : Fin 8 → dwrr_class) (i : Fin 8) (C : dwrr_class),
      (∀ j, (f j).id = j.val) → C.id = (f i).id → ∀ j, (Function.update f i C j).id = j.val := by
    intro f i C hf hC j
    by_cases hj : j = i
    · subst hj; simp [hC, hf]
    · simp [Function.update_noteq hj, hf]
  apply reachable_induction_qdisc P (fun q => ∀ i, (q.queues i).id = i.val)
  · intro clk rate i
    rfl
  · intro q rt h
    exact h
  · intro q i n h
    exact key _ _ _ h rfl
  · intro cfg t q i skb _ h _
    refine key _ _ _ h ?_
    show (dwrr_qdisc_enqueue_class cfg t q i skb).id = _
    unfold dwrr_qdisc_enqueue_class; split <;> rfl
  · intro q i rest h _
    refine key _ _ _ h ?_
    unfold dwrr_qdisc_dequeue_visit_class; split <;> rfl
  · intro cfg now q len h
    exact h
  · intro cfg clk q i rest skb tl _ h _ _ _
    refine key _ _ _ h ?_
    unfold dwrr_qdisc_dequeue_release_class; split <;> rfl
  · intro cfg t q i rest skb tl _ h _ _ _
    exact key _ _ _ h rfl

theorem tokens_le_bucket_qdisc (B : Int) (hB : 0 ≤ B) :
    (∀ q, Reachable (fun cfg => cfg.DWRR_QDISC_BUCKET_NS = B) q → q.tokens ≤ B) ∧
    (∀ q, Examined (fun cfg => cfg.DWRR_QDISC_BUCKET_NS = B) q → q.tokens ≤ B) := by
  apply reachable_induction_qdisc _ (fun q => q.tokens ≤ B)
  · intro clk rate
    exact hB
  · intro q rt h
    exact h
  · intro q i n h
    exact h
  · intro cfg t q i skb _ h _
    exact h
  · intro q i rest h _
    exact h
  · intro cfg now q len h
    exact h
  · intro cfg clk q i rest skb tl hc h _ _ _
    show min _ cfg.DWRR_QDISC_BUCKET_NS ≤ B
    have hc' : cfg.DWRR_QDISC_BUCKET_NS = B := hc
    rw [hc']
    exact min_le_right _ _
  · intro cfg t q i rest skb tl _ h _ _ _
    exact h

end sch_dwrr

/-! ### States examined by the dequeue loop -/

namespace sch_dwrr2

theorem examined_head {P : dwrr_params → Prop} {q : dwrr_sched_data} (h : Examined P q) :
    ∃ i rest skb tl, q.active = i :: rest ∧ (q.queues i).qdisc = skb :: tl := by
  have hok := (active_ok_reachable P).2 q h
  have hne : q.active ≠ [] := by
    cases h with
    | entry _ hne => exact hne
    | again cfg now _ _ hit =>
      obtain ⟨rest, skb, tl, _, _, _, h1⟩ := dwrr_dequeue_iter_again hit
      rw [h1]
      show rest ++ [_] ≠ []
      simp
  rcases hq : q.active with _ | ⟨i, rest⟩
  · exact absurd hq hne
  · have hi : i ∈ q.active := by rw [hq]; exact List.mem_cons_self _ _
    have := (hok.2 i).mp hi
    rcases hf : (q.queues i).qdisc with _ | ⟨skb, tl⟩
    · exact absurd hf this
    · exact ⟨i, rest, skb, tl, rfl, hf⟩

theorem examined_iter_exit {P : dwrr_params → Prop} {q q1 : dwrr_sched_data} {cfg : dwrr_params}
    {now : Int} {r : deq_exit} (h : Examined P q) (hit : dwrr_dequeue_iter cfg now q = .exit q1 r) :
    r ≠ .no_packet ∧ r ≠ .no_class := by
  obtain ⟨i, rest, skb, tl, hq, hf⟩ := examined_head h
  rcases dwrr_dequeue_iter_exit hit with ⟨h0, _, _⟩ | ⟨i2, rest2, hq2, hf2, _, _⟩ |
    ⟨_, _, _, _, _, _, _, _, _, hr⟩ | ⟨_, _, _, _, _, _, _, _, _, hr⟩
  · rw [hq] at h0; simp at h0
  · rw [hq] at hq2
    simp only [List.cons.injEq] at hq2
    rw [← hq2.1, hf] at hf2
    simp at hf2
  · rw [hr]; simp
  · rw [hr]; simp

theorem examined_loop_exit {P : dwrr_params → Prop} {cfg : dwrr_params} (hc : P cfg) {now : Int}
    (fuel : Nat) : ∀ {q q1 : dwrr_sched_data} {r : deq_exit} {ys : List (Fin 8)}, Examined P q →
      dwrr_dequeue_loop cfg now fuel q = some (q1, r, ys) → r ≠ .no_packet ∧ r ≠ .no_class := by
  induction fuel with
  | zero => intro q q1 r ys _ h; simp [dwrr_dequeue_loop] at h
  | succ n ih =>
    intro q q1 r ys hex h
    unfold dwrr_dequeue_loop at h
    split at h
    · rename_i q2 r2 hit
      simp only [Option.some.injEq, Prod.mk.injEq] at h
      rw [← h.2.1]
      exact examined_iter_exit hex hit
    · rename_i q2 j hit
      split at h
      · rename_i q3 r3 ys3 hl
        simp only [Option.some.injEq, Prod.mk.injEq] at h
        rw [← h.2.1]
        exact ih (Examined.again cfg now hc hex hit) hl
      · simp at h

theorem reachable_dequeue_exit {P : dwrr_params → Prop} {cfg : dwrr_params} (hc : P cfg)
    {now : Int} {fuel : Nat} {q q1 : dwrr_sched_data} {r : deq_exit} {ys : List (Fin 8)}
    (hq : Reachable P q) (h : dwrr_dequeue fuel cfg now q = some (q1, r, ys)) :
    r ≠ .no_packet ∧ r ≠ .no_class := by
  unfold dwrr_dequeue at h
  split at h
  · simp only [Option.some.injEq, Prod.mk.injEq] at h
    rw [← h.2.1]; simp
  · rename_i hne
    exact examined_loop_exit hc fuel (Examined.entry hq hne) h

end sch_dwrr2

namespace sch_dwrr

theorem examined_head_qdisc {P : dwrr_params → Prop} {q : dwrr_sched_data} (h : Examined P q) :
    ∃ i rest skb tl, q.activeList = i :: rest ∧ (q.queues i).qdisc = skb :: tl := by
  have hok := (active_ok_reachable_qdisc P).2 q h
  have hne : q.activeList ≠ [] := by
    cases h with
    | entry _ hne => exact hne
    | again cfg clk _ _ hit =>
      obtain ⟨rest, skb, tl, _, _, _, h1⟩ := dwrr_qdisc_dequeue_iter_again hit
      rw [h1]
      show rest ++ [_] ≠ []
      simp
  rcases hq : q.activeList with _ | ⟨i, rest⟩
  · exact absurd hq hne
  · have hi : i ∈ q.activeList := by rw [hq]; exact List.mem_cons_self _ _
    have := ((hok.2 i).1 hi).2
    rcases hf : (q.queues i).qdisc with _ | ⟨skb, tl⟩
    · exact absurd hf this
    · exact ⟨i, rest, skb, tl, rfl, hf⟩

theorem examined_iter_exit_qdisc {P : dwrr_params → Prop} {q q1 : dwrr_sched_data}
    {cfg : dwrr_params} {clk : Nat → Int} {r : deq_exit} (h : Examined P q)
    (hit : dwrr_qdisc_dequeue_iter cfg clk q = .exit q1 r) :
    r ≠ .no_packet ∧ r ≠ .no_class := by
  obtain ⟨i, rest, skb, tl, hq, hf⟩ := examined_head_qdisc h
  rcases dwrr_qdisc_dequeue_iter_exit hit with ⟨h0, _, _⟩ | ⟨i2, rest2, hq2, hf2, _, _⟩ |
    ⟨_, _, _, _, _, _, _, _, _, hr⟩ | ⟨_, _, _, _, _, _, _, _, _, hr⟩
  · rw [hq] at h0; simp at h0
  · rw [hq] at hq2
    simp only [List.cons.injEq] at hq2
    rw [← hq2.1, hf] at hf2
    simp at hf2
  · rw [hr]; simp
  · rw [hr]; simp

theorem examined_loop_exit_qdisc {P : dwrr_params → Prop} {cfg : dwrr_params} (hc : P cfg)
    (fuel : Nat) : ∀ {clk : Nat → Int} {q q1 : dwrr_sched_data} {r : deq_exit}
      {ys : List (Fin 8)}, Examined P q →
      dwrr_qdisc_dequeue_loop cfg fuel clk q = some (q1, r, ys) →
      r ≠ .no_packet ∧ r ≠ .no_class := by
  induction fuel with
  | zero => intro clk q q1 r ys _ h; simp [dwrr_qdisc_dequeue_loop] at h
  | succ n ih =>
    intro clk q q1 r ys hex h
    unfold dwrr_qdisc_dequeue_loop at h
    split at h
    · rename_i q2 r2 hit
      simp only [Option.some.injEq, Prod.mk.injEq] at h
      rw [← h.2.1]
      exact examined_iter_exit_qdisc hex hit
    · rename_i q2 j hit
      split at h
      · rename_i q3 r3 ys3 hl
        simp only [Option.some.injEq, Prod.mk.injEq] at h
        rw [← h.2.1]
        exact ih (Examined.again cfg clk hc hex hit) hl
      · simp at h

theorem reachable_dequeue_exit_qdisc {P : dwrr_params → Prop} {cfg : dwrr_params} (hc : P cfg)
    {clk : Nat → Int} {fuel : Nat} {q q1 : dwrr_sched_data} {r : deq_exit} {ys : List (Fin 8)}
    (hq : Reachable P q) (h : dwrr_qdisc_dequeue fuel cfg clk q = some (q1, r, ys)) :
    r ≠ .no_packet ∧ r ≠ .no_class := by
  unfold dwrr_qdisc_dequeue at h
  split at h
  · simp only [Option.some.injEq, Prod.mk.injEq] at h
    rw [← h.2.1]; simp
  · rename_i hne
    exact examined_loop_exit_qdisc hc fuel (Examined.entry hq hne) h

end sch_dwrr

/-! ### Conservation, active list and token bound -/

namespace sch_dwrr2

theorem after_three_reachable (P : dwrr_params → Prop) (h : P static_cfg) :
    Reachable P after_three.2 :=
  Reachable.enqueue static_cfg _ pkt_1500 h
    (Reachable.enqueue static_cfg _ pkt_1500 h
      (Reachable.enqueue static_cfg _ pkt_1500 h (Reachable.init _ _)))

theorem after_dequeue_eq :
    dwrr_dequeue 1 static_cfg 100000 after_three.2 = some after_dequeue := by
  rfl

theorem dequeue_rate {fuel : Nat} {cfg : dwrr_params} {now : Int} {q q1 : dwrr_sched_data}
    {r : deq_exit} {ys : List (Fin 8)} (h : dwrr_dequeue fuel cfg now q = some (q1, r, ys)) :
    q1.rate = q.rate := by
  have h_loop : ∀ fuel q q1 r ys, dwrr_dequeue_loop cfg now fuel q = some (q1, r, ys) →
      q1.rate = q.rate := by
    intro fuel
    induction fuel with
    | zero => intro q q1 r ys h; simp [dwrr_dequeue_loop] at h
    | succ n ih =>
      intro q q1 r ys h
      unfold dwrr_dequeue_loop at h
      split at h
      · rename_i q2 r2 hit
        simp only [Option.some.injEq, Prod.mk.injEq] at h
        rw [← h.1]
        rcases dwrr_dequeue_iter_exit hit with ⟨_, h1, _⟩ | ⟨_, _, _, _, h1, _⟩ |
          ⟨_, _, _, _, _, _, _, _, h1, _⟩ | ⟨_, _, _, _, _, _, _, _, h1, _⟩ <;> rw [h1] <;> rfl
      · rename_i q2 j hit
        split at h
        · rename_i q3 r3 ys3 hl
          simp only [Option.some.injEq, Prod.mk.injEq] at h
          rw [← h.1, ih _ _ _ _ hl]
          obtain ⟨_, _, _, _, _, _, h1⟩ := dwrr_dequeue_iter_again hit
          rw [h1]; rfl
        · simp at h
  unfold dwrr_dequeue at h
  split at h
  · simp only [Option.some.injEq, Prod.mk.injEq] at h
    rw [← h.1]
  · exact h_loop _ _ _ _ _ h

end sch_dwrr2

namespace sch_dwrr

theorem after_three_reachable_qdisc (P : dwrr_params → Prop) (h : P static_cfg) :
    Reachable P after_three.2 :=
  Reachable.enqueue static_cfg _ pkt_1500 h
    (Reachable.enqueue static_cfg _ pkt_1500 h
      (Reachable.enqueue static_cfg _ pkt_1500 h (Reachable.init _ _)))

theorem after_dequeue_eq_qdisc :
    dwrr_qdisc_dequeue 1 static_cfg (fun _ => 100000) after_three.2 = some after_dequeue := by
  rfl

end sch_dwrr

/-- C1: in both variants, in every state reachable from the initial state
through enqueue and dequeue calls (whatever the values of the sysctl variables
at each call), `sum_len_bytes` equals the sum of `len_bytes` over the 8 class
queues, reduced modulo 2^32. -/
theorem sum_len_bytes_conservation :
    (∀ (P : sch_dwrr2.dwrr_params → Prop) (q : sch_dwrr2.dwrr_sched_data),
      sch_dwrr2.Reachable P q →
      q.sum_len_bytes = (∑ i, (q.queues i).len_bytes) % 4294967296) ∧
    (∀ (P : sch_dwrr.dwrr_params → Prop) (q : sch_dwrr.dwrr_sched_data),
      sch_dwrr.Reachable P q →
      q.sum_len_bytes = (∑ i, (q.queues i).len_bytes) % 4294967296) :=
  ⟨fun P q h => (sch_dwrr2.conserved_reachable P).1 q h,
    fun P q h => (sch_dwrr.conserved_reachable_qdisc P).1 q h⟩

/-- Conservation at the state reached by the three enqueues of the scenario, in
both variants. -/
theorem sum_len_bytes_conservation_witness :
    sch_dwrr2.after_three.2.sum_len_bytes =
        (∑ i, (sch_dwrr2.after_three.2.queues i).len_bytes) % 4294967296 ∧
      sch_dwrr.after_three.2.sum_len_bytes =
        (∑ i, (sch_dwrr.after_three.2.queues i).len_bytes) % 4294967296 :=
  ⟨sum_len_bytes_conservation.1 (fun _ => True) _
      (sch_dwrr2.after_three_reachable _ trivial),
    sum_len_bytes_conservation.2 (fun _ => True) _
      (sch_dwrr.after_three_reachable_qdisc _ trivial)⟩

/-- C2: in both variants, in every reachable state no class occurs twice in the
active list and a class is in the list exactly when its inner FIFO is not empty
(in sch_dwrr also: exactly when its flag `active` is 1); hence in every state in
which the dequeue loop examines the head of the list, the head class has a head
packet, a pass of the loop never leaves through the empty-peek branch (nor
through the null-class branch), and no completed dequeue call does. -/
theorem active_list_invariant :
    ((∀ (P : sch_dwrr2.dwrr_params → Prop) (q : sch_dwrr2.dwrr_sched_data),
        sch_dwrr2.Reachable P q →
        q.active.Nodup ∧ ∀ i, i ∈ q.active ↔ (q.queues i).qdisc ≠ []) ∧
      (∀ (P : sch_dwrr2.dwrr_params → Prop) (q : sch_dwrr2.dwrr_sched_data),
        sch_dwrr2.Examined P q →
        (∃ i rest skb tl, q.active = i :: rest ∧ (q.queues i).qdisc = skb :: tl) ∧
        ∀ cfg now q1 r, sch_dwrr2.dwrr_dequeue_iter cfg now q = .exit q1 r →
          r ≠ .no_packet ∧ r ≠ .no_class) ∧
      (∀ (P : sch_dwrr2.dwrr_params → Prop) (q : sch_dwrr2.dwrr_sched_data),
        sch_dwrr2.Reachable P q → ∀ fuel cfg now q1 r ys, P cfg →
        sch_dwrr2.dwrr_dequeue fuel cfg now q = some (q1, r, ys) →
        r ≠ .no_packet ∧ r ≠ .no_class)) ∧
    ((∀ (P : sch_dwrr.dwrr_params → Prop) (q : sch_dwrr.dwrr_sched_data),
        sch_dwrr.Reachable P q →
        q.activeList.Nodup ∧
        (∀ i, i ∈ q.activeList ↔ (q.queues i).active = 1) ∧
        (∀ i, i ∈ q.activeList ↔ (q.queues i).qdisc ≠ [])) ∧
      (∀ (P : sch_dwrr.dwrr_params → Prop) (q : sch_dwrr.dwrr_sched_data),
        sch_dwrr.Examined P q →
        (∃ i rest skb tl, q.activeList = i :: rest ∧ (q.queues i).qdisc = skb :: tl) ∧
        ∀ cfg clk q1 r, sch_dwrr.dwrr_qdisc_dequeue_iter cfg clk q = .exit q1 r →
          r ≠ .no_packet ∧ r ≠ .no_class) ∧
      (∀ (P : sch_dwrr.dwrr_params → Prop) (q : sch_dwrr.dwrr_sched_data),
        sch_dwrr.Reachable P q → ∀ fuel cfg clk q1 r ys, P cfg →
        sch_dwrr.dwrr_qdisc_dequeue fuel cfg clk q = some (q1, r, ys) →
        r ≠ .no_packet ∧ r ≠ .no_class)) := by
  refine ⟨⟨fun P q h => (sch_dwrr2.active_ok_reachable P).1 q h,
      fun P q h => ⟨sch_dwrr2.examined_head h, fun _ _ _ _ hit =>
        sch_dwrr2.examined_iter_exit h hit⟩,
      fun P q h fuel cfg now q1 r ys hc hd => sch_dwrr2.reachable_dequeue_exit hc h hd⟩,
    ⟨fun P q h => ?_,
      fun P q h => ⟨sch_dwrr.examined_head_qdisc h, fun _ _ _ _ hit =>
        sch_dwrr.examined_iter_exit_qdisc h hit⟩,
      fun P q h fuel cfg clk q1 r ys hc hd => sch_dwrr.reachable_dequeue_exit_qdisc hc h hd⟩⟩
  obtain ⟨hn, hm⟩ := (sch_dwrr.active_ok_reachable_qdisc P).1 q h
  refine ⟨hn, fun i => ⟨fun hi => ((hm i).1 hi).1, fun ha => ?_⟩,
    fun i => ⟨fun hi => ((hm i).1 hi).2, fun hf => ?_⟩⟩
  · by_contra hne
    have := ((hm i).2 hne).1
    omega
  · by_contra hne
    exact hf ((hm i).2 hne).2

/-- The invariant of the active list at the state reached by the three enqueues
of the scenario, and the dequeue made there, in both variants. -/
theorem active_list_invariant_witness :
    (sch_dwrr2.after_three.2.active.Nodup ∧
      ∀ i, i ∈ sch_dwrr2.after_three.2.active ↔ (sch_dwrr2.after_three.2.queues i).qdisc ≠ []) ∧
    (sch_dwrr2.after_dequeue.2.1 ≠ .no_packet ∧ sch_dwrr2.after_dequeue.2.1 ≠ .no_class) ∧
    (sch_dwrr.after_dequeue.2.1 ≠ .no_packet ∧ sch_dwrr.after_dequeue.2.1 ≠ .no_class) :=
  ⟨active_list_invariant.1.1 (fun _ => True) _ (sch_dwrr2.after_three_reachable _ trivial),
    active_list_invariant.1.2.2 (fun _ => True) _ (sch_dwrr2.after_three_reachable _ trivial)
      1 sch_dwrr2.static_cfg 100000 _ _ _ trivial sch_dwrr2.after_dequeue_eq,
    active_list_invariant.2.2.2 (fun _ => True) _ (sch_dwrr.after_three_reachable_qdisc _ trivial)
      1 sch_dwrr.static_cfg (fun _ => 100000) _ _ _ trivial sch_dwrr.after_dequeue_eq_qdisc⟩

/-- C4: with the bucket size fixed, the tokens never exceed the bucket depth: in
sch_dwrr2, for every value `b` of `dwrr_bucket_bytes`, every reachable state
and the state left by every dequeue call made there (whatever it returns) have
`tokens ≤ l2t_ns(rate, b)`, the rate being unchanged by the call; in sch_dwrr,
for every non-negative value `B` of `DWRR_QDISC_BUCKET_NS`, they have `tokens ≤ B`. -/
theorem tokens_at_most_bucket :
    (∀ (b : Int) (q : sch_dwrr2.dwrr_sched_data),
      sch_dwrr2.Reachable (fun cfg => cfg.dwrr_bucket_bytes = b) q →
      q.tokens ≤ (sch_dwrr2.l2t_ns q.rate (u32_of_int b) : Int) ∧
      ∀ fuel cfg now q1 r ys, cfg.dwrr_bucket_bytes = b →
        sch_dwrr2.dwrr_dequeue fuel cfg now q = some (q1, r, ys) →
        q1.rate = q.rate ∧ q1.tokens ≤ (sch_dwrr2.l2t_ns q1.rate (u32_of_int b) : Int)) ∧
    (∀ (B : Int), 0 ≤ B → ∀ (q : sch_dwrr.dwrr_sched_data),
      sch_dwrr.Reachable (fun cfg => cfg.DWRR_QDISC_BUCKET_NS = B) q →
      q.tokens ≤ B ∧
      ∀ fuel cfg clk q1 r ys, cfg.DWRR_QDISC_BUCKET_NS = B →
        sch_dwrr.dwrr_qdisc_dequeue fuel cfg clk q = some (q1, r, ys) → q1.tokens ≤ B) := by
  constructor
  · intro b q h
    refine ⟨((sch_dwrr2.tokens_ok_reachable b).1 q h).2, ?_⟩
    intro fuel cfg now q1 r ys hc hd
    exact ⟨sch_dwrr2.dequeue_rate hd,
      ((sch_dwrr2.tokens_ok_reachable b).1 q1 (sch_dwrr2.Reachable.dequeue fuel cfg now hc h hd)).2⟩
  · intro B hB q h
    refine ⟨(sch_dwrr.tokens_le_bucket_qdisc B hB).1 q h, ?_⟩
    intro fuel cfg clk q1 r ys hc hd
    exact (sch_dwrr.tokens_le_bucket_qdisc B hB).1 q1
      (sch_dwrr.Reachable.dequeue fuel cfg clk hc h hd)

/-- The token bound at the state left by the dequeue of the scenario (bucket of
2500 bytes, respectively 20000 ns), in both variants. -/
theorem tokens_at_most_bucket_witness :
    sch_dwrr2.after_dequeue.1.tokens ≤
        (sch_dwrr2.l2t_ns sch_dwrr2.after_dequeue.1.rate (u32_of_int 2500) : Int) ∧
      sch_dwrr.after_dequeue.1.tokens ≤ 20000 :=
  ⟨((tokens_at_most_bucket.1 2500 _ (sch_dwrr2.after_three_reachable _ rfl)).2
      1 sch_dwrr2.static_cfg 100000 _ _ _ rfl sch_dwrr2.after_dequeue_eq).2,
    (tokens_at_most_bucket.2 20000 (by decide) _ (sch_dwrr.after_three_reachable_qdisc _ rfl)).2
      1 sch_dwrr.static_cfg (fun _ => 100000) _ _ _ rfl sch_dwrr.after_dequeue_eq_qdisc⟩

/-! ### Token starvation -/

namespace sch_dwrr2

theorem untouched_refl (q : dwrr_sched_data) : untouched q q :=
  ⟨fun _ => ⟨rfl, rfl⟩, rfl, rfl, rfl⟩

theorem untouched_trans {a b c : dwrr_sched_data} (h1 : untouched a b) (h2 : untouched b c) :
    untouched a c :=
  ⟨fun i => ⟨((h2.1 i).1).trans (h1.1 i).1, ((h2.1 i).2).trans (h1.1 i).2⟩,
    h2.2.1.trans h1.2.1, h2.2.2.1.trans h1.2.2.1, h2.2.2.2.trans h1.2.2.2⟩

theorem untouched_yield (cfg : dwrr_params) (q : dwrr_sched_data) (i : Fin 8)
    (rest : List (Fin 8)) : untouched q (dwrr_dequeue_yield cfg q i rest) := by
  refine ⟨fun j => ?_, rfl, rfl, rfl⟩
  show (Function.update q.queues i (dwrr_dequeue_yield_class cfg q i) j).qdisc = _ ∧
    (Function.update q.queues i (dwrr_dequeue_yield_class cfg q i) j).len_bytes = _
  by_cases hj : j = i
  · subst hj
    rw [Function.update_same]
    exact ⟨rfl, rfl⟩
  · rw [Function.update_noteq hj]
    exact ⟨rfl, rfl⟩

theorem loop_overlimit {cfg : dwrr_params} {now : Int} (fuel : Nat) :
    ∀ {q q1 : dwrr_sched_data} {ys : List (Fin 8)},
      dwrr_dequeue_loop cfg now fuel q = some (q1, .overlimit, ys) →
      ∃ q0 i rest skb tl, untouched q q0 ∧ q0.active = i :: rest ∧
        (q0.queues i).qdisc = skb :: tl ∧ skb_size skb ≤ (q0.queues i).deficit ∧
        q1 = dwrr_dequeue_throttle cfg now q0 (skb_size skb) := by
  induction fuel with
  | zero => intro q q1 ys h; simp [dwrr_dequeue_loop] at h
  | succ n ih =>
    intro q q1 ys h
    unfold dwrr_dequeue_loop at h
    split at h
    · rename_i q2 r2 hit
      simp only [Option.some.injEq, Prod.mk.injEq] at h
      obtain ⟨h1, h2, _⟩ := h
      subst h1 h2
      rcases dwrr_dequeue_iter_exit hit with ⟨_, _, hr⟩ | ⟨_, _, _, _, _, hr⟩ |
        ⟨i, rest, skb, tl, hq, hf, hd, _, h1, _⟩ | ⟨_, _, _, _, _, _, _, _, _, hr⟩
      · simp at hr
      · simp at hr
      · exact ⟨q, i, rest, skb, tl, untouched_refl q, hq, hf, hd, h1⟩
      · simp at hr
    · rename_i q2 j hit
      split at h
      · rename_i q3 r3 ys3 hl
        simp only [Option.some.injEq, Prod.mk.injEq] at h
        obtain ⟨h1, h2, _⟩ := h
        subst h1 h2
        obtain ⟨q0, i, rest, skb, tl, hu, hq, hf, hd, h1⟩ := ih hl
        obtain ⟨rest2, _, _, _, _, _, hy⟩ := dwrr_dequeue_iter_again hit
        refine ⟨q0, i, rest, skb, tl, untouched_trans ?_ hu, hq, hf, hd, h1⟩
        rw [hy]
        exact untouched_yield cfg q j rest2
      · simp at h

theorem untouched_throttle (cfg : dwrr_params) (now : Int) (q : dwrr_sched_data) (len : Nat) :
    untouched q (dwrr_dequeue_throttle cfg now q len) :=
  ⟨fun _ => ⟨rfl, rfl⟩, rfl, rfl, rfl⟩

theorem iter_throttle {cfg : dwrr_params} {now : Int} {q : dwrr_sched_data} {i : Fin 8}
    {rest : List (Fin 8)} {skb : sk_buff} {tl : List sk_buff} (hq : q.active = i :: rest)
    (hf : (q.queues i).qdisc = skb :: tl) (hd : skb_size skb ≤ (q.queues i).deficit)
    (ht : tbf_schedule cfg (skb_size skb) q now < 0) :
    dwrr_dequeue_iter cfg now q =
      .exit (dwrr_dequeue_throttle cfg now q (skb_size skb)) .overlimit := by
  unfold dwrr_dequeue_iter
  split
  · rename_i h0; rw [hq] at h0; simp at h0
  · rename_i i2 rest2 h0
    rw [hq] at h0
    simp only [List.cons.injEq] at h0
    obtain ⟨h1, h2⟩ := h0
    subst h1 h2
    split
    · rename_i h3; rw [hf] at h3; simp at h3
    · rename_i skb2 tl2 h3
      rw [hf] at h3
      simp only [List.cons.injEq] at h3
      obtain ⟨h4, h5⟩ := h3
      subst h4 h5
      rw [if_pos hd, if_pos ht]

theorem dequeue_starved {fuel : Nat} {cfg : dwrr_params} {now : Int} {q q1 : dwrr_sched_data}
    {ys : List (Fin 8)} (h : dwrr_dequeue fuel cfg now q = some (q1, .overlimit, ys)) :
    untouched q q1 ∧
    ∀ cfg2 now2 fuel2, tokens_short cfg2 now2 q1 →
      ∃ d, dwrr_dequeue (fuel2 + 1) cfg2 now2 q1 =
        some ({ q1 with watchdog := some d, overlimits := q1.overlimits + 1 }, .overlimit, []) := by
  unfold dwrr_dequeue at h
  split at h
  · simp at h
  · obtain ⟨q0, i, rest, skb, tl, hu, hq, hf, hd, h1⟩ := loop_overlimit fuel h
    subst h1
    refine ⟨untouched_trans hu (untouched_throttle cfg now q0 _), ?_⟩
    intro cfg2 now2 fuel2 hs
    have hq1 : (dwrr_dequeue_throttle cfg now q0 (skb_size skb)).active = i :: rest := hq
    have hf1 : ((dwrr_dequeue_throttle cfg now q0 (skb_size skb)).queues i).qdisc = skb :: tl := hf
    have hd1 : skb_size skb ≤ ((dwrr_dequeue_throttle cfg now q0 (skb_size skb)).queues i).deficit :=
      hd
    obtain ⟨skb2, hh, ht⟩ := hs
    have : skb2 = skb := by
      unfold dwrr_head_packet at hh
      rw [hq1] at hh
      simp only [hf1, List.head?_cons, Option.some.injEq] at hh
      exact hh.symm
    subst this
    refine ⟨s64 (now2 - tbf_schedule cfg2 (skb_size skb2)
      (dwrr_dequeue_throttle cfg now q0 (skb_size skb2)) now2), ?_⟩
    unfold dwrr_dequeue
    rw [if_neg (by rw [hq1]; simp)]
    unfold dwrr_dequeue_loop
    rw [iter_throttle hq1 hf1 hd1 ht]
    rfl

theorem after_starved_eq :
    dwrr_dequeue 1 static_cfg 100 after_three.2 = some after_starved := by
  rfl

end sch_dwrr2

namespace sch_dwrr

theorem untouched_refl_qdisc (q : dwrr_sched_data) : untouched q q :=
  ⟨fun _ => ⟨rfl, rfl⟩, rfl, rfl, rfl⟩

theorem untouched_trans_qdisc {a b c : dwrr_sched_data} (h1 : untouched a b)
    (h2 : untouched b c) : untouched a c :=
  ⟨fun i => ⟨((h2.1 i).1).trans (h1.1 i).1, ((h2.1 i).2).trans (h1.1 i).2⟩,
    h2.2.1.trans h1.2.1, h2.2.2.1.trans h1.2.2.1, h2.2.2.2.trans h1.2.2.2⟩

theorem untouched_visit (q : dwrr_sched_data) (i : Fin 8) :
    untouched q (dwrr_qdisc_dequeue_visit q i) := by
  refine ⟨fun j => ?_, rfl, rfl, rfl⟩
  show (Function.update q.queues i (dwrr_qdisc_dequeue_visit_class q i) j).qdisc = _ ∧
    (Function.update q.queues i (dwrr_qdisc_dequeue_visit_class q i) j).len_bytes = _
  by_cases hj : j = i
  · subst hj
    rw [Function.update_same]
    unfold dwrr_qdisc_dequeue_visit_class
    split <;> exact ⟨rfl, rfl⟩
  · rw [Function.update_noteq hj]
    exact ⟨rfl, rfl⟩

theorem untouched_yield_qdisc (cfg : dwrr_params) (t : Int) (q : dwrr_sched_data) (i : Fin 8)
    (rest : List (Fin 8)) : untouched q (dwrr_qdisc_dequeue_yield cfg t q i rest) := by
  refine ⟨fun j => ?_, rfl, rfl, rfl⟩
  show (Function.update q.queues i (dwrr_qdisc_dequeue_yield_class cfg t q i) j).qdisc = _ ∧
    (Function.update q.queues i (dwrr_qdisc_dequeue_yield_class cfg t q i) j).len_bytes = _
  by_cases hj : j = i
  · subst hj
    rw [Function.update_same]
    exact ⟨rfl, rfl⟩
  · rw [Function.update_noteq hj]
    exact ⟨rfl, rfl⟩

theorem untouched_throttle_qdisc (cfg : dwrr_params) (now : Int) (q : dwrr_sched_data)
    (len : Nat) : untouched q (dwrr_qdisc_dequeue_throttle cfg now q len) :=
  ⟨fun _ => ⟨rfl, rfl⟩, rfl, rfl, rfl⟩

theorem visit_curr (q : dwrr_sched_data) (i : Fin 8) :
    ((dwrr_qdisc_dequeue_visit q i).queues i).curr ≠ 0 := by
  show (Function.update q.queues i (dwrr_qdisc_dequeue_visit_class q i) i).curr ≠ 0
  rw [Function.update_same]
  unfold dwrr_qdisc_dequeue_visit_class
  split
  · simp
  · assumption

theorem visit_of_curr {q : dwrr_sched_data} {i : Fin 8} (h : (q.queues i).curr ≠ 0) :
    dwrr_qdisc_dequeue_visit q i = q := by
  unfold dwrr_qdisc_dequeue_visit dwrr_qdisc_dequeue_visit_class
  rw [if_neg h, Function.update_eq_self]

theorem loop_overlimit_qdisc {cfg : dwrr_params} (fuel : Nat) :
    ∀ {clk : Nat → Int} {q q1 : dwrr_sched_data} {ys : List (Fin 8)},
      dwrr_qdisc_dequeue_loop cfg fuel clk q = some (q1, .overlimit, ys) →
      ∃ q0 now0 i rest skb tl, untouched q q0 ∧ q0.activeList = i :: rest ∧
        (q0.queues i).qdisc = skb :: tl ∧ (q0.queues i).curr ≠ 0 ∧
        skb_size skb ≤ (q0.queues i).deficitCounter ∧
        q1 = dwrr_qdisc_dequeue_throttle cfg now0 q0 (skb_size skb) := by
  induction fuel with
  | zero => intro clk q q1 ys h; simp [dwrr_qdisc_dequeue_loop] at h
  | succ n ih =>
    intro clk q q1 ys h
    unfold dwrr_qdisc_dequeue_loop at h
    split at h
    · rename_i q2 r2 hit
      simp only [Option.some.injEq, Prod.mk.injEq] at h
      obtain ⟨h1, h2, _⟩ := h
      subst h1 h2
      rcases dwrr_qdisc_dequeue_iter_exit hit with ⟨_, _, hr⟩ | ⟨_, _, _, _, _, hr⟩ |
        ⟨i, rest, skb, tl, hq, hf, hd, _, h1, _⟩ | ⟨_, _, _, _, _, _, _, _, _, hr⟩
      · simp at hr
      · simp at hr
      · exact ⟨dwrr_qdisc_dequeue_visit q i, clk 0, i, rest, skb, tl, untouched_visit q i, hq,
          (visit_qdisc q i).trans hf, visit_curr q i, hd, h1⟩
      · simp at hr
    · rename_i q2 j hit
      split at h
      · rename_i q3 r3 ys3 hl
        simp only [Option.some.injEq, Prod.mk.injEq] at h
        obtain ⟨h1, h2, _⟩ := h
        subst h1 h2
        obtain ⟨q0, now0, i, rest, skb, tl, hu, hq, hf, hc, hd, h1⟩ := ih hl
        obtain ⟨rest2, _, _, _, _, _, hy⟩ := dwrr_qdisc_dequeue_iter_again hit
        refine ⟨q0, now0, i, rest, skb, tl, untouched_trans_qdisc ?_ hu, hq, hf, hc, hd, h1⟩
        rw [hy]
        exact untouched_trans_qdisc (untouched_visit q j) (untouched_yield_qdisc cfg _ _ j rest2)
      · simp at h

theorem iter_throttle_qdisc {cfg : dwrr_params} {clk : Nat → Int} {q : dwrr_sched_data}
    {i : Fin 8} {rest : List (Fin 8)} {skb : sk_buff} {tl : List sk_buff}
    (hq : q.activeList = i :: rest) (hf : (q.queues i).qdisc = skb :: tl)
    (hc : (q.queues i).curr ≠ 0) (hd : skb_size skb ≤ (q.queues i).deficitCounter)
    (ht : ¬ dwrr_qdisc_toks cfg (clk 0) q > s64 (l2t_ns q.rate (skb_size skb))) :
    dwrr_qdisc_dequeue_iter cfg clk q =
      .exit (dwrr_qdisc_dequeue_throttle cfg (clk 0) q (skb_size skb)) .overlimit := by
  unfold dwrr_qdisc_dequeue_iter
  split
  · rename_i h0; rw [hq] at h0; simp at h0
  · rename_i i2 rest2 h0
    rw [hq] at h0
    simp only [List.cons.injEq] at h0
    obtain ⟨h1, h2⟩ := h0
    subst h1 h2
    simp only
    split
    · rename_i h3; rw [hf] at h3; simp at h3
    · rename_i skb2 tl2 h3
      rw [hf] at h3
      simp only [List.cons.injEq] at h3
      obtain ⟨h4, h5⟩ := h3
      subst h4 h5
      rw [visit_of_curr hc, if_pos hd, if_neg ht]

theorem dequeue_starved_qdisc {fuel : Nat} {cfg : dwrr_params} {clk : Nat → Int}
    {q q1 : dwrr_sched_data} {ys : List (Fin 8)}
    (h : dwrr_qdisc_dequeue fuel cfg clk q = some (q1, .overlimit, ys)) :
    untouched q q1 ∧
    ∀ cfg2 clk2 fuel2, tokens_short cfg2 (clk2 0) q1 →
      ∃ d, dwrr_qdisc_dequeue (fuel2 + 1) cfg2 clk2 q1 =
        some ({ q1 with watchdog := some d, overlimits := q1.overlimits + 1 }, .overlimit, []) := by
  unfold dwrr_qdisc_dequeue at h
  split at h
  · simp at h
  · obtain ⟨q0, now0, i, rest, skb, tl, hu, hq, hf, hc, hd, h1⟩ := loop_overlimit_qdisc fuel h
    subst h1
    refine ⟨untouched_trans_qdisc hu (untouched_throttle_qdisc cfg now0 q0 _), ?_⟩
    intro cfg2 clk2 fuel2 hs
    have hq1 : (dwrr_qdisc_dequeue_throttle cfg now0 q0 (skb_size skb)).activeList = i :: rest :=
      hq
    have hf1 : ((dwrr_qdisc_dequeue_throttle cfg now0 q0 (skb_size skb)).queues i).qdisc =
        skb :: tl := hf
    have hc1 : ((dwrr_qdisc_dequeue_throttle cfg now0 q0 (skb_size skb)).queues i).curr ≠ 0 := hc
    have hd1 : skb_size skb ≤
        ((dwrr_qdisc_dequeue_throttle cfg now0 q0 (skb_size skb)).queues i).deficitCounter := hd
    obtain ⟨skb2, hh, ht⟩ := hs
    have : skb2 = skb := by
      unfold dwrr_qdisc_head_packet at hh
      rw [hq1] at hh
      simp only [hf1, List.head?_cons, Option.some.injEq] at hh
      exact hh.symm
    subst this
    refine ⟨s64 (s64 (clk2 0 + s64 (l2t_ns
      (dwrr_qdisc_dequeue_throttle cfg now0 q0 (skb_size skb2)).rate (skb_size skb2))) -
      dwrr_qdisc_toks cfg2 (clk2 0) (dwrr_qdisc_dequeue_throttle cfg now0 q0 (skb_size skb2))), ?_⟩
    unfold dwrr_qdisc_dequeue
    rw [if_neg (by rw [hq1]; simp)]
    unfold dwrr_qdisc_dequeue_loop
    rw [iter_throttle_qdisc hq1 hf1 hc1 hd1 ht]
    rfl

theorem after_starved_eq_qdisc :
    dwrr_qdisc_dequeue 1 static_cfg (fun _ => 100) after_three.2 = some after_starved := by
  rfl

end sch_dwrr

/-- C3: in both variants, whenever a dequeue call leaves through the
token-starved exit it returns no packet and the state it leaves has the FIFO
contents and `len_bytes` of every class, `sum_len_bytes`, `tokens` and `time_ns`
of the state it started from; and every further dequeue call made in the state
it left, at a time and with parameter values for which the tokens still do not
suffice for the head packet, returns no packet after one pass of the loop and
leaves that whole state as it was apart from the over-limit counter (one more)
and the deadline of the watchdog. -/
theorem starvation_idempotent :
    (∀ (fuel : Nat) (cfg : sch_dwrr2.dwrr_params) (now : Int)
        (q q1 : sch_dwrr2.dwrr_sched_data) (r : sch_dwrr2.deq_exit) (ys : List (Fin 8)),
      sch_dwrr2.dwrr_dequeue fuel cfg now q = some (q1, r, ys) → r = .overlimit →
      r.skb = none ∧
      ((∀ i, (q1.queues i).qdisc = (q.queues i).qdisc ∧
          (q1.queues i).len_bytes = (q.queues i).len_bytes) ∧
        q1.sum_len_bytes = q.sum_len_bytes ∧ q1.tokens = q.tokens ∧ q1.time_ns = q.time_ns) ∧
      ∀ cfg2 now2 fuel2, sch_dwrr2.tokens_short cfg2 now2 q1 →
        ∃ d, sch_dwrr2.dwrr_dequeue (fuel2 + 1) cfg2 now2 q1 =
          some ({ q1 with watchdog := some d, overlimits := q1.overlimits + 1 },
            .overlimit, [])) ∧
    (∀ (fuel : Nat) (cfg : sch_dwrr.dwrr_params) (clk : Nat → Int)
        (q q1 : sch_dwrr.dwrr_sched_data) (r : sch_dwrr.deq_exit) (ys : List (Fin 8)),
      sch_dwrr.dwrr_qdisc_dequeue fuel cfg clk q = some (q1, r, ys) → r = .overlimit →
      r.skb = none ∧
      ((∀ i, (q1.queues i).qdisc = (q.queues i).qdisc ∧
          (q1.queues i).len_bytes = (q.queues i).len_bytes) ∧
        q1.sum_len_bytes = q.sum_len_bytes ∧ q1.tokens = q.tokens ∧ q1.time_ns = q.time_ns) ∧
      ∀ cfg2 clk2 fuel2, sch_dwrr.tokens_short cfg2 (clk2 0) q1 →
        ∃ d, sch_dwrr.dwrr_qdisc_dequeue (fuel2 + 1) cfg2 clk2 q1 =
          some ({ q1 with watchdog := some d, overlimits := q1.overlimits + 1 },
            .overlimit, [])) := by
  constructor
  · intro fuel cfg now q q1 r ys h hr
    subst hr
    exact ⟨rfl, (sch_dwrr2.dequeue_starved h).1, (sch_dwrr2.dequeue_starved h).2⟩
  · intro fuel cfg clk q q1 r ys h hr
    subst hr
    exact ⟨rfl, (sch_dwrr.dequeue_starved_qdisc h).1, (sch_dwrr.dequeue_starved_qdisc h).2⟩

/-- Starvation in the scenario: the dequeue made at time 100 after the three
enqueues is token-starved, and so is a second one made at time 200, in both
variants. -/
theorem starvation_idempotent_witness :
    (sch_dwrr2.after_starved.1.sum_len_bytes = sch_dwrr2.after_three.2.sum_len_bytes ∧
      ∃ d, sch_dwrr2.dwrr_dequeue 1 sch_dwrr2.static_cfg 200 sch_dwrr2.after_starved.1 =
        some ({ sch_dwrr2.after_starved.1 with
            watchdog := some d, overlimits := sch_dwrr2.after_starved.1.overlimits + 1 },
          .overlimit, [])) ∧
    (sch_dwrr.after_starved.1.sum_len_bytes = sch_dwrr.after_three.2.sum_len_bytes ∧
      ∃ d, sch_dwrr.dwrr_qdisc_dequeue 1 sch_dwrr.static_cfg (fun _ => 200)
          sch_dwrr.after_starved.1 =
        some ({ sch_dwrr.after_starved.1 with
            watchdog := some d, overlimits := sch_dwrr.after_starved.1.overlimits + 1 },
          .overlimit, [])) :=
  ⟨⟨(starvation_idempotent.1 1 sch_dwrr2.static_cfg 100 _ _ _ _
        sch_dwrr2.after_starved_eq (by decide)).2.1.2.1,
      (starvation_idempotent.1 1 sch_dwrr2.static_cfg 100 _ _ _ _
        sch_dwrr2.after_starved_eq (by decide)).2.2 sch_dwrr2.static_cfg 200 0
        ⟨pkt_1500, rfl, by decide⟩⟩,
    ⟨(starvation_idempotent.2 1 sch_dwrr.static_cfg (fun _ => 100) _ _ _ _
        sch_dwrr.after_starved_eq_qdisc (by decide)).2.1.2.1,
      (starvation_idempotent.2 1 sch_dwrr.static_cfg (fun _ => 100) _ _ _ _
        sch_dwrr.after_starved_eq_qdisc (by decide)).2.2 sch_dwrr.static_cfg (fun _ => 200) 0
        ⟨pkt_1500, rfl, by decide⟩⟩⟩

/-! ### Dynamic ECN threshold -/

theorem u64_of_int_natCast (n : Nat) (h : n < 18446744073709551616) :
    u64_of_int (n : Int) = n := by
  unfold u64_of_int
  omega

theorem u32_of_int_natCast (n : Nat) (h : n < 4294967296) : u32_of_int (n : Int) = n := by
  unfold u32_of_int
  omega

theorem s64_natCast (n : Nat) (h : n < 9223372036854775808) : s64 (n : Int) = n := by
  unfold s64
  omega

theorem tdiv_natCast (a b : Nat) : Int.tdiv (a : Int) (b : Int) = ((a / b : Nat) : Int) := by
  rw [Int.tdiv_eq_ediv (Int.ofNat_nonneg a) (Int.ofNat_nonneg b)]
  exact (Int.ofNat_ediv a b).symm

theorem mq_thresh_nat (Q R K T : Nat) (hQ : Q * 8000000000 < 9223372036854775808)
    (hR : R < 18446744073709551616) (hK : K < 18446744073709551616)
    (hov : min (Q * 8000000000 / T) R * K < 18446744073709551616) :
    (min (u64_of_int (Int.tdiv (s64 (((Q * 8000000000 : Nat) : Int))) (T : Int)))
        (R % 18446744073709551616) * u64_of_int (K : Int)) % 18446744073709551616 /
      (R % 18446744073709551616) = min (Q * 8000000000 / T) R * K / R := by
  rw [s64_natCast _ hQ, tdiv_natCast, u64_of_int_natCast _ hK, Nat.mod_eq_of_lt hR,
    u64_of_int_natCast, Nat.mod_eq_of_lt hov]
  have : Q * 8000000000 / T ≤ Q * 8000000000 := Nat.div_le_self _ _
  omega

theorem mq_thresh_spec_of_nat (Q R K T : Nat) (hQ : Q * 8000000000 < 9223372036854775808)
    (hR : R < 18446744073709551616) (hK : K < 18446744073709551616)
    (hov : (T : Int) > 0 →
      (K : Int) * min (8000000000 * (Q : Int) / (T : Int)) (R : Int) < 18446744073709551616) :
    (((if (T : Int) > 0 then
        (min (u64_of_int (Int.tdiv (s64 ((Q : Int) * 8000000000)) (T : Int)))
            (R % 18446744073709551616) * u64_of_int (K : Int)) % 18446744073709551616 /
          (R % 18446744073709551616)
      else u64_of_int (K : Int) : Nat)) : Int) = mq_ecn_thresh_spec T Q R K := by
  unfold mq_ecn_thresh_spec
  by_cases hT : (T : Int) > 0
  · rw [if_pos hT, if_pos hT]
    have hov1 := hov hT
    have e1 : (8000000000 * (Q : Int) / (T : Int)) = ((Q * 8000000000 / T : Nat) : Int) := by
      push_cast; ring_nf
    rw [e1] at hov1 ⊢
    have e2 : ((Q : Int) * 8000000000) = ((Q * 8000000000 : Nat) : Int) := by push_cast; ring
    rw [e2]
    have hov2 : min (Q * 8000000000 / T) R * K < 18446744073709551616 := by
      have : ((K * min (Q * 8000000000 / T) R : Nat) : Int) < 18446744073709551616 := by
        push_cast; exact hov1
      have := Int.ofNat_lt.mp this
      rw [Nat.mul_comm]; exact this
    rw [mq_thresh_nat Q R K T hQ hR hK hov2]
    push_cast
    rw [mul_comm]
  · rw [if_neg hT, if_neg hT, u64_of_int_natCast _ hK]

namespace sch_dwrr

theorem thresh_eq_spec (cfg : dwrr_params) (q : dwrr_sched_data) (cl : dwrr_class)
    (hQ : (cl.quantum : Int) * 8000000000 < 9223372036854775808)
    (hR : q.rate.rate_bps < 18446744073709551616)
    (hK0 : 0 ≤ cfg.DWRR_QDISC_PORT_THRESH_BYTES)
    (hK : cfg.DWRR_QDISC_PORT_THRESH_BYTES < 2147483648)
    (hov : q.round_time_ns > 0 →
      cfg.DWRR_QDISC_PORT_THRESH_BYTES *
        min (8000000000 * (cl.quantum : Int) / q.round_time_ns) q.rate.rate_bps
        < 18446744073709551616) :
    ((enqueue_ecn_thresh_bytes cfg q cl : Nat) : Int) =
        mq_ecn_thresh_spec q.round_time_ns cl.quantum q.rate.rate_bps
          cfg.DWRR_QDISC_PORT_THRESH_BYTES ∧
      ((dequeue_ecn_thresh_bytes cfg q cl : Nat) : Int) =
        mq_ecn_thresh_spec q.round_time_ns cl.quantum q.rate.rate_bps
          cfg.DWRR_QDISC_PORT_THRESH_BYTES := by
  unfold enqueue_ecn_thresh_bytes dequeue_ecn_thresh_bytes
  generalize cfg.DWRR_QDISC_PORT_THRESH_BYTES = K at *
  generalize q.round_time_ns = T at *
  generalize q.rate.rate_bps = R at *
  generalize cl.quantum = Q at *
  lift K to ℕ using hK0
  have hK' : K < 18446744073709551616 := by omega
  have hQ' : Q * 8000000000 < 9223372036854775808 := by exact_mod_cast hQ
  by_cases hT : T > 0
  · lift T to ℕ using hT.le
    have := mq_thresh_spec_of_nat Q R K T hQ' hR hK' hov
    exact ⟨this, this⟩
  · have e : mq_ecn_thresh_spec T Q R K = K := by
      unfold mq_ecn_thresh_spec; rw [if_neg hT]
    rw [if_neg hT, e, u64_of_int_natCast _ hK']
    exact ⟨rfl, rfl⟩

theorem enqueue_ecn_mq (cfg : dwrr_params) (skb : sk_buff) (q : dwrr_sched_data)
    (cl : dwrr_class) (hs : cfg.DWRR_QDISC_ECN_SCHEME = DWRR_QDISC_MQ_ECN)
    (he : cfg.DWRR_QDISC_ENABLE_DEQUEUE_ECN = DWRR_QDISC_DEQUEUE_ECN_OFF) :
    enqueue_ecn cfg skb q cl =
      if cl.len_bytes > enqueue_ecn_thresh_bytes cfg q cl then dwrr_qdisc_ecn skb else skb := by
  unfold enqueue_ecn
  rw [if_pos he, hs]
  simp [DWRR_QDISC_MQ_ECN, DWRR_QDISC_QUEUE_ECN, DWRR_QDISC_PORT_ECN]

theorem dequeue_ecn_mq (cfg : dwrr_params) (skb : sk_buff) (q : dwrr_sched_data)
    (cl : dwrr_class) (hs : cfg.DWRR_QDISC_ECN_SCHEME = DWRR_QDISC_MQ_ECN)
    (he : cfg.DWRR_QDISC_ENABLE_DEQUEUE_ECN = DWRR_QDISC_DEQUEUE_ECN_ON) :
    dequeue_ecn cfg skb q cl =
      if cl.len_bytes > dequeue_ecn_thresh_bytes cfg q cl then dwrr_qdisc_ecn skb else skb := by
  unfold dequeue_ecn
  rw [if_pos he, hs]
  simp [DWRR_QDISC_MQ_ECN, DWRR_QDISC_QUEUE_ECN, DWRR_QDISC_PORT_ECN]

end sch_dwrr

/-- C8, the claim as stated fails for port thresholds, rates and packets the
module can be given.  (1) Port threshold -1, round time 0, 1500 bytes queued:
the formula gives the threshold -1, which 1500 exceeds, but the code computes
18446744073709551615 (the `int` converted to `u64`) and does not mark.
(2) Port threshold 2147483647, rate 4294967295 bytes/s (34359738360 bit/s),
quantum 1538, round time 1 ns, 10^9 bytes queued: the formula gives 2147483647,
which 10^9 does not exceed, but the 64-bit product wraps, the code computes
536870910 and marks.  (3) Port threshold 30000, rate 1 Gbit/s, quantum 1538,
round time 100 µs, 4000 bytes queued: the threshold is 3691, which 4000
exceeds, but a packet whose head cannot be made writable is left unmarked by
`dwrr_qdisc_ecn`. -/
theorem mq_ecn_threshold_plain_fails :
    (sch_dwrr.enqueue_ecn_thresh_bytes (sch_dwrr.mq_cfg (-1)) (sch_dwrr.mq_state 125000000 0)
        (sch_dwrr.mq_class 1538 1500) = 18446744073709551615 ∧
      mq_ecn_thresh_spec 0 1538 (sch_dwrr.mq_state 125000000 0).rate.rate_bps (-1) = -1 ∧
      sch_dwrr.enqueue_ecn (sch_dwrr.mq_cfg (-1)) pkt_1500 (sch_dwrr.mq_state 125000000 0)
        (sch_dwrr.mq_class 1538 1500) = pkt_1500 ∧
      (((sch_dwrr.mq_class 1538 1500).len_bytes : Int) >
        mq_ecn_thresh_spec 0 1538 (sch_dwrr.mq_state 125000000 0).rate.rate_bps (-1))) ∧
    ((sch_dwrr.mq_state 4294967295 1).rate.rate_bps = 34359738360 ∧
      sch_dwrr.enqueue_ecn_thresh_bytes (sch_dwrr.mq_cfg 2147483647)
        (sch_dwrr.mq_state 4294967295 1) (sch_dwrr.mq_class 1538 1000000000) = 536870910 ∧
      mq_ecn_thresh_spec 1 1538 34359738360 2147483647 = 2147483647 ∧
      sch_dwrr.enqueue_ecn (sch_dwrr.mq_cfg 2147483647) pkt_1500
        (sch_dwrr.mq_state 4294967295 1) (sch_dwrr.mq_class 1538 1000000000) =
        INET_ECN_set_ce pkt_1500 ∧
      ¬ (((sch_dwrr.mq_class 1538 1000000000).len_bytes : Int) >
        mq_ecn_thresh_spec 1 1538 34359738360 2147483647)) ∧
    (mq_ecn_thresh_spec 100000 1538 (sch_dwrr.mq_state 125000000 100000).rate.rate_bps 30000 =
        3691 ∧
      sch_dwrr.enqueue_ecn_thresh_bytes (sch_dwrr.mq_cfg 30000)
        (sch_dwrr.mq_state 125000000 100000) (sch_dwrr.mq_class 1538 4000) = 3691 ∧
      (sch_dwrr.mq_class 1538 4000).len_bytes = 4000 ∧
      sch_dwrr.enqueue_ecn (sch_dwrr.mq_cfg 30000) sch_dwrr.pkt_read_only
        (sch_dwrr.mq_state 125000000 100000) (sch_dwrr.mq_class 1538 4000) =
        sch_dwrr.pkt_read_only ∧
      sch_dwrr.pkt_read_only.ce = false ∧
      sch_dwrr.enqueue_ecn (sch_dwrr.mq_cfg 30000) pkt_1500
        (sch_dwrr.mq_state 125000000 100000) (sch_dwrr.mq_class 1538 4000) =
        INET_ECN_set_ce pkt_1500) := by
  decide

/-- C8 as amended: in sch_dwrr, for round time `T`, class quantum `Q`, link rate
`R > 0` and port threshold `K` with `0 ≤ K < 2^31`, `8*10^9*Q < 2^63` and, when
`T > 0`, `K * min(8*10^9*Q / T, R) < 2^64` (no wrap of the 64-bit products), the
threshold computed by enqueue and by dequeue is `K * min(8*10^9*Q / T, R) / R`
with each division rounded down when `T > 0`, and `K` when `T ≤ 0`; under the
MQ-ECN scheme the marking block that is enabled applies the CE helper to the
packet exactly when `len_bytes` of the class exceeds that threshold, the head of
the packet can be made writable for the length of an IP header and the packet
has an IP header; otherwise the packet is left as it is. -/
theorem mq_ecn_threshold_sch_dwrr (cfg : sch_dwrr.dwrr_params) (skb : sk_buff)
    (q : sch_dwrr.dwrr_sched_data) (cl : sch_dwrr.dwrr_class)
    (_hR0 : 0 < q.rate.rate_bps) (hR : q.rate.rate_bps < 18446744073709551616)
    (hK0 : 0 ≤ cfg.DWRR_QDISC_PORT_THRESH_BYTES)
    (hK : cfg.DWRR_QDISC_PORT_THRESH_BYTES < 2147483648)
    (hQ : (cl.quantum : Int) * 8000000000 < 9223372036854775808)
    (hov : q.round_time_ns > 0 →
      cfg.DWRR_QDISC_PORT_THRESH_BYTES *
        min (8000000000 * (cl.quantum : Int) / q.round_time_ns) q.rate.rate_bps
        < 18446744073709551616) :
    ((sch_dwrr.enqueue_ecn_thresh_bytes cfg q cl : Nat) : Int) =
        mq_ecn_thresh_spec q.round_time_ns cl.quantum q.rate.rate_bps
          cfg.DWRR_QDISC_PORT_THRESH_BYTES ∧
    ((sch_dwrr.dequeue_ecn_thresh_bytes cfg q cl : Nat) : Int) =
        mq_ecn_thresh_spec q.round_time_ns cl.quantum q.rate.rate_bps
          cfg.DWRR_QDISC_PORT_THRESH_BYTES ∧
    (cfg.DWRR_QDISC_ECN_SCHEME = sch_dwrr.DWRR_QDISC_MQ_ECN →
      cfg.DWRR_QDISC_ENABLE_DEQUEUE_ECN = sch_dwrr.DWRR_QDISC_DEQUEUE_ECN_OFF →
      sch_dwrr.enqueue_ecn cfg skb q cl =
        if (cl.len_bytes : Int) > mq_ecn_thresh_spec q.round_time_ns cl.quantum
            q.rate.rate_bps cfg.DWRR_QDISC_PORT_THRESH_BYTES ∧
          skb_make_writable skb sch_dwrr.sizeof_iphdr = true ∧ skb.tos.isSome = true
        then INET_ECN_set_ce skb else skb) ∧
    (cfg.DWRR_QDISC_ECN_SCHEME = sch_dwrr.DWRR_QDISC_MQ_ECN →
      cfg.DWRR_QDISC_ENABLE_DEQUEUE_ECN = sch_dwrr.DWRR_QDISC_DEQUEUE_ECN_ON →
      sch_dwrr.dequeue_ecn cfg skb q cl =
        if (cl.len_bytes : Int) > mq_ecn_thresh_spec q.round_time_ns cl.quantum
            q.rate.rate_bps cfg.DWRR_QDISC_PORT_THRESH_BYTES ∧
          skb_make_writable skb sch_dwrr.sizeof_iphdr = true ∧ skb.tos.isSome = true
        then INET_ECN_set_ce skb else skb) := by
  obtain ⟨h1, h2⟩ := sch_dwrr.thresh_eq_spec cfg q cl hQ hR hK0 hK hov
  refine ⟨h1, h2, fun hs he => ?_, fun hs he => ?_⟩
  · rw [sch_dwrr.enqueue_ecn_mq cfg skb q cl hs he, ← h1]
    unfold sch_dwrr.dwrr_qdisc_ecn
    simp only [gt_iff_lt, Nat.cast_lt]
    by_cases hl : sch_dwrr.enqueue_ecn_thresh_bytes cfg q cl < cl.len_bytes
    · by_cases hg : skb_make_writable skb sch_dwrr.sizeof_iphdr = true ∧ skb.tos.isSome = true
      · rw [if_pos hl, if_pos hg, if_pos ⟨hl, hg⟩]
      · rw [if_pos hl, if_neg hg, if_neg (fun h => hg h.2)]
    · rw [if_neg hl, if_neg (fun h => hl h.1)]
  · rw [sch_dwrr.dequeue_ecn_mq cfg skb q cl hs he, ← h2]
    unfold sch_dwrr.dwrr_qdisc_ecn
    simp only [gt_iff_lt, Nat.cast_lt]
    by_cases hl : sch_dwrr.dequeue_ecn_thresh_bytes cfg q cl < cl.len_bytes
    · by_cases hg : skb_make_writable skb sch_dwrr.sizeof_iphdr = true ∧ skb.tos.isSome = true
      · rw [if_pos hl, if_pos hg, if_pos ⟨hl, hg⟩]
      · rw [if_pos hl, if_neg hg, if_neg (fun h => hg h.2)]
    · rw [if_neg hl, if_neg (fun h => hl h.1)]

set_option maxRecDepth 100000 in
/-- The threshold of sch_dwrr for the default port threshold 30000, quantum 1538,
rate 1 Gbit/s and round time 100 µs is 3691 bytes; a class holding 4000 bytes
exceeds it and the enqueue block marks the packet of 1500 bytes. -/
theorem mq_ecn_threshold_sch_dwrr_witness :
    ((sch_dwrr.enqueue_ecn_thresh_bytes (sch_dwrr.mq_cfg 30000)
        (sch_dwrr.mq_state 125000000 100000) (sch_dwrr.mq_class 1538 4000) : Nat) : Int) =
      mq_ecn_thresh_spec 100000 1538 1000000000 30000 ∧
    mq_ecn_thresh_spec 100000 1538 1000000000 30000 = 3691 ∧
    sch_dwrr.enqueue_ecn (sch_dwrr.mq_cfg 30000) pkt_1500 (sch_dwrr.mq_state 125000000 100000)
        (sch_dwrr.mq_class 1538 4000) =
      if ((sch_dwrr.mq_class 1538 4000).len_bytes : Int) >
          mq_ecn_thresh_spec (sch_dwrr.mq_state 125000000 100000).round_time_ns
            (sch_dwrr.mq_class 1538 4000).quantum
            (sch_dwrr.mq_state 125000000 100000).rate.rate_bps
            (sch_dwrr.mq_cfg 30000).DWRR_QDISC_PORT_THRESH_BYTES ∧
          skb_make_writable pkt_1500 sch_dwrr.sizeof_iphdr = true ∧ pkt_1500.tos.isSome = true
        then INET_ECN_set_ce pkt_1500 else pkt_1500 :=
  ⟨(mq_ecn_threshold_sch_dwrr (sch_dwrr.mq_cfg 30000) pkt_1500
      (sch_dwrr.mq_state 125000000 100000) (sch_dwrr.mq_class 1538 4000)
      (by decide) (by decide) (by decide) (by decide) (by decide) (by decide)).1,
    by decide,
    (mq_ecn_threshold_sch_dwrr (sch_dwrr.mq_cfg 30000) pkt_1500
      (sch_dwrr.mq_state 125000000 100000) (sch_dwrr.mq_class 1538 4000)
      (by decide) (by decide) (by decide) (by decide) (by decide) (by decide)).2.2.1
      (by decide) (by decide)⟩

namespace sch_dwrr2

theorem mq_thresh_shift_nat (Q R K T : Nat) (hQ : Q < 2147483648) (hR0 : 0 < R)
    (hR : R < 4294967296) (hK : K < 2147483648) (hT : T < 4294967296) :
    div_u64 (min (div_u64 (Q <<< 33) (u32_of_int (T : Int)) % 18446744073709551616)
        (R % 18446744073709551616) * u64_of_int (K : Int)) R =
      min (Q * 8589934592 / T) R * K / R ∧
    div_u64 (min (R % 18446744073709551616) (R % 18446744073709551616) * u64_of_int (K : Int)) R
      = K := by
  have hRK : ∀ x, x ≤ R → x * K < 18446744073709551616 := by
    intro x hx
    calc x * K ≤ R * K := Nat.mul_le_mul_right K hx
      _ ≤ 4294967296 * 2147483648 := Nat.mul_le_mul hR.le hK.le
      _ < 18446744073709551616 := by norm_num
  unfold div_u64
  rw [u32_of_int_natCast _ hT, u64_of_int_natCast _ (by omega), Nat.shiftLeft_eq]
  have h33 : (2 : Nat) ^ 33 = 8589934592 := by norm_num
  rw [h33]
  have hq : Q * 8589934592 % 18446744073709551616 = Q * 8589934592 := by omega
  have ht : T % 4294967296 = T := by omega
  have hr : R % 18446744073709551616 = R := by omega
  have hr2 : R % 4294967296 = R := by omega
  rw [hq, ht, hr, hr2]
  have hd : Q * 8589934592 / T < 18446744073709551616 :=
    lt_of_le_of_lt (Nat.div_le_self _ _) (by omega)
  rw [Nat.mod_eq_of_lt hd, Nat.mod_eq_of_lt (hRK _ (Nat.min_le_right _ _)), Nat.min_self,
    Nat.mod_eq_of_lt (hRK _ le_rfl)]
  exact ⟨rfl, Nat.mul_div_cancel_left K hR0⟩

theorem thresh_eq_shift (cfg : dwrr_params) (q : dwrr_sched_data) (cl : dwrr_class)
    (hR0 : 0 < q.rate.rate_bps) (hR : q.rate.rate_bps < 4294967296)
    (hK0 : 0 ≤ cfg.dwrr_port_thresh_bytes) (hK : cfg.dwrr_port_thresh_bytes < 2147483648)
    (hQ : cl.quantum < 2147483648) (hT : q.round_time < 4294967296) :
    ((dwrr_mq_ecn_thresh cfg q cl : Nat) : Int) =
      mq_ecn_thresh_shift q.round_time cl.quantum q.rate.rate_bps cfg.dwrr_port_thresh_bytes := by
  unfold dwrr_mq_ecn_thresh mq_ecn_thresh_shift
  generalize cfg.dwrr_port_thresh_bytes = K at *
  generalize q.round_time = T at *
  generalize q.rate.rate_bps = R at *
  generalize cl.quantum = Q at *
  lift K to ℕ using hK0
  have hK' : K < 2147483648 := by omega
  by_cases h : T > 0
  · lift T to ℕ using h.le
    have hT' : T < 4294967296 := by omega
    simp only [if_pos h]
    rw [(mq_thresh_shift_nat Q R K T hQ hR0 hR hK' hT').1]
    push_cast
    rw [mul_comm (8589934592 : Int), mul_comm (K : Int)]
  · simp only [if_neg h]
    rw [(mq_thresh_shift_nat Q R K 0 hQ hR0 hR hK' (by norm_num)).2]

end sch_dwrr2

/-- C9, the claim as stated fails: with the default port threshold 32000, rate
1 Gbit/s, quantum 1538 and round time 100 µs the formula of the claim gives
`32000 * min(8*10^9*1538 / 100000, 10^9) / 10^9 = 3937`, but
`dwrr_mq_ecn_marking` computes 4227, shifting the quantum left by 33 bits
(a factor 8589934592) where the formula has `8*10^9`; a class holding 4000
bytes exceeds the threshold of the claim and is not marked. -/
theorem mq_ecn_threshold_shift_differs :
    (sch_dwrr2.mq_state 125000000 100000).rate.rate_bps = 1000000000 ∧
    sch_dwrr2.dwrr_mq_ecn_thresh (sch_dwrr2.mq_cfg 32000) (sch_dwrr2.mq_state 125000000 100000)
      (sch_dwrr2.mq_class 1538 4000) = 4227 ∧
    mq_ecn_thresh_spec 100000 1538 1000000000 32000 = 3937 ∧
    sch_dwrr2.dwrr_mq_ecn_marking (sch_dwrr2.mq_cfg 32000) pkt_1500
      (sch_dwrr2.mq_state 125000000 100000) (sch_dwrr2.mq_class 1538 4000) = pkt_1500 ∧
    (((sch_dwrr2.mq_class 1538 4000).len_bytes : Int) >
      mq_ecn_thresh_spec 100000 1538 1000000000 32000) := by
  decide

/-- C9 as amended: in sch_dwrr2, for round time `T < 2^32`, class quantum
`Q < 2^31`, link rate `0 < R < 2^32` and port threshold `0 ≤ K < 2^31`,
`dwrr_mq_ecn_marking` computes the threshold `K * min(2^33*Q / T, R) / R`, each
division rounded down, when `T > 0`, and exactly `K` when `T ≤ 0`; it sets CE
exactly when `len_bytes` of the class exceeds that threshold. -/
theorem mq_ecn_threshold_sch_dwrr2 (cfg : sch_dwrr2.dwrr_params) (skb : sk_buff)
    (q : sch_dwrr2.dwrr_sched_data) (cl : sch_dwrr2.dwrr_class)
    (hR0 : 0 < q.rate.rate_bps) (hR : q.rate.rate_bps < 4294967296)
    (hK0 : 0 ≤ cfg.dwrr_port_thresh_bytes) (hK : cfg.dwrr_port_thresh_bytes < 2147483648)
    (hQ : cl.quantum < 2147483648) (hT : q.round_time < 4294967296) :
    ((sch_dwrr2.dwrr_mq_ecn_thresh cfg q cl : Nat) : Int) =
        mq_ecn_thresh_shift q.round_time cl.quantum q.rate.rate_bps
          cfg.dwrr_port_thresh_bytes ∧
    (q.round_time ≤ 0 →
      ((sch_dwrr2.dwrr_mq_ecn_thresh cfg q cl : Nat) : Int) = cfg.dwrr_port_thresh_bytes) ∧
    sch_dwrr2.dwrr_mq_ecn_marking cfg skb q cl =
      if (cl.len_bytes : Int) > mq_ecn_thresh_shift q.round_time cl.quantum q.rate.rate_bps
          cfg.dwrr_port_thresh_bytes
      then INET_ECN_set_ce skb else skb := by
  have h := sch_dwrr2.thresh_eq_shift cfg q cl hR0 hR hK0 hK hQ hT
  refine ⟨h, fun hT0 => ?_, ?_⟩
  · rw [h]
    unfold mq_ecn_thresh_shift
    rw [if_neg (by omega)]
  · unfold sch_dwrr2.dwrr_mq_ecn_marking
    rw [← h]
    simp only [gt_iff_lt, Nat.cast_lt]

/-- The threshold of sch_dwrr2 for the default port threshold 32000, quantum 1538,
rate 1 Gbit/s and round time 100 µs is 4227 bytes, and a class holding 5000
bytes is marked. -/
theorem mq_ecn_threshold_sch_dwrr2_witness :
    ((sch_dwrr2.dwrr_mq_ecn_thresh (sch_dwrr2.mq_cfg 32000)
        (sch_dwrr2.mq_state 125000000 100000) (sch_dwrr2.mq_class 1538 5000) : Nat) : Int) =
      mq_ecn_thresh_shift 100000 1538 1000000000 32000 ∧
    mq_ecn_thresh_shift 100000 1538 1000000000 32000 = 4227 :=
  ⟨(mq_ecn_threshold_sch_dwrr2 (sch_dwrr2.mq_cfg 32000) pkt_1500
      (sch_dwrr2.mq_state 125000000 100000) (sch_dwrr2.mq_class 1538 5000)
      (by decide) (by decide) (by decide) (by decide) (by decide) (by decide)).1,
    by decide⟩

/-- Outside the range of the amended statement the 32-bit divisor of `div_u64`
shows: at 10 Gbit/s (1250000000 bytes/s) with no round-time estimate the
threshold computed for a port threshold of 32000 is 226939, not 32000. -/
theorem mq_ecn_thresh_rate_truncated :
    (sch_dwrr2.mq_state 1250000000 0).rate.rate_bps = 10000000000 ∧
    sch_dwrr2.dwrr_mq_ecn_thresh (sch_dwrr2.mq_cfg 32000) (sch_dwrr2.mq_state 1250000000 0)
      (sch_dwrr2.mq_class 1538 4000) = 226939 := by
  decide

/-! ### Bytes sent between two yields -/

namespace sch_dwrr2

theorem skb_size_le (p : sk_buff) (h : p.len ≤ dwrr_max_buffer_bytes) : skb_size p ≤ 2000024 := by
  unfold dwrr_max_buffer_bytes at h
  unfold skb_size u32_add dwrr_min_pkt_bytes
  omega

theorem skb_size_lt (p : sk_buff) : skb_size p < 4294967296 := by
  unfold skb_size u32_add
  omega

theorem skb_size_congr {p p1 : sk_buff} (h : p1.len = p.len) : skb_size p1 = skb_size p := by
  unfold skb_size
  rw [h]

theorem ecn_marking_len (cfg : dwrr_params) (skb : sk_buff) (q : dwrr_sched_data)
    (cl : dwrr_class) : (dwrr_ecn_marking cfg skb q cl).len = skb.len := by
  unfold dwrr_ecn_marking dwrr_mq_ecn_marking INET_ECN_set_ce
  repeat' split
  all_goals rfl

theorem dequeue_packet_len (cfg : dwrr_params) (now : Int) (q : dwrr_sched_data) (i : Fin 8)
    (rest : List (Fin 8)) (skb : sk_buff) (tl : List sk_buff) :
    (dwrr_dequeue_packet cfg now q i rest skb tl).len = skb.len := by
  unfold dwrr_dequeue_packet
  split
  · exact ecn_marking_len _ _ _ _
  · rfl

/-- What one pass of the dequeue loop does, with the bytes sent and the turns given up. -/
theorem step_pass_cases (cfg : dwrr_params) (now : Int) (q : dwrr_sched_data) :
    (step q (.pass cfg now) = q ∧
      (∀ j, step_bytes j q (.pass cfg now) = 0) ∧ ∀ j, step_yields j q (.pass cfg now) = 0) ∨
    (∃ len, step q (.pass cfg now) = dwrr_dequeue_throttle cfg now q len ∧
      (∀ j, step_bytes j q (.pass cfg now) = 0) ∧ ∀ j, step_yields j q (.pass cfg now) = 0) ∨
    (∃ i rest skb tl, q.active = i :: rest ∧ (q.queues i).qdisc = skb :: tl ∧
      skb_size skb ≤ (q.queues i).deficit ∧
      step q (.pass cfg now) = dwrr_dequeue_release cfg now q i rest skb tl ∧
      (∀ j, step_bytes j q (.pass cfg now) = if i = j then skb_size skb else 0) ∧
      ∀ j, step_yields j q (.pass cfg now) = 0) ∨
    (∃ i rest skb tl, q.active = i :: rest ∧ (q.queues i).qdisc = skb :: tl ∧
      (q.queues i).deficit < skb_size skb ∧
      step q (.pass cfg now) = dwrr_dequeue_yield cfg q i rest ∧
      (∀ j, step_bytes j q (.pass cfg now) = 0) ∧
      ∀ j, step_yields j q (.pass cfg now) = if i = j then 1 else 0) := by
  rcases hit : dwrr_dequeue_iter cfg now q with ⟨q1, r⟩ | ⟨q1, i⟩
  · rcases dwrr_dequeue_iter_exit hit with ⟨_, h1, hr⟩ | ⟨_, _, _, _, h1, hr⟩ |
      ⟨i, rest, skb, tl, _, _, _, _, h1, hr⟩ | ⟨i, rest, skb, tl, hq, hf, hd, _, h1, hr⟩
    · left
      subst h1 hr
      simp only [step, step_bytes, step_yields, hit]
      exact ⟨trivial, fun _ => trivial, fun _ => trivial⟩
    · left
      subst h1 hr
      simp only [step, step_bytes, step_yields, hit]
      exact ⟨trivial, fun _ => trivial, fun _ => trivial⟩
    · right; left
      subst h1 hr
      refine ⟨skb_size skb, ?_⟩
      simp only [step, step_bytes, step_yields, hit]
      exact ⟨trivial, fun _ => trivial, fun _ => trivial⟩
    · right; right; left
      subst h1 hr
      refine ⟨i, rest, skb, tl, hq, hf, hd, ?_⟩
      simp only [step, step_bytes, step_yields, hit]
      refine ⟨trivial, fun j => ?_, fun _ => trivial⟩
      rw [skb_size_congr (dequeue_packet_len cfg now q i rest skb tl)]
  · obtain ⟨rest, skb, tl, hq, hf, hd, h1⟩ := dwrr_dequeue_iter_again hit
    right; right; right
    subst h1
    refine ⟨i, rest, skb, tl, hq, hf, hd, ?_⟩
    simp only [step, step_bytes, step_yields, hit]
    exact ⟨trivial, fun _ => trivial, fun _ => trivial⟩


theorem wf_update {q q1 : dwrr_sched_data} {j : Fin 8} {C : dwrr_class} (h : well_formed q)
    (hq : q1.queues = Function.update q.queues j C) (hid : C.id = (q.queues j).id)
    (hp : ∀ p ∈ C.qdisc, p.len ≤ dwrr_max_buffer_bytes) : well_formed q1 := by
  intro k
  rw [hq]
  by_cases hk : k = j
  · subst hk
    rw [Function.update_same]
    exact ⟨hid.trans (h k).1, hp⟩
  · rw [Function.update_noteq hk]
    exact h k

theorem wf_queues {q q1 : dwrr_sched_data} (h : well_formed q) (hq : q1.queues = q.queues) :
    well_formed q1 := by
  intro k
  rw [hq]
  exact h k

theorem enqueue_class_id (cfg : dwrr_params) (t : Int) (q : dwrr_sched_data) (i : Fin 8)
    (skb : sk_buff) : (dwrr_enqueue_class cfg t q i skb).id = (q.queues i).id := by
  unfold dwrr_enqueue_class
  split <;> rfl

theorem wf_drop {q : dwrr_sched_data} (h : well_formed q) (i : Fin 8) (n : Nat) :
    well_formed (dwrr_enqueue_drop q i n) :=
  wf_update h rfl rfl (h i).2

theorem wf_mark {q : dwrr_sched_data} (h : well_formed q) (cfg : dwrr_params) (t : Int)
    (i : Fin 8) (skb : sk_buff)
    (hb : bfifo_backlog (q.queues i).qdisc + skb.len ≤ dwrr_max_buffer_bytes) :
    well_formed (dwrr_enqueue_mark cfg t q i skb) := by
  refine wf_update h rfl (enqueue_class_id cfg t q i skb) ?_
  intro p hp
  have hp' : p ∈ (q.queues i).qdisc ++ [dwrr_ecn_marking cfg skb (dwrr_enqueue_accept cfg t q i skb)
      (dwrr_enqueue_class cfg t q i skb)] := hp
  rcases List.mem_append.mp hp' with h1 | h1
  · exact (h i).2 p h1
  · rw [List.mem_singleton] at h1
    rw [h1, ecn_marking_len]
    omega

theorem wf_release {q : dwrr_sched_data} (h : well_formed q) (cfg : dwrr_params) (now : Int)
    (i : Fin 8) (rest : List (Fin 8)) (skb : sk_buff) (tl : List sk_buff)
    (hf : (q.queues i).qdisc = skb :: tl) :
    well_formed (dwrr_dequeue_release cfg now q i rest skb tl) := by
  refine wf_update h rfl rfl ?_
  intro p hp
  exact (h i).2 p (by rw [hf]; exact List.mem_cons_of_mem _ hp)

theorem wf_yield {q : dwrr_sched_data} (h : well_formed q) (cfg : dwrr_params) (i : Fin 8)
    (rest : List (Fin 8)) : well_formed (dwrr_dequeue_yield cfg q i rest) :=
  wf_update h rfl rfl (h i).2

theorem well_formed_reachable (P : dwrr_params → Prop) :
    (∀ q, Reachable P q → well_formed q) ∧ (∀ q, Examined P q → well_formed q) := by
  apply reachable_induction P well_formed
  · intro clk rate j
    exact ⟨rfl, fun p hp => by simp [dwrr_init] at hp⟩
  · intro q rt h
    exact wf_queues h rfl
  · intro q i n h
    exact wf_drop h i n
  · intro cfg t q i skb _ h hb
    exact wf_mark h cfg t i skb hb
  · intro cfg now q len h
    exact wf_queues h rfl
  · intro cfg now q i rest skb tl _ h _ hf _
    exact wf_release h cfg now i rest skb tl hf
  · intro cfg q i rest skb tl _ h _ _ _
    exact wf_yield h cfg i rest

theorem well_formed_step {q : dwrr_sched_data} (h : well_formed q) (op : step_input) :
    well_formed (step q op) := by
  cases op with
  | enqueue cfg clk skb =>
    show well_formed (dwrr_enqueue cfg clk skb q).2
    rcases dwrr_enqueue_cases cfg clk skb q with ⟨n, he⟩ | ⟨_, hb, he⟩
    · rw [he]
      exact wf_drop (wf_queues h rfl) _ n
    · rw [he]
      exact wf_mark (q := { q with round_time := dwrr_idle_ageing cfg clk q }) (wf_queues h rfl)
        cfg _ _ skb hb
  | pass cfg now =>
    rcases step_pass_cases cfg now q with ⟨h1, _⟩ | ⟨len, h1, _⟩ |
      ⟨i, rest, skb, tl, _, hf, _, h1, _⟩ | ⟨i, rest, skb, tl, _, _, _, h1, _⟩
    · rw [h1]; exact h
    · rw [h1]; exact wf_queues h rfl
    · rw [h1]; exact wf_release h cfg now i rest skb tl hf
    · rw [h1]; exact wf_yield h cfg i rest

theorem well_formed_run {q : dwrr_sched_data} (h : well_formed q) (ops : List step_input) :
    well_formed (run ops q) := by
  induction ops generalizing q with
  | nil => exact h
  | cons op ops ih => exact ih (well_formed_step h op)

/-- One step of a class that stays in the rotation, in DRR mode with quantum `Q`:
the bytes sent and the deficit left add up to the old deficit plus `Q` for a
turn given up. -/
theorem step_potential (i : Fin 8) (Q : Nat) (q : dwrr_sched_data) (op : step_input)
    (hwf : well_formed q) (hd : (q.queues i).deficit < Q + 2000024)
    (hw : op.cfg.dwrr_enable_wrr ≠ dwrr_enable)
    (hQ : u32_of_int (op.cfg.dwrr_queue_quantum i.val) = Q) (hQL : Q + 2000024 ≤ 4294967296)
    (h1 : (q.queues i).qdisc ≠ []) :
    step_bytes i q op + ((step q op).queues i).deficit =
        (q.queues i).deficit + Q * step_yields i q op ∧
      ((step q op).queues i).deficit < Q + 2000024 := by
  cases op with
  | enqueue cfg clk skb =>
    have hb : step_bytes i q (.enqueue cfg clk skb) = 0 := rfl
    have hy : step_yields i q (.enqueue cfg clk skb) = 0 := rfl
    rw [hb, hy]
    have key : ((step q (.enqueue cfg clk skb)).queues i).deficit = (q.queues i).deficit := by
      show ((dwrr_enqueue cfg clk skb q).2.queues i).deficit = _
      rcases dwrr_enqueue_cases cfg clk skb q with ⟨n, he⟩ | ⟨_, _, he⟩
      · rw [he]
        show (Function.update q.queues (dwrr_classify cfg skb) _ i).deficit = _
        by_cases hj : i = dwrr_classify cfg skb
        · rw [← hj, Function.update_same]
        · rw [Function.update_noteq hj]
      · rw [he]
        show (Function.update q.queues (dwrr_classify cfg skb) _ i).deficit = _
        by_cases hj : i = dwrr_classify cfg skb
        · rw [← hj, Function.update_same]
          show (dwrr_enqueue_class cfg _ _ i skb).deficit = _
          unfold dwrr_enqueue_class
          have hne : ¬ ((q.queues i).qdisc ++ [skb]).length = 1 := by
            intro hl
            apply h1
            simpa using hl
          rw [if_neg hne]
        · rw [Function.update_noteq hj]
    rw [key]
    exact ⟨by omega, hd⟩
  | pass cfg now =>
    rcases step_pass_cases cfg now q with ⟨h0, hb, hy⟩ | ⟨len, h0, hb, hy⟩ |
      ⟨j, rest, skb, tl, _, hf, hfit, h0, hb, hy⟩ | ⟨j, rest, skb, tl, _, hf, hfit, h0, hb, hy⟩
    · rw [h0, hb, hy]
      exact ⟨by omega, hd⟩
    · rw [h0, hb, hy]
      exact ⟨by show 0 + (q.queues i).deficit = _; omega, hd⟩
    · rw [h0, hb, hy]
      show _ + (Function.update q.queues j (dwrr_dequeue_release_class now q j skb tl) i).deficit =
          _ ∧
        (Function.update q.queues j (dwrr_dequeue_release_class now q j skb tl) i).deficit < _
      by_cases hj : j = i
      · subst hj
        rw [Function.update_same, if_pos rfl]
        show skb_size skb + u32_sub (q.queues j).deficit (skb_size skb) = _ ∧
          u32_sub (q.queues j).deficit (skb_size skb) < _
        unfold u32_sub
        omega
      · rw [Function.update_noteq (Ne.symm hj), if_neg hj]
        exact ⟨by omega, hd⟩
    · rw [h0, hb, hy]
      show _ + (Function.update q.queues j (dwrr_dequeue_yield_class cfg q j) i).deficit = _ ∧
        (Function.update q.queues j (dwrr_dequeue_yield_class cfg q j) i).deficit < _
      by_cases hj : j = i
      · subst hj
        rw [Function.update_same, if_pos rfl]
        have hs : skb_size skb ≤ 2000024 :=
          skb_size_le skb ((hwf j).2 skb (by rw [hf]; exact List.mem_cons_self _ _))
        have hw' : ¬ cfg.dwrr_enable_wrr = dwrr_enable := hw
        have hQ' : u32_of_int (cfg.dwrr_queue_quantum (q.queues j).id) = Q := by
          rw [(hwf j).1]; exact hQ
        show 0 + (if cfg.dwrr_enable_wrr = dwrr_enable then _ else
            u32_add (q.queues j).deficit (u32_of_int (cfg.dwrr_queue_quantum (q.queues j).id))) = _ ∧
          (if cfg.dwrr_enable_wrr = dwrr_enable then _ else
            u32_add (q.queues j).deficit (u32_of_int (cfg.dwrr_queue_quantum (q.queues j).id))) < _
        rw [if_neg hw', hQ']
        unfold u32_add
        omega
      · rw [Function.update_noteq (Ne.symm hj), if_neg hj]
        exact ⟨by omega, hd⟩

/-- The same over a sequence of steps. -/
theorem run_potential (i : Fin 8) (Q : Nat) (hQL : Q + 2000024 ≤ 4294967296)
    (ops : List step_input) :
    ∀ (q : dwrr_sched_data), well_formed q → (q.queues i).deficit < Q + 2000024 →
      (∀ op ∈ ops, op.cfg.dwrr_enable_wrr ≠ dwrr_enable ∧
        u32_of_int (op.cfg.dwrr_queue_quantum i.val) = Q) →
      stays i ops q →
      run_bytes i ops q + ((run ops q).queues i).deficit =
          (q.queues i).deficit + Q * run_yields i ops q ∧
        ((run ops q).queues i).deficit < Q + 2000024 := by
  induction ops with
  | nil => intro q _ hd _ _; exact ⟨by simp [run_bytes, run_yields, run], hd⟩
  | cons op ops ih =>
    intro q hwf hd hc hs
    obtain ⟨h1, h2⟩ := hs
    obtain ⟨hw, hQ⟩ := hc op (List.mem_cons_self _ _)
    obtain ⟨hp, hd1⟩ := step_potential i Q q op hwf hd hw hQ hQL h1
    obtain ⟨ih1, ih2⟩ := ih (step q op) (well_formed_step hwf op) hd1
      (fun o ho => hc o (List.mem_cons_of_mem _ ho)) h2
    simp only [run_bytes, run_yields, run]
    rw [Nat.mul_add]
    exact ⟨by omega, ih2⟩

theorem gives_up_head {q : dwrr_sched_data} {i : Fin 8} (h : gives_up q i) :
    ∃ skb, (q.queues i).qdisc.head? = some skb ∧ (q.queues i).deficit < skb_size skb := by
  obtain ⟨cfg, now, q1, hit⟩ := h
  obtain ⟨rest, skb, tl, _, hf, hd, _⟩ := dwrr_dequeue_iter_again hit
  exact ⟨skb, by rw [hf]; rfl, hd⟩

/-- Bytes sent by a class between two of its yields, in DRR mode. -/
theorem drr_window (i : Fin 8) (Q : Nat) (hQL : Q + 2000024 ≤ 4294967296)
    (ops : List step_input) (q : dwrr_sched_data) (hwf : well_formed q)
    (hc : ∀ op ∈ ops, op.cfg.dwrr_enable_wrr ≠ dwrr_enable ∧
      u32_of_int (op.cfg.dwrr_queue_quantum i.val) = Q)
    (hs : stays i ops q) (h0 : gives_up q i) (hk : gives_up (run ops q) i) :
    ∃ skb0 skbk, (q.queues i).qdisc.head? = some skb0 ∧
      ((run ops q).queues i).qdisc.head? = some skbk ∧
      (q.queues i).deficit < skb_size skb0 ∧
      ((run ops q).queues i).deficit < skb_size skbk ∧
      (run_bytes i ops q : Int) =
        run_yields i ops q * Q + (q.queues i).deficit - ((run ops q).queues i).deficit ∧
      |(run_bytes i ops q : Int) - run_yields i ops q * Q| <
        max (skb_size skb0) (skb_size skbk) ∧
      max (skb_size skb0) (skb_size skbk) ≤ 2000024 := by
  obtain ⟨skb0, hh0, hd0⟩ := gives_up_head h0
  obtain ⟨skbk, hhk, hdk⟩ := gives_up_head hk
  have hwfk := well_formed_run hwf ops
  have hl0 : skb_size skb0 ≤ 2000024 :=
    skb_size_le skb0 ((hwf i).2 skb0 (List.mem_of_mem_head? hh0))
  have hlk : skb_size skbk ≤ 2000024 :=
    skb_size_le skbk ((hwfk i).2 skbk (List.mem_of_mem_head? hhk))
  have hp := (run_potential i Q hQL ops q hwf (by omega) hc hs).1
  refine ⟨skb0, skbk, hh0, hhk, hd0, hdk, ?_, ?_, ?_⟩
  · have : ((run_bytes i ops q + ((run ops q).queues i).deficit : Nat) : Int) =
        (((q.queues i).deficit + Q * run_yields i ops q : Nat) : Int) := by rw [hp]
    push_cast at this
    linarith
  · have : ((run_bytes i ops q + ((run ops q).queues i).deficit : Nat) : Int) =
        (((q.queues i).deficit + Q * run_yields i ops q : Nat) : Int) := by rw [hp]
    push_cast at this
    rw [abs_lt]
    have hm0 : (skb_size skb0 : Int) ≤ max (skb_size skb0 : Int) (skb_size skbk : Int) :=
      le_max_left _ _
    have hmk : (skb_size skbk : Int) ≤ max (skb_size skb0 : Int) (skb_size skbk : Int) :=
      le_max_right _ _
    have hd0' : ((q.queues i).deficit : Int) < skb_size skb0 := by exact_mod_cast hd0
    have hdk' : (((run ops q).queues i).deficit : Int) < skb_size skbk := by exact_mod_cast hdk
    have hn0 : (0 : Int) ≤ (q.queues i).deficit := Int.ofNat_nonneg _
    have hnk : (0 : Int) ≤ ((run ops q).queues i).deficit := Int.ofNat_nonneg _
    push_cast
    constructor <;> nlinarith
  · exact max_le hl0 hlk

/-- A completed call of `dwrr_dequeue` is a sequence of passes. -/
theorem dequeue_is_run {fuel : Nat} {cfg : dwrr_params} {now : Int} {q q1 : dwrr_sched_data}
    {r : deq_exit} {ys : List (Fin 8)} (h : dwrr_dequeue fuel cfg now q = some (q1, r, ys)) :
    ∃ n, run (List.replicate n (.pass cfg now)) q = q1 ∧
      ∀ i, run_yields i (List.replicate n (.pass cfg now)) q = ys.count i ∧
        run_bytes i (List.replicate n (.pass cfg now)) q =
          sent_bytes i r := by
  have h_loop : ∀ fuel q q1 r ys, dwrr_dequeue_loop cfg now fuel q = some (q1, r, ys) →
      run (List.replicate (ys.length + 1) (.pass cfg now)) q = q1 ∧
      ∀ i, run_yields i (List.replicate (ys.length + 1) (.pass cfg now)) q = ys.count i ∧
        run_bytes i (List.replicate (ys.length + 1) (.pass cfg now)) q =
          sent_bytes i r := by
    intro fuel
    induction fuel with
    | zero => intro q q1 r ys h; simp [dwrr_dequeue_loop] at h
    | succ n ih =>
      intro q q1 r ys h
      unfold dwrr_dequeue_loop at h
      split at h
      · rename_i q2 r2 hit
        simp only [Option.some.injEq, Prod.mk.injEq] at h
        obtain ⟨e1, e2, e3⟩ := h
        subst e1 e2 e3
        simp only [List.length_nil, Nat.zero_add, List.replicate_one, run, run_yields,
          run_bytes, step, step_yields, step_bytes, hit, List.count_nil, Nat.add_zero]
        refine ⟨trivial, fun i => ⟨trivial, ?_⟩⟩
        cases r2 <;> rfl
      · rename_i q2 j hit
        split at h
        · rename_i q3 r3 ys3 hl
          simp only [Option.some.injEq, Prod.mk.injEq] at h
          obtain ⟨e1, e2, e3⟩ := h
          subst e1 e2 e3
          obtain ⟨ih1, ih2⟩ := ih _ _ _ _ hl
          have hs : step q (.pass cfg now) = q2 := by simp only [step, hit]
          have hy : ∀ i, step_yields i q (.pass cfg now) = if j = i then 1 else 0 := by
            intro i; simp only [step_yields, hit]
          have hb : ∀ i, step_bytes i q (.pass cfg now) = 0 := by
            intro i; simp only [step_bytes, hit]
          have e : List.replicate ((j :: ys3).length + 1) (step_input.pass cfg now) =
              .pass cfg now :: List.replicate (ys3.length + 1) (.pass cfg now) := rfl
          rw [e]
          refine ⟨?_, fun i => ⟨?_, ?_⟩⟩
          · show run _ (step q (.pass cfg now)) = _
            rw [hs]; exact ih1
          · show step_yields i q (.pass cfg now) + run_yields i _ (step q (.pass cfg now)) = _
            rw [hs, hy, (ih2 i).1, List.count_cons]
            simp only [beq_iff_eq]
            omega
          · show step_bytes i q (.pass cfg now) + run_bytes i _ (step q (.pass cfg now)) = _
            rw [hs, hb, (ih2 i).2, Nat.zero_add]
        · simp at h
  unfold dwrr_dequeue at h
  split at h
  · simp only [Option.some.injEq, Prod.mk.injEq] at h
    obtain ⟨e1, e2, e3⟩ := h
    subst e1 e2 e3
    exact ⟨0, rfl, fun i => ⟨rfl, rfl⟩⟩
  · exact ⟨ys.length + 1, h_loop _ _ _ _ _ h⟩

end sch_dwrr2

namespace sch_dwrr

theorem skb_size_le_qdisc (p : sk_buff) (h : p.len ≤ DWRR_QDISC_MAX_BUFFER_BYTES) :
    skb_size p ≤ 2000024 := by
  unfold DWRR_QDISC_MAX_BUFFER_BYTES at h
  unfold skb_size u32_add DWRR_QDISC_MIN_PKT_BYTES
  omega

theorem skb_size_congr_qdisc {p p1 : sk_buff} (h : p1.len = p.len) :
    skb_size p1 = skb_size p := by
  unfold skb_size
  rw [h]

theorem enqueue_ecn_len (cfg : dwrr_params) (skb : sk_buff) (q : dwrr_sched_data)
    (cl : dwrr_class) : (enqueue_ecn cfg skb q cl).len = skb.len := by
  unfold enqueue_ecn dwrr_qdisc_ecn INET_ECN_set_ce
  repeat' split
  all_goals rfl

theorem dequeue_ecn_len (cfg : dwrr_params) (skb : sk_buff) (q : dwrr_sched_data)
    (cl : dwrr_class) : (dequeue_ecn cfg skb q cl).len = skb.len := by
  unfold dequeue_ecn dwrr_qdisc_ecn INET_ECN_set_ce
  repeat' split
  all_goals rfl

/-- What one pass of the dequeue loop does, with the bytes sent and the turns given up. -/
theorem step_pass_cases_qdisc (cfg : dwrr_params) (clk : Nat → Int) (q : dwrr_sched_data) :
    (step q (.pass cfg clk) = q ∧
      (∀ j, step_bytes j q (.pass cfg clk) = 0) ∧ ∀ j, step_yields j q (.pass cfg clk) = 0) ∨
    (∃ i rest, q.activeList = i :: rest ∧
      step q (.pass cfg clk) = dwrr_qdisc_dequeue_visit q i ∧
      (∀ j, step_bytes j q (.pass cfg clk) = 0) ∧ ∀ j, step_yields j q (.pass cfg clk) = 0) ∨
    (∃ i rest len, q.activeList = i :: rest ∧
      step q (.pass cfg clk) =
        dwrr_qdisc_dequeue_throttle cfg (clk 0) (dwrr_qdisc_dequeue_visit q i) len ∧
      (∀ j, step_bytes j q (.pass cfg clk) = 0) ∧ ∀ j, step_yields j q (.pass cfg clk) = 0) ∨
    (∃ i rest skb tl, q.activeList = i :: rest ∧ (q.queues i).qdisc = skb :: tl ∧
      skb_size skb ≤ ((dwrr_qdisc_dequeue_visit q i).queues i).deficitCounter ∧
      step q (.pass cfg clk) =
        dwrr_qdisc_dequeue_release cfg clk (dwrr_qdisc_dequeue_visit q i) i rest skb tl ∧
      (∀ j, step_bytes j q (.pass cfg clk) = if i = j then skb_size skb else 0) ∧
      ∀ j, step_yields j q (.pass cfg clk) = 0) ∨
    (∃ i rest skb tl, q.activeList = i :: rest ∧ (q.queues i).qdisc = skb :: tl ∧
      ((dwrr_qdisc_dequeue_visit q i).queues i).deficitCounter < skb_size skb ∧
      step q (.pass cfg clk) =
        dwrr_qdisc_dequeue_yield cfg (clk 0) (dwrr_qdisc_dequeue_visit q i) i rest ∧
      (∀ j, step_bytes j q (.pass cfg clk) = 0) ∧
      ∀ j, step_yields j q (.pass cfg clk) = if i = j then 1 else 0) := by
  rcases hit : dwrr_qdisc_dequeue_iter cfg clk q with ⟨q1, r⟩ | ⟨q1, i⟩
  · rcases dwrr_qdisc_dequeue_iter_exit hit with ⟨_, h1, hr⟩ | ⟨i, rest, hq, _, h1, hr⟩ |
      ⟨i, rest, skb, tl, hq, _, _, _, h1, hr⟩ | ⟨i, rest, skb, tl, hq, hf, hd, _, h1, hr⟩
    · left
      subst h1 hr
      simp only [step, step_bytes, step_yields, hit]
      exact ⟨trivial, fun _ => trivial, fun _ => trivial⟩
    · right; left
      subst h1 hr
      refine ⟨i, rest, hq, ?_⟩
      simp only [step, step_bytes, step_yields, hit]
      exact ⟨trivial, fun _ => trivial, fun _ => trivial⟩
    · right; right; left
      subst h1 hr
      refine ⟨i, rest, skb_size skb, hq, ?_⟩
      simp only [step, step_bytes, step_yields, hit]
      exact ⟨trivial, fun _ => trivial, fun _ => trivial⟩
    · right; right; right; left
      subst h1 hr
      refine ⟨i, rest, skb, tl, hq, hf, hd, ?_⟩
      simp only [step, step_bytes, step_yields, hit]
      refine ⟨trivial, fun j => ?_, fun _ => trivial⟩
      rw [skb_size_congr_qdisc (dequeue_ecn_len cfg skb _ _)]
  · obtain ⟨rest, skb, tl, hq, hf, hd, h1⟩ := dwrr_qdisc_dequeue_iter_again hit
    right; right; right; right
    subst h1
    refine ⟨i, rest, skb, tl, hq, hf, hd, ?_⟩
    simp only [step, step_bytes, step_yields, hit]
    exact ⟨trivial, fun _ => trivial, fun _ => trivial⟩

theorem wf_update_qdisc {q q1 : dwrr_sched_data} {j : Fin 8} {C : dwrr_class}
    (h : well_formed q) (hq : q1.queues = Function.update q.queues j C)
    (hid : C.id = (q.queues j).id)
    (hp : ∀ p ∈ C.qdisc, p.len ≤ DWRR_QDISC_MAX_BUFFER_BYTES) : well_formed q1 := by
  intro k
  rw [hq]
  by_cases hk : k = j
  · subst hk
    rw [Function.update_same]
    exact ⟨hid.trans (h k).1, hp⟩
  · rw [Function.update_noteq hk]
    exact h k

theorem wf_queues_qdisc {q q1 : dwrr_sched_data} (h : well_formed q)
    (hq : q1.queues = q.queues) : well_formed q1 := by
  intro k
  rw [hq]
  exact h k

theorem enqueue_class_id_qdisc (cfg : dwrr_params) (t : Int) (q : dwrr_sched_data) (i : Fin 8)
    (skb : sk_buff) : (dwrr_qdisc_enqueue_class cfg t q i skb).id = (q.queues i).id := by
  unfold dwrr_qdisc_enqueue_class
  split <;> rfl

theorem wf_drop_qdisc {q : dwrr_sched_data} (h : well_formed q) (i : Fin 8) (n : Nat) :
    well_formed (dwrr_qdisc_enqueue_drop q i n) :=
  wf_update_qdisc h rfl rfl (h i).2

theorem wf_mark_qdisc {q : dwrr_sched_data} (h : well_formed q) (cfg : dwrr_params) (t : Int)
    (i : Fin 8) (skb : sk_buff)
    (hb : bfifo_backlog (q.queues i).qdisc + skb.len ≤ DWRR_QDISC_MAX_BUFFER_BYTES) :
    well_formed (dwrr_qdisc_enqueue_mark cfg t q i skb) := by
  refine wf_update_qdisc h rfl (enqueue_class_id_qdisc cfg t q i skb) ?_
  intro p hp
  have hp' : p ∈ (q.queues i).qdisc ++ [enqueue_ecn cfg skb (dwrr_qdisc_enqueue_accept cfg t q i skb)
      (dwrr_qdisc_enqueue_class cfg t q i skb)] := hp
  rcases List.mem_append.mp hp' with h1 | h1
  · exact (h i).2 p h1
  · rw [List.mem_singleton] at h1
    rw [h1, enqueue_ecn_len]
    omega

theorem visit_class_id (q : dwrr_sched_data) (i : Fin 8) :
    (dwrr_qdisc_dequeue_visit_class q i).id = (q.queues i).id := by
  unfold dwrr_qdisc_dequeue_visit_class
  split <;> rfl

theorem wf_visit {q : dwrr_sched_data} (h : well_formed q) (i : Fin 8) :
    well_formed (dwrr_qdisc_dequeue_visit q i) :=
  wf_update_qdisc h rfl (visit_class_id q i) (by rw [visit_class_qdisc]; exact (h i).2)

theorem release_class_id (cfg : dwrr_params) (t : Int) (q : dwrr_sched_data) (i : Fin 8)
    (skb : sk_buff) (tl : List sk_buff) :
    (dwrr_qdisc_dequeue_release_class cfg t q i skb tl).id = (q.queues i).id := by
  unfold dwrr_qdisc_dequeue_release_class
  split <;> rfl

theorem release_class_qdisc (cfg : dwrr_params) (t : Int) (q : dwrr_sched_data) (i : Fin 8)
    (skb : sk_buff) (tl : List sk_buff) :
    (dwrr_qdisc_dequeue_release_class cfg t q i skb tl).qdisc = tl := by
  unfold dwrr_qdisc_dequeue_release_class
  split <;> rfl

theorem wf_release_qdisc {q : dwrr_sched_data} (h : well_formed q) (cfg : dwrr_params)
    (clk : Nat → Int) (i : Fin 8) (rest : List (Fin 8)) (skb : sk_buff) (tl : List sk_buff)
    (hf : (q.queues i).qdisc = skb :: tl) :
    well_formed (dwrr_qdisc_dequeue_release cfg clk q i rest skb tl) := by
  refine wf_update_qdisc h rfl (release_class_id cfg _ q i skb tl) ?_
  intro p hp
  rw [release_class_qdisc] at hp
  exact (h i).2 p (by rw [hf]; exact List.mem_cons_of_mem _ hp)

theorem wf_yield_qdisc {q : dwrr_sched_data} (h : well_formed q) (cfg : dwrr_params) (t : Int)
    (i : Fin 8) (rest : List (Fin 8)) : well_formed (dwrr_qdisc_dequeue_yield cfg t q i rest) :=
  wf_update_qdisc h rfl rfl (h i).2

theorem well_formed_reachable_qdisc (P : dwrr_params → Prop) :
    (∀ q, Reachable P q → well_formed q) ∧ (∀ q, Examined P q → well_formed q) := by
  apply reachable_induction_qdisc P well_formed
  · intro clk rate j
    exact ⟨rfl, fun p hp => by simp [dwrr_qdisc_init] at hp⟩
  · intro q rt h
    exact wf_queues_qdisc h rfl
  · intro q i n h
    exact wf_drop_qdisc h i n
  · intro cfg t q i skb _ h hb
    exact wf_mark_qdisc h cfg t i skb hb
  · intro q i rest h _
    exact wf_visit h i
  · intro cfg now q len h
    exact wf_queues_qdisc h rfl
  · intro cfg clk q i rest skb tl _ h _ hf _
    exact wf_release_qdisc h cfg clk i rest skb tl hf
  · intro cfg t q i rest skb tl _ h _ _ _
    exact wf_yield_qdisc h cfg t i rest

theorem well_formed_step_qdisc {q : dwrr_sched_data} (h : well_formed q) (op : step_input) :
    well_formed (step q op) := by
  cases op with
  | enqueue cfg clk skb =>
    show well_formed (dwrr_qdisc_enqueue cfg clk skb q).2
    rcases dwrr_qdisc_enqueue_cases cfg clk skb q with ⟨n, he⟩ | ⟨_, hb, he⟩
    · rw [he]
      exact wf_drop_qdisc (wf_queues_qdisc h rfl) _ n
    · rw [he]
      exact wf_mark_qdisc (q := { q with round_time_ns := dwrr_qdisc_idle_ageing cfg clk q })
        (wf_queues_qdisc h rfl) cfg _ _ skb hb
  | pass cfg clk =>
    rcases step_pass_cases_qdisc cfg clk q with ⟨h1, _⟩ | ⟨i, rest, _, h1, _⟩ |
      ⟨i, rest, len, _, h1, _⟩ | ⟨i, rest, skb, tl, _, hf, _, h1, _⟩ |
      ⟨i, rest, skb, tl, _, _, _, h1, _⟩
    · rw [h1]; exact h
    · rw [h1]; exact wf_visit h i
    · rw [h1]; exact wf_queues_qdisc (wf_visit h i) rfl
    · rw [h1]
      exact wf_release_qdisc (wf_visit h i) cfg clk i rest skb tl ((visit_qdisc q i).trans hf)
    · rw [h1]; exact wf_yield_qdisc (wf_visit h i) cfg _ i rest

theorem well_formed_run_qdisc {q : dwrr_sched_data} (h : well_formed q)
    (ops : List step_input) : well_formed (run ops q) := by
  induction ops generalizing q with
  | nil => exact h
  | cons op ops ih => exact ih (well_formed_step_qdisc h op)

theorem visit_other (q : dwrr_sched_data) {i j : Fin 8} (h : j ≠ i) :
    (dwrr_qdisc_dequeue_visit q j).queues i = q.queues i := by
  show Function.update q.queues j _ i = _
  rw [Function.update_noteq (Ne.symm h)]

/-- The start of a pass turns the deficit a class will be seen with into its
deficit counter. -/
theorem visit_deficit (q : dwrr_sched_data) (i : Fin 8)
    (hd : deficit_at_visit (q.queues i) < 4294967296) :
    ((dwrr_qdisc_dequeue_visit q i).queues i).deficitCounter = deficit_at_visit (q.queues i) ∧
      ((dwrr_qdisc_dequeue_visit q i).queues i).quantum = (q.queues i).quantum ∧
      ((dwrr_qdisc_dequeue_visit q i).queues i).id = (q.queues i).id := by
  show (Function.update q.queues i (dwrr_qdisc_dequeue_visit_class q i) i).deficitCounter = _ ∧
    (Function.update q.queues i (dwrr_qdisc_dequeue_visit_class q i) i).quantum = _ ∧
    (Function.update q.queues i (dwrr_qdisc_dequeue_visit_class q i) i).id = _
  rw [Function.update_same]
  unfold dwrr_qdisc_dequeue_visit_class
  unfold deficit_at_visit at hd ⊢
  by_cases hc : (q.queues i).curr = 0
  · rw [if_pos hc] at hd ⊢
    rw [if_pos hc]
    refine ⟨?_, rfl, rfl⟩
    show u32_add _ _ = _
    unfold u32_add
    omega
  · rw [if_neg hc] at hd ⊢
    rw [if_neg hc]
    exact ⟨rfl, rfl, rfl⟩

/-- In DRR mode, one step changes the deficit a class in the rotation will be
seen with by the quantum it receives minus the bytes it sends. -/
theorem step_potential_qdisc (i : Fin 8) (Q : Nat) (q : dwrr_sched_data) (op : step_input)
    (hwf : well_formed q) (hq : (q.queues i).quantum = Q)
    (hd : deficit_at_visit (q.queues i) < Q + 2000024)
    (hw : op.cfg.DWRR_QDISC_ENABLE_WRR ≠ DWRR_QDISC_WRR_ON)
    (hQ : u32_of_int (op.cfg.DWRR_QDISC_QUEUE_QUANTUM i.val) = Q)
    (hQL : Q + 2000024 ≤ 4294967296)
    (h1 : (q.queues i).active = 1) (h2 : ((step q op).queues i).active = 1) :
    step_bytes i q op + deficit_at_visit ((step q op).queues i) =
        deficit_at_visit (q.queues i) + Q * step_yields i q op ∧
      ((step q op).queues i).quantum = Q ∧
      deficit_at_visit ((step q op).queues i) < Q + 2000024 := by
  have hd32 : deficit_at_visit (q.queues i) < 4294967296 := by omega
  cases op with
  | enqueue cfg clk skb =>
    have hb : step_bytes i q (.enqueue cfg clk skb) = 0 := rfl
    have hy : step_yields i q (.enqueue cfg clk skb) = 0 := rfl
    rw [hb, hy]
    have key : deficit_at_visit ((step q (.enqueue cfg clk skb)).queues i) =
          deficit_at_visit (q.queues i) ∧
        ((step q (.enqueue cfg clk skb)).queues i).quantum = (q.queues i).quantum := by
      show deficit_at_visit ((dwrr_qdisc_enqueue cfg clk skb q).2.queues i) = _ ∧
        ((dwrr_qdisc_enqueue cfg clk skb q).2.queues i).quantum = _
      rcases dwrr_qdisc_enqueue_cases cfg clk skb q with ⟨n, he⟩ | ⟨_, _, he⟩
      · rw [he]
        show deficit_at_visit (Function.update q.queues (dwrr_qdisc_classify cfg skb) _ i) = _ ∧
          (Function.update q.queues (dwrr_qdisc_classify cfg skb) _ i).quantum = _
        by_cases hj : i = dwrr_qdisc_classify cfg skb
        · rw [← hj, Function.update_same]
          exact ⟨rfl, rfl⟩
        · rw [Function.update_noteq hj]
          exact ⟨rfl, rfl⟩
      · rw [he]
        show deficit_at_visit (Function.update q.queues (dwrr_qdisc_classify cfg skb) _ i) = _ ∧
          (Function.update q.queues (dwrr_qdisc_classify cfg skb) _ i).quantum = _
        by_cases hj : i = dwrr_qdisc_classify cfg skb
        · rw [← hj, Function.update_same]
          have hne : ¬ (q.queues i).active = 0 := by rw [h1]; decide
          have hcl : dwrr_qdisc_enqueue_class cfg (clk 1)
              { q with round_time_ns := dwrr_qdisc_idle_ageing cfg clk q } i skb =
              { q.queues i with
                qdisc := (q.queues i).qdisc ++ [skb]
                len_bytes := u32_add (q.queues i).len_bytes (skb_size skb) } := by
            unfold dwrr_qdisc_enqueue_class
            exact if_neg hne
          rw [hcl]
          exact ⟨rfl, rfl⟩
        · rw [Function.update_noteq hj]
          exact ⟨rfl, rfl⟩
    rw [key.1, key.2]
    exact ⟨by omega, hq, hd⟩
  | pass cfg clk =>
    have hw' : ¬ cfg.DWRR_QDISC_ENABLE_WRR = DWRR_QDISC_WRR_ON := hw
    rcases step_pass_cases_qdisc cfg clk q with ⟨h0, hb, hy⟩ | ⟨j, rest, _, h0, hb, hy⟩ |
      ⟨j, rest, len, _, h0, hb, hy⟩ | ⟨j, rest, skb, tl, _, hf, hfit, h0, hb, hy⟩ |
      ⟨j, rest, skb, tl, _, hf, hfit, h0, hb, hy⟩
    · rw [h0, hb, hy]
      exact ⟨by omega, hq, hd⟩
    · rw [h0, hb, hy]
      by_cases hj : j = i
      · subst hj
        obtain ⟨e1, e2, _⟩ := visit_deficit q j hd32
        have e3 := visit_curr q j
        have e5 : deficit_at_visit ((dwrr_qdisc_dequeue_visit q j).queues j) =
            deficit_at_visit (q.queues j) := by
          rw [← e1]
          unfold deficit_at_visit
          rw [if_neg e3]
          rfl
        rw [e5, e2]
        exact ⟨by omega, hq, hd⟩
      · rw [visit_other q hj]
        exact ⟨by omega, hq, hd⟩
    · rw [h0, hb, hy]
      show 0 + deficit_at_visit ((dwrr_qdisc_dequeue_visit q j).queues i) = _ ∧
        ((dwrr_qdisc_dequeue_visit q j).queues i).quantum = _ ∧
        deficit_at_visit ((dwrr_qdisc_dequeue_visit q j).queues i) < _
      by_cases hj : j = i
      · subst hj
        obtain ⟨e1, e2, _⟩ := visit_deficit q j hd32
        have e3 := visit_curr q j
        have e5 : deficit_at_visit ((dwrr_qdisc_dequeue_visit q j).queues j) =
            deficit_at_visit (q.queues j) := by
          rw [← e1]
          unfold deficit_at_visit
          rw [if_neg e3]
          rfl
        rw [e5, e2]
        exact ⟨by omega, hq, hd⟩
      · rw [visit_other q hj]
        exact ⟨by omega, hq, hd⟩
    · rw [h0] at h2 ⊢
      rw [hb, hy]
      by_cases hj : j = i
      · subst hj
        obtain ⟨e1, e2, _⟩ := visit_deficit q j hd32
        have e3 := visit_curr q j
        have hcl : ((dwrr_qdisc_dequeue_release cfg clk (dwrr_qdisc_dequeue_visit q j) j rest
            skb tl).queues j) =
            dwrr_qdisc_dequeue_release_class cfg (clk 1) (dwrr_qdisc_dequeue_visit q j) j skb tl := by
          show Function.update _ j _ j = _
          rw [Function.update_same]
        rw [hcl] at h2 ⊢
        unfold dwrr_qdisc_dequeue_release_class at h2 ⊢
        by_cases ht : tl = []
        · rw [if_pos ht] at h2
          have h3 : (0 : Nat) = 1 := h2
          omega
        · rw [if_neg ht, if_pos rfl]
          show skb_size skb + (u32_sub ((dwrr_qdisc_dequeue_visit q j).queues j).deficitCounter
              (skb_size skb) +
              (if ((dwrr_qdisc_dequeue_visit q j).queues j).curr = 0 then
                ((dwrr_qdisc_dequeue_visit q j).queues j).quantum else 0)) = _ ∧
            ((dwrr_qdisc_dequeue_visit q j).queues j).quantum = _ ∧
            (u32_sub ((dwrr_qdisc_dequeue_visit q j).queues j).deficitCounter (skb_size skb) +
              (if ((dwrr_qdisc_dequeue_visit q j).queues j).curr = 0 then
                ((dwrr_qdisc_dequeue_visit q j).queues j).quantum else 0)) < _
          rw [if_neg e3, e2]
          rw [e1] at hfit ⊢
          unfold u32_sub
          exact ⟨by omega, hq, by omega⟩
      · have hcl : ((dwrr_qdisc_dequeue_release cfg clk (dwrr_qdisc_dequeue_visit q j) j rest
            skb tl).queues i) = q.queues i := by
          show Function.update _ j _ i = _
          rw [Function.update_noteq (Ne.symm hj)]
          exact visit_other q hj
        rw [hcl, if_neg hj]
        exact ⟨by omega, hq, hd⟩
    · rw [h0, hb, hy]
      by_cases hj : j = i
      · subst hj
        obtain ⟨e1, e2, e4⟩ := visit_deficit q j hd32
        have hs : skb_size skb ≤ 2000024 :=
          skb_size_le_qdisc skb ((hwf j).2 skb (by rw [hf]; exact List.mem_cons_self _ _))
        have hcl : ((dwrr_qdisc_dequeue_yield cfg (clk 0) (dwrr_qdisc_dequeue_visit q j) j
            rest).queues j) =
            dwrr_qdisc_dequeue_yield_class cfg (clk 0) (dwrr_qdisc_dequeue_visit q j) j := by
          show Function.update _ j _ j = _
          rw [Function.update_same]
        have hQ' : u32_of_int (cfg.DWRR_QDISC_QUEUE_QUANTUM
            ((dwrr_qdisc_dequeue_visit q j).queues j).id) = Q := by
          rw [e4, (hwf j).1]; exact hQ
        rw [hcl, if_pos rfl]
        show 0 + ((if cfg.DWRR_QDISC_ENABLE_WRR = DWRR_QDISC_WRR_ON then 0 else
              ((dwrr_qdisc_dequeue_visit q j).queues j).deficitCounter) +
            (if (0 : Nat) = 0 then u32_of_int (cfg.DWRR_QDISC_QUEUE_QUANTUM
              ((dwrr_qdisc_dequeue_visit q j).queues j).id) else 0)) = _ ∧
          u32_of_int (cfg.DWRR_QDISC_QUEUE_QUANTUM
              ((dwrr_qdisc_dequeue_visit q j).queues j).id) = _ ∧
          ((if cfg.DWRR_QDISC_ENABLE_WRR = DWRR_QDISC_WRR_ON then 0 else
              ((dwrr_qdisc_dequeue_visit q j).queues j).deficitCounter) +
            (if (0 : Nat) = 0 then u32_of_int (cfg.DWRR_QDISC_QUEUE_QUANTUM
              ((dwrr_qdisc_dequeue_visit q j).queues j).id) else 0)) < _
        rw [if_neg hw', if_pos rfl, hQ']
        rw [e1] at hfit ⊢
        exact ⟨by omega, rfl, by omega⟩
      · have hcl : ((dwrr_qdisc_dequeue_yield cfg (clk 0) (dwrr_qdisc_dequeue_visit q j) j
            rest).queues i) = q.queues i := by
          show Function.update _ j _ i = _
          rw [Function.update_noteq (Ne.symm hj)]
          exact visit_other q hj
        rw [hcl, if_neg hj]
        exact ⟨by omega, hq, hd⟩

/-- The same over a sequence of steps. -/
theorem run_potential_qdisc (i : Fin 8) (Q : Nat) (hQL : Q + 2000024 ≤ 4294967296)
    (ops : List step_input) :
    ∀ (q : dwrr_sched_data), well_formed q → (q.queues i).quantum = Q →
      deficit_at_visit (q.queues i) < Q + 2000024 →
      (∀ op ∈ ops, op.cfg.DWRR_QDISC_ENABLE_WRR ≠ DWRR_QDISC_WRR_ON ∧
        u32_of_int (op.cfg.DWRR_QDISC_QUEUE_QUANTUM i.val) = Q) →
      stays i ops q →
      run_bytes i ops q + deficit_at_visit ((run ops q).queues i) =
          deficit_at_visit (q.queues i) + Q * run_yields i ops q ∧
        ((run ops q).queues i).quantum = Q ∧
        deficit_at_visit ((run ops q).queues i) < Q + 2000024 := by
  induction ops with
  | nil => intro q _ hq hd _ _; exact ⟨by simp [run_bytes, run_yields, run], hq, hd⟩
  | cons op ops ih =>
    intro q hwf hq hd hc hs
    obtain ⟨h1, h2⟩ := hs
    have h2' : ((step q op).queues i).active = 1 := by
      cases ops with
      | nil => exact h2
      | cons o os => exact h2.1
    obtain ⟨hw, hQ⟩ := hc op (List.mem_cons_self _ _)
    obtain ⟨hp, hq1, hd1⟩ := step_potential_qdisc i Q q op hwf hq hd hw hQ hQL h1 h2'
    obtain ⟨ih1, ih2, ih3⟩ := ih (step q op) (well_formed_step_qdisc hwf op) hq1 hd1
      (fun o ho => hc o (List.mem_cons_of_mem _ ho)) h2
    simp only [run_bytes, run_yields, run]
    rw [Nat.mul_add]
    exact ⟨by omega, ih2, ih3⟩

/-- A class that gives up its turn has a head packet longer than the deficit it
is seen with. -/
theorem gives_up_head_qdisc {q : dwrr_sched_data} {i : Fin 8} (h : gives_up q i)
    (hd : deficit_at_visit (q.queues i) < 4294967296) :
    ∃ skb, (q.queues i).qdisc.head? = some skb ∧
      deficit_at_visit (q.queues i) < skb_size skb := by
  obtain ⟨cfg, clk, q1, hit⟩ := h
  obtain ⟨rest, skb, tl, _, hf, hlt, _⟩ := dwrr_qdisc_dequeue_iter_again hit
  rw [(visit_deficit q i hd).1] at hlt
  exact ⟨skb, by rw [hf]; rfl, hlt⟩

/-- Bytes sent by a class between two of its yields, in DRR mode. -/
theorem drr_window_qdisc (i : Fin 8) (Q : Nat) (hQL : Q + 2000024 ≤ 4294967296)
    (ops : List step_input) (q : dwrr_sched_data) (hwf : well_formed q)
    (hq : (q.queues i).quantum = Q) (hd : deficit_at_visit (q.queues i) < 4294967296)
    (hc : ∀ op ∈ ops, op.cfg.DWRR_QDISC_ENABLE_WRR ≠ DWRR_QDISC_WRR_ON ∧
      u32_of_int (op.cfg.DWRR_QDISC_QUEUE_QUANTUM i.val) = Q)
    (hs : stays i ops q) (h0 : gives_up q i) (hk : gives_up (run ops q) i) :
    ∃ skb0 skbk, (q.queues i).qdisc.head? = some skb0 ∧
      ((run ops q).queues i).qdisc.head? = some skbk ∧
      deficit_at_visit (q.queues i) < skb_size skb0 ∧
      deficit_at_visit ((run ops q).queues i) < skb_size skbk ∧
      (run_bytes i ops q : Int) = run_yields i ops q * Q + deficit_at_visit (q.queues i) -
        deficit_at_visit ((run ops q).queues i) ∧
      |(run_bytes i ops q : Int) - run_yields i ops q * Q| <
        max (skb_size skb0) (skb_size skbk) ∧
      max (skb_size skb0) (skb_size skbk) ≤ 2000024 := by
  obtain ⟨skb0, hh0, hd0⟩ := gives_up_head_qdisc h0 hd
  have hl0 : skb_size skb0 ≤ 2000024 :=
    skb_size_le_qdisc skb0 ((hwf i).2 skb0 (List.mem_of_mem_head? hh0))
  obtain ⟨hp, _, hdn⟩ := run_potential_qdisc i Q hQL ops q hwf hq (by omega) hc hs
  obtain ⟨skbk, hhk, hdk⟩ := gives_up_head_qdisc hk (by omega)
  have hwfk := well_formed_run_qdisc hwf ops
  have hlk : skb_size skbk ≤ 2000024 :=
    skb_size_le_qdisc skbk ((hwfk i).2 skbk (List.mem_of_mem_head? hhk))
  have hpz : ((run_bytes i ops q + deficit_at_visit ((run ops q).queues i) : Nat) : Int) =
      ((deficit_at_visit (q.queues i) + Q * run_yields i ops q : Nat) : Int) := by rw [hp]
  push_cast at hpz
  refine ⟨skb0, skbk, hh0, hhk, hd0, hdk, by linarith, ?_, max_le hl0 hlk⟩
  rw [abs_lt]
  have hm0 : (skb_size skb0 : Int) ≤ max (skb_size skb0 : Int) (skb_size skbk : Int) :=
    le_max_left _ _
  have hmk : (skb_size skbk : Int) ≤ max (skb_size skb0 : Int) (skb_size skbk : Int) :=
    le_max_right _ _
  have hd0' : (deficit_at_visit (q.queues i) : Int) < skb_size skb0 := by exact_mod_cast hd0
  have hdk' : (deficit_at_visit ((run ops q).queues i) : Int) < skb_size skbk := by
    exact_mod_cast hdk
  have hn0 : (0 : Int) ≤ deficit_at_visit (q.queues i) := Int.ofNat_nonneg _
  have hnk : (0 : Int) ≤ deficit_at_visit ((run ops q).queues i) := Int.ofNat_nonneg _
  push_cast
  constructor <;> nlinarith

end sch_dwrr


/-! ### Order of the classes in the rotation -/

theorem ahead_cons_ne {i j h : Fin 8} (rest : List (Fin 8)) (hi : h ≠ i) (hj : h ≠ j) :
    ahead i j (h :: rest) = ahead i j rest := by
  unfold ahead
  rw [List.indexOf_cons_ne _ hi, List.indexOf_cons_ne _ hj]
  simp only [Nat.succ_lt_succ_iff]

theorem ahead_append {i j : Fin 8} {l : List (Fin 8)} (h : Fin 8) (hi : i ∈ l) (hj : j ∈ l) :
    ahead i j (l ++ [h]) = ahead i j l := by
  unfold ahead
  rw [List.indexOf_append_of_mem hi, List.indexOf_append_of_mem hj]

theorem ahead_head_left {i j : Fin 8} (rest : List (Fin 8)) (hij : i ≠ j) :
    ahead i j (i :: rest) = 1 := by
  unfold ahead
  rw [List.indexOf_cons_self, List.indexOf_cons_ne _ hij]
  simp

theorem ahead_head_right {i j : Fin 8} (rest : List (Fin 8)) :
    ahead i j (j :: rest) = 0 := by
  unfold ahead
  rw [List.indexOf_cons_self]
  simp

theorem ahead_rot_left {i j : Fin 8} {rest : List (Fin 8)} (hi : i ∉ rest) (hj : j ∈ rest) :
    ahead i j (rest ++ [i]) = 0 := by
  unfold ahead
  rw [List.indexOf_append_of_not_mem hi, List.indexOf_append_of_mem hj]
  have := List.indexOf_lt_length.mpr hj
  rw [if_neg (by omega)]

theorem ahead_rot_right {i j : Fin 8} {rest : List (Fin 8)} (hi : i ∈ rest) (hj : j ∉ rest) :
    ahead i j (rest ++ [j]) = 1 := by
  unfold ahead
  rw [List.indexOf_append_of_not_mem hj, List.indexOf_append_of_mem hi]
  have := List.indexOf_lt_length.mpr hi
  rw [if_pos (by omega)]

theorem ahead_bounds (i j : Fin 8) (l : List (Fin 8)) : 0 ≤ ahead i j l ∧ ahead i j l ≤ 1 := by
  unfold ahead
  split <;> omega

/-- Moving the head of a duplicate-free list to its tail: the count of moves of
`i` minus that of `j` is made up by their order. -/
theorem ahead_rotate {i j h : Fin 8} {rest : List (Fin 8)} (hij : i ≠ j)
    (hn : (h :: rest).Nodup) (hi : i ∈ h :: rest) (hj : j ∈ h :: rest) :
    (if h = i then (1 : Int) else 0) + ahead i j (rest ++ [h]) =
      (if h = j then (1 : Int) else 0) + ahead i j (h :: rest) := by
  have hn' := List.nodup_cons.mp hn
  by_cases h1 : h = i
  · subst h1
    have hj' : j ∈ rest := by
      rcases List.mem_cons.mp hj with e | e
      · exact absurd e.symm hij
      · exact e
    rw [if_pos rfl, if_neg hij, ahead_rot_left hn'.1 hj', ahead_head_left rest hij]
    rfl
  · by_cases h2 : h = j
    · subst h2
      have hi' : i ∈ rest := by
        rcases List.mem_cons.mp hi with e | e
        · exact absurd e.symm h1
        · exact e
      rw [if_neg h1, if_pos rfl, ahead_rot_right hi' hn'.1, ahead_head_right]
      rfl
    · have hi' : i ∈ rest := by
        rcases List.mem_cons.mp hi with e | e
        · exact absurd e.symm h1
        · exact e
      have hj' : j ∈ rest := by
        rcases List.mem_cons.mp hj with e | e
        · exact absurd e.symm h2
        · exact e
      rw [if_neg h1, if_neg h2, ahead_append h hi' hj', ahead_cons_ne rest h1 h2]


namespace sch_dwrr2

theorem active_ok_step {q : dwrr_sched_data} (h : active_ok q) (op : step_input) :
    active_ok (step q op) := by
  obtain ⟨a, b, c, d, e, f⟩ := active_ok_blocks (fun _ => True)
  cases op with
  | enqueue cfg clk skb =>
    show active_ok (dwrr_enqueue cfg clk skb q).2
    rcases dwrr_enqueue_cases cfg clk skb q with ⟨n, he⟩ | ⟨_, hb, he⟩
    · rw [he]
      exact b _ _ n (a q _ h)
    · rw [he]
      exact c cfg _ _ _ skb trivial (a q _ h) hb
  | pass cfg now =>
    rcases step_pass_cases cfg now q with ⟨h0, _⟩ | ⟨len, h0, _⟩ |
      ⟨j, rest, skb, tl, hq, hf, hfit, h0, _⟩ | ⟨j, rest, skb, tl, hq, hf, hfit, h0, _⟩
    · rw [h0]; exact h
    · rw [h0]; exact d cfg now q len h
    · rw [h0]; exact e cfg now q j rest skb tl trivial h hq hf hfit
    · rw [h0]; exact f cfg q j rest skb tl trivial h hq hf hfit

theorem active_ok_run {q : dwrr_sched_data} (h : active_ok q) (ops : List step_input) :
    active_ok (run ops q) := by
  induction ops generalizing q with
  | nil => exact h
  | cons op ops ih => exact ih (active_ok_step h op)

/-- One step keeps the balance between the turns two queued classes have given
up and their order in the active list. -/
theorem step_order {i j : Fin 8} (hij : i ≠ j) (q : dwrr_sched_data) (op : step_input)
    (hok : active_ok q) (hi : (q.queues i).qdisc ≠ []) (hj : (q.queues j).qdisc ≠ [])
    (hi' : ((step q op).queues i).qdisc ≠ []) (hj' : ((step q op).queues j).qdisc ≠ []) :
    (step_yields i q op : Int) + ahead i j (step q op).active =
      step_yields j q op + ahead i j q.active := by
  have mi : i ∈ q.active := (hok.2 i).mpr hi
  have mj : j ∈ q.active := (hok.2 j).mpr hj
  cases op with
  | enqueue cfg clk skb =>
    have e1 : step_yields i q (.enqueue cfg clk skb) = 0 := rfl
    have e2 : step_yields j q (.enqueue cfg clk skb) = 0 := rfl
    rw [e1, e2]
    have key : ahead i j (step q (.enqueue cfg clk skb)).active = ahead i j q.active := by
      show ahead i j (dwrr_enqueue cfg clk skb q).2.active = _
      rcases dwrr_enqueue_cases cfg clk skb q with ⟨n, he⟩ | ⟨_, _, he⟩
      · rw [he]; rfl
      · rw [he]
        show ahead i j (if ((q.queues (dwrr_classify cfg skb)).qdisc ++ [skb]).length = 1
          then q.active ++ [dwrr_classify cfg skb] else q.active) = _
        split
        · exact ahead_append _ mi mj
        · rfl
    rw [key]
  | pass cfg now =>
    rcases step_pass_cases cfg now q with ⟨h0, _, hy⟩ | ⟨len, h0, _, hy⟩ |
      ⟨h, rest, skb, tl, hq, hf, hfit, h0, _, hy⟩ | ⟨h, rest, skb, tl, hq, hf, hfit, h0, _, hy⟩
    · rw [h0, hy, hy]
    · rw [h0, hy, hy]; rfl
    · rw [h0] at hi' hj' ⊢
      rw [hy, hy]
      show _ + ahead i j (if tl = [] then rest else h :: rest) = _
      by_cases ht : tl = []
      · rw [if_pos ht, hq]
        have hne : ∀ c, ((dwrr_dequeue_release cfg now q h rest skb tl).queues c).qdisc ≠ [] →
            h ≠ c := by
          intro c hc e
          subst e
          apply hc
          show (Function.update q.queues h _ h).qdisc = []
          rw [Function.update_same]
          exact ht
        rw [ahead_cons_ne rest (hne i hi') (hne j hj')]
      · rw [if_neg ht, hq]
    · rw [h0, hy, hy]
      show _ + ahead i j (rest ++ [h]) = _
      rw [hq] at mi mj ⊢
      have hn : (h :: rest).Nodup := by rw [← hq]; exact hok.1
      have ci : ((if h = i then 1 else 0 : Nat) : Int) = if h = i then 1 else 0 := by
        split <;> rfl
      have cj : ((if h = j then 1 else 0 : Nat) : Int) = if h = j then 1 else 0 := by
        split <;> rfl
      rw [ci, cj]
      exact ahead_rotate hij hn mi mj

theorem stays_head {i : Fin 8} {ops : List step_input} {q : dwrr_sched_data}
    (h : stays i ops q) : (q.queues i).qdisc ≠ [] := by
  cases ops with
  | nil => exact h
  | cons o os => exact h.1

/-- Over a window, the turns given up by two classes that stay in the rotation
differ by their change of order in the active list. -/
theorem run_order {i j : Fin 8} (hij : i ≠ j) (ops : List step_input) :
    ∀ (q : dwrr_sched_data), active_ok q → stays i ops q → stays j ops q →
      (run_yields i ops q : Int) + ahead i j (run ops q).active =
        run_yields j ops q + ahead i j q.active := by
  induction ops with
  | nil => intro q _ _ _; simp [run_yields, run]
  | cons op ops ih =>
    intro q hok hi hj
    have h1 := step_order hij q op hok hi.1 hj.1 (stays_head hi.2) (stays_head hj.2)
    have h2 := ih (step q op) (active_ok_step hok op) hi.2 hj.2
    simp only [run_yields, run]
    push_cast
    linarith

theorem run_yields_near (i j : Fin 8) (ops : List step_input) (q : dwrr_sched_data)
    (hok : active_ok q) (hi : stays i ops q) (hj : stays j ops q) :
    |(run_yields i ops q : Int) - run_yields j ops q| ≤ 1 := by
  by_cases hij : i = j
  · subst hij; simp
  · have h := run_order hij ops q hok hi hj
    have b1 := ahead_bounds i j (run ops q).active
    have b2 := ahead_bounds i j q.active
    rw [abs_le]
    constructor <;> linarith

end sch_dwrr2


namespace sch_dwrr

theorem active_ok_step_qdisc {q : dwrr_sched_data} (h : active_ok q) (op : step_input) :
    active_ok (step q op) := by
  obtain ⟨a, b, c, d, e, f, g⟩ := active_ok_blocks_qdisc (fun _ => True)
  cases op with
  | enqueue cfg clk skb =>
    show active_ok (dwrr_qdisc_enqueue cfg clk skb q).2
    rcases dwrr_qdisc_enqueue_cases cfg clk skb q with ⟨n, he⟩ | ⟨_, hb, he⟩
    · rw [he]
      exact b _ _ n (a q _ h)
    · rw [he]
      exact c cfg _ _ _ skb trivial (a q _ h) hb
  | pass cfg clk =>
    rcases step_pass_cases_qdisc cfg clk q with ⟨h0, _⟩ | ⟨j, rest, hq, h0, _⟩ |
      ⟨j, rest, len, hq, h0, _⟩ | ⟨j, rest, skb, tl, hq, hf, hfit, h0, _⟩ |
      ⟨j, rest, skb, tl, hq, hf, hfit, h0, _⟩
    · rw [h0]; exact h
    · rw [h0]; exact d q j rest h hq
    · rw [h0]; exact e cfg _ _ len (d q j rest h hq)
    · rw [h0]
      exact f cfg clk _ j rest skb tl trivial (d q j rest h hq) hq
        ((visit_qdisc q j).trans hf) hfit
    · rw [h0]
      exact g cfg _ _ j rest skb tl trivial (d q j rest h hq) hq
        ((visit_qdisc q j).trans hf) hfit

theorem active_ok_run_qdisc {q : dwrr_sched_data} (h : active_ok q) (ops : List step_input) :
    active_ok (run ops q) := by
  induction ops generalizing q with
  | nil => exact h
  | cons op ops ih => exact ih (active_ok_step_qdisc h op)

theorem active_mem {q : dwrr_sched_data} (hok : active_ok q) {i : Fin 8}
    (hi : (q.queues i).active = 1) : i ∈ q.activeList := by
  by_contra hne
  have := ((hok.2 i).2 hne).1
  omega

/-- One step keeps the balance between the turns two active classes have given
up and their order in the active list. -/
theorem step_order_qdisc {i j : Fin 8} (hij : i ≠ j) (q : dwrr_sched_data) (op : step_input)
    (hok : active_ok q) (hi : (q.queues i).active = 1) (hj : (q.queues j).active = 1)
    (hi' : ((step q op).queues i).active = 1) (hj' : ((step q op).queues j).active = 1) :
    (step_yields i q op : Int) + ahead i j (step q op).activeList =
      step_yields j q op + ahead i j q.activeList := by
  have mi : i ∈ q.activeList := active_mem hok hi
  have mj : j ∈ q.activeList := active_mem hok hj
  cases op with
  | enqueue cfg clk skb =>
    have e1 : step_yields i q (.enqueue cfg clk skb) = 0 := rfl
    have e2 : step_yields j q (.enqueue cfg clk skb) = 0 := rfl
    rw [e1, e2]
    have key : ahead i j (step q (.enqueue cfg clk skb)).activeList =
        ahead i j q.activeList := by
      show ahead i j (dwrr_qdisc_enqueue cfg clk skb q).2.activeList = _
      rcases dwrr_qdisc_enqueue_cases cfg clk skb q with ⟨n, he⟩ | ⟨_, _, he⟩
      · rw [he]; rfl
      · rw [he]
        show ahead i j (if (q.queues (dwrr_qdisc_classify cfg skb)).active = 0
          then q.activeList ++ [dwrr_qdisc_classify cfg skb] else q.activeList) = _
        split
        · exact ahead_append _ mi mj
        · rfl
    rw [key]
  | pass cfg clk =>
    rcases step_pass_cases_qdisc cfg clk q with ⟨h0, _, hy⟩ | ⟨h, rest, hq, h0, _, hy⟩ |
      ⟨h, rest, len, hq, h0, _, hy⟩ | ⟨h, rest, skb, tl, hq, hf, hfit, h0, _, hy⟩ |
      ⟨h, rest, skb, tl, hq, hf, hfit, h0, _, hy⟩
    · rw [h0, hy, hy]
    · rw [h0, hy, hy]; rfl
    · rw [h0, hy, hy]; rfl
    · rw [h0] at hi' hj' ⊢
      rw [hy, hy]
      show _ + ahead i j (if tl = [] then rest else h :: rest) = _
      by_cases ht : tl = []
      · rw [if_pos ht, hq]
        have hne : ∀ c, ((dwrr_qdisc_dequeue_release cfg clk (dwrr_qdisc_dequeue_visit q h) h
            rest skb tl).queues c).active = 1 → h ≠ c := by
          intro c hc e
          subst e
          have h3 : (Function.update (dwrr_qdisc_dequeue_visit q h).queues h
              (dwrr_qdisc_dequeue_release_class cfg (clk 1) (dwrr_qdisc_dequeue_visit q h) h
                skb tl) h).active = 1 := hc
          rw [Function.update_same] at h3
          unfold dwrr_qdisc_dequeue_release_class at h3
          rw [if_pos ht] at h3
          have h4 : (0 : Nat) = 1 := h3
          omega
        rw [ahead_cons_ne rest (hne i hi') (hne j hj')]
      · rw [if_neg ht, hq]
    · rw [h0, hy, hy]
      show _ + ahead i j (rest ++ [h]) = _
      rw [hq] at mi mj ⊢
      have hn : (h :: rest).Nodup := by rw [← hq]; exact hok.1
      have ci : ((if h = i then 1 else 0 : Nat) : Int) = if h = i then 1 else 0 := by
        split <;> rfl
      have cj : ((if h = j then 1 else 0 : Nat) : Int) = if h = j then 1 else 0 := by
        split <;> rfl
      rw [ci, cj]
      exact ahead_rotate hij hn mi mj

theorem stays_head_qdisc {i : Fin 8} {ops : List step_input} {q : dwrr_sched_data}
    (h : stays i ops q) : (q.queues i).active = 1 := by
  cases ops with
  | nil => exact h
  | cons o os => exact h.1

/-- Over a window, the turns given up by two classes that stay in the rotation
differ by their change of order in the active list. -/
theorem run_order_qdisc {i j : Fin 8} (hij : i ≠ j) (ops : List step_input) :
    ∀ (q : dwrr_sched_data), active_ok q → stays i ops q → stays j ops q →
      (run_yields i ops q : Int) + ahead i j (run ops q).activeList =
        run_yields j ops q + ahead i j q.activeList := by
  induction ops with
  | nil => intro q _ _ _; simp [run_yields, run]
  | cons op ops ih =>
    intro q hok hi hj
    have h1 := step_order_qdisc hij q op hok hi.1 hj.1 (stays_head_qdisc hi.2)
      (stays_head_qdisc hj.2)
    have h2 := ih (step q op) (active_ok_step_qdisc hok op) hi.2 hj.2
    simp only [run_yields, run]
    push_cast
    linarith

theorem run_yields_near_qdisc (i j : Fin 8) (ops : List step_input) (q : dwrr_sched_data)
    (hok : active_ok q) (hi : stays i ops q) (hj : stays j ops q) :
    |(run_yields i ops q : Int) - run_yields j ops q| ≤ 1 := by
  by_cases hij : i = j
  · subst hij; simp
  · have h := run_order_qdisc hij ops q hok hi hj
    have b1 := ahead_bounds i j (run ops q).activeList
    have b2 := ahead_bounds i j q.activeList
    rw [abs_le]
    constructor <;> linarith

end sch_dwrr


/-! ### Shares of the bytes sent -/

/-- Arithmetic of the shares: byte counts that follow the quanta up to bounded
errors, with turn counts that differ by at most one, are in the ratio of the
quanta up to a constant. -/
theorem share_bound (S : Finset (Fin 8)) (i : Fin 8) (L : Int) (B Q k e : Fin 8 → Int)
    (hi : 0 ≤ Q i ∧ B i = Q i * k i + e i ∧ |e i| ≤ Q i + L)
    (hS : ∀ j ∈ S, 0 ≤ Q j ∧ B j = Q j * k j + e j ∧ |e j| ≤ Q j + L ∧ |k i - k j| ≤ 1) :
    |B i * (∑ j ∈ S, Q j) - Q i * ∑ j ∈ S, B j| ≤
      ∑ j ∈ S, (3 * Q i * Q j + L * (Q i + Q j)) := by
  have e1 : B i * (∑ j ∈ S, Q j) - Q i * ∑ j ∈ S, B j = ∑ j ∈ S, (B i * Q j - Q i * B j) := by
    rw [Finset.mul_sum, Finset.mul_sum, Finset.sum_sub_distrib]
  rw [e1]
  refine (Finset.abs_sum_le_sum_abs _ _).trans (Finset.sum_le_sum ?_)
  intro j hj
  obtain ⟨hq0, hB, he, hk⟩ := hS j hj
  obtain ⟨hqi, hBi, hei⟩ := hi
  rw [abs_le] at he hei hk ⊢
  rw [hB, hBi]
  have p1 := mul_nonneg (mul_nonneg hqi hq0) (show (0 : Int) ≤ 1 - (k i - k j) by linarith)
  have p2 := mul_nonneg (mul_nonneg hqi hq0) (show (0 : Int) ≤ 1 + (k i - k j) by linarith)
  have p3 := mul_nonneg hq0 (show (0 : Int) ≤ Q i + L - e i by linarith)
  have p4 := mul_nonneg hq0 (show (0 : Int) ≤ Q i + L + e i by linarith)
  have p5 := mul_nonneg hqi (show (0 : Int) ≤ Q j + L - e j by linarith)
  have p6 := mul_nonneg hqi (show (0 : Int) ≤ Q j + L + e j by linarith)
  constructor <;> nlinarith

/-- A cross-product bound on two shares bounds their difference once enough
bytes have been sent. -/
theorem share_close (b sb qi sq C : Int) (ε : ℝ) (hε : 0 < ε) (hsq : 1 ≤ sq)
    (hC : |b * sq - qi * sb| ≤ C) (hN : (C : ℝ) / ε < sb) :
    |(b : ℝ) / sb - qi / sq| < ε := by
  have hC0 : (0 : ℝ) ≤ C := by
    have : (0 : Int) ≤ C := (abs_nonneg _).trans hC
    exact_mod_cast this
  have hsb : (0 : ℝ) < sb := lt_of_le_of_lt (div_nonneg hC0 hε.le) hN
  have hsq' : (1 : ℝ) ≤ sq := by exact_mod_cast hsq
  have hsq0 : (0 : ℝ) < sq := by linarith
  have hCr : |(b : ℝ) * sq - qi * sb| ≤ C := by exact_mod_cast hC
  rw [div_sub_div _ _ hsb.ne' hsq0.ne', abs_div, abs_of_pos (mul_pos hsb hsq0),
    div_lt_iff₀ (mul_pos hsb hsq0)]
  have e : (b : ℝ) * sq - sb * qi = b * sq - qi * sb := by ring
  rw [e]
  have h1 : (C : ℝ) < ε * sb := by
    rw [div_lt_iff₀ hε] at hN
    linarith
  have h2 : ε * sb ≤ ε * (sb * sq) := by
    have : (sb : ℝ) ≤ sb * sq := by nlinarith
    exact mul_le_mul_of_nonneg_left this hε.le
  linarith

/-- Shares that satisfy the cross-product bound converge to the shares of the
quanta as the total of bytes grows. -/
theorem share_eps (S : Finset (Fin 8)) (Qf : Fin 8 → Nat) (i : Fin 8) (hi : i ∈ S)
    (hQ : 0 < Qf i) (ε : ℝ) (hε : 0 < ε) :
    ∃ N : Nat, ∀ (B : Fin 8 → Nat),
      |(B i : Int) * (∑ j ∈ S, (Qf j : Int)) - (Qf i : Int) * ∑ j ∈ S, (B j : Int)| ≤
        ∑ j ∈ S, (3 * (Qf i : Int) * (Qf j : Int) + 2000024 * ((Qf i : Int) + (Qf j : Int))) →
      N ≤ ∑ j ∈ S, B j →
      |(B i : ℝ) / (∑ j ∈ S, (B j : ℝ)) - (Qf i : ℝ) / (∑ j ∈ S, (Qf j : ℝ))| < ε := by
  refine ⟨⌈((∑ j ∈ S, (3 * (Qf i : Int) * (Qf j : Int) +
    2000024 * ((Qf i : Int) + (Qf j : Int))) : Int) : ℝ) / ε⌉₊ + 1, ?_⟩
  intro B hC hN
  have hsq : (1 : Int) ≤ ∑ j ∈ S, (Qf j : Int) := by
    have h1 : (Qf i : Int) ≤ ∑ j ∈ S, (Qf j : Int) :=
      Finset.single_le_sum (f := fun j => (Qf j : Int)) (fun j _ => Int.ofNat_nonneg _) hi
    have h2 : (1 : Int) ≤ Qf i := by exact_mod_cast hQ
    linarith
  have hlt : (((∑ j ∈ S, (3 * (Qf i : Int) * (Qf j : Int) +
      2000024 * ((Qf i : Int) + (Qf j : Int))) : Int) : ℝ)) / ε <
      ((∑ j ∈ S, (B j : Int) : Int) : ℝ) := by
    have h1 := Nat.le_ceil (((∑ j ∈ S, (3 * (Qf i : Int) * (Qf j : Int) +
      2000024 * ((Qf i : Int) + (Qf j : Int))) : Int) : ℝ) / ε)
    have h2 : ((⌈((∑ j ∈ S, (3 * (Qf i : Int) * (Qf j : Int) +
        2000024 * ((Qf i : Int) + (Qf j : Int))) : Int) : ℝ) / ε⌉₊ + 1 : Nat) : ℝ) ≤
        ((∑ j ∈ S, B j : Nat) : ℝ) := by exact_mod_cast hN
    push_cast at h1 h2 ⊢
    linarith
  have key := share_close _ _ _ _ _ ε hε hsq hC hlt
  push_cast at key
  exact key


namespace sch_dwrr2

/-- Cross-product form of the shares: in a window in which the classes of `S`
stay in the rotation, bytes sent and quanta are in the same ratio up to a
constant that does not depend on the window. -/
theorem share_window (S : Finset (Fin 8)) (Qf : Fin 8 → Nat) (ops : List step_input)
    (q : dwrr_sched_data) (h : continuously_active S Qf ops q) (i : Fin 8) (hi : i ∈ S) :
    |(run_bytes i ops q : Int) * (∑ j ∈ S, (Qf j : Int)) -
        (Qf i : Int) * ∑ j ∈ S, (run_bytes j ops q : Int)| ≤
      ∑ j ∈ S, (3 * (Qf i : Int) * (Qf j : Int) + 2000024 * ((Qf i : Int) + (Qf j : Int))) := by
  obtain ⟨hwf, hok, hS, hc⟩ := h
  have key : ∀ j ∈ S, (0 : Int) ≤ Qf j ∧
      (run_bytes j ops q : Int) = (Qf j : Int) * (run_yields j ops q : Int) +
        (((q.queues j).deficit : Int) - (((run ops q).queues j).deficit : Int)) ∧
      |((q.queues j).deficit : Int) - (((run ops q).queues j).deficit : Int)| ≤
        (Qf j : Int) + 2000024 := by
    intro j hj
    obtain ⟨hQL, hd, hs⟩ := hS j hj
    obtain ⟨hp, hdn⟩ := run_potential j (Qf j) hQL ops q hwf hd
      (fun op hop => ⟨(hc op hop).1, (hc op hop).2 j hj⟩) hs
    have hpz : ((run_bytes j ops q + ((run ops q).queues j).deficit : Nat) : Int) =
        (((q.queues j).deficit + Qf j * run_yields j ops q : Nat) : Int) := by rw [hp]
    push_cast at hpz
    refine ⟨Int.ofNat_nonneg _, by linarith, ?_⟩
    rw [abs_le]
    constructor <;> omega
  refine share_bound S i 2000024 (fun j => (run_bytes j ops q : Int)) (fun j => (Qf j : Int))
    (fun j => (run_yields j ops q : Int))
    (fun j => ((q.queues j).deficit : Int) - (((run ops q).queues j).deficit : Int))
    (key i hi) ?_
  intro j hj
  obtain ⟨a, b, c⟩ := key j hj
  exact ⟨a, b, c, run_yields_near i j ops q hok (hS i hi).2.2 (hS j hj).2.2⟩

/-- The share of a class converges to its share of the quanta as the bytes sent
in the window grow. -/
theorem share_converges (S : Finset (Fin 8)) (Qf : Fin 8 → Nat) (i : Fin 8) (hi : i ∈ S)
    (hQ : 0 < Qf i) (ε : ℝ) (hε : 0 < ε) :
    ∃ N : Nat, ∀ (ops : List step_input) (q : dwrr_sched_data),
      continuously_active S Qf ops q → N ≤ ∑ j ∈ S, run_bytes j ops q →
      |(run_bytes i ops q : ℝ) / (∑ j ∈ S, (run_bytes j ops q : ℝ)) -
        (Qf i : ℝ) / (∑ j ∈ S, (Qf j : ℝ))| < ε := by
  obtain ⟨N, hN⟩ := share_eps S Qf i hi hQ ε hε
  exact ⟨N, fun ops q h hB =>
    hN (fun j => run_bytes j ops q) (share_window S Qf ops q h i hi) hB⟩

end sch_dwrr2

namespace sch_dwrr

/-- Cross-product form of the shares: in a window in which the classes of `S`
stay in the rotation, bytes sent and quanta are in the same ratio up to a
constant that does not depend on the window. -/
theorem share_window_qdisc (S : Finset (Fin 8)) (Qf : Fin 8 → Nat) (ops : List step_input)
    (q : dwrr_sched_data) (h : continuously_active S Qf ops q) (i : Fin 8) (hi : i ∈ S) :
    |(run_bytes i ops q : Int) * (∑ j ∈ S, (Qf j : Int)) -
        (Qf i : Int) * ∑ j ∈ S, (run_bytes j ops q : Int)| ≤
      ∑ j ∈ S, (3 * (Qf i : Int) * (Qf j : Int) + 2000024 * ((Qf i : Int) + (Qf j : Int))) := by
  obtain ⟨hwf, hok, hS, hc⟩ := h
  have key : ∀ j ∈ S, (0 : Int) ≤ Qf j ∧
      (run_bytes j ops q : Int) = (Qf j : Int) * (run_yields j ops q : Int) +
        ((deficit_at_visit (q.queues j) : Int) -
          (deficit_at_visit ((run ops q).queues j) : Int)) ∧
      |(deficit_at_visit (q.queues j) : Int) -
          (deficit_at_visit ((run ops q).queues j) : Int)| ≤ (Qf j : Int) + 2000024 := by
    intro j hj
    obtain ⟨hQL, hq, hd, hs⟩ := hS j hj
    obtain ⟨hp, _, hdn⟩ := run_potential_qdisc j (Qf j) hQL ops q hwf hq hd
      (fun op hop => ⟨(hc op hop).1, (hc op hop).2 j hj⟩) hs
    have hpz : ((run_bytes j ops q + deficit_at_visit ((run ops q).queues j) : Nat) : Int) =
        ((deficit_at_visit (q.queues j) + Qf j * run_yields j ops q : Nat) : Int) := by rw [hp]
    push_cast at hpz
    refine ⟨Int.ofNat_nonneg _, by linarith, ?_⟩
    rw [abs_le]
    constructor <;> omega
  refine share_bound S i 2000024 (fun j => (run_bytes j ops q : Int)) (fun j => (Qf j : Int))
    (fun j => (run_yields j ops q : Int))
    (fun j => (deficit_at_visit (q.queues j) : Int) -
      (deficit_at_visit ((run ops q).queues j) : Int))
    (key i hi) ?_
  intro j hj
  obtain ⟨a, b, c⟩ := key j hj
  exact ⟨a, b, c, run_yields_near_qdisc i j ops q hok (hS i hi).2.2.2 (hS j hj).2.2.2⟩

/-- The share of a class converges to its share of the quanta as the bytes sent
in the window grow. -/
theorem share_converges_qdisc (S : Finset (Fin 8)) (Qf : Fin 8 → Nat) (i : Fin 8) (hi : i ∈ S)
    (hQ : 0 < Qf i) (ε : ℝ) (hε : 0 < ε) :
    ∃ N : Nat, ∀ (ops : List step_input) (q : dwrr_sched_data),
      continuously_active S Qf ops q → N ≤ ∑ j ∈ S, run_bytes j ops q →
      |(run_bytes i ops q : ℝ) / (∑ j ∈ S, (run_bytes j ops q : ℝ)) -
        (Qf i : ℝ) / (∑ j ∈ S, (Qf j : ℝ))| < ε := by
  obtain ⟨N, hN⟩ := share_eps S Qf i hi hQ ε hε
  exact ⟨N, fun ops q h hB =>
    hN (fun j => run_bytes j ops q) (share_window_qdisc S Qf ops q h i hi) hB⟩

end sch_dwrr


namespace sch_dwrr

/-- A completed call of `dwrr_qdisc_dequeue` is a sequence of passes. -/
theorem dequeue_is_run_qdisc {fuel : Nat} {cfg : dwrr_params} {clk : Nat → Int}
    {q q1 : dwrr_sched_data} {r : deq_exit} {ys : List (Fin 8)}
    (h : dwrr_qdisc_dequeue fuel cfg clk q = some (q1, r, ys)) :
    ∃ ops : List step_input, (∀ op ∈ ops, ∃ c, op = .pass cfg c) ∧ run ops q = q1 ∧
      ∀ i, run_yields i ops q = ys.count i ∧ run_bytes i ops q = sent_bytes i r := by
  have h_loop : ∀ fuel clk q q1 r ys, dwrr_qdisc_dequeue_loop cfg fuel clk q = some (q1, r, ys) →
      ∃ ops : List step_input, (∀ op ∈ ops, ∃ c, op = .pass cfg c) ∧ run ops q = q1 ∧
        ∀ i, run_yields i ops q = ys.count i ∧ run_bytes i ops q = sent_bytes i r := by
    intro fuel
    induction fuel with
    | zero => intro clk q q1 r ys h; simp [dwrr_qdisc_dequeue_loop] at h
    | succ n ih =>
      intro clk q q1 r ys h
      unfold dwrr_qdisc_dequeue_loop at h
      split at h
      · rename_i q2 r2 hit
        simp only [Option.some.injEq, Prod.mk.injEq] at h
        obtain ⟨e1, e2, e3⟩ := h
        subst e1 e2 e3
        refine ⟨[.pass cfg clk], ?_, ?_, fun i => ⟨?_, ?_⟩⟩
        · intro op hop
          exact ⟨clk, List.mem_singleton.mp hop⟩
        · simp only [run, step, hit]
        · simp only [run_yields, step_yields, hit, List.count_nil]
        · simp only [run_bytes, step_bytes, hit, Nat.add_zero]
          cases r2 <;> rfl
      · rename_i q2 j hit
        split at h
        · rename_i q3 r3 ys3 hl
          simp only [Option.some.injEq, Prod.mk.injEq] at h
          obtain ⟨e1, e2, e3⟩ := h
          subst e1 e2 e3
          obtain ⟨ops, ho, ih1, ih2⟩ := ih _ _ _ _ _ hl
          have hs : step q (.pass cfg clk) = q2 := by simp only [step, hit]
          have hy : ∀ i, step_yields i q (.pass cfg clk) = if j = i then 1 else 0 := by
            intro i; simp only [step_yields, hit]
          have hb : ∀ i, step_bytes i q (.pass cfg clk) = 0 := by
            intro i; simp only [step_bytes, hit]
          refine ⟨.pass cfg clk :: ops, ?_, ?_, fun i => ⟨?_, ?_⟩⟩
          · intro op hop
            rcases List.mem_cons.mp hop with e | e
            · exact ⟨clk, e⟩
            · exact ho op e
          · show run _ (step q (.pass cfg clk)) = _
            rw [hs]; exact ih1
          · show step_yields i q (.pass cfg clk) + run_yields i _ (step q (.pass cfg clk)) = _
            rw [hs, hy, (ih2 i).1, List.count_cons]
            simp only [beq_iff_eq]
            omega
          · show step_bytes i q (.pass cfg clk) + run_bytes i _ (step q (.pass cfg clk)) = _
            rw [hs, hb, (ih2 i).2, Nat.zero_add]
        · simp at h
  unfold dwrr_qdisc_dequeue at h
  split at h
  · simp only [Option.some.injEq, Prod.mk.injEq] at h
    obtain ⟨e1, e2, e3⟩ := h
    subst e1 e2 e3
    exact ⟨[], fun _ hop => absurd hop (List.not_mem_nil _), rfl, fun i => ⟨rfl, rfl⟩⟩
  · exact h_loop _ _ _ _ _ _ h

end sch_dwrr

/-! ### Fairness of the deficit round robin -/


/-- C7: fairness of the deficit round robin, in both variants.  In DRR mode
(WRR disabled) with a quantum `Q` that stays the same (every permitted quantum
satisfies `Q + 2000024 ≤ 2^32`), for a class that stays in the rotation, take any
window of steps that starts in a state where the class is about to give up its
turn and ends in such a state, the class giving up its turn `k` times in
between: the on-wire bytes the class sends in the window are `k*Q + d0 - dk`,
where `d0` and `dk` are the deficits of the class at the two yields bounding
the window (in `sch_dwrr` the deficit counter as the yielding pass sees it), each
of them below the on-wire length of the head packet that did not fit; hence the
bytes sent differ from `k*Q` by less than the larger of these two lengths, itself
at most 2000024.  And for classes `S` that stay in the rotation with quanta `Qf`
over a window, the bytes `B i` sent by a class `i` of `S` satisfy
`|B i * Σ Qf - Qf i * Σ B| ≤ Σ_j (3 * Qf i * Qf j + 2000024 * (Qf i + Qf j))`, a
constant, so that the share `B i / Σ B` is within any `ε > 0` of `Qf i / Σ Qf`
in every window in which enough bytes are sent. -/
theorem drr_fairness_bound :
    ((∀ (i : Fin 8) (Q : Nat) (ops : List sch_dwrr2.step_input) (q : sch_dwrr2.dwrr_sched_data),
        Q + 2000024 ≤ 4294967296 → sch_dwrr2.well_formed q →
        (∀ op ∈ ops, op.cfg.dwrr_enable_wrr ≠ sch_dwrr2.dwrr_enable ∧
          u32_of_int (op.cfg.dwrr_queue_quantum i.val) = Q) →
        sch_dwrr2.stays i ops q → sch_dwrr2.gives_up q i →
        sch_dwrr2.gives_up (sch_dwrr2.run ops q) i →
        ∃ skb0 skbk, (q.queues i).qdisc.head? = some skb0 ∧
          ((sch_dwrr2.run ops q).queues i).qdisc.head? = some skbk ∧
          (q.queues i).deficit < sch_dwrr2.skb_size skb0 ∧
          ((sch_dwrr2.run ops q).queues i).deficit < sch_dwrr2.skb_size skbk ∧
          (sch_dwrr2.run_bytes i ops q : Int) =
            sch_dwrr2.run_yields i ops q * Q + (q.queues i).deficit -
              ((sch_dwrr2.run ops q).queues i).deficit ∧
          |(sch_dwrr2.run_bytes i ops q : Int) - sch_dwrr2.run_yields i ops q * Q| <
            max (sch_dwrr2.skb_size skb0) (sch_dwrr2.skb_size skbk) ∧
          max (sch_dwrr2.skb_size skb0) (sch_dwrr2.skb_size skbk) ≤ 2000024) ∧
      (∀ (S : Finset (Fin 8)) (Qf : Fin 8 → Nat) (ops : List sch_dwrr2.step_input)
          (q : sch_dwrr2.dwrr_sched_data) (i : Fin 8),
        sch_dwrr2.continuously_active S Qf ops q → i ∈ S →
        |(sch_dwrr2.run_bytes i ops q : Int) * (∑ j ∈ S, (Qf j : Int)) -
            (Qf i : Int) * ∑ j ∈ S, (sch_dwrr2.run_bytes j ops q : Int)| ≤
          ∑ j ∈ S, (3 * (Qf i : Int) * (Qf j : Int) +
            2000024 * ((Qf i : Int) + (Qf j : Int)))) ∧
      (∀ (S : Finset (Fin 8)) (Qf : Fin 8 → Nat) (i : Fin 8) (ε : ℝ),
        i ∈ S → 0 < Qf i → 0 < ε →
        ∃ N : Nat, ∀ (ops : List sch_dwrr2.step_input) (q : sch_dwrr2.dwrr_sched_data),
          sch_dwrr2.continuously_active S Qf ops q →
          N ≤ ∑ j ∈ S, sch_dwrr2.run_bytes j ops q →
          |(sch_dwrr2.run_bytes i ops q : ℝ) / (∑ j ∈ S, (sch_dwrr2.run_bytes j ops q : ℝ)) -
            (Qf i : ℝ) / (∑ j ∈ S, (Qf j : ℝ))| < ε)) ∧
    ((∀ (i : Fin 8) (Q : Nat) (ops : List sch_dwrr.step_input) (q : sch_dwrr.dwrr_sched_data),
        Q + 2000024 ≤ 4294967296 → sch_dwrr.well_formed q → (q.queues i).quantum = Q →
        sch_dwrr.deficit_at_visit (q.queues i) < 4294967296 →
        (∀ op ∈ ops, op.cfg.DWRR_QDISC_ENABLE_WRR ≠ sch_dwrr.DWRR_QDISC_WRR_ON ∧
          u32_of_int (op.cfg.DWRR_QDISC_QUEUE_QUANTUM i.val) = Q) →
        sch_dwrr.stays i ops q → sch_dwrr.gives_up q i →
        sch_dwrr.gives_up (sch_dwrr.run ops q) i →
        ∃ skb0 skbk, (q.queues i).qdisc.head? = some skb0 ∧
          ((sch_dwrr.run ops q).queues i).qdisc.head? = some skbk ∧
          sch_dwrr.deficit_at_visit (q.queues i) < sch_dwrr.skb_size skb0 ∧
          sch_dwrr.deficit_at_visit ((sch_dwrr.run ops q).queues i) < sch_dwrr.skb_size skbk ∧
          (sch_dwrr.run_bytes i ops q : Int) =
            sch_dwrr.run_yields i ops q * Q + sch_dwrr.deficit_at_visit (q.queues i) -
              sch_dwrr.deficit_at_visit ((sch_dwrr.run ops q).queues i) ∧
          |(sch_dwrr.run_bytes i ops q : Int) - sch_dwrr.run_yields i ops q * Q| <
            max (sch_dwrr.skb_size skb0) (sch_dwrr.skb_size skbk) ∧
          max (sch_dwrr.skb_size skb0) (sch_dwrr.skb_size skbk) ≤ 2000024) ∧
      (∀ (S : Finset (Fin 8)) (Qf : Fin 8 → Nat) (ops : List sch_dwrr.step_input)
          (q : sch_dwrr.dwrr_sched_data) (i : Fin 8),
        sch_dwrr.continuously_active S Qf ops q → i ∈ S →
        |(sch_dwrr.run_bytes i ops q : Int) * (∑ j ∈ S, (Qf j : Int)) -
            (Qf i : Int) * ∑ j ∈ S, (sch_dwrr.run_bytes j ops q : Int)| ≤
          ∑ j ∈ S, (3 * (Qf i : Int) * (Qf j : Int) +
            2000024 * ((Qf i : Int) + (Qf j : Int)))) ∧
      (∀ (S : Finset (Fin 8)) (Qf : Fin 8 → Nat) (i : Fin 8) (ε : ℝ),
        i ∈ S → 0 < Qf i → 0 < ε →
        ∃ N : Nat, ∀ (ops : List sch_dwrr.step_input) (q : sch_dwrr.dwrr_sched_data),
          sch_dwrr.continuously_active S Qf ops q →
          N ≤ ∑ j ∈ S, sch_dwrr.run_bytes j ops q →
          |(sch_dwrr.run_bytes i ops q : ℝ) / (∑ j ∈ S, (sch_dwrr.run_bytes j ops q : ℝ)) -
            (Qf i : ℝ) / (∑ j ∈ S, (Qf j : ℝ))| < ε)) :=
  ⟨⟨fun i Q ops q hQL hwf hc hs h0 hk => sch_dwrr2.drr_window i Q hQL ops q hwf hc hs h0 hk,
      fun S Qf ops q i h hi => sch_dwrr2.share_window S Qf ops q h i hi,
      fun S Qf i ε hi hQ hε => sch_dwrr2.share_converges S Qf i hi hQ ε hε⟩,
    ⟨fun i Q ops q hQL hwf hq hd hc hs h0 hk =>
        sch_dwrr.drr_window_qdisc i Q hQL ops q hwf hq hd hc hs h0 hk,
      fun S Qf ops q i h hi => sch_dwrr.share_window_qdisc S Qf ops q h i hi,
      fun S Qf i ε hi hQ hε => sch_dwrr.share_converges_qdisc S Qf i hi hQ ε hε⟩⟩

set_option maxRecDepth 100000 in
/-- The window of the scenario, in both variants: between two yields of class 2
(quantum 1538, one yield in between) class 2 sends 1538 bytes, and the bytes of
classes 1 and 2 are in the ratio of their quanta. -/
theorem drr_fairness_bound_witness :
    ((∃ skb0 skbk, (sch_dwrr2.fair_start.queues 2).qdisc.head? = some skb0 ∧
          ((sch_dwrr2.run sch_dwrr2.fair_ops sch_dwrr2.fair_start).queues 2).qdisc.head? =
            some skbk ∧
          (sch_dwrr2.fair_start.queues 2).deficit < sch_dwrr2.skb_size skb0 ∧
          ((sch_dwrr2.run sch_dwrr2.fair_ops sch_dwrr2.fair_start).queues 2).deficit <
            sch_dwrr2.skb_size skbk ∧
          (sch_dwrr2.run_bytes 2 sch_dwrr2.fair_ops sch_dwrr2.fair_start : Int) =
            sch_dwrr2.run_yields 2 sch_dwrr2.fair_ops sch_dwrr2.fair_start * (1538 : Nat) +
              (sch_dwrr2.fair_start.queues 2).deficit -
              ((sch_dwrr2.run sch_dwrr2.fair_ops sch_dwrr2.fair_start).queues 2).deficit ∧
          |(sch_dwrr2.run_bytes 2 sch_dwrr2.fair_ops sch_dwrr2.fair_start : Int) -
              sch_dwrr2.run_yields 2 sch_dwrr2.fair_ops sch_dwrr2.fair_start * (1538 : Nat)| <
            max (sch_dwrr2.skb_size skb0) (sch_dwrr2.skb_size skbk) ∧
          max (sch_dwrr2.skb_size skb0) (sch_dwrr2.skb_size skbk) ≤ 2000024) ∧
      sch_dwrr2.run_bytes 2 sch_dwrr2.fair_ops sch_dwrr2.fair_start = 1538 ∧
      sch_dwrr2.run_yields 2 sch_dwrr2.fair_ops sch_dwrr2.fair_start = 1 ∧
      |(sch_dwrr2.run_bytes 2 sch_dwrr2.fair_ops sch_dwrr2.fair_start : Int) *
            (∑ j ∈ ({1, 2} : Finset (Fin 8)), (((fun _ => 1538) : Fin 8 → Nat) j : Int)) -
          (((fun _ => 1538) : Fin 8 → Nat) 2 : Int) * ∑ j ∈ ({1, 2} : Finset (Fin 8)),
            (sch_dwrr2.run_bytes j sch_dwrr2.fair_ops sch_dwrr2.fair_start : Int)| ≤
        ∑ j ∈ ({1, 2} : Finset (Fin 8)), (3 * (((fun _ => 1538) : Fin 8 → Nat) 2 : Int) *
          (((fun _ => 1538) : Fin 8 → Nat) j : Int) +
          2000024 * ((((fun _ => 1538) : Fin 8 → Nat) 2 : Int) +
            (((fun _ => 1538) : Fin 8 → Nat) j : Int)))) ∧
    ((∃ skb0 skbk, (sch_dwrr.fair_start.queues 2).qdisc.head? = some skb0 ∧
          ((sch_dwrr.run sch_dwrr.fair_ops sch_dwrr.fair_start).queues 2).qdisc.head? =
            some skbk ∧
          sch_dwrr.deficit_at_visit (sch_dwrr.fair_start.queues 2) < sch_dwrr.skb_size skb0 ∧
          sch_dwrr.deficit_at_visit
              ((sch_dwrr.run sch_dwrr.fair_ops sch_dwrr.fair_start).queues 2) <
            sch_dwrr.skb_size skbk ∧
          (sch_dwrr.run_bytes 2 sch_dwrr.fair_ops sch_dwrr.fair_start : Int) =
            sch_dwrr.run_yields 2 sch_dwrr.fair_ops sch_dwrr.fair_start * (1538 : Nat) +
              sch_dwrr.deficit_at_visit (sch_dwrr.fair_start.queues 2) -
              sch_dwrr.deficit_at_visit
                ((sch_dwrr.run sch_dwrr.fair_ops sch_dwrr.fair_start).queues 2) ∧
          |(sch_dwrr.run_bytes 2 sch_dwrr.fair_ops sch_dwrr.fair_start : Int) -
              sch_dwrr.run_yields 2 sch_dwrr.fair_ops sch_dwrr.fair_start * (1538 : Nat)| <
            max (sch_dwrr.skb_size skb0) (sch_dwrr.skb_size skbk) ∧
          max (sch_dwrr.skb_size skb0) (sch_dwrr.skb_size skbk) ≤ 2000024) ∧
      sch_dwrr.run_bytes 2 sch_dwrr.fair_ops sch_dwrr.fair_start = 1538 ∧
      sch_dwrr.run_yields 2 sch_dwrr.fair_ops sch_dwrr.fair_start = 1 ∧
      |(sch_dwrr.run_bytes 2 sch_dwrr.fair_ops sch_dwrr.fair_start : Int) *
            (∑ j ∈ ({1, 2} : Finset (Fin 8)), (((fun _ => 1538) : Fin 8 → Nat) j : Int)) -
          (((fun _ => 1538) : Fin 8 → Nat) 2 : Int) * ∑ j ∈ ({1, 2} : Finset (Fin 8)),
            (sch_dwrr.run_bytes j sch_dwrr.fair_ops sch_dwrr.fair_start : Int)| ≤
        ∑ j ∈ ({1, 2} : Finset (Fin 8)), (3 * (((fun _ => 1538) : Fin 8 → Nat) 2 : Int) *
          (((fun _ => 1538) : Fin 8 → Nat) j : Int) +
          2000024 * ((((fun _ => 1538) : Fin 8 → Nat) 2 : Int) +
            (((fun _ => 1538) : Fin 8 → Nat) j : Int)))) :=
  ⟨⟨drr_fairness_bound.1.1 2 1538 sch_dwrr2.fair_ops sch_dwrr2.fair_start (by decide)
        (by unfold sch_dwrr2.well_formed; decide)
        (by decide)
        (by simp only [sch_dwrr2.fair_ops, sch_dwrr2.stays]; decide)
        ⟨sch_dwrr2.dwrr_params_init, 0, _, rfl⟩ ⟨sch_dwrr2.dwrr_params_init, 0, _, rfl⟩,
      by decide, by decide,
      drr_fairness_bound.1.2.1 {1, 2} (fun _ => 1538) sch_dwrr2.fair_ops sch_dwrr2.fair_start 2
        (by
          unfold sch_dwrr2.continuously_active sch_dwrr2.well_formed sch_dwrr2.active_ok
          simp only [sch_dwrr2.fair_ops, sch_dwrr2.stays]
          decide)
        (by decide)⟩,
    ⟨drr_fairness_bound.2.1 2 1538 sch_dwrr.fair_ops sch_dwrr.fair_start (by decide)
        (by unfold sch_dwrr.well_formed; decide) (by decide) (by decide)
        (by decide)
        (by simp only [sch_dwrr.fair_ops, sch_dwrr.stays]; decide)
        ⟨sch_dwrr.dwrr_qdisc_params_init, fun _ => 0, _, rfl⟩
        ⟨sch_dwrr.dwrr_qdisc_params_init, fun _ => 0, _, rfl⟩,
      by decide, by decide,
      drr_fairness_bound.2.2.1 {1, 2} (fun _ => 1538) sch_dwrr.fair_ops sch_dwrr.fair_start 2
        (by
          unfold sch_dwrr.continuously_active sch_dwrr.well_formed sch_dwrr.active_ok
          simp only [sch_dwrr.fair_ops, sch_dwrr.stays]
          decide)
        (by decide)⟩⟩


/-! ### Rate model -/

namespace sch_dwrr2

/-- With a rate above zero the shift is 15 and the multiplier is the quotient
reduced to 32 bits. -/
theorem precompute_ratedata_pos (r : dwrr_rate_cfg) (h : 0 < r.rate_bps)
    (h64 : r.rate_bps < 18446744073709551616) :
    (precompute_ratedata r).shift = 15 ∧
      (precompute_ratedata r).mult = (8 * 10 ^ 9 * 2 ^ 15 / r.rate_bps) % 4294967296 ∧
      (61036 ≤ r.rate_bps → (precompute_ratedata r).mult = 8 * 10 ^ 9 * 2 ^ 15 / r.rate_bps) := by
  unfold precompute_ratedata
  rw [if_pos h]
  refine ⟨rfl, ?_, ?_⟩
  · show div64_u64 _ _ % _ = _
    unfold div64_u64
    rw [Nat.mod_eq_of_lt h64]
    norm_num
  · intro hr
    show div64_u64 _ _ % _ = _
    unfold div64_u64
    rw [Nat.mod_eq_of_lt h64]
    have h1 : 8 * 1000000000 * 2 ^ 15 % 18446744073709551616 / r.rate_bps < 4294967296 := by
      rw [Nat.div_lt_iff_lt_mul h]
      norm_num
      omega
    rw [Nat.mod_eq_of_lt h1]
    norm_num

end sch_dwrr2

namespace sch_dwrr

/-- With a rate above zero the shift is 15 and the multiplier is the quotient
reduced to 32 bits. -/
theorem precompute_ratedata_pos_qdisc (r : dwrr_rate_cfg) (h : 0 < r.rate_bps)
    (h64 : r.rate_bps < 18446744073709551616) :
    (dwrr_qdisc_precompute_ratedata r).shift = 15 ∧
      (dwrr_qdisc_precompute_ratedata r).mult =
        (8 * 10 ^ 9 * 2 ^ 15 / r.rate_bps) % 4294967296 ∧
      (61036 ≤ r.rate_bps →
        (dwrr_qdisc_precompute_ratedata r).mult = 8 * 10 ^ 9 * 2 ^ 15 / r.rate_bps) := by
  unfold dwrr_qdisc_precompute_ratedata
  rw [if_pos h]
  refine ⟨rfl, ?_, ?_⟩
  · show div64_u64 _ _ % _ = _
    unfold div64_u64
    rw [Nat.mod_eq_of_lt h64]
    norm_num
  · intro hr
    show div64_u64 _ _ % _ = _
    unfold div64_u64
    rw [Nat.mod_eq_of_lt h64]
    have h1 : 8 * 1000000000 * 2 ^ 15 % 18446744073709551616 / r.rate_bps < 4294967296 := by
      rw [Nat.div_lt_iff_lt_mul h]
      norm_num
      omega
    rw [Nat.mod_eq_of_lt h1]
    norm_num

end sch_dwrr

/-- C11: the multiplier stored by `precompute_ratedata` is the quotient
`8 * 10^9 * 2^15 / rate_bps` cut to 32 bits, in both variants.  At 56 kbit/s
(the rate of 7000 bytes per second given to `dwrr_change`) the quotient is
4681142857, which does not fit 32 bits, and the stored multiplier is 386175561,
so that a packet of 1538 bytes costs 18125549 ns instead of 219714285 ns.  For every
rate of at least 61036 bit/s the shift is 15 and the stored multiplier is the
quotient. -/
theorem precompute_ratedata_mult_truncated :
    (8 * 10 ^ 9 * 2 ^ 15 / 56000 = 4681142857 ∧
      sch_dwrr2.precompute_ratedata { rate_bps := 56000, mult := 0, shift := 0 } =
        { rate_bps := 56000, mult := 386175561, shift := 15 } ∧
      (sch_dwrr2.dwrr_init (fun _ => 0) 7000).rate =
        { rate_bps := 56000, mult := 386175561, shift := 15 } ∧
      sch_dwrr2.l2t_ns (sch_dwrr2.dwrr_init (fun _ => 0) 7000).rate 1538 = 18125549 ∧
      1538 * 4681142857 / 2 ^ 15 = 219714285 ∧
      sch_dwrr.dwrr_qdisc_precompute_ratedata { rate_bps := 56000, mult := 0, shift := 0 } =
        { rate_bps := 56000, mult := 386175561, shift := 15 } ∧
      sch_dwrr.l2t_ns (sch_dwrr.dwrr_qdisc_init (fun _ => 0) 7000).rate 1538 = 18125549) ∧
    (∀ r : sch_dwrr2.dwrr_rate_cfg, 0 < r.rate_bps → r.rate_bps < 18446744073709551616 →
      (sch_dwrr2.precompute_ratedata r).shift = 15 ∧
      (sch_dwrr2.precompute_ratedata r).mult = (8 * 10 ^ 9 * 2 ^ 15 / r.rate_bps) % 4294967296 ∧
      (61036 ≤ r.rate_bps →
        (sch_dwrr2.precompute_ratedata r).mult = 8 * 10 ^ 9 * 2 ^ 15 / r.rate_bps)) ∧
    (∀ r : sch_dwrr.dwrr_rate_cfg, 0 < r.rate_bps → r.rate_bps < 18446744073709551616 →
      (sch_dwrr.dwrr_qdisc_precompute_ratedata r).shift = 15 ∧
      (sch_dwrr.dwrr_qdisc_precompute_ratedata r).mult =
        (8 * 10 ^ 9 * 2 ^ 15 / r.rate_bps) % 4294967296 ∧
      (61036 ≤ r.rate_bps →
        (sch_dwrr.dwrr_qdisc_precompute_ratedata r).mult = 8 * 10 ^ 9 * 2 ^ 15 / r.rate_bps)) :=
  ⟨by decide, sch_dwrr2.precompute_ratedata_pos, sch_dwrr.precompute_ratedata_pos_qdisc⟩


/-- C12, as stated, fails: with the rate 0 the cost of a packet of 1538 bytes on
the wire is 1538 ns, not 0, in both variants. -/
theorem unlimited_rate_cost_not_zero :
    sch_dwrr2.l2t_ns
        (sch_dwrr2.precompute_ratedata { rate_bps := 0, mult := 7, shift := 3 }) 1538 = 1538 ∧
      sch_dwrr2.l2t_ns (sch_dwrr2.dwrr_init (fun _ => 0) 0).rate 1538 ≠ 0 ∧
      sch_dwrr.l2t_ns
        (sch_dwrr.dwrr_qdisc_precompute_ratedata { rate_bps := 0, mult := 7, shift := 3 }) 1538 =
          1538 ∧
      sch_dwrr.l2t_ns (sch_dwrr.dwrr_qdisc_init (fun _ => 0) 0).rate 1538 ≠ 0 := by
  decide

/-- C12 as amended: when `rate_bps = 0`, `precompute_ratedata` sets `mult = 1` and
`shift = 0`, and the transmit cost `l2t_ns r len` of every 32-bit length `len`
is `len` nanoseconds (zero only for `len = 0`), in both variants. -/
theorem unlimited_rate_cost_is_length :
    (∀ r : sch_dwrr2.dwrr_rate_cfg, r.rate_bps = 0 →
      (sch_dwrr2.precompute_ratedata r).mult = 1 ∧ (sch_dwrr2.precompute_ratedata r).shift = 0 ∧
      ∀ len, len < 4294967296 → sch_dwrr2.l2t_ns (sch_dwrr2.precompute_ratedata r) len = len) ∧
    (∀ r : sch_dwrr.dwrr_rate_cfg, r.rate_bps = 0 →
      (sch_dwrr.dwrr_qdisc_precompute_ratedata r).mult = 1 ∧
      (sch_dwrr.dwrr_qdisc_precompute_ratedata r).shift = 0 ∧
      ∀ len, len < 4294967296 →
        sch_dwrr.l2t_ns (sch_dwrr.dwrr_qdisc_precompute_ratedata r) len = len) := by
  constructor
  · intro r h
    have e : sch_dwrr2.precompute_ratedata r = { r with shift := 0, mult := 1 } := by
      unfold sch_dwrr2.precompute_ratedata
      rw [if_neg (by omega)]
    rw [e]
    refine ⟨rfl, rfl, fun len hl => ?_⟩
    show (len * 1 % 18446744073709551616) >>> 0 = len
    rw [Nat.mul_one, Nat.shiftRight_zero]
    omega
  · intro r h
    have e : sch_dwrr.dwrr_qdisc_precompute_ratedata r = { r with shift := 0, mult := 1 } := by
      unfold sch_dwrr.dwrr_qdisc_precompute_ratedata
      rw [if_neg (by omega)]
    rw [e]
    refine ⟨rfl, rfl, fun len hl => ?_⟩
    show (len * 1 % 18446744073709551616) >>> 0 = len
    rw [Nat.mul_one, Nat.shiftRight_zero]
    omega

/-- The rate 0 given to the initialisation: the cost of 1538 bytes is 1538 ns. -/
theorem unlimited_rate_cost_is_length_witness :
    (sch_dwrr2.precompute_ratedata { rate_bps := 0, mult := 0, shift := 0 }).mult = 1 ∧
      sch_dwrr2.l2t_ns (sch_dwrr2.precompute_ratedata { rate_bps := 0, mult := 0, shift := 0 })
        1538 = 1538 ∧
      sch_dwrr.l2t_ns
        (sch_dwrr.dwrr_qdisc_precompute_ratedata { rate_bps := 0, mult := 0, shift := 0 })
        1538 = 1538 :=
  ⟨(unlimited_rate_cost_is_length.1 { rate_bps := 0, mult := 0, shift := 0 } rfl).1,
    (unlimited_rate_cost_is_length.1 { rate_bps := 0, mult := 0, shift := 0 } rfl).2.2 1538
      (by decide),
    (unlimited_rate_cost_is_length.2 { rate_bps := 0, mult := 0, shift := 0 } rfl).2.2 1538
      (by decide)⟩


/-! ### Marking points -/

namespace sch_dwrr2

/-- The enqueue path never reads `dwrr_enable_dequeue_ecn`. -/
theorem dwrr_enqueue_ignores_dequeue_ecn (cfg : dwrr_params) (v : Int) (clk : Nat → Int)
    (skb : sk_buff) (q : dwrr_sched_data) :
    dwrr_enqueue { cfg with dwrr_enable_dequeue_ecn := v } clk skb q =
      dwrr_enqueue cfg clk skb q := rfl

/-- With dequeue marking disabled the releasing branch returns the head packet as it is. -/
theorem dequeue_packet_unmarked (cfg : dwrr_params) (now : Int) (q : dwrr_sched_data)
    (i : Fin 8) (rest : List (Fin 8)) (skb : sk_buff) (tl : List sk_buff)
    (h : cfg.dwrr_enable_dequeue_ecn ≠ dwrr_enable) :
    dwrr_dequeue_packet cfg now q i rest skb tl = skb := by
  unfold dwrr_dequeue_packet
  rw [if_neg h]

end sch_dwrr2

namespace sch_dwrr

/-- With dequeue marking enabled the enqueue path of `sch_dwrr` leaves the packet as it is. -/
theorem enqueue_ecn_gated (cfg : dwrr_params) (skb : sk_buff) (q : dwrr_sched_data)
    (cl : dwrr_class) (h : cfg.DWRR_QDISC_ENABLE_DEQUEUE_ECN ≠ DWRR_QDISC_DEQUEUE_ECN_OFF) :
    enqueue_ecn cfg skb q cl = skb := by
  unfold enqueue_ecn
  rw [if_neg h]

end sch_dwrr

set_option maxRecDepth 100000 in
/-- C14: `dwrr_enqueue` of `sch_dwrr2` applies the marker whatever the value of
`dwrr_enable_dequeue_ecn`.  With dequeue marking enabled and a threshold of 1000
bytes, two packets of 1500 bytes on the wire enqueued into the initial state are
both stored with the CE mark, and the dequeue that returns the first one finds
the marking condition true again (the queue still holds 1500 bytes); on the
same input `sch_dwrr` stores both packets unmarked and marks the first one at
dequeue only.  With dequeue marking disabled, `dwrr_dequeue` returns the head
packet as it is. -/
theorem enqueue_marks_with_dequeue_ecn :
    ((sch_dwrr2.mark_two.queues 2).qdisc =
        [{ pkt_1500 with ce := true }, { pkt_1500 with ce := true }] ∧
      (∃ q1, sch_dwrr2.dwrr_dequeue 1 sch_dwrr2.mark_cfg 100000 sch_dwrr2.mark_two =
          some (q1, .sent 2 { pkt_1500 with ce := true }, []) ∧
        sch_dwrr2.dwrr_ecn_marking sch_dwrr2.mark_cfg pkt_1500 q1 (q1.queues 2) =
          { pkt_1500 with ce := true }) ∧
      (sch_dwrr.mark_two.queues 2).qdisc = [pkt_1500, pkt_1500] ∧
      ∃ q1, sch_dwrr.dwrr_qdisc_dequeue 1 sch_dwrr.mark_cfg (fun _ => 100000)
          sch_dwrr.mark_two = some (q1, .sent 2 { pkt_1500 with ce := true }, [])) ∧
    (∀ (cfg : sch_dwrr2.dwrr_params) (v : Int) (clk : Nat → Int) (skb : sk_buff)
        (q : sch_dwrr2.dwrr_sched_data),
      sch_dwrr2.dwrr_enqueue { cfg with dwrr_enable_dequeue_ecn := v } clk skb q =
        sch_dwrr2.dwrr_enqueue cfg clk skb q) ∧
    (∀ (cfg : sch_dwrr2.dwrr_params) (now : Int) (q : sch_dwrr2.dwrr_sched_data) (i : Fin 8)
        (rest : List (Fin 8)) (skb : sk_buff) (tl : List sk_buff),
      cfg.dwrr_enable_dequeue_ecn ≠ sch_dwrr2.dwrr_enable →
      sch_dwrr2.dwrr_dequeue_packet cfg now q i rest skb tl = skb) :=
  ⟨⟨by decide, ⟨_, rfl, by decide⟩, by decide, ⟨_, rfl⟩⟩,
    sch_dwrr2.dwrr_enqueue_ignores_dequeue_ecn,
    sch_dwrr2.dequeue_packet_unmarked⟩


/-! ### Token gate of sch_dwrr -/

namespace sch_dwrr

/-- The token gate of `dwrr_qdisc_dequeue`: when the head packet fits the deficit
counter, the pass releases it exactly when `toks > pkt_ns` and defers exactly
when `toks ≤ pkt_ns`. -/
theorem dwrr_qdisc_token_gate (cfg : dwrr_params) (clk : Nat → Int) (q : dwrr_sched_data)
    (i : Fin 8) (rest : List (Fin 8)) (skb : sk_buff) (tl : List sk_buff)
    (hq : q.activeList = i :: rest) (hf : (q.queues i).qdisc = skb :: tl)
    (hfit : skb_size skb ≤ ((dwrr_qdisc_dequeue_visit q i).queues i).deficitCounter) :
    (s64 (l2t_ns q.rate (skb_size skb)) < dwrr_qdisc_toks cfg (clk 0) q →
      dwrr_qdisc_dequeue_iter cfg clk q =
        .exit (dwrr_qdisc_dequeue_release cfg clk (dwrr_qdisc_dequeue_visit q i) i rest skb tl)
          (.sent i (dequeue_ecn cfg skb
            (dwrr_qdisc_dequeue_sent (clk 1) (dwrr_qdisc_dequeue_visit q i) i skb tl)
            (dwrr_qdisc_dequeue_sent_class (clk 1) (dwrr_qdisc_dequeue_visit q i) i skb tl)))) ∧
    (dwrr_qdisc_toks cfg (clk 0) q ≤ s64 (l2t_ns q.rate (skb_size skb)) →
      dwrr_qdisc_dequeue_iter cfg clk q =
        .exit (dwrr_qdisc_dequeue_throttle cfg (clk 0) (dwrr_qdisc_dequeue_visit q i)
          (skb_size skb)) .overlimit) := by
  constructor
  · intro h
    unfold dwrr_qdisc_dequeue_iter
    simp only [hq, hf]
    rw [if_pos hfit]
    have h' : dwrr_qdisc_toks cfg (clk 0) (dwrr_qdisc_dequeue_visit q i) >
        s64 (l2t_ns (dwrr_qdisc_dequeue_visit q i).rate (skb_size skb)) := h
    rw [if_pos h']
  · intro h
    unfold dwrr_qdisc_dequeue_iter
    simp only [hq, hf]
    rw [if_pos hfit]
    have h' : ¬ dwrr_qdisc_toks cfg (clk 0) (dwrr_qdisc_dequeue_visit q i) >
        s64 (l2t_ns (dwrr_qdisc_dequeue_visit q i).rate (skb_size skb)) := fun h2 =>
      absurd (show s64 (l2t_ns q.rate (skb_size skb)) < dwrr_qdisc_toks cfg (clk 0) q from h2)
        (not_lt.mpr h)
    rw [if_neg h']

end sch_dwrr

set_option maxRecDepth 100000 in
/-- C16: the token gate of `sch_dwrr` defers also when `toks = pkt_ns`.  One
packet costing `pkt_ns = 12000` ns waits in the initial state (`time_ns = 0`,
`tokens = 0`, bucket of 20000 ns).  A dequeue at time 5000 (`toks = 5000`) defers
and arms the timer for 12000; the dequeue at time 12000 has `toks = 12000 =
pkt_ns` and defers again, arming the timer for 12000, the current time; the
packet is released at time 12001 only.  `sch_dwrr2` releases the packet at
time 12000.  In general a pass in which the head packet fits the deficit
releases it when `toks > pkt_ns` and defers when `toks ≤ pkt_ns`. -/
theorem token_gate_defers_at_equality :
    (sch_dwrr.dwrr_qdisc_toks sch_dwrr.dwrr_qdisc_params_init 12000 sch_dwrr.gate_state = 12000 ∧
      s64 (sch_dwrr.l2t_ns sch_dwrr.gate_state.rate (sch_dwrr.skb_size pkt_1500)) = 12000 ∧
      (∃ q1, sch_dwrr.dwrr_qdisc_dequeue 1 sch_dwrr.dwrr_qdisc_params_init (fun _ => 5000)
          sch_dwrr.gate_state = some (q1, .overlimit, []) ∧ q1.watchdog = some 12000) ∧
      (∃ q1, sch_dwrr.dwrr_qdisc_dequeue 1 sch_dwrr.dwrr_qdisc_params_init (fun _ => 12000)
          sch_dwrr.gate_state = some (q1, .overlimit, []) ∧ q1.watchdog = some 12000) ∧
      (∃ q1, sch_dwrr.dwrr_qdisc_dequeue 1 sch_dwrr.dwrr_qdisc_params_init (fun _ => 12001)
          sch_dwrr.gate_state = some (q1, .sent 2 pkt_1500, [])) ∧
      ∃ q1, sch_dwrr2.dwrr_dequeue 1 sch_dwrr2.dwrr_params_init 12000 sch_dwrr2.gate_state =
        some (q1, .sent 2 pkt_1500, [])) ∧
    (∀ (cfg : sch_dwrr.dwrr_params) (clk : Nat → Int) (q : sch_dwrr.dwrr_sched_data)
        (i : Fin 8) (rest : List (Fin 8)) (skb : sk_buff) (tl : List sk_buff),
      q.activeList = i :: rest → (q.queues i).qdisc = skb :: tl →
      sch_dwrr.skb_size skb ≤ ((sch_dwrr.dwrr_qdisc_dequeue_visit q i).queues i).deficitCounter →
      (s64 (sch_dwrr.l2t_ns q.rate (sch_dwrr.skb_size skb)) <
          sch_dwrr.dwrr_qdisc_toks cfg (clk 0) q →
        ∃ q1 p, sch_dwrr.dwrr_qdisc_dequeue_iter cfg clk q = .exit q1 (.sent i p)) ∧
      (sch_dwrr.dwrr_qdisc_toks cfg (clk 0) q ≤
          s64 (sch_dwrr.l2t_ns q.rate (sch_dwrr.skb_size skb)) →
        ∃ q1, sch_dwrr.dwrr_qdisc_dequeue_iter cfg clk q = .exit q1 .overlimit ∧
          q1.watchdog = some (s64 (s64 (clk 0 + s64 (sch_dwrr.l2t_ns q.rate
            (sch_dwrr.skb_size skb))) - sch_dwrr.dwrr_qdisc_toks cfg (clk 0) q)))) :=
  ⟨⟨by decide, by decide, ⟨_, rfl, by decide⟩, ⟨_, rfl, by decide⟩, ⟨_, rfl⟩, ⟨_, rfl⟩⟩,
    fun cfg clk q i rest skb tl hq hf hfit =>
      ⟨fun h => ⟨_, _, (sch_dwrr.dwrr_qdisc_token_gate cfg clk q i rest skb tl hq hf hfit).1 h⟩,
        fun h => ⟨_, (sch_dwrr.dwrr_qdisc_token_gate cfg clk q i rest skb tl hq hf hfit).2 h,
          rfl⟩⟩⟩


/-! ### The releasing exit of sch_dwrr2 -/

namespace sch_dwrr2

/-- A call of the loop that returns a packet: the passes before the last one
leave FIFOs, byte counters, tokens and time check-point alone, and the last pass
releases the head packet of the class at the head of the active list. -/
theorem loop_sent {cfg : dwrr_params} {now : Int} (fuel : Nat) :
    ∀ {q q1 : dwrr_sched_data} {i : Fin 8} {p : sk_buff} {ys : List (Fin 8)},
      dwrr_dequeue_loop cfg now fuel q = some (q1, .sent i p, ys) →
      ∃ q0 rest skb tl, untouched q q0 ∧ q0.active = i :: rest ∧
        (q0.queues i).qdisc = skb :: tl ∧ skb_size skb ≤ (q0.queues i).deficit ∧
        0 ≤ tbf_schedule cfg (skb_size skb) q0 now ∧
        q1 = dwrr_dequeue_release cfg now q0 i rest skb tl ∧
        p = dwrr_dequeue_packet cfg now q0 i rest skb tl := by
  induction fuel with
  | zero => intro q q1 i p ys h; simp [dwrr_dequeue_loop] at h
  | succ n ih =>
    intro q q1 i p ys h
    unfold dwrr_dequeue_loop at h
    split at h
    · rename_i q2 r2 hit
      simp only [Option.some.injEq, Prod.mk.injEq] at h
      obtain ⟨h1, h2, _⟩ := h
      subst h1 h2
      rcases dwrr_dequeue_iter_exit hit with ⟨_, _, hr⟩ | ⟨_, _, _, _, _, hr⟩ |
        ⟨_, _, _, _, _, _, _, _, _, hr⟩ | ⟨j, rest, skb, tl, hq, hf, hd, ht, h1, hr⟩
      · simp at hr
      · simp at hr
      · simp at hr
      · simp only [deq_exit.sent.injEq] at hr
        obtain ⟨e1, e2⟩ := hr
        subst e1
        exact ⟨q, rest, skb, tl, untouched_refl q, hq, hf, hd, ht, h1, e2⟩
    · rename_i q2 j hit
      split at h
      · rename_i q3 r3 ys3 hl
        simp only [Option.some.injEq, Prod.mk.injEq] at h
        obtain ⟨h1, h2, _⟩ := h
        subst h1 h2
        obtain ⟨q0, rest, skb, tl, hu, hq, hf, hd, ht, h1, h2⟩ := ih hl
        obtain ⟨rest2, _, _, _, _, _, hy⟩ := dwrr_dequeue_iter_again hit
        refine ⟨q0, rest, skb, tl, untouched_trans ?_ hu, hq, hf, hd, ht, h1, h2⟩
        rw [hy]
        exact untouched_yield cfg q j rest2
      · simp at h

theorem dequeue_sent {fuel : Nat} {cfg : dwrr_params} {now : Int} {q q1 : dwrr_sched_data}
    {i : Fin 8} {p : sk_buff} {ys : List (Fin 8)}
    (h : dwrr_dequeue fuel cfg now q = some (q1, .sent i p, ys)) :
    ∃ q0 rest skb tl, untouched q q0 ∧ q0.active = i :: rest ∧
      (q0.queues i).qdisc = skb :: tl ∧ skb_size skb ≤ (q0.queues i).deficit ∧
      0 ≤ tbf_schedule cfg (skb_size skb) q0 now ∧
      q1 = dwrr_dequeue_release cfg now q0 i rest skb tl ∧
      p = dwrr_dequeue_packet cfg now q0 i rest skb tl := by
  unfold dwrr_dequeue at h
  split at h
  · simp at h
  · exact loop_sent fuel h

end sch_dwrr2


namespace sch_dwrr2

theorem drain_first_reachable : Reachable (fun _ => True) drain_first.1 :=
  Reachable.dequeue 1 dwrr_params_init 100000 trivial
    (Reachable.enqueue dwrr_params_init (fun _ => 20) pkt_84 trivial
      (Reachable.enqueue dwrr_params_init (fun _ => 10) pkt_1500 trivial
        (Reachable.init (fun _ => 0) 125000000)))
    (show dwrr_dequeue 1 dwrr_params_init 100000 drain_start = some drain_first from rfl)

/-- A releasing pass that empties the FIFO of the class: the round time takes the
sample `last_pkt_time - start_time`, where `last_pkt_time` is the time of the
call plus the cost of the packet. -/
theorem release_drain_round_time (cfg : dwrr_params) (now : Int) (q : dwrr_sched_data)
    (i : Fin 8) (rest : List (Fin 8)) (skb : sk_buff) :
    ((dwrr_dequeue_release cfg now q i rest skb []).queues i).last_pkt_time =
        s64 (now + l2t_ns q.rate (skb_size skb)) ∧
      ((dwrr_dequeue_release cfg now q i rest skb []).queues i).start_time =
        (q.queues i).start_time ∧
      (dwrr_dequeue_release cfg now q i rest skb []).round_time =
        s64_ewma q.round_time
          (s64 (s64 (now + l2t_ns q.rate (skb_size skb)) - (q.queues i).start_time))
          cfg.dwrr_round_alpha dwrr_round_alpha_shift := by
  refine ⟨?_, ?_, ?_⟩
  · show (Function.update q.queues i _ i).last_pkt_time = _
    rw [Function.update_same]
    rfl
  · show (Function.update q.queues i _ i).start_time = _
    rw [Function.update_same]
    rfl
  · have e : (dwrr_dequeue_release cfg now q i rest skb []).round_time =
        if ([] : List sk_buff) = [] then
          s64_ewma q.round_time
            (s64 ((dwrr_dequeue_release_class now q i skb []).last_pkt_time -
              (dwrr_dequeue_release_class now q i skb []).start_time))
            cfg.dwrr_round_alpha dwrr_round_alpha_shift
        else q.round_time := rfl
    rw [e, if_pos rfl]
    rfl

theorem sample_ge_cost (now st : Int) (c : Nat) (h0 : 0 ≤ st) (h1 : st ≤ now)
    (h2 : now + c < 9223372036854775808) : (c : Int) ≤ s64 (s64 (now + c) - st) := by
  unfold s64
  omega

end sch_dwrr2


set_option maxRecDepth 100000 in
/-- C19: `sch_dwrr2` takes the round-time sample without the maximum with the
packet cost that `sch_dwrr` takes.  In a reachable state of `sch_dwrr2` (a packet
of 1500 bytes sent at time 100000, a packet of 84 bytes left in class 2), the
dequeue at time 100001 makes class 2 give up its turn and then returns the short
packet, which empties the FIFO.  The round time before that release is 27997,
the sample `last_pkt_time - start_time` is `100673 - 112000 = -11327`, below the
cost 672 of the packet, and the new round time is 18166, whereas the update with
the sample `max(-11327, 672)` would give 21165.  In `sch_dwrr` the releasing
branch that empties a FIFO updates the round time with
`max(last_pkt_time_ns - start_time_ns, last_pkt_len_ns)`, which is never below
the cost of the packet. -/
theorem round_time_sample_below_cost :
    sch_dwrr2.Reachable (fun _ => True) sch_dwrr2.drain_first.1 ∧
      sch_dwrr2.dwrr_dequeue 2 sch_dwrr2.dwrr_params_init 100001 sch_dwrr2.drain_first.1 =
        some sch_dwrr2.drain_second ∧
      sch_dwrr2.dwrr_dequeue_run 2 sch_dwrr2.dwrr_params_init 100001 sch_dwrr2.drain_first.1 =
        .returned sch_dwrr2.drain_second.1 (.sent 2 pkt_84) [2] ∧
      sch_dwrr2.drain_second.2 = (.sent 2 pkt_84, [2]) ∧
      (sch_dwrr2.drain_second.1.queues 2).qdisc = [] ∧
      (∃ qy, sch_dwrr2.dwrr_dequeue_iter sch_dwrr2.dwrr_params_init 100001
          sch_dwrr2.drain_first.1 = .again qy 2 ∧ qy.round_time = 27997 ∧
        (sch_dwrr2.l2t_ns qy.rate (sch_dwrr2.skb_size pkt_84) : Int) = 672 ∧
        sch_dwrr2.s64_ewma qy.round_time
          (max ((sch_dwrr2.drain_second.1.queues 2).last_pkt_time -
            (sch_dwrr2.drain_second.1.queues 2).start_time) 672)
          sch_dwrr2.dwrr_params_init.dwrr_round_alpha sch_dwrr2.dwrr_round_alpha_shift =
            21165) ∧
      (sch_dwrr2.drain_second.1.queues 2).last_pkt_time -
        (sch_dwrr2.drain_second.1.queues 2).start_time = -11327 ∧
      sch_dwrr2.drain_second.1.round_time = 18166 ∧
      (∀ (cfg : sch_dwrr.dwrr_params) (clk : Nat → Int) (q : sch_dwrr.dwrr_sched_data)
          (i : Fin 8) (rest : List (Fin 8)) (skb : sk_buff),
        (sch_dwrr.dwrr_qdisc_dequeue_release cfg clk q i rest skb []).round_time_ns =
          sch_dwrr.round_time_update cfg q.round_time_ns
            (max (s64 (clk 1 - (q.queues i).start_time_ns))
              (s64 (sch_dwrr.l2t_ns q.rate (sch_dwrr.skb_size skb)))) ∧
        s64 (sch_dwrr.l2t_ns q.rate (sch_dwrr.skb_size skb)) ≤
          max (s64 (clk 1 - (q.queues i).start_time_ns))
            (s64 (sch_dwrr.l2t_ns q.rate (sch_dwrr.skb_size skb)))) :=
  ⟨sch_dwrr2.drain_first_reachable, rfl, rfl, by decide, by decide, ⟨_, rfl, by decide, by decide,
    by decide⟩, by decide, by decide, fun _ _ _ _ _ _ => ⟨rfl, le_max_right _ _⟩⟩

/-! ### Termination of the dequeue loop -/

namespace sch_dwrr2

/-- A pass whose head packet fits the deficit leaves the loop, with a packet or
through the token-starved exit. -/
theorem iter_fits {cfg : dwrr_params} {now : Int} {q : dwrr_sched_data} {i : Fin 8}
    {rest : List (Fin 8)} {skb : sk_buff} {tl : List sk_buff} (hq : q.active = i :: rest)
    (hf : (q.queues i).qdisc = skb :: tl) (hd : skb_size skb ≤ (q.queues i).deficit) :
    ∃ q1 r, dwrr_dequeue_iter cfg now q = .exit q1 r ∧ (r = .overlimit ∨ ∃ p, r = .sent i p) := by
  unfold dwrr_dequeue_iter
  simp only [hq, hf]
  rw [if_pos hd]
  by_cases ht : tbf_schedule cfg (skb_size skb) q now < 0
  · rw [if_pos ht]
    exact ⟨_, _, rfl, Or.inl rfl⟩
  · rw [if_neg ht]
    exact ⟨_, _, rfl, Or.inr ⟨_, rfl⟩⟩

/-- A pass whose head packet does not fit the deficit makes the class give up its turn. -/
theorem iter_yields {cfg : dwrr_params} {now : Int} {q : dwrr_sched_data} {i : Fin 8}
    {rest : List (Fin 8)} {skb : sk_buff} {tl : List sk_buff} (hq : q.active = i :: rest)
    (hf : (q.queues i).qdisc = skb :: tl) (hd : ¬ skb_size skb ≤ (q.queues i).deficit) :
    dwrr_dequeue_iter cfg now q = .again (dwrr_dequeue_yield cfg q i rest) i := by
  unfold dwrr_dequeue_iter
  simp only [hq, hf]
  rw [if_neg hd]

/-- The deficit of a class right after it has given up its turn is at least its
quantum, for a permitted quantum. -/
theorem yield_deficit (cfg : dwrr_params) (q : dwrr_sched_data) (i : Fin 8)
    (rest : List (Fin 8)) (skb : sk_buff) (hid : (q.queues i).id = i.val)
    (hQ : 1538 ≤ cfg.dwrr_queue_quantum i.val ∧ cfg.dwrr_queue_quantum i.val ≤ 204800)
    (hs : skb_size skb ≤ 2000024) (hd : ¬ skb_size skb ≤ (q.queues i).deficit) :
    (cfg.dwrr_queue_quantum i.val : Int) ≤
      (((dwrr_dequeue_yield cfg q i rest).queues i).deficit : Int) := by
  show (cfg.dwrr_queue_quantum i.val : Int) ≤
    ((Function.update q.queues i (dwrr_dequeue_yield_class cfg q i) i).deficit : Int)
  rw [Function.update_same]
  unfold dwrr_dequeue_yield_class
  simp only [hid]
  split
  · unfold u32_of_int
    omega
  · unfold u32_add u32_of_int
    omega

/-- The loop leaves after at most one turn given up per class of the rotation
not yet known to be ready (`l1`), the classes of `l2` having a deficit that
covers their head packet. -/
theorem loop_terminates (cfg : dwrr_params) (now : Int)
    (hQ : ∀ i : Fin 8, 1538 ≤ cfg.dwrr_queue_quantum i.val ∧
      cfg.dwrr_queue_quantum i.val ≤ 204800) :
    ∀ (l1 l2 : List (Fin 8)) (q : dwrr_sched_data), q.active = l1 ++ l2 → q.active ≠ [] →
      well_formed q → active_ok q →
      (∀ i ∈ q.active, ∀ skb, (q.queues i).qdisc.head? = some skb →
        (skb_size skb : Int) ≤ cfg.dwrr_queue_quantum i.val) →
      (∀ i ∈ l2, ∀ skb, (q.queues i).qdisc.head? = some skb →
        skb_size skb ≤ (q.queues i).deficit) →
      ∃ q1 r ys, dwrr_dequeue_loop cfg now (l1.length + 1) q = some (q1, r, ys) ∧
        ys.length ≤ l1.length ∧ (r = .overlimit ∨ ∃ i p, r = .sent i p) := by
  intro l1
  induction l1 with
  | nil =>
    intro l2 q hq hne hwf hok hh hr
    rw [List.nil_append] at hq
    obtain ⟨i, rest, hl⟩ := List.exists_cons_of_ne_nil hne
    have hi : i ∈ q.active := by rw [hl]; exact List.mem_cons_self _ _
    have hfne : (q.queues i).qdisc ≠ [] := (hok.2 i).mp hi
    obtain ⟨skb, tl, hf⟩ := List.exists_cons_of_ne_nil hfne
    have hfit := hr i (hq ▸ hi) skb (by rw [hf]; rfl)
    obtain ⟨q1, r, hit, hres⟩ := @iter_fits cfg now _ _ _ _ _ hl hf hfit
    refine ⟨q1, r, [], ?_, Nat.le_refl _, ?_⟩
    · show dwrr_dequeue_loop cfg now 1 q = _
      unfold dwrr_dequeue_loop
      rw [hit]
    · rcases hres with h | ⟨p, h⟩
      · exact Or.inl h
      · exact Or.inr ⟨i, p, h⟩
  | cons i l1 ih =>
    intro l2 q hq hne hwf hok hh hr
    have hq' : q.active = i :: (l1 ++ l2) := hq
    have hi : i ∈ q.active := by rw [hq']; exact List.mem_cons_self _ _
    have hfne : (q.queues i).qdisc ≠ [] := (hok.2 i).mp hi
    obtain ⟨skb, tl, hf⟩ := List.exists_cons_of_ne_nil hfne
    by_cases hfit : skb_size skb ≤ (q.queues i).deficit
    · obtain ⟨q1, r, hit, hres⟩ := @iter_fits cfg now _ _ _ _ _ hq' hf hfit
      refine ⟨q1, r, [], ?_, Nat.zero_le _, ?_⟩
      · unfold dwrr_dequeue_loop
        rw [hit]
      · rcases hres with h | ⟨p, h⟩
        · exact Or.inl h
        · exact Or.inr ⟨i, p, h⟩
    · have hit := @iter_yields cfg now _ _ _ _ _ hq' hf hfit
      obtain ⟨_, _, _, _, _, fy⟩ := active_ok_blocks (fun _ => True)
      have hok' : active_ok (dwrr_dequeue_yield cfg q i (l1 ++ l2)) :=
        fy cfg q i (l1 ++ l2) skb tl trivial hok hq' hf (not_le.mp hfit)
      have hwf' : well_formed (dwrr_dequeue_yield cfg q i (l1 ++ l2)) := wf_yield hwf cfg i _
      have hact : (dwrr_dequeue_yield cfg q i (l1 ++ l2)).active = l1 ++ (l2 ++ [i]) := by
        show (l1 ++ l2) ++ [i] = _
        rw [List.append_assoc]
      have hfifo : ∀ j, ((dwrr_dequeue_yield cfg q i (l1 ++ l2)).queues j).qdisc =
          (q.queues j).qdisc := fun j => ((untouched_yield cfg q i (l1 ++ l2)).1 j).1
      have hnd : (i :: (l1 ++ l2)).Nodup := by rw [← hq']; exact hok.1
      have hs : skb_size skb ≤ 2000024 :=
        skb_size_le skb ((hwf i).2 skb (by rw [hf]; exact List.mem_cons_self _ _))
      obtain ⟨q1, r, ys, hl, hlen, hres⟩ := ih (l2 ++ [i]) (dwrr_dequeue_yield cfg q i (l1 ++ l2))
        hact (by rw [hact]; simp) hwf' hok'
        (by
          intro j hj p hp
          rw [hfifo j] at hp
          have hj' : j ∈ q.active := by
            rw [hq']
            rw [hact] at hj
            simp only [List.mem_append, List.mem_singleton, List.mem_cons] at hj ⊢
            tauto
          exact hh j hj' p hp)
        (by
          intro j hj p hp
          rw [hfifo j] at hp
          rcases List.mem_append.mp hj with h2 | h2
          · have hji : j ≠ i := by
              intro e
              subst e
              exact (List.nodup_cons.mp hnd).1 (List.mem_append_right _ h2)
            have e : (dwrr_dequeue_yield cfg q i (l1 ++ l2)).queues j = q.queues j := by
              show Function.update q.queues i _ j = _
              rw [Function.update_noteq hji]
            rw [e]
            exact hr j h2 p hp
          · rw [List.mem_singleton] at h2
            subst h2
            have h1 := hh j hi p hp
            have h2 := yield_deficit cfg q j (l1 ++ l2) skb (hwf j).1 (hQ j) hs hfit
            omega)
      refine ⟨q1, r, i :: ys, ?_, ?_, hres⟩
      · show dwrr_dequeue_loop cfg now ((l1.length + 1) + 1) q = _
        unfold dwrr_dequeue_loop
        rw [hit]
        simp only [hl]
      · simp only [List.length_cons]
        omega

end sch_dwrr2


namespace sch_dwrr

/-- A pass whose head packet fits the deficit counter leaves the loop, with a
packet or through the token-starved exit. -/
theorem iter_fits_qdisc {cfg : dwrr_params} {clk : Nat → Int} {q : dwrr_sched_data} {i : Fin 8}
    {rest : List (Fin 8)} {skb : sk_buff} {tl : List sk_buff} (hq : q.activeList = i :: rest)
    (hf : (q.queues i).qdisc = skb :: tl)
    (hd : skb_size skb ≤ ((dwrr_qdisc_dequeue_visit q i).queues i).deficitCounter) :
    ∃ q1 r, dwrr_qdisc_dequeue_iter cfg clk q = .exit q1 r ∧
      (r = .overlimit ∨ ∃ p, r = .sent i p) := by
  unfold dwrr_qdisc_dequeue_iter
  simp only [hq, hf]
  rw [if_pos hd]
  split
  · exact ⟨_, _, rfl, Or.inr ⟨_, rfl⟩⟩
  · exact ⟨_, _, rfl, Or.inl rfl⟩

/-- A pass whose head packet does not fit the deficit counter makes the class give
up its turn. -/
theorem iter_yields_qdisc {cfg : dwrr_params} {clk : Nat → Int} {q : dwrr_sched_data}
    {i : Fin 8} {rest : List (Fin 8)} {skb : sk_buff} {tl : List sk_buff}
    (hq : q.activeList = i :: rest) (hf : (q.queues i).qdisc = skb :: tl)
    (hd : ¬ skb_size skb ≤ ((dwrr_qdisc_dequeue_visit q i).queues i).deficitCounter) :
    dwrr_qdisc_dequeue_iter cfg clk q =
      .again (dwrr_qdisc_dequeue_yield cfg (clk 0) (dwrr_qdisc_dequeue_visit q i) i rest) i := by
  unfold dwrr_qdisc_dequeue_iter
  simp only [hq, hf]
  rw [if_neg hd]

theorem visit_congr {q q1 : dwrr_sched_data} {j : Fin 8} (h : q1.queues j = q.queues j) :
    (dwrr_qdisc_dequeue_visit q1 j).queues j = (dwrr_qdisc_dequeue_visit q j).queues j := by
  show Function.update q1.queues j (dwrr_qdisc_dequeue_visit_class q1 j) j =
    Function.update q.queues j (dwrr_qdisc_dequeue_visit_class q j) j
  rw [Function.update_same, Function.update_same]
  unfold dwrr_qdisc_dequeue_visit_class
  rw [h]

/-- The deficit counter a class is seen with at its next visit after it has
given up its turn is at least its quantum, for a permitted quantum. -/
theorem yield_deficit_qdisc (cfg : dwrr_params) (t : Int) (q : dwrr_sched_data) (i : Fin 8)
    (rest : List (Fin 8)) (skb : sk_buff) (hid : (q.queues i).id = i.val)
    (hQ : 1538 ≤ cfg.DWRR_QDISC_QUEUE_QUANTUM i.val ∧
      cfg.DWRR_QDISC_QUEUE_QUANTUM i.val ≤ 204800)
    (hs : skb_size skb ≤ 2000024)
    (hd : ¬ skb_size skb ≤ ((dwrr_qdisc_dequeue_visit q i).queues i).deficitCounter) :
    (cfg.DWRR_QDISC_QUEUE_QUANTUM i.val : Int) ≤
      (((dwrr_qdisc_dequeue_visit
        (dwrr_qdisc_dequeue_yield cfg t (dwrr_qdisc_dequeue_visit q i) i rest) i).queues
          i).deficitCounter : Int) := by
  have hid' : ((dwrr_qdisc_dequeue_visit q i).queues i).id = i.val := by
    show (Function.update q.queues i _ i).id = _
    rw [Function.update_same, visit_class_id]
    exact hid
  have e : (dwrr_qdisc_dequeue_visit
      (dwrr_qdisc_dequeue_yield cfg t (dwrr_qdisc_dequeue_visit q i) i rest) i).queues i =
      { dwrr_qdisc_dequeue_yield_class cfg t (dwrr_qdisc_dequeue_visit q i) i with
        curr := 1
        deficitCounter :=
          u32_add (dwrr_qdisc_dequeue_yield_class cfg t (dwrr_qdisc_dequeue_visit q i) i).deficitCounter
            (dwrr_qdisc_dequeue_yield_class cfg t (dwrr_qdisc_dequeue_visit q i) i).quantum } := by
    have hv : ∀ Y : dwrr_sched_data,
        (dwrr_qdisc_dequeue_visit Y i).queues i = dwrr_qdisc_dequeue_visit_class Y i := by
      intro Y
      show Function.update Y.queues i (dwrr_qdisc_dequeue_visit_class Y i) i = _
      rw [Function.update_same]
    rw [hv]
    unfold dwrr_qdisc_dequeue_visit_class
    have e2 : (dwrr_qdisc_dequeue_yield cfg t (dwrr_qdisc_dequeue_visit q i) i rest).queues i =
        dwrr_qdisc_dequeue_yield_class cfg t (dwrr_qdisc_dequeue_visit q i) i := by
      show Function.update (dwrr_qdisc_dequeue_visit q i).queues i
        (dwrr_qdisc_dequeue_yield_class cfg t (dwrr_qdisc_dequeue_visit q i) i) i = _
      rw [Function.update_same]
    rw [e2]
    have e3 : (dwrr_qdisc_dequeue_yield_class cfg t (dwrr_qdisc_dequeue_visit q i) i).curr = 0 :=
      rfl
    rw [if_pos e3]
  rw [e]
  show (cfg.DWRR_QDISC_QUEUE_QUANTUM i.val : Int) ≤
    ((u32_add (if cfg.DWRR_QDISC_ENABLE_WRR = DWRR_QDISC_WRR_ON then 0
        else ((dwrr_qdisc_dequeue_visit q i).queues i).deficitCounter)
      (u32_of_int (cfg.DWRR_QDISC_QUEUE_QUANTUM
        ((dwrr_qdisc_dequeue_visit q i).queues i).id)) : Nat) : Int)
  rw [hid']
  split
  · unfold u32_add u32_of_int
    omega
  · unfold u32_add u32_of_int
    omega

/-- The loop leaves after at most one turn given up per class of the rotation
not yet known to be ready (`l1`), the classes of `l2` being seen, at their next
visit, with a deficit counter that covers their head packet. -/
theorem loop_terminates_qdisc (cfg : dwrr_params)
    (hQ : ∀ i : Fin 8, 1538 ≤ cfg.DWRR_QDISC_QUEUE_QUANTUM i.val ∧
      cfg.DWRR_QDISC_QUEUE_QUANTUM i.val ≤ 204800) :
    ∀ (l1 l2 : List (Fin 8)) (clk : Nat → Int) (q : dwrr_sched_data),
      q.activeList = l1 ++ l2 → q.activeList ≠ [] → well_formed q → active_ok q →
      (∀ i ∈ q.activeList, ∀ skb, (q.queues i).qdisc.head? = some skb →
        (skb_size skb : Int) ≤ cfg.DWRR_QDISC_QUEUE_QUANTUM i.val) →
      (∀ i ∈ l2, ∀ skb, (q.queues i).qdisc.head? = some skb →
        skb_size skb ≤ ((dwrr_qdisc_dequeue_visit q i).queues i).deficitCounter) →
      ∃ q1 r ys, dwrr_qdisc_dequeue_loop cfg (l1.length + 1) clk q = some (q1, r, ys) ∧
        ys.length ≤ l1.length ∧ (r = .overlimit ∨ ∃ i p, r = .sent i p) := by
  intro l1
  induction l1 with
  | nil =>
    intro l2 clk q hq hne hwf hok hh hr
    rw [List.nil_append] at hq
    obtain ⟨i, rest, hl⟩ := List.exists_cons_of_ne_nil hne
    have hi : i ∈ q.activeList := by rw [hl]; exact List.mem_cons_self _ _
    have hfne : (q.queues i).qdisc ≠ [] := ((hok.2 i).1 hi).2
    obtain ⟨skb, tl, hf⟩ := List.exists_cons_of_ne_nil hfne
    have hfit := hr i (hq ▸ hi) skb (by rw [hf]; rfl)
    obtain ⟨q1, r, hit, hres⟩ := @iter_fits_qdisc cfg clk _ _ _ _ _ hl hf hfit
    refine ⟨q1, r, [], ?_, Nat.le_refl _, ?_⟩
    · show dwrr_qdisc_dequeue_loop cfg 1 clk q = _
      unfold dwrr_qdisc_dequeue_loop
      rw [hit]
    · rcases hres with h | ⟨p, h⟩
      · exact Or.inl h
      · exact Or.inr ⟨i, p, h⟩
  | cons i l1 ih =>
    intro l2 clk q hq hne hwf hok hh hr
    have hq' : q.activeList = i :: (l1 ++ l2) := hq
    have hi : i ∈ q.activeList := by rw [hq']; exact List.mem_cons_self _ _
    have hfne : (q.queues i).qdisc ≠ [] := ((hok.2 i).1 hi).2
    obtain ⟨skb, tl, hf⟩ := List.exists_cons_of_ne_nil hfne
    by_cases hfit : skb_size skb ≤ ((dwrr_qdisc_dequeue_visit q i).queues i).deficitCounter
    · obtain ⟨q1, r, hit, hres⟩ := @iter_fits_qdisc cfg clk _ _ _ _ _ hq' hf hfit
      refine ⟨q1, r, [], ?_, Nat.zero_le _, ?_⟩
      · unfold dwrr_qdisc_dequeue_loop
        rw [hit]
      · rcases hres with h | ⟨p, h⟩
        · exact Or.inl h
        · exact Or.inr ⟨i, p, h⟩
    · have hit := @iter_yields_qdisc cfg clk _ _ _ _ _ hq' hf hfit
      obtain ⟨_, _, _, fv, _, _, fy⟩ := active_ok_blocks_qdisc (fun _ => True)
      have hokv := fv q i (l1 ++ l2) hok hq'
      have hok' : active_ok
          (dwrr_qdisc_dequeue_yield cfg (clk 0) (dwrr_qdisc_dequeue_visit q i) i (l1 ++ l2)) :=
        fy cfg (clk 0) _ i (l1 ++ l2) skb tl trivial hokv hq' ((visit_qdisc q i).trans hf)
          (not_le.mp hfit)
      have hwf' : well_formed
          (dwrr_qdisc_dequeue_yield cfg (clk 0) (dwrr_qdisc_dequeue_visit q i) i (l1 ++ l2)) :=
        wf_yield_qdisc (wf_visit hwf i) cfg _ i _
      have hact : (dwrr_qdisc_dequeue_yield cfg (clk 0) (dwrr_qdisc_dequeue_visit q i) i
          (l1 ++ l2)).activeList = l1 ++ (l2 ++ [i]) := by
        show (l1 ++ l2) ++ [i] = _
        rw [List.append_assoc]
      have hu := untouched_trans_qdisc (untouched_visit q i)
        (untouched_yield_qdisc cfg (clk 0) (dwrr_qdisc_dequeue_visit q i) i (l1 ++ l2))
      have hfifo : ∀ j, ((dwrr_qdisc_dequeue_yield cfg (clk 0) (dwrr_qdisc_dequeue_visit q i) i
          (l1 ++ l2)).queues j).qdisc = (q.queues j).qdisc := fun j => (hu.1 j).1
      have hnd : (i :: (l1 ++ l2)).Nodup := by rw [← hq']; exact hok.1
      have hs : skb_size skb ≤ 2000024 :=
        skb_size_le_qdisc skb ((hwf i).2 skb (by rw [hf]; exact List.mem_cons_self _ _))
      obtain ⟨q1, r, ys, hl, hlen, hres⟩ := ih (l2 ++ [i]) (fun n => clk (n + 1))
        (dwrr_qdisc_dequeue_yield cfg (clk 0) (dwrr_qdisc_dequeue_visit q i) i (l1 ++ l2))
        hact (by rw [hact]; simp) hwf' hok'
        (by
          intro j hj p hp
          rw [hfifo j] at hp
          have hj' : j ∈ q.activeList := by
            rw [hq']
            rw [hact] at hj
            simp only [List.mem_append, List.mem_singleton, List.mem_cons] at hj ⊢
            tauto
          exact hh j hj' p hp)
        (by
          intro j hj p hp
          rw [hfifo j] at hp
          rcases List.mem_append.mp hj with h2 | h2
          · have hji : j ≠ i := by
              intro e
              subst e
              exact (List.nodup_cons.mp hnd).1 (List.mem_append_right _ h2)
            have e : (dwrr_qdisc_dequeue_yield cfg (clk 0) (dwrr_qdisc_dequeue_visit q i) i
                (l1 ++ l2)).queues j = q.queues j := by
              show Function.update (dwrr_qdisc_dequeue_visit q i).queues i _ j = _
              rw [Function.update_noteq hji]
              exact visit_other q (Ne.symm hji)
            rw [visit_congr e]
            exact hr j h2 p hp
          · rw [List.mem_singleton] at h2
            subst h2
            have h1 := hh j hi p hp
            have h2 := yield_deficit_qdisc cfg (clk 0) q j (l1 ++ l2) skb (hwf j).1 (hQ j) hs hfit
            omega)
      refine ⟨q1, r, i :: ys, ?_, ?_, hres⟩
      · show dwrr_qdisc_dequeue_loop cfg ((l1.length + 1) + 1) clk q = _
        unfold dwrr_qdisc_dequeue_loop
        rw [hit]
        simp only [hl]
      · simp only [List.length_cons]
        omega

end sch_dwrr


namespace sch_dwrr2

/-- More fuel does not change the result of the loop. -/
theorem loop_fuel_mono (cfg : dwrr_params) (now : Int) (fuel : Nat) :
    ∀ (q : dwrr_sched_data) (x : dwrr_sched_data × deq_exit × List (Fin 8)) (k : Nat),
      dwrr_dequeue_loop cfg now fuel q = some x →
      dwrr_dequeue_loop cfg now (fuel + k) q = some x := by
  induction fuel with
  | zero => intro q x k h; simp [dwrr_dequeue_loop] at h
  | succ n ih =>
    intro q x k h
    have e : n + 1 + k = (n + k) + 1 := by omega
    rw [e]
    unfold dwrr_dequeue_loop at h ⊢
    split at h
    · rename_i q2 r2 hit
      exact h
    · rename_i q2 j hit
      split at h
      · rename_i q3 r3 ys3 hl
        simp only [ih q2 _ k hl]
        exact h
      · simp at h

/-- In WRR mode a single class whose head packet is longer than its quantum gives
up its turn for ever. -/
theorem wrr_never_returns (cfg : dwrr_params) (now : Int) (i : Fin 8) (skb : sk_buff)
    (tl : List sk_buff) (hw : cfg.dwrr_enable_wrr = dwrr_enable)
    (hQ : u32_of_int (cfg.dwrr_queue_quantum i.val) < skb_size skb) (fuel : Nat) :
    ∀ q : dwrr_sched_data, q.active = [i] → (q.queues i).qdisc = skb :: tl →
      (q.queues i).id = i.val → (q.queues i).deficit < skb_size skb →
      dwrr_dequeue_loop cfg now fuel q = none := by
  induction fuel with
  | zero => intro q _ _ _ _; rfl
  | succ n ih =>
    intro q hq hf hid hd
    unfold dwrr_dequeue_loop
    rw [iter_yields hq hf (not_le.mpr hd)]
    have hcl : (dwrr_dequeue_yield cfg q i []).queues i = dwrr_dequeue_yield_class cfg q i := by
      show Function.update q.queues i (dwrr_dequeue_yield_class cfg q i) i = _
      rw [Function.update_same]
    have h2 := ih (dwrr_dequeue_yield cfg q i []) rfl (by rw [hcl]; exact hf)
      (by rw [hcl]; exact hid)
      (by
        rw [hcl]
        show (if cfg.dwrr_enable_wrr = dwrr_enable then
            u32_of_int (cfg.dwrr_queue_quantum (q.queues i).id) else _) < _
        rw [if_pos hw, hid]
        exact hQ)
    simp only [h2]

end sch_dwrr2

namespace sch_dwrr

/-- More fuel does not change the result of the loop. -/
theorem loop_fuel_mono_qdisc (cfg : dwrr_params) (fuel : Nat) :
    ∀ (clk : Nat → Int) (q : dwrr_sched_data)
      (x : dwrr_sched_data × deq_exit × List (Fin 8)) (k : Nat),
      dwrr_qdisc_dequeue_loop cfg fuel clk q = some x →
      dwrr_qdisc_dequeue_loop cfg (fuel + k) clk q = some x := by
  induction fuel with
  | zero => intro clk q x k h; simp [dwrr_qdisc_dequeue_loop] at h
  | succ n ih =>
    intro clk q x k h
    have e : n + 1 + k = (n + k) + 1 := by omega
    rw [e]
    unfold dwrr_qdisc_dequeue_loop at h ⊢
    split at h
    · rename_i q2 r2 hit
      exact h
    · rename_i q2 j hit
      split at h
      · rename_i q3 r3 ys3 hl
        simp only [ih _ q2 _ k hl]
        exact h
      · simp at h

end sch_dwrr

set_option maxRecDepth 100000 in
/-- C15, as stated, fails in `sch_dwrr2`.  In WRR mode with the permitted quantum
1538, the reachable state holding one packet of 3024 bytes on the wire has a
rotation of one class, and the dequeue loop does not return whatever the number
of passes allowed: the class gives up its turn for ever.  In DRR mode with the
same quantum, the reachable state holding one packet of 5024 bytes has a
rotation of one class and the loop leaves only after the class has given up its
turn three times. -/
theorem dequeue_loop_unbounded :
    (sch_dwrr2.Reachable (fun _ => True) sch_dwrr2.wrr_state ∧
      sch_dwrr2.wrr_state.active = [2] ∧
      sch_dwrr2.wrr_cfg.dwrr_queue_quantum 2 = 1538 ∧
      ∀ fuel, sch_dwrr2.dwrr_dequeue fuel sch_dwrr2.wrr_cfg 100000 sch_dwrr2.wrr_state = none) ∧
    (sch_dwrr2.Reachable (fun _ => True) sch_dwrr2.long_state ∧
      sch_dwrr2.long_state.active = [2] ∧
      sch_dwrr2.dwrr_params_init.dwrr_queue_quantum 2 = 1538 ∧
      (∀ fuel, fuel ≤ 3 →
        sch_dwrr2.dwrr_dequeue fuel sch_dwrr2.dwrr_params_init 100000 sch_dwrr2.long_state =
          none) ∧
      ∃ q1, sch_dwrr2.dwrr_dequeue 4 sch_dwrr2.dwrr_params_init 100000 sch_dwrr2.long_state =
        some (q1, .overlimit, [2, 2, 2])) := by
  refine ⟨⟨?_, by decide, by decide, ?_⟩, ⟨?_, by decide, by decide, ?_, ⟨_, rfl⟩⟩⟩
  · exact sch_dwrr2.Reachable.enqueue sch_dwrr2.wrr_cfg (fun _ => 0) pkt_3000 trivial
      (sch_dwrr2.Reachable.init (fun _ => 0) 125000000)
  · intro fuel
    have h := sch_dwrr2.wrr_never_returns sch_dwrr2.wrr_cfg 100000 2 pkt_3000 [] (by decide)
      (by decide) fuel sch_dwrr2.wrr_state (by decide) (by decide) (by decide) (by decide)
    unfold sch_dwrr2.dwrr_dequeue
    rw [if_neg (by decide)]
    exact h
  · exact sch_dwrr2.Reachable.enqueue sch_dwrr2.dwrr_params_init (fun _ => 0) pkt_5000 trivial
      (sch_dwrr2.Reachable.init (fun _ => 0) 125000000)
  · intro fuel hf
    have : fuel = 0 ∨ fuel = 1 ∨ fuel = 2 ∨ fuel = 3 := by omega
    rcases this with h | h | h | h <;> subst h <;> rfl


namespace sch_dwrr2

theorem dequeue_terminates_of_heads (P : dwrr_params → Prop) (q : dwrr_sched_data)
    (cfg : dwrr_params) (now : Int) (fuel : Nat) (hr : Reachable P q) (hne : q.active ≠ [])
    (hQ : ∀ i : Fin 8, 1538 ≤ cfg.dwrr_queue_quantum i.val ∧
      cfg.dwrr_queue_quantum i.val ≤ 204800)
    (hh : ∀ i ∈ q.active, ∀ skb, (q.queues i).qdisc.head? = some skb →
      (skb_size skb : Int) ≤ cfg.dwrr_queue_quantum i.val)
    (hf : q.active.length + 1 ≤ fuel) :
    ∃ q1 r ys, dwrr_dequeue fuel cfg now q = some (q1, r, ys) ∧
      ys.length ≤ q.active.length ∧ (r = .overlimit ∨ ∃ i p, r = .sent i p) := by
  obtain ⟨q1, r, ys, hl, hlen, hres⟩ := loop_terminates cfg now hQ q.active [] q
    (List.append_nil _).symm hne ((well_formed_reachable P).1 q hr)
    ((active_ok_reachable P).1 q hr) hh (fun i hi => absurd hi (List.not_mem_nil _))
  refine ⟨q1, r, ys, ?_, hlen, hres⟩
  unfold dwrr_dequeue
  rw [if_neg hne]
  have := loop_fuel_mono cfg now _ q _ (fuel - (q.active.length + 1)) hl
  rw [show q.active.length + 1 + (fuel - (q.active.length + 1)) = fuel by omega] at this
  exact this

end sch_dwrr2

namespace sch_dwrr

theorem dequeue_terminates_of_heads_qdisc (P : dwrr_params → Prop) (q : dwrr_sched_data)
    (cfg : dwrr_params) (clk : Nat → Int) (fuel : Nat) (hr : Reachable P q)
    (hne : q.activeList ≠ [])
    (hQ : ∀ i : Fin 8, 1538 ≤ cfg.DWRR_QDISC_QUEUE_QUANTUM i.val ∧
      cfg.DWRR_QDISC_QUEUE_QUANTUM i.val ≤ 204800)
    (hh : ∀ i ∈ q.activeList, ∀ skb, (q.queues i).qdisc.head? = some skb →
      (skb_size skb : Int) ≤ cfg.DWRR_QDISC_QUEUE_QUANTUM i.val)
    (hf : q.activeList.length + 1 ≤ fuel) :
    ∃ q1 r ys, dwrr_qdisc_dequeue fuel cfg clk q = some (q1, r, ys) ∧
      ys.length ≤ q.activeList.length ∧ (r = .overlimit ∨ ∃ i p, r = .sent i p) := by
  obtain ⟨q1, r, ys, hl, hlen, hres⟩ := loop_terminates_qdisc cfg hQ q.activeList [] clk q
    (List.append_nil _).symm hne ((well_formed_reachable_qdisc P).1 q hr)
    ((active_ok_reachable_qdisc P).1 q hr) hh (fun i hi => absurd hi (List.not_mem_nil _))
  refine ⟨q1, r, ys, ?_, hlen, hres⟩
  unfold dwrr_qdisc_dequeue
  rw [if_neg hne]
  have := loop_fuel_mono_qdisc cfg _ clk q _ (fuel - (q.activeList.length + 1)) hl
  rw [show q.activeList.length + 1 + (fuel - (q.activeList.length + 1)) = fuel by omega] at this
  exact this

end sch_dwrr

/-! ### Token bucket of sch_dwrr2 -/

namespace sch_dwrr2

/-- Induction over the reachable states in which the releasing branch may use
that the tokens sufficed. -/
theorem reachable_induction_gate (P : dwrr_params → Prop) (I : dwrr_sched_data → Prop)
    (h_init : ∀ clk rate, I (dwrr_init clk rate))
    (h_age : ∀ q rt, I q → I { q with round_time := rt })
    (h_drop : ∀ q i n, I q → I (dwrr_enqueue_drop q i n))
    (h_acc : ∀ cfg t q i skb, P cfg → I q →
      bfifo_backlog (q.queues i).qdisc + skb.len ≤ dwrr_max_buffer_bytes →
      I (dwrr_enqueue_mark cfg t q i skb))
    (h_thr : ∀ cfg now q len, I q → I (dwrr_dequeue_throttle cfg now q len))
    (h_rel : ∀ cfg now q i rest skb tl, P cfg → I q → q.active = i :: rest →
      (q.queues i).qdisc = skb :: tl → skb_size skb ≤ (q.queues i).deficit →
      0 ≤ tbf_schedule cfg (skb_size skb) q now →
      I (dwrr_dequeue_release cfg now q i rest skb tl))
    (h_yld : ∀ cfg q i rest skb tl, P cfg → I q → q.active = i :: rest →
      (q.queues i).qdisc = skb :: tl → (q.queues i).deficit < skb_size skb →
      I (dwrr_dequeue_yield cfg q i rest)) :
    (∀ q, Reachable P q → I q) ∧ (∀ q, Examined P q → I q) := by
  have h_iter_exit : ∀ cfg now q q1 r, P cfg → I q →
      dwrr_dequeue_iter cfg now q = .exit q1 r → I q1 := by
    intro cfg now q q1 r hc hI h
    rcases dwrr_dequeue_iter_exit h with ⟨_, h1, _⟩ | ⟨_, _, _, _, h1, _⟩ |
      ⟨i, rest, skb, tl, _, _, _, _, h1, _⟩ | ⟨i, rest, skb, tl, hq, hf, hd, ht, h1, _⟩
    · rw [h1]; exact hI
    · rw [h1]; exact hI
    · rw [h1]; exact h_thr _ _ _ _ hI
    · rw [h1]; exact h_rel _ _ _ _ _ _ _ hc hI hq hf hd ht
  have h_iter_again : ∀ cfg now q q1 j, P cfg → I q →
      dwrr_dequeue_iter cfg now q = .again q1 j → I q1 := by
    intro cfg now q q1 j hc hI h
    obtain ⟨rest, skb, tl, hq, hf, hd, h1⟩ := dwrr_dequeue_iter_again h
    rw [h1]; exact h_yld _ _ _ _ _ _ hc hI hq hf hd
  have h_loop : ∀ cfg now fuel q q1 r ys, P cfg → I q →
      dwrr_dequeue_loop cfg now fuel q = some (q1, r, ys) → I q1 := by
    intro cfg now fuel
    induction fuel with
    | zero => intro q q1 r ys _ _ h; simp [dwrr_dequeue_loop] at h
    | succ n ih =>
      intro q q1 r ys hc hI h
      unfold dwrr_dequeue_loop at h
      split at h
      · rename_i q2 r2 hit
        simp only [Option.some.injEq, Prod.mk.injEq] at h
        rw [← h.1]
        exact h_iter_exit _ _ _ _ _ hc hI hit
      · rename_i q2 j hit
        split at h
        · rename_i q3 r3 ys3 hl
          simp only [Option.some.injEq, Prod.mk.injEq] at h
          rw [← h.1]
          exact ih _ _ _ _ hc (h_iter_again _ _ _ _ _ hc hI hit) hl
        · simp at h
  have h_reach : ∀ q, Reachable P q → I q := by
    intro q hq
    induction hq with
    | init clk rate => exact h_init clk rate
    | enqueue cfg clk skb hc _ ih =>
      rcases dwrr_enqueue_cases cfg clk skb _ with ⟨n, h⟩ | ⟨_, hb, h⟩
      · rw [h]; exact h_drop _ _ _ (h_age _ _ ih)
      · rw [h]; exact h_acc _ _ _ _ _ hc (h_age _ _ ih) hb
    | dequeue fuel cfg now hc _ hd ih =>
      unfold dwrr_dequeue at hd
      split at hd
      · simp only [Option.some.injEq, Prod.mk.injEq] at hd
        rw [← hd.1]; exact ih
      · exact h_loop _ _ _ _ _ _ _ hc ih hd
  refine ⟨h_reach, ?_⟩
  intro q hq
  induction hq with
  | entry hr _ => exact h_reach _ hr
  | again cfg now hc _ hit ih => exact h_iter_again _ _ _ _ _ hc ih hit

/-- Costs computed with a rate set up by the initialisation are below 2^49 ns. -/
theorem l2t_ns_init_lt (rate x : Nat) (hx : x < 4294967296) :
    l2t_ns (precompute_ratedata { rate_bps := (rate % 4294967296) <<< 3, mult := 0, shift := 0 }) x
      < 562949953421312 := by
  unfold l2t_ns precompute_ratedata
  split
  · simp only [Nat.shiftRight_eq_div_pow]
    omega
  · simp only [Nat.shiftRight_eq_div_pow]
    omega

theorem tokens_range_reachable (P : dwrr_params → Prop) :
    (∀ q, Reachable P q → tokens_range q) ∧ (∀ q, Examined P q → tokens_range q) := by
  apply reachable_induction_gate P tokens_range
  · intro clk rate
    exact ⟨⟨rate, rfl⟩, le_refl _, by show (0 : Int) < 562949953421312; norm_num⟩
  · intro q rt h
    exact h
  · intro q i n h
    exact h
  · intro cfg t q i skb _ h _
    exact h
  · intro cfg now q len h
    exact h
  · intro cfg now q i rest skb tl _ h _ _ _ ht
    obtain ⟨⟨rate, hr⟩, _, _⟩ := h
    refine ⟨⟨rate, hr⟩, ?_, ?_⟩
    · show 0 ≤ min (tbf_schedule cfg (skb_size skb) q now)
        (s64 (l2t_ns q.rate (u32_of_int cfg.dwrr_bucket_bytes)))
      have hb := l2t_ns_init_lt rate (u32_of_int cfg.dwrr_bucket_bytes) (u32_of_int_lt _)
      rw [← hr] at hb
      have : 0 ≤ s64 (l2t_ns q.rate (u32_of_int cfg.dwrr_bucket_bytes)) := by
        unfold s64
        omega
      exact le_min ht this
    · show min (tbf_schedule cfg (skb_size skb) q now)
        (s64 (l2t_ns q.rate (u32_of_int cfg.dwrr_bucket_bytes))) < _
      have hb := l2t_ns_init_lt rate (u32_of_int cfg.dwrr_bucket_bytes) (u32_of_int_lt _)
      rw [← hr] at hb
      have : s64 (l2t_ns q.rate (u32_of_int cfg.dwrr_bucket_bytes)) < 562949953421312 := by
        unfold s64
        omega
      exact lt_of_le_of_lt (min_le_right _ _) this
  · intro cfg q i rest skb tl _ h _ _ _
    exact h

theorem skb_size_u32 (skb : sk_buff) : skb_size skb < 4294967296 := by
  unfold skb_size u32_add
  omega

/-- Without wrap-around `tbf_schedule` is the tokens available minus the cost of
the packet. -/
theorem tbf_schedule_exact (cfg : dwrr_params) (q : dwrr_sched_data) (now : Int) (len : Nat)
    (hr : tokens_range q) (hlen : len < 4294967296) (h0 : 0 ≤ q.time_ns) (h1 : q.time_ns ≤ now)
    (h2 : now < 9000000000000000000) :
    tbf_schedule cfg len q now = tbf_toks cfg q now - l2t_ns q.rate len ∧
      s64 (l2t_ns q.rate (u32_of_int cfg.dwrr_bucket_bytes)) =
        l2t_ns q.rate (u32_of_int cfg.dwrr_bucket_bytes) := by
  obtain ⟨⟨rate, hrate⟩, ht0, ht1⟩ := hr
  have hb := l2t_ns_init_lt rate (u32_of_int cfg.dwrr_bucket_bytes) (u32_of_int_lt _)
  have hp := l2t_ns_init_lt rate len hlen
  rw [← hrate] at hb hp
  unfold tbf_schedule tbf_toks
  simp only
  have e1 : s64 (now - q.time_ns) = now - q.time_ns := by unfold s64; omega
  have e2 : s64 (l2t_ns q.rate (u32_of_int cfg.dwrr_bucket_bytes)) =
      l2t_ns q.rate (u32_of_int cfg.dwrr_bucket_bytes) := by unfold s64; omega
  have e3 : s64 (l2t_ns q.rate len) = l2t_ns q.rate len := by unfold s64; omega
  rw [e1, e2, e3]
  have hm0 : 0 ≤ min (now - q.time_ns) (l2t_ns q.rate (u32_of_int cfg.dwrr_bucket_bytes) : Int) :=
    le_min (by omega) (by omega)
  have hm1 : min (now - q.time_ns) (l2t_ns q.rate (u32_of_int cfg.dwrr_bucket_bytes) : Int) ≤
      l2t_ns q.rate (u32_of_int cfg.dwrr_bucket_bytes) := min_le_right _ _
  have e4 : s64 (min (now - q.time_ns) (l2t_ns q.rate (u32_of_int cfg.dwrr_bucket_bytes) : Int) +
      q.tokens) = min (now - q.time_ns) (l2t_ns q.rate (u32_of_int cfg.dwrr_bucket_bytes) : Int) +
      q.tokens := by unfold s64; omega
  rw [e4]
  refine ⟨?_, rfl⟩
  unfold s64
  omega

end sch_dwrr2


namespace sch_dwrr2

/-- The marker returns the packet, with or without the CE mark. -/
theorem ecn_marking_cases (cfg : dwrr_params) (skb : sk_buff) (q : dwrr_sched_data)
    (cl : dwrr_class) :
    dwrr_ecn_marking cfg skb q cl = skb ∨ dwrr_ecn_marking cfg skb q cl = INET_ECN_set_ce skb := by
  unfold dwrr_ecn_marking dwrr_mq_ecn_marking
  repeat' split
  all_goals first | exact Or.inl rfl | exact Or.inr rfl

theorem dequeue_packet_cases (cfg : dwrr_params) (now : Int) (q : dwrr_sched_data) (i : Fin 8)
    (rest : List (Fin 8)) (skb : sk_buff) (tl : List sk_buff) :
    dwrr_dequeue_packet cfg now q i rest skb tl = skb ∨
      dwrr_dequeue_packet cfg now q i rest skb tl = INET_ECN_set_ce skb := by
  unfold dwrr_dequeue_packet
  split
  · exact ecn_marking_cases _ _ _ _
  · exact Or.inl rfl

theorem yield_rate (cfg : dwrr_params) (q : dwrr_sched_data) (i : Fin 8) (rest : List (Fin 8)) :
    (dwrr_dequeue_yield cfg q i rest).rate = q.rate := rfl

/-- A call of the loop that returns: the passes before the last one leave FIFOs,
byte counters, tokens, time check-point and rate alone, and the last pass is
the one that leaves the loop. -/
theorem loop_last_pass {cfg : dwrr_params} {now : Int} (fuel : Nat) :
    ∀ {q q1 : dwrr_sched_data} {r : deq_exit} {ys : List (Fin 8)},
      dwrr_dequeue_loop cfg now fuel q = some (q1, r, ys) →
      ∃ q0, untouched q q0 ∧ q0.rate = q.rate ∧ (ys = [] → q0 = q) ∧
        dwrr_dequeue_iter cfg now q0 = .exit q1 r := by
  induction fuel with
  | zero => intro q q1 r ys h; simp [dwrr_dequeue_loop] at h
  | succ n ih =>
    intro q q1 r ys h
    unfold dwrr_dequeue_loop at h
    split at h
    · rename_i q2 r2 hit
      simp only [Option.some.injEq, Prod.mk.injEq] at h
      obtain ⟨h1, h2, _⟩ := h
      subst h1 h2
      exact ⟨q, untouched_refl q, rfl, fun _ => rfl, hit⟩
    · rename_i q2 j hit
      split at h
      · rename_i q3 r3 ys3 hl
        simp only [Option.some.injEq, Prod.mk.injEq] at h
        obtain ⟨h1, h2, h3⟩ := h
        subst h1 h2
        obtain ⟨q0, hu, hr, _, h0⟩ := ih hl
        obtain ⟨rest2, _, _, _, _, _, hy⟩ := dwrr_dequeue_iter_again hit
        refine ⟨q0, untouched_trans ?_ hu, ?_, ?_, h0⟩
        · rw [hy]
          exact untouched_yield cfg q j rest2
        · rw [hr, hy]
          rfl
        · intro e
          rw [e] at h3
          simp at h3
      · simp at h

/-- The same for a call of `dwrr_dequeue` that enters the loop. -/
theorem dequeue_last_pass {fuel : Nat} {cfg : dwrr_params} {now : Int}
    {q q1 : dwrr_sched_data} {r : deq_exit} {ys : List (Fin 8)}
    (h : dwrr_dequeue fuel cfg now q = some (q1, r, ys)) (hr : r ≠ .idle) :
    ∃ q0, untouched q q0 ∧ q0.rate = q.rate ∧ (ys = [] → q0 = q) ∧
      dwrr_dequeue_iter cfg now q0 = .exit q1 r := by
  unfold dwrr_dequeue at h
  split at h
  · simp only [Option.some.injEq, Prod.mk.injEq] at h
    exact absurd h.2.1.symm hr
  · exact loop_last_pass fuel h

theorem tokens_range_congr {q q0 : dwrr_sched_data} (h : tokens_range q) (hu : untouched q q0)
    (hr : q0.rate = q.rate) : tokens_range q0 := by
  unfold tokens_range at h ⊢
  rw [hr, hu.2.2.1]
  exact h

theorem tbf_toks_congr (cfg : dwrr_params) {q q0 : dwrr_sched_data} (now : Int)
    (hu : untouched q q0) (hr : q0.rate = q.rate) : tbf_toks cfg q0 now = tbf_toks cfg q now := by
  unfold tbf_toks
  rw [hr, hu.2.2.1, hu.2.2.2]

end sch_dwrr2


namespace sch_dwrr2

end sch_dwrr2


/-! ### Exact byte counters of sch_dwrr2 -/

namespace sch_dwrr2

theorem skb_size_le_len (p : sk_buff) (h : 1 ≤ p.len) : skb_size p ≤ 85 * p.len := by
  unfold skb_size u32_add dwrr_min_pkt_bytes
  omega

theorem wire_sum_le (l : List sk_buff) (h : ∀ p ∈ l, 1 ≤ p.len) :
    (l.map skb_size).sum ≤ 85 * bfifo_backlog l := by
  induction l with
  | nil => simp [bfifo_backlog]
  | cons a l ih =>
    have h1 := skb_size_le_len a (h a (List.mem_cons_self _ _))
    have h2 := ih (fun p hp => h p (List.mem_cons_of_mem _ hp))
    unfold bfifo_backlog at h2 ⊢
    simp only [List.map_cons, List.sum_cons]
    omega

theorem backlog_append (l : List sk_buff) (p : sk_buff) :
    bfifo_backlog (l ++ [p]) = bfifo_backlog l + p.len := by
  unfold bfifo_backlog
  simp

theorem backlog_cons (p : sk_buff) (l : List sk_buff) :
    bfifo_backlog (p :: l) = p.len + bfifo_backlog l := by
  unfold bfifo_backlog
  simp

/-- With exact counters no counter comes near 2^32. -/
theorem counters_exact_bounds {q : dwrr_sched_data} (h : counters_exact q) :
    (∀ i, (q.queues i).len_bytes ≤ 170000000) ∧ q.sum_len_bytes ≤ 1360000000 ∧
      ∀ i, (q.queues i).len_bytes ≤ q.sum_len_bytes := by
  have h1 : ∀ i, (q.queues i).len_bytes ≤ 170000000 := by
    intro i
    obtain ⟨hp, hb, hl⟩ := h.1 i
    have := wire_sum_le _ hp
    unfold dwrr_max_buffer_bytes at hb
    omega
  refine ⟨h1, ?_, ?_⟩
  · rw [h.2]
    have := Finset.sum_le_card_nsmul Finset.univ (fun i : Fin 8 => (q.queues i).len_bytes)
      170000000 (fun i _ => h1 i)
    simpa using this
  · intro i
    rw [h.2]
    exact Finset.single_le_sum (f := fun i : Fin 8 => (q.queues i).len_bytes)
      (fun _ _ => Nat.zero_le _) (Finset.mem_univ i)

theorem counters_exact_init (clk : Nat → Int) (rate : Nat) : counters_exact (dwrr_init clk rate) := by
  refine ⟨fun i => ⟨fun p hp => ?_, ?_, rfl⟩, ?_⟩
  · simp [dwrr_init] at hp
  · simp [dwrr_init, bfifo_backlog]
  · simp [dwrr_init]

/-- Exact counters are kept when only fields other than FIFOs and byte counters change. -/
theorem counters_exact_same {q q1 : dwrr_sched_data} (h : counters_exact q)
    (hq : ∀ i, (q1.queues i).qdisc = (q.queues i).qdisc ∧
      (q1.queues i).len_bytes = (q.queues i).len_bytes)
    (hs : q1.sum_len_bytes = q.sum_len_bytes) : counters_exact q1 := by
  refine ⟨fun i => ?_, ?_⟩
  · rw [(hq i).1, (hq i).2]
    exact h.1 i
  · rw [hs, h.2]
    exact Finset.sum_congr rfl (fun i _ => ((hq i).2).symm)

end sch_dwrr2


namespace sch_dwrr2

theorem enqueue_class_len_bytes (cfg : dwrr_params) (t : Int) (q : dwrr_sched_data) (i : Fin 8)
    (skb : sk_buff) :
    (dwrr_enqueue_class cfg t q i skb).len_bytes = u32_add (q.queues i).len_bytes (skb_size skb) := by
  unfold dwrr_enqueue_class
  split <;> rfl

theorem counters_exact_mark {q : dwrr_sched_data} (h : counters_exact q) (cfg : dwrr_params)
    (t : Int) (i : Fin 8) (skb : sk_buff) (hlen : 1 ≤ skb.len)
    (hb : bfifo_backlog (q.queues i).qdisc + skb.len ≤ dwrr_max_buffer_bytes) :
    counters_exact (dwrr_enqueue_mark cfg t q i skb) := by
  obtain ⟨hb1, hb2, hb3⟩ := counters_exact_bounds h
  have hs : skb_size skb ≤ 85 * skb.len := skb_size_le_len skb hlen
  have hmax : skb.len ≤ 2000000 := by unfold dwrr_max_buffer_bytes at hb; omega
  have hm : (dwrr_ecn_marking cfg skb (dwrr_enqueue_accept cfg t q i skb)
      (dwrr_enqueue_class cfg t q i skb)).len = skb.len := ecn_marking_len _ _ _ _
  have hq : (dwrr_enqueue_mark cfg t q i skb).queues = Function.update q.queues i
      { dwrr_enqueue_class cfg t q i skb with
        qdisc := (q.queues i).qdisc ++
          [dwrr_ecn_marking cfg skb (dwrr_enqueue_accept cfg t q i skb)
            (dwrr_enqueue_class cfg t q i skb)] } := rfl
  have hL : u32_add (q.queues i).len_bytes (skb_size skb) =
      (q.queues i).len_bytes + skb_size skb := by
    have := hb1 i
    unfold u32_add
    omega
  refine ⟨fun j => ?_, ?_⟩
  · rw [hq]
    by_cases hj : j = i
    · subst hj
      rw [Function.update_same]
      obtain ⟨hp, hbl, hl⟩ := h.1 j
      refine ⟨?_, ?_, ?_⟩
      · intro p hp'
        have hp'' : p ∈ (q.queues j).qdisc ++ [dwrr_ecn_marking cfg skb
            (dwrr_enqueue_accept cfg t q j skb) (dwrr_enqueue_class cfg t q j skb)] := hp'
        rcases List.mem_append.mp hp'' with h1 | h1
        · exact hp p h1
        · rw [List.mem_singleton] at h1
          rw [h1, hm]
          exact hlen
      · show bfifo_backlog ((q.queues j).qdisc ++ [_]) ≤ _
        rw [backlog_append, hm]
        exact hb
      · show (dwrr_enqueue_class cfg t q j skb).len_bytes =
          (((q.queues j).qdisc ++ [dwrr_ecn_marking cfg skb
            (dwrr_enqueue_accept cfg t q j skb) (dwrr_enqueue_class cfg t q j skb)]).map
              skb_size).sum
        rw [enqueue_class_len_bytes, hL, hl, List.map_append, List.sum_append]
        simp only [List.map_cons, List.map_nil, List.sum_cons, List.sum_nil, Nat.add_zero]
        rw [skb_size_congr hm]
    · rw [Function.update_noteq hj]
      exact h.1 j
  · show u32_add q.sum_len_bytes (skb_size skb) = ∑ j, ((dwrr_enqueue_mark cfg t q i skb).queues j).len_bytes
    rw [hq]
    have key := len_bytes_sum_update q.queues i
      { dwrr_enqueue_class cfg t q i skb with
        qdisc := (q.queues i).qdisc ++
          [dwrr_ecn_marking cfg skb (dwrr_enqueue_accept cfg t q i skb)
            (dwrr_enqueue_class cfg t q i skb)] }
    have e : ({ dwrr_enqueue_class cfg t q i skb with
        qdisc := (q.queues i).qdisc ++
          [dwrr_ecn_marking cfg skb (dwrr_enqueue_accept cfg t q i skb)
            (dwrr_enqueue_class cfg t q i skb)] } : dwrr_class).len_bytes =
        (q.queues i).len_bytes + skb_size skb := by
      show (dwrr_enqueue_class cfg t q i skb).len_bytes = _
      rw [enqueue_class_len_bytes, hL]
    rw [e] at key
    have hsum := h.2
    unfold u32_add
    omega

theorem counters_exact_release {q : dwrr_sched_data} (h : counters_exact q) (cfg : dwrr_params)
    (now : Int) (i : Fin 8) (rest : List (Fin 8)) (skb : sk_buff) (tl : List sk_buff)
    (hf : (q.queues i).qdisc = skb :: tl) :
    counters_exact (dwrr_dequeue_release cfg now q i rest skb tl) ∧
      (dwrr_dequeue_release cfg now q i rest skb tl).sum_len_bytes + skb_size skb =
        q.sum_len_bytes ∧
      ((dwrr_dequeue_release cfg now q i rest skb tl).queues i).len_bytes + skb_size skb =
        (q.queues i).len_bytes := by
  obtain ⟨hb1, hb2, hb3⟩ := counters_exact_bounds h
  obtain ⟨hp, hbl, hl⟩ := h.1 i
  have hl' : (q.queues i).len_bytes = skb_size skb + (tl.map skb_size).sum := by
    rw [hl, hf]
    simp
  have hq : (dwrr_dequeue_release cfg now q i rest skb tl).queues =
      Function.update q.queues i (dwrr_dequeue_release_class now q i skb tl) := rfl
  have hL : u32_sub (q.queues i).len_bytes (skb_size skb) = (tl.map skb_size).sum := by
    have := hb1 i
    unfold u32_sub
    omega
  have hS : u32_sub q.sum_len_bytes (skb_size skb) + skb_size skb = q.sum_len_bytes := by
    have := hb3 i
    unfold u32_sub
    omega
  have hcl : (dwrr_dequeue_release_class now q i skb tl).len_bytes = (tl.map skb_size).sum := hL
  refine ⟨⟨fun j => ?_, ?_⟩, hS, ?_⟩
  · rw [hq]
    by_cases hj : j = i
    · subst hj
      rw [Function.update_same]
      refine ⟨?_, ?_, hcl⟩
      · intro p hp'
        exact hp p (by rw [hf]; exact List.mem_cons_of_mem _ hp')
      · show bfifo_backlog tl ≤ _
        rw [hf, backlog_cons] at hbl
        omega
    · rw [Function.update_noteq hj]
      exact h.1 j
  · show u32_sub q.sum_len_bytes (skb_size skb) = ∑ j, ((dwrr_dequeue_release cfg now q i rest skb tl).queues j).len_bytes
    rw [hq]
    have key := len_bytes_sum_update q.queues i (dwrr_dequeue_release_class now q i skb tl)
    rw [hcl] at key
    have hsum := h.2
    omega
  · rw [hq, Function.update_same, hcl]
    omega

/-- Exact counters are kept by every step that does not enqueue a packet of length zero. -/
theorem counters_exact_step {q : dwrr_sched_data} (h : counters_exact q) (op : step_input)
    (hop : op.nonempty) : counters_exact (step q op) := by
  cases op with
  | enqueue cfg clk skb =>
    show counters_exact (dwrr_enqueue cfg clk skb q).2
    have h0 : counters_exact { q with round_time := dwrr_idle_ageing cfg clk q } :=
      counters_exact_same h (fun _ => ⟨rfl, rfl⟩) rfl
    rcases dwrr_enqueue_cases cfg clk skb q with ⟨n, he⟩ | ⟨_, hb, he⟩
    · rw [he]
      refine counters_exact_same h0 (fun j => ?_) rfl
      show (Function.update q.queues (dwrr_classify cfg skb) _ j).qdisc = _ ∧
        (Function.update q.queues (dwrr_classify cfg skb) _ j).len_bytes = _
      by_cases hj : j = dwrr_classify cfg skb
      · subst hj
        rw [Function.update_same]
        exact ⟨rfl, rfl⟩
      · rw [Function.update_noteq hj]
        exact ⟨rfl, rfl⟩
    · rw [he]
      exact counters_exact_mark h0 cfg _ _ skb hop hb
  | pass cfg now =>
    rcases step_pass_cases cfg now q with ⟨h0, _⟩ | ⟨len, h0, _⟩ |
      ⟨j, rest, skb, tl, _, hf, _, h0, _⟩ | ⟨j, rest, skb, tl, _, _, _, h0, _⟩
    · rw [h0]; exact h
    · rw [h0]; exact counters_exact_same h (fun _ => ⟨rfl, rfl⟩) rfl
    · rw [h0]; exact (counters_exact_release h cfg now j rest skb tl hf).1
    · rw [h0]
      have hu := untouched_yield cfg q j rest
      exact counters_exact_same h hu.1 hu.2.1

theorem counters_exact_run (ops : List step_input) :
    ∀ q : dwrr_sched_data, counters_exact q → (∀ op ∈ ops, op.nonempty) →
      counters_exact (run ops q) := by
  induction ops with
  | nil => intro q h _; exact h
  | cons op ops ih =>
    intro q h hop
    exact ih (step q op) (counters_exact_step h op (hop op (List.mem_cons_self _ _)))
      (fun o ho => hop o (List.mem_cons_of_mem _ ho))

end sch_dwrr2


/-! ### Successful dequeue of sch_dwrr2 -/

namespace sch_dwrr2

theorem u32_add_lt (a b : Nat) : u32_add a b < 4294967296 := by
  unfold u32_add
  omega

theorem u32_sub_lt (a b : Nat) : u32_sub a b < 4294967296 := by
  unfold u32_sub
  omega

theorem deficit_u32_update {q : dwrr_sched_data} (h : deficit_u32 q) (i : Fin 8)
    (c : dwrr_class) (hc : c.deficit < 4294967296) (j : Fin 8) :
    (Function.update q.queues i c j).deficit < 4294967296 := by
  by_cases hj : j = i
  · subst hj
    rw [Function.update_same]
    exact hc
  · rw [Function.update_noteq hj]
    exact h j

theorem deficit_u32_yield {q : dwrr_sched_data} (h : deficit_u32 q) (cfg : dwrr_params)
    (i : Fin 8) (rest : List (Fin 8)) : deficit_u32 (dwrr_dequeue_yield cfg q i rest) := by
  intro j
  refine deficit_u32_update h i (dwrr_dequeue_yield_class cfg q i) ?_ j
  unfold dwrr_dequeue_yield_class
  dsimp only
  split
  · exact u32_of_int_lt _
  · exact u32_add_lt _ _

/-- Deficit counters stay 32-bit values in every state the qdisc reaches. -/
theorem deficit_u32_reachable (P : dwrr_params → Prop) :
    (∀ q, Reachable P q → deficit_u32 q) ∧ (∀ q, Examined P q → deficit_u32 q) := by
  apply reachable_induction_gate P deficit_u32
  · intro clk rate j
    show (0 : Nat) < 4294967296
    omega
  · intro q rt h
    exact h
  · intro q i n h j
    exact deficit_u32_update h i { q.queues i with qdisc_drops := (q.queues i).qdisc_drops + n } (h i) j
  · intro cfg t q i skb _ h _ j
    refine deficit_u32_update h i _ ?_ j
    show (dwrr_enqueue_class cfg t q i skb).deficit < 4294967296
    unfold dwrr_enqueue_class
    split
    · exact u32_of_int_lt _
    · exact h i
  · intro cfg now q len h
    exact h
  · intro cfg now q i rest skb tl _ h _ _ _ _ j
    exact deficit_u32_update h i _ (u32_sub_lt _ _) j
  · intro cfg q i rest skb tl _ h _ _ _
    exact deficit_u32_yield h cfg i rest

/-- A call of the loop that returns, with an invariant of the yielding passes
carried to the state in which the last pass is made. -/
theorem loop_last_pass_keeps {cfg : dwrr_params} {now : Int} (I : dwrr_sched_data → Prop)
    (hy : ∀ q i rest, I q → I (dwrr_dequeue_yield cfg q i rest)) (fuel : Nat) :
    ∀ {q q1 : dwrr_sched_data} {r : deq_exit} {ys : List (Fin 8)}, I q →
      dwrr_dequeue_loop cfg now fuel q = some (q1, r, ys) →
      ∃ q0, I q0 ∧ untouched q q0 ∧ q0.rate = q.rate ∧ (ys = [] → q0 = q) ∧
        dwrr_dequeue_iter cfg now q0 = .exit q1 r := by
  induction fuel with
  | zero => intro q q1 r ys _ h; simp [dwrr_dequeue_loop] at h
  | succ n ih =>
    intro q q1 r ys hI h
    unfold dwrr_dequeue_loop at h
    split at h
    · rename_i q2 r2 hit
      simp only [Option.some.injEq, Prod.mk.injEq] at h
      obtain ⟨h1, h2, _⟩ := h
      subst h1 h2
      exact ⟨q, hI, untouched_refl q, rfl, fun _ => rfl, hit⟩
    · rename_i q2 j hit
      split at h
      · rename_i q3 r3 ys3 hl
        simp only [Option.some.injEq, Prod.mk.injEq] at h
        obtain ⟨h1, h2, h3⟩ := h
        subst h1 h2
        obtain ⟨rest2, _, _, _, _, _, hy2⟩ := dwrr_dequeue_iter_again hit
        obtain ⟨q0, hI0, hu, hr, _, h0⟩ := ih (by rw [hy2]; exact hy q j rest2 hI) hl
        refine ⟨q0, hI0, untouched_trans ?_ hu, ?_, ?_, h0⟩
        · rw [hy2]
          exact untouched_yield cfg q j rest2
        · rw [hr, hy2]
          rfl
        · intro e
          rw [e] at h3
          simp at h3
      · simp at h

theorem dequeue_last_pass_keeps {fuel : Nat} {cfg : dwrr_params} {now : Int}
    (I : dwrr_sched_data → Prop)
    (hy : ∀ q i rest, I q → I (dwrr_dequeue_yield cfg q i rest))
    {q q1 : dwrr_sched_data} {r : deq_exit} {ys : List (Fin 8)} (hI : I q)
    (h : dwrr_dequeue fuel cfg now q = some (q1, r, ys)) (hr : r ≠ .idle) :
    ∃ q0, I q0 ∧ untouched q q0 ∧ q0.rate = q.rate ∧ (ys = [] → q0 = q) ∧
      dwrr_dequeue_iter cfg now q0 = .exit q1 r := by
  unfold dwrr_dequeue at h
  split at h
  · simp only [Option.some.injEq, Prod.mk.injEq] at h
    exact absurd h.2.1.symm hr
  · exact loop_last_pass_keeps I hy fuel hI h

/-- Exact counters are kept by `dwrr_enqueue` of a packet that is not empty. -/
theorem counters_exact_enqueue {q : dwrr_sched_data} (h : counters_exact q) (cfg : dwrr_params)
    (clk : Nat → Int) (skb : sk_buff) (hlen : 1 ≤ skb.len) :
    counters_exact (dwrr_enqueue cfg clk skb q).2 :=
  counters_exact_step h (.enqueue cfg clk skb) hlen

/-- Exact counters are kept by every call of `dwrr_dequeue` that returns. -/
theorem counters_exact_dequeue {q q1 : dwrr_sched_data} (h : counters_exact q) {fuel : Nat}
    {cfg : dwrr_params} {now : Int} {r : deq_exit} {ys : List (Fin 8)}
    (hd : dwrr_dequeue fuel cfg now q = some (q1, r, ys)) : counters_exact q1 := by
  obtain ⟨n, hn, _⟩ := dequeue_is_run hd
  rw [← hn]
  refine counters_exact_run _ q h ?_
  intro op hop
  rw [List.eq_of_mem_replicate hop]
  trivial

end sch_dwrr2


/-! ### Runs of sch_dwrr2 that differ in the ECN settings only -/

namespace sch_dwrr2

theorem ce_equiv_refl (a : sk_buff) : ce_equiv a a := ⟨rfl, rfl, rfl⟩

theorem ce_equiv_size {a b : sk_buff} (h : ce_equiv a b) : skb_size a = skb_size b := by
  unfold skb_size
  rw [h.1]

theorem ce_equiv_marking (ca cb : dwrr_params) (skb : sk_buff) (qa qb : dwrr_sched_data)
    (cla clb : dwrr_class) :
    ce_equiv (dwrr_ecn_marking ca skb qa cla) (dwrr_ecn_marking cb skb qb clb) := by
  rcases ecn_marking_cases ca skb qa cla with h1 | h1 <;>
    rcases ecn_marking_cases cb skb qb clb with h2 | h2 <;>
    rw [h1, h2] <;> exact ⟨rfl, rfl, rfl⟩

theorem ce_equiv_marking_of {a b : sk_buff} (h : ce_equiv a b) (ca cb : dwrr_params)
    (qa qb : dwrr_sched_data) (cla clb : dwrr_class) :
    ce_equiv (dwrr_ecn_marking ca a qa cla) (dwrr_ecn_marking cb b qb clb) := by
  rcases ecn_marking_cases ca a qa cla with h1 | h1 <;>
    rcases ecn_marking_cases cb b qb clb with h2 | h2 <;>
    rw [h1, h2] <;> exact ⟨h.1, h.2⟩

theorem backlog_equiv {l1 l2 : List sk_buff} (h : List.Forall₂ ce_equiv l1 l2) :
    bfifo_backlog l1 = bfifo_backlog l2 := by
  induction h with
  | nil => rfl
  | cons hab _ ih =>
    unfold bfifo_backlog at ih ⊢
    simp only [List.map_cons, List.sum_cons]
    rw [hab.1, ih]

theorem equiv_nil_iff {l1 l2 : List sk_buff} (h : List.Forall₂ ce_equiv l1 l2) :
    l1 = [] ↔ l2 = [] := by
  cases h with
  | nil => exact ⟨fun _ => rfl, fun _ => rfl⟩
  | cons _ _ => exact ⟨fun e => by simp at e, fun e => by simp at e⟩

theorem equiv_append {l1 l2 : List sk_buff} (h : List.Forall₂ ce_equiv l1 l2) {a b : sk_buff}
    (hab : ce_equiv a b) : List.Forall₂ ce_equiv (l1 ++ [a]) (l2 ++ [b]) := by
  induction h with
  | nil => exact List.Forall₂.cons hab List.Forall₂.nil
  | cons h1 _ ih => exact List.Forall₂.cons h1 ih

theorem equiv_length {l1 l2 : List sk_buff} (h : List.Forall₂ ce_equiv l1 l2) :
    l1.length = l2.length := by
  induction h with
  | nil => rfl
  | cons _ _ ih => simp [ih]

theorem tbf_schedule_equiv {ca cb : dwrr_params} {qa qb : dwrr_sched_data}
    (he : ecn_only ca cb) (h : sched_equiv qa qb) (len : Nat) (now : Int) :
    tbf_schedule ca len qa now = tbf_schedule cb len qb now := by
  unfold tbf_schedule
  rw [h.time_ns, h.rate, h.tokens, he.bucket_bytes]

theorem classify_equiv {ca cb : dwrr_params} (he : ecn_only ca cb) (skb : sk_buff) :
    dwrr_classify ca skb = dwrr_classify cb skb := by
  unfold dwrr_classify
  rw [he.queue_dscp]

theorem class_equiv_update {fa fb : Fin 8 → dwrr_class} (h : ∀ j, class_equiv (fa j) (fb j))
    (i : Fin 8) {a b : dwrr_class} (hab : class_equiv a b) (j : Fin 8) :
    class_equiv (Function.update fa i a j) (Function.update fb i b j) := by
  by_cases hj : j = i
  · subst hj
    rw [Function.update_same, Function.update_same]
    exact hab
  · rw [Function.update_noteq hj, Function.update_noteq hj]
    exact h j

theorem start_equiv_update {fa fb : Fin 8 → dwrr_class}
    (h : ∀ j, (fa j).start_time = (fb j).start_time)
    (i : Fin 8) {a b : dwrr_class} (hab : a.start_time = b.start_time) (j : Fin 8) :
    (Function.update fa i a j).start_time = (Function.update fb i b j).start_time := by
  by_cases hj : j = i
  · subst hj
    rw [Function.update_same, Function.update_same]
    exact hab
  · rw [Function.update_noteq hj, Function.update_noteq hj]
    exact h j

theorem overfill_equiv {ca cb : dwrr_params} {qa qb : dwrr_sched_data}
    (he : ecn_only ca cb) (h : sched_equiv qa qb) (len : Nat) (i : Fin 8) :
    dwrr_buffer_overfill ca len (qa.queues i) qa = dwrr_buffer_overfill cb len (qb.queues i) qb := by
  unfold dwrr_buffer_overfill
  rw [he.buffer_mode, he.shared_buffer_bytes, he.queue_buffer_bytes, h.sum_len_bytes,
    (h.queues i).len_bytes, (h.queues i).id]

theorem age_equiv {qa qb : dwrr_sched_data} (h : sched_equiv qa qb) (ra rb : Int) :
    sched_equiv { qa with round_time := ra } { qb with round_time := rb } :=
  ⟨h.queues, h.rate, h.active, h.tokens, h.sum_len_bytes, h.time_ns, h.last_idle_time, h.qlen,
    h.drops, h.overlimits, h.watchdog⟩

theorem drop_equiv {qa qb : dwrr_sched_data} (h : sched_equiv qa qb) (i : Fin 8) (n : Nat) :
    sched_equiv (dwrr_enqueue_drop qa i n) (dwrr_enqueue_drop qb i n) := by
  refine ⟨?_, h.rate, h.active, h.tokens, h.sum_len_bytes, h.time_ns, h.last_idle_time, h.qlen,
    ?_, h.overlimits, h.watchdog⟩
  · intro j
    show class_equiv (Function.update qa.queues i _ j) (Function.update qb.queues i _ j)
    refine class_equiv_update h.queues i ?_ j
    have hi := h.queues i
    exact ⟨hi.qdisc, by show _ + n = _ + n; rw [hi.qdisc_drops], hi.id, hi.deficit,
      hi.len_bytes, hi.last_pkt_time, hi.quantum⟩
  · show qa.drops + 1 = qb.drops + 1
    rw [h.drops]

theorem drop_start_equiv {qa qb : dwrr_sched_data} (h : start_equiv qa qb) (i : Fin 8)
    (n m : Nat) : start_equiv (dwrr_enqueue_drop qa i n) (dwrr_enqueue_drop qb i m) := by
  intro j
  show (Function.update qa.queues i _ j).start_time = (Function.update qb.queues i _ j).start_time
  refine start_equiv_update h i ?_ j
  exact h i

end sch_dwrr2


namespace sch_dwrr2

theorem enqueue_class_equiv {ca cb : dwrr_params} {qa qb : dwrr_sched_data}
    (he : ecn_only ca cb) (h : sched_equiv qa qb) (ta tb : Int) (i : Fin 8) (skb : sk_buff)
    {ma mb : sk_buff} (hm : ce_equiv ma mb) :
    class_equiv
      { dwrr_enqueue_class ca ta qa i skb with qdisc := (qa.queues i).qdisc ++ [ma] }
      { dwrr_enqueue_class cb tb qb i skb with qdisc := (qb.queues i).qdisc ++ [mb] } := by
  have hi := h.queues i
  have hl : ((qa.queues i).qdisc ++ [skb]).length = ((qb.queues i).qdisc ++ [skb]).length := by
    rw [List.length_append, List.length_append, equiv_length hi.qdisc]
  unfold dwrr_enqueue_class
  rw [hl, he.queue_quantum, hi.id, hi.len_bytes]
  split
  · exact ⟨equiv_append hi.qdisc hm, hi.qdisc_drops, hi.id, rfl, rfl, hi.last_pkt_time, rfl⟩
  · exact ⟨equiv_append hi.qdisc hm, hi.qdisc_drops, hi.id, hi.deficit, rfl, hi.last_pkt_time,
      hi.quantum⟩

theorem enqueue_class_start {ca cb : dwrr_params} {qa qb : dwrr_sched_data}
    (h : sched_equiv qa qb) (hs : start_equiv qa qb) (t : Int) (i : Fin 8) (skb : sk_buff) :
    (dwrr_enqueue_class ca t qa i skb).start_time =
      (dwrr_enqueue_class cb t qb i skb).start_time := by
  have hl : ((qa.queues i).qdisc ++ [skb]).length = ((qb.queues i).qdisc ++ [skb]).length := by
    rw [List.length_append, List.length_append, equiv_length (h.queues i).qdisc]
  unfold dwrr_enqueue_class
  rw [hl]
  split
  · rfl
  · exact hs i

theorem mark_equiv {ca cb : dwrr_params} {qa qb : dwrr_sched_data}
    (he : ecn_only ca cb) (h : sched_equiv qa qb) (ta tb : Int) (i : Fin 8) (skb : sk_buff) :
    sched_equiv (dwrr_enqueue_mark ca ta qa i skb) (dwrr_enqueue_mark cb tb qb i skb) := by
  have hi := h.queues i
  have hl : ((qa.queues i).qdisc ++ [skb]).length = ((qb.queues i).qdisc ++ [skb]).length := by
    rw [List.length_append, List.length_append, equiv_length hi.qdisc]
  refine ⟨?_, h.rate, ?_, h.tokens, ?_, h.time_ns, h.last_idle_time, ?_, h.drops, h.overlimits,
    h.watchdog⟩
  · intro j
    show class_equiv (Function.update qa.queues i _ j) (Function.update qb.queues i _ j)
    exact class_equiv_update h.queues i
      (enqueue_class_equiv he h ta tb i skb (ce_equiv_marking ca cb skb _ _ _ _)) j
  · show (if ((qa.queues i).qdisc ++ [skb]).length = 1 then qa.active ++ [i] else qa.active) =
      (if ((qb.queues i).qdisc ++ [skb]).length = 1 then qb.active ++ [i] else qb.active)
    rw [hl, h.active]
  · show u32_add qa.sum_len_bytes (skb_size skb) = u32_add qb.sum_len_bytes (skb_size skb)
    rw [h.sum_len_bytes]
  · show u32_add qa.qlen 1 = u32_add qb.qlen 1
    rw [h.qlen]

theorem mark_start_equiv {ca cb : dwrr_params} {qa qb : dwrr_sched_data}
    (h : sched_equiv qa qb) (hs : start_equiv qa qb) (t : Int) (i : Fin 8) (skb : sk_buff) :
    start_equiv (dwrr_enqueue_mark ca t qa i skb) (dwrr_enqueue_mark cb t qb i skb) := by
  intro j
  show (Function.update qa.queues i _ j).start_time = (Function.update qb.queues i _ j).start_time
  refine start_equiv_update hs i ?_ j
  exact enqueue_class_start h hs t i skb

theorem enqueue_of_overfill (cfg : dwrr_params) (clk : Nat → Int) (skb : sk_buff)
    (q : dwrr_sched_data)
    (h : dwrr_buffer_overfill cfg (skb_size skb) (q.queues (dwrr_classify cfg skb))
      { q with round_time := dwrr_idle_ageing cfg clk q } = true) :
    dwrr_enqueue cfg clk skb q = (NET_XMIT_DROP,
      dwrr_enqueue_drop { q with round_time := dwrr_idle_ageing cfg clk q }
        (dwrr_classify cfg skb) 1) := by
  unfold dwrr_enqueue
  simp only
  rw [if_pos h]

theorem enqueue_of_full (cfg : dwrr_params) (clk : Nat → Int) (skb : sk_buff)
    (q : dwrr_sched_data)
    (h : dwrr_buffer_overfill cfg (skb_size skb) (q.queues (dwrr_classify cfg skb))
      { q with round_time := dwrr_idle_ageing cfg clk q } = false)
    (hb : ¬ bfifo_backlog (q.queues (dwrr_classify cfg skb)).qdisc + skb.len ≤
      dwrr_max_buffer_bytes) :
    dwrr_enqueue cfg clk skb q = (NET_XMIT_DROP,
      dwrr_enqueue_drop { q with round_time := dwrr_idle_ageing cfg clk q }
        (dwrr_classify cfg skb) 2) := by
  unfold dwrr_enqueue bfifo_enqueue
  simp only
  rw [if_neg (by rw [h]; simp), if_neg hb]

theorem enqueue_of_room (cfg : dwrr_params) (clk : Nat → Int) (skb : sk_buff)
    (q : dwrr_sched_data)
    (h : dwrr_buffer_overfill cfg (skb_size skb) (q.queues (dwrr_classify cfg skb))
      { q with round_time := dwrr_idle_ageing cfg clk q } = false)
    (hb : bfifo_backlog (q.queues (dwrr_classify cfg skb)).qdisc + skb.len ≤
      dwrr_max_buffer_bytes) :
    dwrr_enqueue cfg clk skb q = (NET_XMIT_SUCCESS,
      dwrr_enqueue_mark cfg (clk (dwrr_enqueue_reads cfg q))
        { q with round_time := dwrr_idle_ageing cfg clk q } (dwrr_classify cfg skb) skb) := by
  unfold dwrr_enqueue bfifo_enqueue
  simp only
  rw [if_neg (by rw [h]; simp), if_pos hb]

/-- A call of `dwrr_enqueue` in two runs that differ in the ECN settings only. -/
theorem enqueue_equiv {ca cb : dwrr_params} {qa qb : dwrr_sched_data}
    (he : ecn_only ca cb) (h : sched_equiv qa qb) (clka clkb : Nat → Int) (skb : sk_buff) :
    (dwrr_enqueue ca clka skb qa).1 = (dwrr_enqueue cb clkb skb qb).1 ∧
      sched_equiv (dwrr_enqueue ca clka skb qa).2 (dwrr_enqueue cb clkb skb qb).2 ∧
      (clka (dwrr_enqueue_reads ca qa) = clkb (dwrr_enqueue_reads cb qb) → start_equiv qa qb →
        start_equiv (dwrr_enqueue ca clka skb qa).2 (dwrr_enqueue cb clkb skb qb).2) := by
  have h0 : sched_equiv { qa with round_time := dwrr_idle_ageing ca clka qa }
      { qb with round_time := dwrr_idle_ageing cb clkb qb } := age_equiv h _ _
  have hc := classify_equiv he skb
  have ho := overfill_equiv he h0 (skb_size skb) (dwrr_classify cb skb)
  have hb := backlog_equiv (h.queues (dwrr_classify cb skb)).qdisc
  cases hov : dwrr_buffer_overfill cb (skb_size skb) (qb.queues (dwrr_classify cb skb))
      { qb with round_time := dwrr_idle_ageing cb clkb qb }
  · have hov2 : dwrr_buffer_overfill ca (skb_size skb) (qa.queues (dwrr_classify ca skb))
        { qa with round_time := dwrr_idle_ageing ca clka qa } = false := by
      rw [hc]
      exact ho.trans hov
    by_cases hr : bfifo_backlog (qb.queues (dwrr_classify cb skb)).qdisc + skb.len ≤
        dwrr_max_buffer_bytes
    · rw [enqueue_of_room cb clkb skb qb hov hr,
        enqueue_of_room ca clka skb qa hov2 (by rw [hc, hb]; exact hr), hc]
      refine ⟨rfl, mark_equiv he h0 _ _ _ skb, fun ht hs => ?_⟩
      show start_equiv (dwrr_enqueue_mark ca (clka (dwrr_enqueue_reads ca qa)) _ _ skb) _
      rw [ht]
      exact mark_start_equiv h0 hs _ _ skb
    · rw [enqueue_of_full cb clkb skb qb hov hr,
        enqueue_of_full ca clka skb qa hov2 (by rw [hc, hb]; exact hr), hc]
      exact ⟨rfl, drop_equiv h0 _ 2, fun _ hs => drop_start_equiv hs _ 2 2⟩
  · have hov2 : dwrr_buffer_overfill ca (skb_size skb) (qa.queues (dwrr_classify ca skb))
        { qa with round_time := dwrr_idle_ageing ca clka qa } = true := by
      rw [hc]
      exact ho.trans hov
    rw [enqueue_of_overfill cb clkb skb qb hov, enqueue_of_overfill ca clka skb qa hov2, hc]
    exact ⟨rfl, drop_equiv h0 _ 1, fun _ hs => drop_start_equiv hs _ 1 1⟩

theorem throttle_equiv {ca cb : dwrr_params} {qa qb : dwrr_sched_data}
    (he : ecn_only ca cb) (h : sched_equiv qa qb) (now : Int) (len : Nat) :
    sched_equiv (dwrr_dequeue_throttle ca now qa len) (dwrr_dequeue_throttle cb now qb len) := by
  refine ⟨h.queues, h.rate, h.active, h.tokens, h.sum_len_bytes, h.time_ns, h.last_idle_time,
    h.qlen, h.drops, ?_, ?_⟩
  · show qa.overlimits + 1 = qb.overlimits + 1
    rw [h.overlimits]
  · show some (s64 (now - tbf_schedule ca len qa now)) =
      some (s64 (now - tbf_schedule cb len qb now))
    rw [tbf_schedule_equiv he h]

theorem release_class_equiv {qa qb : dwrr_sched_data} (h : sched_equiv qa qb) (now : Int)
    (i : Fin 8) {sa sb : sk_buff} {ta tb : List sk_buff} (hs : ce_equiv sa sb)
    (ht : List.Forall₂ ce_equiv ta tb) :
    class_equiv (dwrr_dequeue_release_class now qa i sa ta)
      (dwrr_dequeue_release_class now qb i sb tb) := by
  have hi := h.queues i
  unfold dwrr_dequeue_release_class
  rw [ce_equiv_size hs, hi.len_bytes, hi.deficit, h.rate]
  exact ⟨ht, hi.qdisc_drops, hi.id, rfl, rfl, rfl, hi.quantum⟩

theorem release_equiv {ca cb : dwrr_params} {qa qb : dwrr_sched_data}
    (he : ecn_only ca cb) (h : sched_equiv qa qb) (now : Int) (i : Fin 8) (rest : List (Fin 8))
    {sa sb : sk_buff} {ta tb : List sk_buff} (hs : ce_equiv sa sb)
    (ht : List.Forall₂ ce_equiv ta tb) :
    sched_equiv (dwrr_dequeue_release ca now qa i rest sa ta)
      (dwrr_dequeue_release cb now qb i rest sb tb) := by
  have hn : (ta = []) = (tb = []) := propext (equiv_nil_iff ht)
  refine ⟨?_, h.rate, ?_, ?_, ?_, rfl, ?_, ?_, h.drops, h.overlimits, h.watchdog⟩
  · intro j
    show class_equiv (Function.update qa.queues i _ j) (Function.update qb.queues i _ j)
    exact class_equiv_update h.queues i (release_class_equiv h now i hs ht) j
  · show (if ta = [] then rest else i :: rest) = (if tb = [] then rest else i :: rest)
    by_cases e : ta = []
    · rw [if_pos e, if_pos ((equiv_nil_iff ht).mp e)]
    · rw [if_neg e, if_neg (fun e2 => e ((equiv_nil_iff ht).mpr e2))]
  · show min (tbf_schedule ca (skb_size sa) qa now)
        (s64 (l2t_ns qa.rate (u32_of_int ca.dwrr_bucket_bytes))) =
      min (tbf_schedule cb (skb_size sb) qb now)
        (s64 (l2t_ns qb.rate (u32_of_int cb.dwrr_bucket_bytes)))
    rw [ce_equiv_size hs, tbf_schedule_equiv he h, h.rate, he.bucket_bytes]
  · show u32_sub qa.sum_len_bytes (skb_size sa) = u32_sub qb.sum_len_bytes (skb_size sb)
    rw [ce_equiv_size hs, h.sum_len_bytes]
  · show (if ta = [] ∧ u32_sub qa.sum_len_bytes (skb_size sa) = 0 then now
        else qa.last_idle_time) =
      (if tb = [] ∧ u32_sub qb.sum_len_bytes (skb_size sb) = 0 then now else qb.last_idle_time)
    rw [ce_equiv_size hs, h.sum_len_bytes, h.last_idle_time]
    by_cases e : ta = []
    · have e2 := (equiv_nil_iff ht).mp e
      subst e e2
      rfl
    · have e2 : ¬ tb = [] := fun e2 => e ((equiv_nil_iff ht).mpr e2)
      rw [if_neg (fun x => e x.1), if_neg (fun x => e2 x.1)]
  · show u32_sub qa.qlen 1 = u32_sub qb.qlen 1
    rw [h.qlen]

theorem release_start_equiv {ca cb : dwrr_params} {qa qb : dwrr_sched_data}
    (hs : start_equiv qa qb) (now : Int) (i : Fin 8) (rest : List (Fin 8))
    (sa sb : sk_buff) (ta tb : List sk_buff) :
    start_equiv (dwrr_dequeue_release ca now qa i rest sa ta)
      (dwrr_dequeue_release cb now qb i rest sb tb) := by
  intro j
  show (Function.update qa.queues i _ j).start_time = (Function.update qb.queues i _ j).start_time
  refine start_equiv_update hs i ?_ j
  exact hs i

theorem yield_equiv {ca cb : dwrr_params} {qa qb : dwrr_sched_data}
    (he : ecn_only ca cb) (h : sched_equiv qa qb) (i : Fin 8) (rest : List (Fin 8)) :
    sched_equiv (dwrr_dequeue_yield ca qa i rest) (dwrr_dequeue_yield cb qb i rest) := by
  have hi := h.queues i
  refine ⟨?_, h.rate, rfl, h.tokens, h.sum_len_bytes, h.time_ns, h.last_idle_time, h.qlen,
    h.drops, h.overlimits, h.watchdog⟩
  intro j
  show class_equiv (Function.update qa.queues i _ j) (Function.update qb.queues i _ j)
  refine class_equiv_update h.queues i ?_ j
  unfold dwrr_dequeue_yield_class
  rw [he.enable_wrr, he.queue_quantum, hi.id, hi.deficit]
  exact ⟨hi.qdisc, hi.qdisc_drops, hi.id, rfl, hi.len_bytes, hi.last_pkt_time, rfl⟩

theorem yield_start_equiv {ca cb : dwrr_params} {qa qb : dwrr_sched_data}
    (h : sched_equiv qa qb) (i : Fin 8) (rest : List (Fin 8))
    (hs : start_equiv qa qb) :
    start_equiv (dwrr_dequeue_yield ca qa i rest) (dwrr_dequeue_yield cb qb i rest) := by
  intro j
  show (Function.update qa.queues i _ j).start_time = (Function.update qb.queues i _ j).start_time
  refine start_equiv_update hs i ?_ j
  exact (h.queues i).last_pkt_time

theorem dequeue_packet_equiv (ca cb : dwrr_params) (now : Int) (qa qb : dwrr_sched_data)
    (i : Fin 8) (rest : List (Fin 8)) {sa sb : sk_buff} (ta tb : List sk_buff)
    (hs : ce_equiv sa sb) :
    ce_equiv (dwrr_dequeue_packet ca now qa i rest sa ta)
      (dwrr_dequeue_packet cb now qb i rest sb tb) := by
  rcases dequeue_packet_cases ca now qa i rest sa ta with h1 | h1 <;>
    rcases dequeue_packet_cases cb now qb i rest sb tb with h2 | h2 <;>
    rw [h1, h2] <;> exact ⟨hs.1, hs.2⟩

end sch_dwrr2


namespace sch_dwrr2

theorem iter_release {cfg : dwrr_params} {now : Int} {q : dwrr_sched_data} {i : Fin 8}
    {rest : List (Fin 8)} {skb : sk_buff} {tl : List sk_buff} (hq : q.active = i :: rest)
    (hf : (q.queues i).qdisc = skb :: tl) (hd : skb_size skb ≤ (q.queues i).deficit)
    (ht : ¬ tbf_schedule cfg (skb_size skb) q now < 0) :
    dwrr_dequeue_iter cfg now q = .exit (dwrr_dequeue_release cfg now q i rest skb tl)
      (.sent i (dwrr_dequeue_packet cfg now q i rest skb tl)) := by
  unfold dwrr_dequeue_iter
  simp only [hq, hf]
  rw [if_pos hd, if_neg ht]

theorem iter_no_class {cfg : dwrr_params} {now : Int} {q : dwrr_sched_data}
    (hq : q.active = []) : dwrr_dequeue_iter cfg now q = .exit q .no_class := by
  unfold dwrr_dequeue_iter
  simp only [hq]

theorem iter_no_packet {cfg : dwrr_params} {now : Int} {q : dwrr_sched_data} {i : Fin 8}
    {rest : List (Fin 8)} (hq : q.active = i :: rest) (hf : (q.queues i).qdisc = []) :
    dwrr_dequeue_iter cfg now q = .exit q .no_packet := by
  unfold dwrr_dequeue_iter
  simp only [hq, hf]

/-- One pass of the loop of `dwrr_dequeue` in two runs that differ in the ECN
settings only: both leave the loop with the same result up to the CE mark, or
the same class gives up its turn in both. -/
theorem iter_equiv {ca cb : dwrr_params} {qa qb : dwrr_sched_data}
    (he : ecn_only ca cb) (h : sched_equiv qa qb) (now : Int) :
    (∃ a b ra rb, dwrr_dequeue_iter ca now qa = .exit a ra ∧
      dwrr_dequeue_iter cb now qb = .exit b rb ∧ sched_equiv a b ∧ exit_equiv ra rb ∧
      (start_equiv qa qb → start_equiv a b)) ∨
    (∃ a b i, dwrr_dequeue_iter ca now qa = .again a i ∧
      dwrr_dequeue_iter cb now qb = .again b i ∧ sched_equiv a b ∧
      (start_equiv qa qb → start_equiv a b)) := by
  cases hb : qb.active with
  | nil =>
    left
    exact ⟨qa, qb, .no_class, .no_class, iter_no_class (h.active.trans hb), iter_no_class hb, h,
      trivial, fun x => x⟩
  | cons i rest =>
    have ha : qa.active = i :: rest := h.active.trans hb
    have hi := h.queues i
    have hfe := hi.qdisc
    cases hfa : (qa.queues i).qdisc with
    | nil =>
      rw [hfa] at hfe
      cases hfb : (qb.queues i).qdisc with
      | nil =>
        left
        exact ⟨qa, qb, .no_packet, .no_packet, iter_no_packet ha hfa, iter_no_packet hb hfb, h,
          trivial, fun x => x⟩
      | cons sb tb =>
        rw [hfb] at hfe
        cases hfe
    | cons sa ta =>
      rw [hfa] at hfe
      cases hfb : (qb.queues i).qdisc with
      | nil =>
        rw [hfb] at hfe
        cases hfe
      | cons sb tb =>
        rw [hfb] at hfe
        have hs : ce_equiv sa sb := by
          cases hfe with
          | cons h1 _ => exact h1
        have htl : List.Forall₂ ce_equiv ta tb := by
          cases hfe with
          | cons _ h2 => exact h2
        have hsz := ce_equiv_size hs
        by_cases hd : skb_size sb ≤ (qb.queues i).deficit
        · have hda : skb_size sa ≤ (qa.queues i).deficit := by
            rw [hsz, hi.deficit]
            exact hd
          have htb := tbf_schedule_equiv he h (skb_size sb) now
          left
          by_cases ht : tbf_schedule cb (skb_size sb) qb now < 0
          · have hta : tbf_schedule ca (skb_size sa) qa now < 0 := by
              rw [hsz, htb]
              exact ht
            refine ⟨_, _, _, _, iter_throttle ha hfa hda hta, iter_throttle hb hfb hd ht, ?_,
              trivial, fun x => x⟩
            rw [hsz]
            exact throttle_equiv he h now _
          · have hta : ¬ tbf_schedule ca (skb_size sa) qa now < 0 := by
              rw [hsz, htb]
              exact ht
            exact ⟨_, _, _, _, iter_release ha hfa hda hta, iter_release hb hfb hd ht,
              release_equiv he h now i rest hs htl,
              ⟨rfl, dequeue_packet_equiv ca cb now qa qb i rest ta tb hs⟩,
              fun x => release_start_equiv x now i rest sa sb ta tb⟩
        · have hda : ¬ skb_size sa ≤ (qa.queues i).deficit := by
            rw [hsz, hi.deficit]
            exact hd
          right
          exact ⟨_, _, i, iter_yields ha hfa hda, iter_yields hb hfb hd, yield_equiv he h i rest,
            fun x => yield_start_equiv h i rest x⟩

/-- The loop of `dwrr_dequeue` in two runs that differ in the ECN settings only. -/
theorem loop_equiv {ca cb : dwrr_params} (he : ecn_only ca cb) (now : Int) (fuel : Nat) :
    ∀ {qa qb : dwrr_sched_data}, sched_equiv qa qb →
      (dwrr_dequeue_loop ca now fuel qa = none ∧ dwrr_dequeue_loop cb now fuel qb = none) ∨
      ∃ a b ra rb ys, dwrr_dequeue_loop ca now fuel qa = some (a, ra, ys) ∧
        dwrr_dequeue_loop cb now fuel qb = some (b, rb, ys) ∧ sched_equiv a b ∧
        exit_equiv ra rb ∧ (start_equiv qa qb → start_equiv a b) := by
  induction fuel with
  | zero =>
    intro qa qb _
    exact Or.inl ⟨rfl, rfl⟩
  | succ n ih =>
    intro qa qb h
    rcases iter_equiv he h now with ⟨a, b, ra, rb, h1, h2, h3, h4, h5⟩ |
      ⟨a, b, i, h1, h2, h3, h5⟩
    · right
      refine ⟨a, b, ra, rb, [], ?_, ?_, h3, h4, h5⟩
      · unfold dwrr_dequeue_loop
        rw [h1]
      · unfold dwrr_dequeue_loop
        rw [h2]
    · rcases ih h3 with ⟨e1, e2⟩ | ⟨a2, b2, ra, rb, ys, e1, e2, e3, e4, e5⟩
      · left
        constructor
        · unfold dwrr_dequeue_loop
          rw [h1]
          simp only
          rw [e1]
        · unfold dwrr_dequeue_loop
          rw [h2]
          simp only
          rw [e2]
      · right
        refine ⟨a2, b2, ra, rb, i :: ys, ?_, ?_, e3, e4, fun x => e5 (h5 x)⟩
        · unfold dwrr_dequeue_loop
          rw [h1]
          simp only
          rw [e1]
        · unfold dwrr_dequeue_loop
          rw [h2]
          simp only
          rw [e2]

/-- A call of `dwrr_dequeue` in two runs that differ in the ECN settings only:
it reaches the bound in both or returns in both, with the same result up to the CE
mark and after the same turns given up. -/
theorem dequeue_equiv {ca cb : dwrr_params} (he : ecn_only ca cb) (now : Int) (fuel : Nat)
    {qa qb : dwrr_sched_data} (h : sched_equiv qa qb) :
    (dwrr_dequeue fuel ca now qa = none ∧ dwrr_dequeue fuel cb now qb = none) ∨
    ∃ a b ra rb ys, dwrr_dequeue fuel ca now qa = some (a, ra, ys) ∧
      dwrr_dequeue fuel cb now qb = some (b, rb, ys) ∧ sched_equiv a b ∧
      exit_equiv ra rb ∧ (start_equiv qa qb → start_equiv a b) := by
  by_cases hb : qb.active = []
  · right
    have ha : qa.active = [] := h.active.trans hb
    refine ⟨qa, qb, .idle, .idle, [], ?_, ?_, h, trivial, fun x => x⟩
    · unfold dwrr_dequeue
      rw [if_pos ha]
    · unfold dwrr_dequeue
      rw [if_pos hb]
  · have ha : ¬ qa.active = [] := by rw [h.active]; exact hb
    unfold dwrr_dequeue
    rw [if_neg ha, if_neg hb]
    exact loop_equiv he now fuel h

end sch_dwrr2


namespace sch_dwrr2

theorem enqueue_reads_cases (cfg : dwrr_params) (q : dwrr_sched_data) :
    dwrr_enqueue_reads cfg q = 0 ∨ dwrr_enqueue_reads cfg q = 1 := by
  unfold dwrr_enqueue_reads
  split
  · exact Or.inr rfl
  · exact Or.inl rfl

/-- One call in two runs that differ in the ECN settings only. -/
theorem exec_call_equiv {ca cb : dwrr_params} (he : ecn_only ca cb) {qa qb : dwrr_sched_data}
    (h : sched_equiv qa qb) (c : call) :
    (exec_call ca qa c = none ∧ exec_call cb qb c = none) ∨
    ∃ a b ra rb, exec_call ca qa c = some (a, ra) ∧ exec_call cb qb c = some (b, rb) ∧
      sched_equiv a b ∧ result_equiv ra rb ∧
      ((∀ clk skb, c = .enqueue clk skb → clk 0 = clk 1) → start_equiv qa qb →
        start_equiv a b) := by
  cases c with
  | enqueue clk skb =>
    right
    obtain ⟨h1, h2, h3⟩ := enqueue_equiv he h clk clk skb
    refine ⟨_, _, _, _, rfl, rfl, h2, h1, fun hc hs => h3 ?_ hs⟩
    have e := hc clk skb rfl
    rcases enqueue_reads_cases ca qa with r1 | r1 <;>
      rcases enqueue_reads_cases cb qb with r2 | r2 <;> rw [r1, r2]
    · exact e
    · exact e.symm
  | dequeue fuel now =>
    rcases dequeue_equiv he now fuel h with ⟨e1, e2⟩ | ⟨a, b, ra, rb, ys, e1, e2, e3, e4, e5⟩
    · left
      constructor
      · simp only [exec_call, e1]
      · simp only [exec_call, e2]
    · right
      refine ⟨a, b, .deq ra ys, .deq rb ys, ?_, ?_, e3, ⟨e4, rfl⟩, fun _ hs => e5 hs⟩
      · simp only [exec_call, e1]
      · simp only [exec_call, e2]

/-- Two runs given the same calls under settings that differ in the ECN settings
only. -/
theorem exec_calls_equiv {la lb : List (dwrr_params × call)}
    (hl : List.Forall₂ (fun x y => ecn_only x.1 y.1 ∧ x.2 = y.2) la lb) :
    ∀ {qa qb : dwrr_sched_data}, sched_equiv qa qb →
      (exec_calls la qa = none ∧ exec_calls lb qb = none) ∨
      ∃ a b ra rb, exec_calls la qa = some (a, ra) ∧ exec_calls lb qb = some (b, rb) ∧
        sched_equiv a b ∧ List.Forall₂ result_equiv ra rb ∧
        ((∀ x ∈ la, ∀ clk skb, x.2 = .enqueue clk skb → clk 0 = clk 1) → start_equiv qa qb →
          start_equiv a b) := by
  induction hl with
  | nil =>
    intro qa qb h
    exact Or.inr ⟨qa, qb, [], [], rfl, rfl, h, List.Forall₂.nil, fun _ x => x⟩
  | @cons x y la lb hxy _ ih =>
    intro qa qb h
    obtain ⟨cfa, c⟩ := x
    obtain ⟨cfb, c2⟩ := y
    obtain ⟨he, hc⟩ := hxy
    simp only at he hc
    subst hc
    rcases exec_call_equiv he h c with ⟨e1, e2⟩ | ⟨a, b, ra, rb, e1, e2, e3, e4, e5⟩
    · left
      constructor
      · simp only [exec_calls, e1]
      · simp only [exec_calls, e2]
    · rcases ih e3 with ⟨f1, f2⟩ | ⟨a2, b2, ras, rbs, f1, f2, f3, f4, f5⟩
      · left
        constructor
        · simp only [exec_calls, e1, f1]
        · simp only [exec_calls, e2, f2]
      · right
        refine ⟨a2, b2, ra :: ras, rb :: rbs, ?_, ?_, f3, List.Forall₂.cons e4 f4, ?_⟩
        · simp only [exec_calls, e1, f1]
        · simp only [exec_calls, e2, f2]
        · intro hclk hs
          refine f5 (fun z hz => hclk z (List.mem_cons_of_mem _ hz)) (e5 ?_ hs)
          intro clk skb hcs
          exact hclk (cfa, c) (List.mem_cons_self _ _) clk skb hcs

theorem marking_disabled (cfg : dwrr_params) (skb : sk_buff) (q : dwrr_sched_data)
    (cl : dwrr_class) (h : cfg.dwrr_ecn_scheme = dwrr_disable_ecn) :
    dwrr_ecn_marking cfg skb q cl = skb := by
  unfold dwrr_ecn_marking
  rw [h]
  simp [dwrr_disable_ecn, dwrr_queue_ecn, dwrr_port_ecn, dwrr_mq_ecn]

theorem dequeue_packet_disabled (cfg : dwrr_params) (now : Int) (q : dwrr_sched_data)
    (i : Fin 8) (rest : List (Fin 8)) (skb : sk_buff) (tl : List sk_buff)
    (h : cfg.dwrr_ecn_scheme = dwrr_disable_ecn) :
    dwrr_dequeue_packet cfg now q i rest skb tl = skb := by
  unfold dwrr_dequeue_packet
  split
  · exact marking_disabled cfg skb _ _ h
  · rfl

theorem unmarked_update {q : dwrr_sched_data} (h : unmarked q) (i : Fin 8) (c : dwrr_class)
    (hc : ∀ p ∈ c.qdisc, p.ce = false) (j : Fin 8) :
    ∀ p ∈ (Function.update q.queues i c j).qdisc, p.ce = false := by
  by_cases hj : j = i
  · subst hj
    rw [Function.update_same]
    exact hc
  · rw [Function.update_noteq hj]
    exact h j

/-- With the scheme disabled, `dwrr_enqueue` of an unmarked packet leaves every
queued packet unmarked. -/
theorem unmarked_enqueue {q : dwrr_sched_data} (h : unmarked q) (cfg : dwrr_params)
    (clk : Nat → Int) (skb : sk_buff) (hd : cfg.dwrr_ecn_scheme = dwrr_disable_ecn)
    (hs : skb.ce = false) : unmarked (dwrr_enqueue cfg clk skb q).2 := by
  rcases dwrr_enqueue_cases cfg clk skb q with ⟨n, he⟩ | ⟨_, _, he⟩
  · rw [he]
    intro j
    show ∀ p ∈ (Function.update q.queues (dwrr_classify cfg skb) _ j).qdisc, p.ce = false
    refine unmarked_update h _ _ ?_ j
    exact h _
  · rw [he]
    intro j
    show ∀ p ∈ (Function.update q.queues (dwrr_classify cfg skb) _ j).qdisc, p.ce = false
    refine unmarked_update h _ _ ?_ j
    intro p hp
    have hp2 : p ∈ (q.queues (dwrr_classify cfg skb)).qdisc ++
        [dwrr_ecn_marking cfg skb _ _] := hp
    rcases List.mem_append.mp hp2 with h1 | h1
    · exact h _ p h1
    · rw [List.mem_singleton, marking_disabled cfg skb _ _ hd] at h1
      rw [h1]
      exact hs

/-- With the scheme disabled, `dwrr_dequeue` returns an unmarked packet and leaves
every queued packet unmarked. -/
theorem unmarked_dequeue {q q1 : dwrr_sched_data} (h : unmarked q) {fuel : Nat}
    {cfg : dwrr_params} {now : Int} {r : deq_exit} {ys : List (Fin 8)}
    (hd : cfg.dwrr_ecn_scheme = dwrr_disable_ecn)
    (hq : dwrr_dequeue fuel cfg now q = some (q1, r, ys)) :
    unmarked q1 ∧ ∀ i p, r = .sent i p → p.ce = false := by
  by_cases hr : r = .idle
  · subst hr
    unfold dwrr_dequeue at hq
    split at hq
    · simp only [Option.some.injEq, Prod.mk.injEq] at hq
      rw [← hq.1]
      exact ⟨h, fun i p e => by simp at e⟩
    · obtain ⟨q0, _, _, _, hit⟩ := loop_last_pass fuel hq
      rcases dwrr_dequeue_iter_exit hit with ⟨_, _, hx⟩ | ⟨_, _, _, _, _, hx⟩ |
        ⟨_, _, _, _, _, _, _, _, _, hx⟩ | ⟨_, _, _, _, _, _, _, _, _, hx⟩ <;> simp at hx
  · obtain ⟨q0, hu, _, _, hit⟩ := dequeue_last_pass hq hr
    have h0 : unmarked q0 := by
      intro j
      rw [(hu.1 j).1]
      exact h j
    rcases dwrr_dequeue_iter_exit hit with ⟨_, h1, hx⟩ | ⟨_, _, _, _, h1, hx⟩ |
      ⟨_, _, _, _, _, _, _, _, h1, hx⟩ | ⟨i, rest, skb, tl, _, hf, _, _, h1, hx⟩
    · rw [h1, hx]
      exact ⟨h0, fun i p e => by simp at e⟩
    · rw [h1, hx]
      exact ⟨h0, fun i p e => by simp at e⟩
    · rw [h1, hx]
      exact ⟨h0, fun i p e => by simp at e⟩
    · rw [h1, hx]
      constructor
      · intro j
        show ∀ p ∈ (Function.update q0.queues i _ j).qdisc, p.ce = false
        refine unmarked_update h0 _ _ ?_ j
        intro p hp
        have hp2 : p ∈ tl := hp
        exact h0 i p (by rw [hf]; exact List.mem_cons_of_mem _ hp2)
      · intro i2 p e
        simp only [deq_exit.sent.injEq] at e
        rw [← e.2, dequeue_packet_disabled cfg now q0 i rest skb tl hd]
        exact h0 i skb (by rw [hf]; exact List.mem_cons_self _ _)

/-- With the scheme disabled throughout a run that is given unmarked packets, no
packet is marked: every packet the run returns, and every packet left in the
queues, is unmarked. -/
theorem unmarked_exec_calls (l : List (dwrr_params × call)) :
    ∀ {q q1 : dwrr_sched_data} {rs : List call_result}, unmarked q →
      (∀ x ∈ l, x.1.dwrr_ecn_scheme = dwrr_disable_ecn) →
      (∀ x ∈ l, ∀ clk skb, x.2 = .enqueue clk skb → skb.ce = false) →
      exec_calls l q = some (q1, rs) →
      unmarked q1 ∧ ∀ i p ys, call_result.deq (.sent i p) ys ∈ rs → p.ce = false := by
  induction l with
  | nil =>
    intro q q1 rs h _ _ he
    simp only [exec_calls, Option.some.injEq, Prod.mk.injEq] at he
    rw [← he.1, ← he.2]
    exact ⟨h, fun i p ys hm => by simp at hm⟩
  | cons x l ih =>
    intro q q1 rs h hd hs he
    obtain ⟨cfg, c⟩ := x
    have hd0 : cfg.dwrr_ecn_scheme = dwrr_disable_ecn := hd (cfg, c) (List.mem_cons_self _ _)
    unfold exec_calls at he
    split at he
    · simp at he
    · rename_i q2 r hc
      split at he
      · simp at he
      · rename_i q3 rs3 hrest
        simp only [Option.some.injEq, Prod.mk.injEq] at he
        obtain ⟨e1, e2⟩ := he
        subst e1 e2
        have key : unmarked q2 ∧ ∀ i p ys, r = .deq (.sent i p) ys → p.ce = false := by
          cases c with
          | enqueue clk skb =>
            simp only [exec_call, Option.some.injEq, Prod.mk.injEq] at hc
            rw [← hc.1, ← hc.2]
            exact ⟨unmarked_enqueue h cfg clk skb hd0
              (hs (cfg, .enqueue clk skb) (List.mem_cons_self _ _) clk skb rfl),
              fun i p ys e => by simp at e⟩
          | dequeue fuel now =>
            simp only [exec_call] at hc
            split at hc
            · rename_i q4 r4 ys4 hdq
              simp only [Option.some.injEq, Prod.mk.injEq] at hc
              obtain ⟨c1, c2⟩ := hc
              subst c1 c2
              obtain ⟨u1, u2⟩ := unmarked_dequeue h hd0 hdq
              refine ⟨u1, fun i p ys e => ?_⟩
              simp only [call_result.deq.injEq] at e
              exact u2 i p e.1
            · simp at hc
        obtain ⟨k1, k2⟩ := ih key.1 (fun z hz => hd z (List.mem_cons_of_mem _ hz))
          (fun z hz => hs z (List.mem_cons_of_mem _ hz)) hrest
        refine ⟨k1, fun i p ys hm => ?_⟩
        rcases List.mem_cons.mp hm with e | e
        · exact key.2 i p ys e.symm
        · exact k2 i p ys e

end sch_dwrr2


namespace sch_dwrr2

theorem sched_equiv_refl (q : dwrr_sched_data) : sched_equiv q q :=
  ⟨fun _ => ⟨List.forall₂_same.mpr (fun p _ => ce_equiv_refl p), rfl, rfl, rfl, rfl, rfl, rfl⟩,
    rfl, rfl, rfl, rfl, rfl, rfl, rfl, rfl, rfl, rfl⟩

end sch_dwrr2

namespace sch_dwrr2

/-- Under a scheme other than MQ-ECN `dwrr_ecn_marking` makes no division. -/
theorem ecn_marking_no_trap {cfg : dwrr_params} (h : cfg.dwrr_ecn_scheme ≠ dwrr_mq_ecn)
    (q : dwrr_sched_data) : dwrr_ecn_marking_traps cfg q = false := by
  unfold dwrr_ecn_marking_traps
  rw [decide_eq_false h]
  rfl

theorem iter_no_trap {cfg : dwrr_params} (h : cfg.dwrr_ecn_scheme ≠ dwrr_mq_ecn) (now : Int)
    (q : dwrr_sched_data) : dwrr_dequeue_iter_traps cfg now q = false := by
  unfold dwrr_dequeue_iter_traps
  split
  · rfl
  · split
    · rfl
    · rw [ecn_marking_no_trap h]
      simp

theorem loop_no_trap {cfg : dwrr_params} (h : cfg.dwrr_ecn_scheme ≠ dwrr_mq_ecn) (now : Int)
    (fuel : Nat) : ∀ q : dwrr_sched_data, dwrr_dequeue_loop_traps cfg now fuel q = false := by
  induction fuel with
  | zero => intro q; rfl
  | succ n ih =>
    intro q
    unfold dwrr_dequeue_loop_traps
    split
    · exact iter_no_trap h now q
    · exact ih _

/-- Under a scheme other than MQ-ECN no call traps. -/
theorem call_no_trap {cfg : dwrr_params} (h : cfg.dwrr_ecn_scheme ≠ dwrr_mq_ecn)
    (q : dwrr_sched_data) (c : call) : call_traps cfg q c = false := by
  cases c with
  | enqueue clk skb =>
    show dwrr_enqueue_traps cfg clk skb q = false
    unfold dwrr_enqueue_traps
    simp only []
    split
    · rfl
    · split
      · rfl
      · exact ecn_marking_no_trap h _
  | dequeue fuel now =>
    show dwrr_dequeue_traps fuel cfg now q = false
    unfold dwrr_dequeue_traps
    split
    · rfl
    · exact loop_no_trap h now fuel q

/-- A run whose calls are all made under schemes other than MQ-ECN never traps. -/
theorem exec_calls_no_trap : ∀ (l : List (dwrr_params × call)) (q : dwrr_sched_data),
    (∀ x ∈ l, x.1.dwrr_ecn_scheme ≠ dwrr_mq_ecn) → exec_calls_trap l q = false := by
  intro l
  induction l with
  | nil => intro q _; rfl
  | cons x xs ih =>
    intro q h
    obtain ⟨cfg, c⟩ := x
    unfold exec_calls_trap
    rw [call_no_trap (h (cfg, c) (List.mem_cons_self _ _)) q c, Bool.false_or]
    split
    · rfl
    · exact ih _ (fun y hy => h y (List.mem_cons_of_mem _ hy))

end sch_dwrr2

/-- Marking never affects scheduling in sch_dwrr2 as long as no call divides by
zero (`exec_calls_trap`, `dwrr_enqueue_traps` and `dwrr_dequeue_traps` say when a
call does, which needs the MQ-ECN scheme).  Take two such runs that start
in the same state and are given the same calls (`dwrr_enqueue` with the same
packet and clock readings, `dwrr_dequeue` with the same clock reading and bound),
under values of the sysctl variables that agree on everything but the ECN
settings (ECN scheme, port and per-queue thresholds, dequeue-marking flag, round
alpha, idle interval).  Then both runs complete or neither does, call by call the
results are the same (same return code of `dwrr_enqueue`; same exit of
`dwrr_dequeue` with the same packet up to its CE mark, after the same turns given
up), and the final states agree on every field (byte counters, deficits,
quanta, rotation order, tokens, time check-point, drop counters, timer) except
`round_time`, the `start_time` stamps the round time is sampled from, and the CE
marks of the queued packets; the `start_time` stamps agree too when the clock does
not advance between the two readings of an enqueue.  The same holds call by call
from any two states so related (second and third part; for `dwrr_enqueue` the
clocks of the two runs may even differ, and `start_time` agrees when the reading
stored into it does).  With the scheme disabled `dwrr_ecn_marking` returns the
packet as it is, no call of a run divides by zero, and a run given unmarked
packets returns unmarked packets and leaves only unmarked packets in the
queues. -/
theorem marking_never_affects_scheduling :
    (∀ (la lb : List (sch_dwrr2.dwrr_params × sch_dwrr2.call)) (q : sch_dwrr2.dwrr_sched_data),
      List.Forall₂ (fun x y => sch_dwrr2.ecn_only x.1 y.1 ∧ x.2 = y.2) la lb →
      sch_dwrr2.exec_calls_trap la q = false → sch_dwrr2.exec_calls_trap lb q = false →
      (sch_dwrr2.exec_calls la q = none ∧ sch_dwrr2.exec_calls lb q = none) ∨
      ∃ a b ra rb, sch_dwrr2.exec_calls la q = some (a, ra) ∧
        sch_dwrr2.exec_calls lb q = some (b, rb) ∧ sch_dwrr2.sched_equiv a b ∧
        List.Forall₂ sch_dwrr2.result_equiv ra rb ∧
        ((∀ x ∈ la, ∀ clk skb, x.2 = .enqueue clk skb → clk 0 = clk 1) →
          sch_dwrr2.start_equiv a b)) ∧
    (∀ (ca cb : sch_dwrr2.dwrr_params) (qa qb : sch_dwrr2.dwrr_sched_data)
      (clka clkb : Nat → Int) (skb : sk_buff),
      sch_dwrr2.ecn_only ca cb → sch_dwrr2.sched_equiv qa qb →
      sch_dwrr2.dwrr_enqueue_traps ca clka skb qa = false →
      sch_dwrr2.dwrr_enqueue_traps cb clkb skb qb = false →
      (sch_dwrr2.dwrr_enqueue ca clka skb qa).1 = (sch_dwrr2.dwrr_enqueue cb clkb skb qb).1 ∧
        sch_dwrr2.sched_equiv (sch_dwrr2.dwrr_enqueue ca clka skb qa).2
          (sch_dwrr2.dwrr_enqueue cb clkb skb qb).2 ∧
        (clka (sch_dwrr2.dwrr_enqueue_reads ca qa) = clkb (sch_dwrr2.dwrr_enqueue_reads cb qb) →
          sch_dwrr2.start_equiv qa qb →
          sch_dwrr2.start_equiv (sch_dwrr2.dwrr_enqueue ca clka skb qa).2
            (sch_dwrr2.dwrr_enqueue cb clkb skb qb).2)) ∧
    (∀ (ca cb : sch_dwrr2.dwrr_params) (now : Int) (fuel : Nat)
      (qa qb : sch_dwrr2.dwrr_sched_data),
      sch_dwrr2.ecn_only ca cb → sch_dwrr2.sched_equiv qa qb →
      sch_dwrr2.dwrr_dequeue_traps fuel ca now qa = false →
      sch_dwrr2.dwrr_dequeue_traps fuel cb now qb = false →
      (sch_dwrr2.dwrr_dequeue fuel ca now qa = none ∧
        sch_dwrr2.dwrr_dequeue fuel cb now qb = none) ∨
      ∃ a b ra rb ys, sch_dwrr2.dwrr_dequeue fuel ca now qa = some (a, ra, ys) ∧
        sch_dwrr2.dwrr_dequeue fuel cb now qb = some (b, rb, ys) ∧ sch_dwrr2.sched_equiv a b ∧
        sch_dwrr2.exit_equiv ra rb ∧
        (sch_dwrr2.start_equiv qa qb → sch_dwrr2.start_equiv a b)) ∧
    (∀ (cfg : sch_dwrr2.dwrr_params) (skb : sk_buff) (q : sch_dwrr2.dwrr_sched_data)
      (cl : sch_dwrr2.dwrr_class), cfg.dwrr_ecn_scheme = sch_dwrr2.dwrr_disable_ecn →
      sch_dwrr2.dwrr_ecn_marking cfg skb q cl = skb) ∧
    (∀ (l : List (sch_dwrr2.dwrr_params × sch_dwrr2.call)) (q : sch_dwrr2.dwrr_sched_data),
      (∀ x ∈ l, x.1.dwrr_ecn_scheme = sch_dwrr2.dwrr_disable_ecn) →
      sch_dwrr2.exec_calls_trap l q = false ∧
      ∀ (q1 : sch_dwrr2.dwrr_sched_data) (rs : List sch_dwrr2.call_result),
        sch_dwrr2.unmarked q →
        (∀ x ∈ l, ∀ clk skb, x.2 = .enqueue clk skb → skb.ce = false) →
        sch_dwrr2.exec_calls l q = some (q1, rs) →
        sch_dwrr2.unmarked q1 ∧
          ∀ i p ys, sch_dwrr2.call_result.deq (.sent i p) ys ∈ rs → p.ce = false) := by
  refine ⟨fun la lb q hl _ _ => ?_, fun ca cb qa qb clka clkb skb he h _ _ =>
    sch_dwrr2.enqueue_equiv he h clka clkb skb, fun ca cb now fuel qa qb he h _ _ =>
    sch_dwrr2.dequeue_equiv he now fuel h, fun cfg skb q cl h =>
    sch_dwrr2.marking_disabled cfg skb q cl h, fun l q hd =>
    ⟨sch_dwrr2.exec_calls_no_trap l q (fun x hx => by rw [hd x hx]; decide),
      fun q1 rs h hs he => sch_dwrr2.unmarked_exec_calls l h hd hs he⟩⟩
  rcases sch_dwrr2.exec_calls_equiv hl (sch_dwrr2.sched_equiv_refl q) with h | h
  · exact Or.inl h
  · obtain ⟨a, b, ra, rb, h1, h2, h3, h4, h5⟩ := h
    exact Or.inr ⟨a, b, ra, rb, h1, h2, h3, h4, fun hc => h5 hc (fun _ => rfl)⟩

set_option maxRecDepth 100000 in
/-- The two runs of the scenario: with per-queue marking at 1000 bytes the packet
dequeued carries the CE mark, with the scheme disabled it does not; the calls
return the same otherwise, and the final states agree but for the marks. -/
theorem marking_never_affects_scheduling_witness :
    (∃ qa qb,
      sch_dwrr2.exec_calls (sch_dwrr2.two_in_one_out sch_dwrr2.mark_cfg)
          (sch_dwrr2.dwrr_init (fun _ => 0) 125000000) =
        some (qa, [.code 0, .code 0, .deq (.sent 2 (INET_ECN_set_ce pkt_1500)) []]) ∧
      sch_dwrr2.exec_calls (sch_dwrr2.two_in_one_out sch_dwrr2.plain_cfg)
          (sch_dwrr2.dwrr_init (fun _ => 0) 125000000) =
        some (qb, [.code 0, .code 0, .deq (.sent 2 pkt_1500) []])) ∧
    ((sch_dwrr2.exec_calls (sch_dwrr2.two_in_one_out sch_dwrr2.mark_cfg)
          (sch_dwrr2.dwrr_init (fun _ => 0) 125000000) = none ∧
        sch_dwrr2.exec_calls (sch_dwrr2.two_in_one_out sch_dwrr2.plain_cfg)
          (sch_dwrr2.dwrr_init (fun _ => 0) 125000000) = none) ∨
      ∃ a b ra rb,
        sch_dwrr2.exec_calls (sch_dwrr2.two_in_one_out sch_dwrr2.mark_cfg)
          (sch_dwrr2.dwrr_init (fun _ => 0) 125000000) = some (a, ra) ∧
        sch_dwrr2.exec_calls (sch_dwrr2.two_in_one_out sch_dwrr2.plain_cfg)
          (sch_dwrr2.dwrr_init (fun _ => 0) 125000000) = some (b, rb) ∧
        sch_dwrr2.sched_equiv a b ∧ List.Forall₂ sch_dwrr2.result_equiv ra rb ∧
        ((∀ x ∈ sch_dwrr2.two_in_one_out sch_dwrr2.mark_cfg, ∀ clk skb,
            x.2 = .enqueue clk skb → clk 0 = clk 1) → sch_dwrr2.start_equiv a b)) :=
  ⟨⟨_, _, rfl, rfl⟩,
    marking_never_affects_scheduling.1 (sch_dwrr2.two_in_one_out sch_dwrr2.mark_cfg)
      (sch_dwrr2.two_in_one_out sch_dwrr2.plain_cfg) (sch_dwrr2.dwrr_init (fun _ => 0) 125000000)
      (List.Forall₂.cons ⟨⟨rfl, rfl, rfl, rfl, rfl, rfl, rfl⟩, rfl⟩
        (List.Forall₂.cons ⟨⟨rfl, rfl, rfl, rfl, rfl, rfl, rfl⟩, rfl⟩
          (List.Forall₂.cons ⟨⟨rfl, rfl, rfl, rfl, rfl, rfl, rfl⟩, rfl⟩ List.Forall₂.nil)))
      rfl rfl⟩


/-! ### sch_dwrr and sch_dwrr2 side by side -/

theorem skb_size_same (p : sk_buff) : sch_dwrr.skb_size p = sch_dwrr2.skb_size p := rfl

theorem classify_same {ca : sch_dwrr.dwrr_params} {cb : sch_dwrr2.dwrr_params}
    (hc : same_config ca cb) (skb : sk_buff) :
    sch_dwrr.dwrr_qdisc_classify ca skb = sch_dwrr2.dwrr_classify cb skb := by
  unfold sch_dwrr.dwrr_qdisc_classify sch_dwrr2.dwrr_classify
  rw [hc.queue_dscp]

theorem overfill_same {ca : sch_dwrr.dwrr_params} {cb : sch_dwrr2.dwrr_params}
    (hc : same_config ca cb) (len : Nat) {cla : sch_dwrr.dwrr_class}
    {clb : sch_dwrr2.dwrr_class} {a : sch_dwrr.dwrr_sched_data} {b : sch_dwrr2.dwrr_sched_data}
    (hl : cla.len_bytes = clb.len_bytes) (hi : cla.id = clb.id)
    (hs : a.sum_len_bytes = b.sum_len_bytes) :
    sch_dwrr.enqueue_overfill ca len cla a = sch_dwrr2.dwrr_buffer_overfill cb len clb b := by
  unfold sch_dwrr.enqueue_overfill sch_dwrr2.dwrr_buffer_overfill
  rw [hc.buffer_mode, hc.shared_buffer_bytes, hc.queue_buffer_bytes, hl, hi, hs]
  simp only [sch_dwrr.DWRR_QDISC_SHARED_BUFFER, sch_dwrr.DWRR_QDISC_STATIC_BUFFER,
    sch_dwrr2.dwrr_shared_buffer, sch_dwrr2.dwrr_static_buffer]
  by_cases h1 : cb.dwrr_buffer_mode = 0 ∧
      u32_add b.sum_len_bytes len > u32_of_int cb.dwrr_shared_buffer_bytes
  · simp [h1]
  · by_cases h2 : cb.dwrr_buffer_mode = 1 ∧
        u32_add clb.len_bytes len > u32_of_int (cb.dwrr_queue_buffer_bytes clb.id)
    · simp [h1, h2]
    · simp [h1, h2]

theorem class_sim_update {fa : Fin 8 → sch_dwrr.dwrr_class} {fb : Fin 8 → sch_dwrr2.dwrr_class}
    (h : ∀ j, class_sim j (fa j) (fb j)) (i : Fin 8) {ca : sch_dwrr.dwrr_class}
    {cb : sch_dwrr2.dwrr_class} (hab : class_sim i ca cb) (j : Fin 8) :
    class_sim j (Function.update fa i ca j) (Function.update fb i cb j) := by
  by_cases hj : j = i
  · subst hj
    rw [Function.update_same, Function.update_same]
    exact hab
  · rw [Function.update_noteq hj, Function.update_noteq hj]
    exact h j

theorem sim_init (clka clkb : Nat → Int) (ra rb : Nat) :
    sim (sch_dwrr.dwrr_qdisc_init clka ra) (sch_dwrr2.dwrr_init clkb rb) := by
  refine ⟨?_, rfl, rfl, rfl, rfl, fun j => ?_, fun j hj => ?_⟩
  · simp [sch_dwrr.active_ok, sch_dwrr.dwrr_qdisc_init]
  · exact ⟨rfl, rfl, List.Forall₂.nil, fun p hp => by simp [sch_dwrr.dwrr_qdisc_init] at hp,
      rfl, rfl, rfl⟩
  · simp [sch_dwrr.dwrr_qdisc_init] at hj

theorem sim_age {a : sch_dwrr.dwrr_sched_data} {b : sch_dwrr2.dwrr_sched_data} (h : sim a b)
    (ra rb : Int) : sim { a with round_time_ns := ra } { b with round_time := rb } :=
  ⟨h.active_ok, h.active, h.sum_len_bytes, h.qlen, h.drops, h.queues, h.deficit⟩

theorem sim_drop {a : sch_dwrr.dwrr_sched_data} {b : sch_dwrr2.dwrr_sched_data} (h : sim a b)
    (i : Fin 8) (n : Nat) :
    sim (sch_dwrr.dwrr_qdisc_enqueue_drop a i n) (sch_dwrr2.dwrr_enqueue_drop b i n) := by
  have hi := h.queues i
  have hqa : (sch_dwrr.dwrr_qdisc_enqueue_drop a i n).queues = Function.update a.queues i
      { a.queues i with qdisc_drops := (a.queues i).qdisc_drops + n } := rfl
  have hqb : (sch_dwrr2.dwrr_enqueue_drop b i n).queues = Function.update b.queues i
      { b.queues i with qdisc_drops := (b.queues i).qdisc_drops + n } := rfl
  refine ⟨(sch_dwrr.active_ok_blocks_qdisc (fun _ => True)).2.1 a i n h.active_ok, h.active,
    h.sum_len_bytes, h.qlen, ?_, fun j => ?_, fun j hj => ?_⟩
  · show a.drops + 1 = b.drops + 1
    rw [h.drops]
  · rw [hqa, hqb]
    refine class_sim_update h.queues i ?_ j
    exact ⟨hi.id_left, hi.id_right, hi.qdisc, hi.bounded,
      by show _ + n = _ + n; rw [hi.qdisc_drops], hi.len_bytes, hi.quantum⟩
  · have hj' : j ∈ a.activeList := hj
    rw [hqa, hqb]
    by_cases e : j = i
    · subst e
      rw [Function.update_same, Function.update_same]
      exact h.deficit j hj'
    · rw [Function.update_noteq e, Function.update_noteq e]
      exact h.deficit j hj'


theorem enqueue_ecn_equiv (cfg : sch_dwrr.dwrr_params) (skb : sk_buff)
    (q : sch_dwrr.dwrr_sched_data) (cl : sch_dwrr.dwrr_class) :
    sch_dwrr2.ce_equiv (sch_dwrr.enqueue_ecn cfg skb q cl) skb := by
  unfold sch_dwrr.enqueue_ecn sch_dwrr.dwrr_qdisc_ecn INET_ECN_set_ce
  repeat' split
  all_goals exact ⟨rfl, rfl, rfl⟩

theorem dequeue_ecn_equiv (cfg : sch_dwrr.dwrr_params) (skb : sk_buff)
    (q : sch_dwrr.dwrr_sched_data) (cl : sch_dwrr.dwrr_class) :
    sch_dwrr2.ce_equiv (sch_dwrr.dequeue_ecn cfg skb q cl) skb := by
  unfold sch_dwrr.dequeue_ecn sch_dwrr.dwrr_qdisc_ecn INET_ECN_set_ce
  repeat' split
  all_goals exact ⟨rfl, rfl, rfl⟩

theorem ecn_marking_equiv (cfg : sch_dwrr2.dwrr_params) (skb : sk_buff)
    (q : sch_dwrr2.dwrr_sched_data) (cl : sch_dwrr2.dwrr_class) :
    sch_dwrr2.ce_equiv (sch_dwrr2.dwrr_ecn_marking cfg skb q cl) skb := by
  rcases sch_dwrr2.ecn_marking_cases cfg skb q cl with e | e <;> rw [e] <;> exact ⟨rfl, rfl, rfl⟩

theorem ce_equiv_symm {a b : sk_buff} (h : sch_dwrr2.ce_equiv a b) : sch_dwrr2.ce_equiv b a :=
  ⟨h.1.symm, h.2.1.symm, h.2.2.symm⟩

theorem ce_equiv_trans {a b c : sk_buff} (h1 : sch_dwrr2.ce_equiv a b)
    (h2 : sch_dwrr2.ce_equiv b c) : sch_dwrr2.ce_equiv a c :=
  ⟨h1.1.trans h2.1, h1.2.1.trans h2.2.1, h1.2.2.trans h2.2.2⟩

/-- In related states the flag `active` of sch_dwrr is clear exactly when the
FIFO of sch_dwrr2 is empty. -/
theorem sim_inactive_iff {a : sch_dwrr.dwrr_sched_data} {b : sch_dwrr2.dwrr_sched_data}
    (h : sim a b) (i : Fin 8) (skb : sk_buff) :
    (a.queues i).active = 0 ↔ ((b.queues i).qdisc ++ [skb]).length = 1 := by
  have hl := sch_dwrr2.equiv_length (h.queues i).qdisc
  have hm := h.active_ok.2 i
  rw [List.length_append, List.length_singleton]
  by_cases hi : i ∈ a.activeList
  · obtain ⟨h1, h2⟩ := hm.1 hi
    have h3 : (a.queues i).qdisc.length ≠ 0 := fun e => h2 (List.length_eq_zero.mp e)
    constructor
    · intro e
      rw [e] at h1
      omega
    · intro e
      omega
  · obtain ⟨h1, h2⟩ := hm.2 hi
    constructor
    · intro _
      rw [← hl, h2]
      rfl
    · intro _
      exact h1

theorem sim_enqueue_class {ca : sch_dwrr.dwrr_params} {cb : sch_dwrr2.dwrr_params}
    (hc : same_config ca cb) {a : sch_dwrr.dwrr_sched_data} {b : sch_dwrr2.dwrr_sched_data}
    (h : sim a b) (ta tb : Int) (i : Fin 8) (skb : sk_buff) {ma mb : sk_buff}
    (hm : sch_dwrr2.ce_equiv ma mb) (hma : ma.len = skb.len)
    (hb : bfifo_backlog (a.queues i).qdisc + skb.len ≤ 2000000) :
    class_sim i
      { sch_dwrr.dwrr_qdisc_enqueue_class ca ta a i skb with
        qdisc := (a.queues i).qdisc ++ [ma] }
      { sch_dwrr2.dwrr_enqueue_class cb tb b i skb with
        qdisc := (b.queues i).qdisc ++ [mb] } := by
  have hi := h.queues i
  have hbd : ∀ p ∈ (a.queues i).qdisc ++ [ma], p.len ≤ 2000000 := by
    intro p hp
    rcases List.mem_append.mp hp with h1 | h1
    · exact hi.bounded p h1
    · rw [List.mem_singleton] at h1
      rw [h1, hma]
      omega
  have hq : u32_of_int (ca.DWRR_QDISC_QUEUE_QUANTUM (a.queues i).id) =
      u32_of_int (cb.dwrr_queue_quantum (b.queues i).id) := by
    rw [hc.queue_quantum, hi.id_left, hi.id_right]
  have hlb : u32_add (a.queues i).len_bytes (sch_dwrr.skb_size skb) =
      u32_add (b.queues i).len_bytes (sch_dwrr2.skb_size skb) := by
    rw [hi.len_bytes, skb_size_same]
  by_cases ha : (a.queues i).active = 0
  · have hl := (sim_inactive_iff h i skb).mp ha
    unfold sch_dwrr.dwrr_qdisc_enqueue_class sch_dwrr2.dwrr_enqueue_class
    rw [if_pos ha, if_pos hl]
    exact ⟨hi.id_left, hi.id_right, sch_dwrr2.equiv_append hi.qdisc hm, hbd, hi.qdisc_drops,
      hlb, hq⟩
  · have hl : ¬ ((b.queues i).qdisc ++ [skb]).length = 1 :=
      fun e => ha ((sim_inactive_iff h i skb).mpr e)
    unfold sch_dwrr.dwrr_qdisc_enqueue_class sch_dwrr2.dwrr_enqueue_class
    rw [if_neg ha, if_neg hl]
    exact ⟨hi.id_left, hi.id_right, sch_dwrr2.equiv_append hi.qdisc hm, hbd, hi.qdisc_drops,
      hlb, hi.quantum⟩

theorem sim_enqueue_deficit {ca : sch_dwrr.dwrr_params} {cb : sch_dwrr2.dwrr_params}
    (hc : same_config ca cb) {a : sch_dwrr.dwrr_sched_data} {b : sch_dwrr2.dwrr_sched_data}
    (h : sim a b) (ta tb : Int) (i : Fin 8) (skb : sk_buff) :
    (sch_dwrr2.dwrr_enqueue_class cb tb b i skb).deficit =
        sch_dwrr.deficit_at_visit (sch_dwrr.dwrr_qdisc_enqueue_class ca ta a i skb) ∧
      (sch_dwrr2.dwrr_enqueue_class cb tb b i skb).deficit < 4294967296 := by
  have hi := h.queues i
  have hq : u32_of_int (ca.DWRR_QDISC_QUEUE_QUANTUM (a.queues i).id) =
      u32_of_int (cb.dwrr_queue_quantum (b.queues i).id) := by
    rw [hc.queue_quantum, hi.id_left, hi.id_right]
  by_cases ha : (a.queues i).active = 0
  · have hl := (sim_inactive_iff h i skb).mp ha
    unfold sch_dwrr.dwrr_qdisc_enqueue_class sch_dwrr2.dwrr_enqueue_class
    rw [if_pos ha, if_pos hl]
    refine ⟨?_, sch_dwrr2.u32_of_int_lt _⟩
    show u32_of_int (cb.dwrr_queue_quantum (b.queues i).id) =
      0 + (if (0 : Nat) = 0 then u32_of_int (ca.DWRR_QDISC_QUEUE_QUANTUM (a.queues i).id) else 0)
    rw [if_pos rfl, hq, Nat.zero_add]
  · have hl : ¬ ((b.queues i).qdisc ++ [skb]).length = 1 :=
      fun e => ha ((sim_inactive_iff h i skb).mpr e)
    have hmem : i ∈ a.activeList := by
      by_contra hn
      exact ha ((h.active_ok.2 i).2 hn).1
    unfold sch_dwrr.dwrr_qdisc_enqueue_class sch_dwrr2.dwrr_enqueue_class
    rw [if_neg ha, if_neg hl]
    exact h.deficit i hmem

theorem sim_mark {ca : sch_dwrr.dwrr_params} {cb : sch_dwrr2.dwrr_params}
    (hc : same_config ca cb) {a : sch_dwrr.dwrr_sched_data} {b : sch_dwrr2.dwrr_sched_data}
    (h : sim a b) (ta tb : Int) (i : Fin 8) (skb : sk_buff)
    (hb : bfifo_backlog (a.queues i).qdisc + skb.len ≤ 2000000) :
    sim (sch_dwrr.dwrr_qdisc_enqueue_mark ca ta a i skb)
      (sch_dwrr2.dwrr_enqueue_mark cb tb b i skb) := by
  have hqa : (sch_dwrr.dwrr_qdisc_enqueue_mark ca ta a i skb).queues = Function.update a.queues i
      { sch_dwrr.dwrr_qdisc_enqueue_class ca ta a i skb with
        qdisc := (a.queues i).qdisc ++
          [sch_dwrr.enqueue_ecn ca skb (sch_dwrr.dwrr_qdisc_enqueue_accept ca ta a i skb)
            (sch_dwrr.dwrr_qdisc_enqueue_class ca ta a i skb)] } := rfl
  have hqb : (sch_dwrr2.dwrr_enqueue_mark cb tb b i skb).queues = Function.update b.queues i
      { sch_dwrr2.dwrr_enqueue_class cb tb b i skb with
        qdisc := (b.queues i).qdisc ++
          [sch_dwrr2.dwrr_ecn_marking cb skb (sch_dwrr2.dwrr_enqueue_accept cb tb b i skb)
            (sch_dwrr2.dwrr_enqueue_class cb tb b i skb)] } := rfl
  have hla : (sch_dwrr.dwrr_qdisc_enqueue_mark ca ta a i skb).activeList =
      if (a.queues i).active = 0 then a.activeList ++ [i] else a.activeList := rfl
  have hlb : (sch_dwrr2.dwrr_enqueue_mark cb tb b i skb).active =
      if ((b.queues i).qdisc ++ [skb]).length = 1 then b.active ++ [i] else b.active := rfl
  have hm : sch_dwrr2.ce_equiv
      (sch_dwrr.enqueue_ecn ca skb (sch_dwrr.dwrr_qdisc_enqueue_accept ca ta a i skb)
        (sch_dwrr.dwrr_qdisc_enqueue_class ca ta a i skb))
      (sch_dwrr2.dwrr_ecn_marking cb skb (sch_dwrr2.dwrr_enqueue_accept cb tb b i skb)
        (sch_dwrr2.dwrr_enqueue_class cb tb b i skb)) :=
    ce_equiv_trans (enqueue_ecn_equiv _ _ _ _) (ce_equiv_symm (ecn_marking_equiv _ _ _ _))
  refine ⟨(sch_dwrr.active_ok_blocks_qdisc (fun _ => True)).2.2.1 ca ta a i skb trivial
    h.active_ok hb, ?_, ?_, ?_, h.drops, fun j => ?_, fun j hj => ?_⟩
  · rw [hla, hlb, h.active]
    by_cases ha : (a.queues i).active = 0
    · rw [if_pos ha, if_pos ((sim_inactive_iff h i skb).mp ha)]
    · rw [if_neg ha, if_neg (fun e => ha ((sim_inactive_iff h i skb).mpr e))]
  · show u32_add a.sum_len_bytes (sch_dwrr.skb_size skb) =
      u32_add b.sum_len_bytes (sch_dwrr2.skb_size skb)
    rw [h.sum_len_bytes, skb_size_same]
  · show u32_add a.qlen 1 = u32_add b.qlen 1
    rw [h.qlen]
  · rw [hqa, hqb]
    exact class_sim_update h.queues i
      (sim_enqueue_class hc h ta tb i skb hm (sch_dwrr.enqueue_ecn_len _ _ _ _) hb) j
  · rw [hla] at hj
    rw [hqa, hqb]
    by_cases e : j = i
    · subst e
      rw [Function.update_same, Function.update_same]
      exact sim_enqueue_deficit hc h ta tb j skb
    · rw [Function.update_noteq e, Function.update_noteq e]
      refine h.deficit j ?_
      by_cases ha : (a.queues i).active = 0
      · rw [if_pos ha] at hj
        rcases List.mem_append.mp hj with h1 | h1
        · exact h1
        · rw [List.mem_singleton] at h1
          exact absurd h1 e
      · rw [if_neg ha] at hj
        exact hj

/-- A call of the enqueue function in the two variants from related states: same
return code, related states. -/
theorem sim_enqueue {ca : sch_dwrr.dwrr_params} {cb : sch_dwrr2.dwrr_params}
    (hc : same_config ca cb) {a : sch_dwrr.dwrr_sched_data} {b : sch_dwrr2.dwrr_sched_data}
    (h : sim a b) (clka clkb : Nat → Int) (skb : sk_buff) :
    (sch_dwrr.dwrr_qdisc_enqueue ca clka skb a).1 = (sch_dwrr2.dwrr_enqueue cb clkb skb b).1 ∧
      sim (sch_dwrr.dwrr_qdisc_enqueue ca clka skb a).2
        (sch_dwrr2.dwrr_enqueue cb clkb skb b).2 := by
  have h0 : sim { a with round_time_ns := sch_dwrr.dwrr_qdisc_idle_ageing ca clka a }
      { b with round_time := sch_dwrr2.dwrr_idle_ageing cb clkb b } := sim_age h _ _
  have hcl := classify_same hc skb
  have hi := h.queues (sch_dwrr2.dwrr_classify cb skb)
  have ho : sch_dwrr.enqueue_overfill ca (sch_dwrr.skb_size skb)
      (a.queues (sch_dwrr2.dwrr_classify cb skb))
      { a with round_time_ns := sch_dwrr.dwrr_qdisc_idle_ageing ca clka a } =
      sch_dwrr2.dwrr_buffer_overfill cb (sch_dwrr2.skb_size skb)
        (b.queues (sch_dwrr2.dwrr_classify cb skb))
        { b with round_time := sch_dwrr2.dwrr_idle_ageing cb clkb b } :=
    overfill_same hc _ hi.len_bytes (hi.id_left.trans hi.id_right.symm) h.sum_len_bytes
  have hbl := sch_dwrr2.backlog_equiv hi.qdisc
  unfold sch_dwrr.dwrr_qdisc_enqueue
  simp only
  rw [hcl, ho]
  cases hov : sch_dwrr2.dwrr_buffer_overfill cb (sch_dwrr2.skb_size skb)
      (b.queues (sch_dwrr2.dwrr_classify cb skb))
      { b with round_time := sch_dwrr2.dwrr_idle_ageing cb clkb b }
  · by_cases hr : bfifo_backlog (b.queues (sch_dwrr2.dwrr_classify cb skb)).qdisc + skb.len ≤
        sch_dwrr2.dwrr_max_buffer_bytes
    · rw [sch_dwrr2.enqueue_of_room cb clkb skb b hov hr]
      have hra : bfifo_backlog (a.queues (sch_dwrr2.dwrr_classify cb skb)).qdisc + skb.len ≤
          sch_dwrr.DWRR_QDISC_MAX_BUFFER_BYTES := by rw [hbl]; exact hr
      unfold bfifo_enqueue
      simp only [Bool.false_eq_true, if_false]
      rw [if_pos hra]
      exact ⟨rfl, sim_mark hc h0 _ _ _ skb hra⟩
    · rw [sch_dwrr2.enqueue_of_full cb clkb skb b hov hr]
      have hra : ¬ bfifo_backlog (a.queues (sch_dwrr2.dwrr_classify cb skb)).qdisc + skb.len ≤
          sch_dwrr.DWRR_QDISC_MAX_BUFFER_BYTES := by rw [hbl]; exact hr
      unfold bfifo_enqueue
      simp only [Bool.false_eq_true, if_false]
      rw [if_neg hra]
      exact ⟨rfl, sim_drop h0 _ 2⟩
  · rw [sch_dwrr2.enqueue_of_overfill cb clkb skb b hov]
    rw [if_pos rfl]
    exact ⟨rfl, sim_drop h0 _ 1⟩


theorem iter_released_qdisc {cfg : sch_dwrr.dwrr_params} {clk : Nat → Int}
    {q : sch_dwrr.dwrr_sched_data} {i : Fin 8} {rest : List (Fin 8)} {skb : sk_buff}
    {tl : List sk_buff} (hq : q.activeList = i :: rest) (hf : (q.queues i).qdisc = skb :: tl)
    (hd : sch_dwrr.skb_size skb ≤ ((sch_dwrr.dwrr_qdisc_dequeue_visit q i).queues i).deficitCounter)
    (ht : sch_dwrr.dwrr_qdisc_toks cfg (clk 0) (sch_dwrr.dwrr_qdisc_dequeue_visit q i) >
      s64 (sch_dwrr.l2t_ns (sch_dwrr.dwrr_qdisc_dequeue_visit q i).rate (sch_dwrr.skb_size skb))) :
    sch_dwrr.dwrr_qdisc_dequeue_iter cfg clk q =
      .exit (sch_dwrr.dwrr_qdisc_dequeue_release cfg clk (sch_dwrr.dwrr_qdisc_dequeue_visit q i)
          i rest skb tl)
        (.sent i (sch_dwrr.dequeue_ecn cfg skb
          (sch_dwrr.dwrr_qdisc_dequeue_sent (clk 1) (sch_dwrr.dwrr_qdisc_dequeue_visit q i) i
            skb tl)
          (sch_dwrr.dwrr_qdisc_dequeue_sent_class (clk 1)
            (sch_dwrr.dwrr_qdisc_dequeue_visit q i) i skb tl))) := by
  unfold sch_dwrr.dwrr_qdisc_dequeue_iter
  simp only [hq, hf]
  rw [if_pos hd, if_pos ht]

theorem iter_starved_qdisc {cfg : sch_dwrr.dwrr_params} {clk : Nat → Int}
    {q : sch_dwrr.dwrr_sched_data} {i : Fin 8} {rest : List (Fin 8)} {skb : sk_buff}
    {tl : List sk_buff} (hq : q.activeList = i :: rest) (hf : (q.queues i).qdisc = skb :: tl)
    (hd : sch_dwrr.skb_size skb ≤ ((sch_dwrr.dwrr_qdisc_dequeue_visit q i).queues i).deficitCounter)
    (ht : ¬ sch_dwrr.dwrr_qdisc_toks cfg (clk 0) (sch_dwrr.dwrr_qdisc_dequeue_visit q i) >
      s64 (sch_dwrr.l2t_ns (sch_dwrr.dwrr_qdisc_dequeue_visit q i).rate (sch_dwrr.skb_size skb))) :
    sch_dwrr.dwrr_qdisc_dequeue_iter cfg clk q =
      .exit (sch_dwrr.dwrr_qdisc_dequeue_throttle cfg (clk 0)
        (sch_dwrr.dwrr_qdisc_dequeue_visit q i) (sch_dwrr.skb_size skb)) .overlimit := by
  unfold sch_dwrr.dwrr_qdisc_dequeue_iter
  simp only [hq, hf]
  rw [if_pos hd, if_neg ht]

theorem iter_no_class_qdisc {cfg : sch_dwrr.dwrr_params} {clk : Nat → Int}
    {q : sch_dwrr.dwrr_sched_data} (hq : q.activeList = []) :
    sch_dwrr.dwrr_qdisc_dequeue_iter cfg clk q = .exit q .no_class := by
  unfold sch_dwrr.dwrr_qdisc_dequeue_iter
  simp only [hq]

/-- The start of a pass of the loop of sch_dwrr keeps the relation: the class at
the head of the rotation is then being served, and its deficit counter is the
deficit of sch_dwrr2. -/
theorem sim_visit {a : sch_dwrr.dwrr_sched_data} {b : sch_dwrr2.dwrr_sched_data} (h : sim a b)
    {i : Fin 8} {rest : List (Fin 8)} (hq : a.activeList = i :: rest) :
    sim (sch_dwrr.dwrr_qdisc_dequeue_visit a i) b ∧
      ((sch_dwrr.dwrr_qdisc_dequeue_visit a i).queues i).curr ≠ 0 ∧
      ((sch_dwrr.dwrr_qdisc_dequeue_visit a i).queues i).deficitCounter =
        (b.queues i).deficit := by
  have hi := h.queues i
  have hmem : i ∈ a.activeList := by rw [hq]; exact List.mem_cons_self _ _
  obtain ⟨hd, hlt⟩ := h.deficit i hmem
  have hqa : (sch_dwrr.dwrr_qdisc_dequeue_visit a i).queues =
      Function.update a.queues i (sch_dwrr.dwrr_qdisc_dequeue_visit_class a i) := rfl
  have key : (sch_dwrr.dwrr_qdisc_dequeue_visit_class a i).curr ≠ 0 ∧
      (sch_dwrr.dwrr_qdisc_dequeue_visit_class a i).deficitCounter = (b.queues i).deficit ∧
      class_sim i (sch_dwrr.dwrr_qdisc_dequeue_visit_class a i) (b.queues i) := by
    unfold sch_dwrr.deficit_at_visit at hd
    unfold sch_dwrr.dwrr_qdisc_dequeue_visit_class
    by_cases hc : (a.queues i).curr = 0
    · rw [if_pos hc] at hd ⊢
      refine ⟨by show (1 : Nat) ≠ 0; omega, ?_,
        ⟨hi.id_left, hi.id_right, hi.qdisc, hi.bounded, hi.qdisc_drops, hi.len_bytes, hi.quantum⟩⟩
      show u32_add (a.queues i).deficitCounter (a.queues i).quantum = (b.queues i).deficit
      unfold u32_add
      omega
    · rw [if_neg hc] at hd ⊢
      exact ⟨hc, by omega, hi⟩
  refine ⟨⟨(sch_dwrr.active_ok_blocks_qdisc (fun _ => True)).2.2.2.1 a i rest h.active_ok hq,
    h.active, h.sum_len_bytes, h.qlen, h.drops, fun j => ?_, fun j hj => ?_⟩, ?_, ?_⟩
  · rw [hqa]
    by_cases e : j = i
    · subst e
      rw [Function.update_same]
      exact key.2.2
    · rw [Function.update_noteq e]
      exact h.queues j
  · have hj' : j ∈ a.activeList := hj
    rw [hqa]
    by_cases e : j = i
    · subst e
      rw [Function.update_same]
      refine ⟨?_, hlt⟩
      unfold sch_dwrr.deficit_at_visit
      rw [if_neg key.1, key.2.1]
      rfl
    · rw [Function.update_noteq e]
      exact h.deficit j hj'
  · rw [hqa, Function.update_same]
    exact key.1
  · rw [hqa, Function.update_same]
    exact key.2.1

theorem sim_throttle {a : sch_dwrr.dwrr_sched_data} {b : sch_dwrr2.dwrr_sched_data}
    (h : sim a b) (ca : sch_dwrr.dwrr_params) (cb : sch_dwrr2.dwrr_params) (ta tb : Int)
    (la lb : Nat) :
    sim (sch_dwrr.dwrr_qdisc_dequeue_throttle ca ta a la)
      (sch_dwrr2.dwrr_dequeue_throttle cb tb b lb) :=
  ⟨h.active_ok, h.active, h.sum_len_bytes, h.qlen, h.drops, h.queues, h.deficit⟩

theorem sim_release {a : sch_dwrr.dwrr_sched_data} {b : sch_dwrr2.dwrr_sched_data}
    (h : sim a b) (ca : sch_dwrr.dwrr_params) (cb : sch_dwrr2.dwrr_params) (clk : Nat → Int)
    (now : Int) {i : Fin 8} {rest : List (Fin 8)} {sa sb : sk_buff} {ta tb : List sk_buff}
    (hq : a.activeList = i :: rest) (hfa : (a.queues i).qdisc = sa :: ta)
    (hs : sch_dwrr2.ce_equiv sa sb) (ht : List.Forall₂ sch_dwrr2.ce_equiv ta tb)
    (hc : (a.queues i).curr ≠ 0) (hdc : (a.queues i).deficitCounter = (b.queues i).deficit)
    (hd : sch_dwrr.skb_size sa ≤ (a.queues i).deficitCounter) :
    sim (sch_dwrr.dwrr_qdisc_dequeue_release ca clk a i rest sa ta)
      (sch_dwrr2.dwrr_dequeue_release cb now b i rest sb tb) := by
  have hi := h.queues i
  have hsz : sch_dwrr.skb_size sa = sch_dwrr2.skb_size sb :=
    (skb_size_same sa).trans (sch_dwrr2.ce_equiv_size hs)
  have hnd : (i :: rest).Nodup := by rw [← hq]; exact h.active_ok.1
  have hni : i ∉ rest := (List.nodup_cons.mp hnd).1
  have hqa : (sch_dwrr.dwrr_qdisc_dequeue_release ca clk a i rest sa ta).queues =
      Function.update a.queues i
        (sch_dwrr.dwrr_qdisc_dequeue_release_class ca (clk 1) a i sa ta) := rfl
  have hqb : (sch_dwrr2.dwrr_dequeue_release cb now b i rest sb tb).queues =
      Function.update b.queues i (sch_dwrr2.dwrr_dequeue_release_class now b i sb tb) := rfl
  have hla : (sch_dwrr.dwrr_qdisc_dequeue_release ca clk a i rest sa ta).activeList =
      if ta = [] then rest else i :: rest := rfl
  have hlb : (sch_dwrr2.dwrr_dequeue_release cb now b i rest sb tb).active =
      if tb = [] then rest else i :: rest := rfl
  have hbd : ∀ p ∈ ta, p.len ≤ 2000000 := fun p hp =>
    hi.bounded p (by rw [hfa]; exact List.mem_cons_of_mem _ hp)
  have hcs : class_sim i (sch_dwrr.dwrr_qdisc_dequeue_release_class ca (clk 1) a i sa ta)
      (sch_dwrr2.dwrr_dequeue_release_class now b i sb tb) := by
    have hlen : u32_sub (a.queues i).len_bytes (sch_dwrr.skb_size sa) =
        u32_sub (b.queues i).len_bytes (sch_dwrr2.skb_size sb) := by rw [hi.len_bytes, hsz]
    unfold sch_dwrr.dwrr_qdisc_dequeue_release_class
    split
    · exact ⟨hi.id_left, hi.id_right, ht, hbd, hi.qdisc_drops, hlen, hi.quantum⟩
    · exact ⟨hi.id_left, hi.id_right, ht, hbd, hi.qdisc_drops, hlen, hi.quantum⟩
  refine ⟨(sch_dwrr.active_ok_blocks_qdisc (fun _ => True)).2.2.2.2.2.1 ca clk a i rest sa ta
    trivial h.active_ok hq hfa hd, ?_, ?_, ?_, h.drops, fun j => ?_, fun j hj => ?_⟩
  · rw [hla, hlb]
    by_cases e : ta = []
    · rw [if_pos e, if_pos ((sch_dwrr2.equiv_nil_iff ht).mp e)]
    · rw [if_neg e, if_neg (fun e2 => e ((sch_dwrr2.equiv_nil_iff ht).mpr e2))]
  · show u32_sub a.sum_len_bytes (sch_dwrr.skb_size sa) =
      u32_sub b.sum_len_bytes (sch_dwrr2.skb_size sb)
    rw [h.sum_len_bytes, hsz]
  · show u32_sub a.qlen 1 = u32_sub b.qlen 1
    rw [h.qlen]
  · rw [hqa, hqb]
    exact class_sim_update h.queues i hcs j
  · rw [hla] at hj
    rw [hqa, hqb]
    by_cases e : j = i
    · subst e
      by_cases e2 : ta = []
      · rw [if_pos e2] at hj
        exact absurd hj hni
      · rw [Function.update_same, Function.update_same]
        unfold sch_dwrr.dwrr_qdisc_dequeue_release_class
        rw [if_neg e2]
        refine ⟨?_, sch_dwrr2.u32_sub_lt _ _⟩
        unfold sch_dwrr.deficit_at_visit
        show u32_sub (b.queues j).deficit (sch_dwrr2.skb_size sb) =
          u32_sub (a.queues j).deficitCounter (sch_dwrr.skb_size sa) +
            (if (a.queues j).curr = 0 then (a.queues j).quantum else 0)
        rw [if_neg hc, hdc, hsz]
        rfl
    · rw [Function.update_noteq e, Function.update_noteq e]
      refine h.deficit j ?_
      rw [hq]
      by_cases e2 : ta = []
      · rw [if_pos e2] at hj
        exact List.mem_cons_of_mem _ hj
      · rw [if_neg e2] at hj
        exact hj


theorem sim_yield {ca : sch_dwrr.dwrr_params} {cb : sch_dwrr2.dwrr_params}
    (hcfg : same_config ca cb) (hQ : quanta_permitted cb)
    {a : sch_dwrr.dwrr_sched_data} {b : sch_dwrr2.dwrr_sched_data}
    (h : sim a b) (t : Int) {i : Fin 8} {rest : List (Fin 8)} {sa : sk_buff}
    {ta : List sk_buff} (hq : a.activeList = i :: rest) (hfa : (a.queues i).qdisc = sa :: ta)
    (hc : (a.queues i).curr ≠ 0) (hdc : (a.queues i).deficitCounter = (b.queues i).deficit)
    (hd : (a.queues i).deficitCounter < sch_dwrr.skb_size sa) :
    sim (sch_dwrr.dwrr_qdisc_dequeue_yield ca t a i rest)
      (sch_dwrr2.dwrr_dequeue_yield cb b i rest) := by
  have hi := h.queues i
  have hqa : (sch_dwrr.dwrr_qdisc_dequeue_yield ca t a i rest).queues =
      Function.update a.queues i (sch_dwrr.dwrr_qdisc_dequeue_yield_class ca t a i) := rfl
  have hqb : (sch_dwrr2.dwrr_dequeue_yield cb b i rest).queues =
      Function.update b.queues i (sch_dwrr2.dwrr_dequeue_yield_class cb b i) := rfl
  have hla : (sch_dwrr.dwrr_qdisc_dequeue_yield ca t a i rest).activeList = rest ++ [i] := rfl
  have hqn : u32_of_int (ca.DWRR_QDISC_QUEUE_QUANTUM (a.queues i).id) =
      u32_of_int (cb.dwrr_queue_quantum (b.queues i).id) := by
    rw [hcfg.queue_quantum, hi.id_left, hi.id_right]
  have hqb2 : u32_of_int (cb.dwrr_queue_quantum (b.queues i).id) ≤ 204800 := by
    rw [hi.id_right]
    obtain ⟨h1, h2⟩ := hQ i.val i.isLt
    unfold u32_of_int
    omega
  have hsz : sch_dwrr.skb_size sa ≤ 2000024 :=
    sch_dwrr.skb_size_le_qdisc sa (hi.bounded sa (by rw [hfa]; exact List.mem_cons_self _ _))
  have hcs : class_sim i (sch_dwrr.dwrr_qdisc_dequeue_yield_class ca t a i)
      (sch_dwrr2.dwrr_dequeue_yield_class cb b i) :=
    ⟨hi.id_left, hi.id_right, hi.qdisc, hi.bounded, hi.qdisc_drops, hi.len_bytes, hqn⟩
  refine ⟨(sch_dwrr.active_ok_blocks_qdisc (fun _ => True)).2.2.2.2.2.2 ca t a i rest sa ta
    trivial h.active_ok hq hfa hd, ?_, h.sum_len_bytes, h.qlen, h.drops, fun j => ?_,
    fun j hj => ?_⟩
  · show rest ++ [i] = rest ++ [i]
    rfl
  · rw [hqa, hqb]
    exact class_sim_update h.queues i hcs j
  · rw [hla] at hj
    rw [hqa, hqb]
    by_cases e : j = i
    · subst e
      rw [Function.update_same, Function.update_same]
      unfold sch_dwrr.deficit_at_visit sch_dwrr.dwrr_qdisc_dequeue_yield_class
        sch_dwrr2.dwrr_dequeue_yield_class
      simp only [if_true]
      rw [hcfg.enable_wrr, hqn, ← hdc]
      by_cases hw : cb.dwrr_enable_wrr = 1
      · have hw1 : cb.dwrr_enable_wrr = sch_dwrr2.dwrr_enable := hw
        have hw2 : cb.dwrr_enable_wrr = sch_dwrr.DWRR_QDISC_WRR_ON := hw
        rw [if_pos hw1, if_pos hw2]
        omega
      · have hw1 : ¬ cb.dwrr_enable_wrr = sch_dwrr2.dwrr_enable := hw
        have hw2 : ¬ cb.dwrr_enable_wrr = sch_dwrr.DWRR_QDISC_WRR_ON := hw
        rw [if_neg hw1, if_neg hw2]
        unfold u32_add
        omega
    · rw [Function.update_noteq e, Function.update_noteq e]
      refine h.deficit j ?_
      rw [hq]
      rcases List.mem_append.mp hj with h1 | h1
      · exact List.mem_cons_of_mem _ h1
      · rw [List.mem_singleton] at h1
        exact absurd h1 e

/-- One pass of the dequeue loop in the two variants from related states: the same
class gives up its turn in both, or both leave the loop; when the token gate
defers in both or in neither the results are the same and the states related. -/
theorem sim_iter {ca : sch_dwrr.dwrr_params} {cb : sch_dwrr2.dwrr_params}
    (hcfg : same_config ca cb) (hQ : quanta_permitted cb)
    {a : sch_dwrr.dwrr_sched_data} {b : sch_dwrr2.dwrr_sched_data} (h : sim a b)
    (clk : Nat → Int) (now : Int) :
    (∃ a1 b1 ra rb, sch_dwrr.dwrr_qdisc_dequeue_iter ca clk a = .exit a1 ra ∧
      sch_dwrr2.dwrr_dequeue_iter cb now b = .exit b1 rb ∧
      ((ra = .overlimit ↔ rb = .overlimit) → exit_sim ra rb ∧ sim a1 b1)) ∨
    (∃ a1 b1 i, sch_dwrr.dwrr_qdisc_dequeue_iter ca clk a = .again a1 i ∧
      sch_dwrr2.dwrr_dequeue_iter cb now b = .again b1 i ∧ sim a1 b1) := by
  cases hb : b.active with
  | nil =>
    left
    exact ⟨a, b, .no_class, .no_class, iter_no_class_qdisc (h.active.trans hb),
      sch_dwrr2.iter_no_class hb, fun _ => ⟨trivial, h⟩⟩
  | cons i rest =>
    have ha : a.activeList = i :: rest := h.active.trans hb
    have hmem : i ∈ a.activeList := by rw [ha]; exact List.mem_cons_self _ _
    have hne := ((h.active_ok.2 i).1 hmem).2
    have hfe := (h.queues i).qdisc
    obtain ⟨hv, hc, hdc⟩ := sim_visit h ha
    cases hfa : (a.queues i).qdisc with
    | nil => exact absurd hfa hne
    | cons sa ta =>
      rw [hfa] at hfe
      cases hfb : (b.queues i).qdisc with
      | nil =>
        rw [hfb] at hfe
        cases hfe
      | cons sb tb =>
        rw [hfb] at hfe
        have hs : sch_dwrr2.ce_equiv sa sb := by
          cases hfe with
          | cons h1 _ => exact h1
        have htl : List.Forall₂ sch_dwrr2.ce_equiv ta tb := by
          cases hfe with
          | cons _ h2 => exact h2
        have hsz : sch_dwrr.skb_size sa = sch_dwrr2.skb_size sb :=
          (skb_size_same sa).trans (sch_dwrr2.ce_equiv_size hs)
        have hfv : ((sch_dwrr.dwrr_qdisc_dequeue_visit a i).queues i).qdisc = sa :: ta := by
          have := (sch_dwrr.untouched_visit a i).1 i
          rw [this.1]
          exact hfa
        have hav : (sch_dwrr.dwrr_qdisc_dequeue_visit a i).activeList = i :: rest := ha
        by_cases hd : sch_dwrr2.skb_size sb ≤ (b.queues i).deficit
        · have hda : sch_dwrr.skb_size sa ≤
              ((sch_dwrr.dwrr_qdisc_dequeue_visit a i).queues i).deficitCounter := by
            rw [hsz, hdc]
            exact hd
          left
          by_cases hta : sch_dwrr.dwrr_qdisc_toks ca (clk 0)
              (sch_dwrr.dwrr_qdisc_dequeue_visit a i) >
              s64 (sch_dwrr.l2t_ns (sch_dwrr.dwrr_qdisc_dequeue_visit a i).rate
                (sch_dwrr.skb_size sa))
          · by_cases htb : sch_dwrr2.tbf_schedule cb (sch_dwrr2.skb_size sb) b now < 0
            · refine ⟨_, _, _, _, iter_released_qdisc ha hfa hda hta,
                sch_dwrr2.iter_throttle hb hfb hd htb, fun e => ?_⟩
              exact absurd (e.mpr rfl) (by simp)
            · refine ⟨_, _, _, _, iter_released_qdisc ha hfa hda hta,
                sch_dwrr2.iter_release hb hfb hd htb, fun _ => ⟨⟨rfl, ?_⟩, ?_⟩⟩
              · refine ce_equiv_trans (dequeue_ecn_equiv _ _ _ _) (ce_equiv_trans hs ?_)
                rcases sch_dwrr2.dequeue_packet_cases cb now b i rest sb tb with e | e <;>
                  rw [e] <;> exact ⟨rfl, rfl, rfl⟩
              · exact sim_release hv ca cb clk now hav hfv hs htl hc hdc hda
          · by_cases htb : sch_dwrr2.tbf_schedule cb (sch_dwrr2.skb_size sb) b now < 0
            · exact ⟨_, _, _, _, iter_starved_qdisc ha hfa hda hta,
                sch_dwrr2.iter_throttle hb hfb hd htb,
                fun _ => ⟨trivial, sim_throttle hv ca cb _ _ _ _⟩⟩
            · refine ⟨_, _, _, _, iter_starved_qdisc ha hfa hda hta,
                sch_dwrr2.iter_release hb hfb hd htb, fun e => ?_⟩
              exact absurd (e.mp rfl) (by simp)
        · have hda : ¬ sch_dwrr.skb_size sa ≤
              ((sch_dwrr.dwrr_qdisc_dequeue_visit a i).queues i).deficitCounter := by
            rw [hsz, hdc]
            exact hd
          right
          exact ⟨_, _, i, sch_dwrr.iter_yields_qdisc ha hfa hda, sch_dwrr2.iter_yields hb hfb hd,
            sim_yield hcfg hQ hv (clk 0) hav hfv hc hdc (not_le.mp hda)⟩

/-- The dequeue loop in the two variants from related states. -/
theorem sim_loop {ca : sch_dwrr.dwrr_params} {cb : sch_dwrr2.dwrr_params}
    (hcfg : same_config ca cb) (hQ : quanta_permitted cb) (now : Int) (fuel : Nat) :
    ∀ (clk : Nat → Int) {a : sch_dwrr.dwrr_sched_data} {b : sch_dwrr2.dwrr_sched_data},
      sim a b →
      (sch_dwrr.dwrr_qdisc_dequeue_loop ca fuel clk a = none ∧
        sch_dwrr2.dwrr_dequeue_loop cb now fuel b = none) ∨
      ∃ a1 b1 ra rb ys, sch_dwrr.dwrr_qdisc_dequeue_loop ca fuel clk a = some (a1, ra, ys) ∧
        sch_dwrr2.dwrr_dequeue_loop cb now fuel b = some (b1, rb, ys) ∧
        ((ra = .overlimit ↔ rb = .overlimit) → exit_sim ra rb ∧ sim a1 b1) := by
  induction fuel with
  | zero =>
    intro clk a b _
    exact Or.inl ⟨rfl, rfl⟩
  | succ n ih =>
    intro clk a b h
    rcases sim_iter hcfg hQ h clk now with ⟨a1, b1, ra, rb, h1, h2, h3⟩ | ⟨a1, b1, i, h1, h2, h3⟩
    · right
      refine ⟨a1, b1, ra, rb, [], ?_, ?_, h3⟩
      · simp only [sch_dwrr.dwrr_qdisc_dequeue_loop, h1]
      · simp only [sch_dwrr2.dwrr_dequeue_loop, h2]
    · rcases ih (fun k => clk (k + 1)) h3 with ⟨e1, e2⟩ | ⟨a2, b2, ra, rb, ys, e1, e2, e3⟩
      · left
        constructor
        · simp only [sch_dwrr.dwrr_qdisc_dequeue_loop, h1, e1]
        · simp only [sch_dwrr2.dwrr_dequeue_loop, h2, e2]
      · right
        refine ⟨a2, b2, ra, rb, i :: ys, ?_, ?_, e3⟩
        · simp only [sch_dwrr.dwrr_qdisc_dequeue_loop, h1, e1]
        · simp only [sch_dwrr2.dwrr_dequeue_loop, h2, e2]

/-- A call of the dequeue function in the two variants from related states: it
reaches the bound in both or returns in both after the same turns given up, and
when the token gate defers in both or in neither, with the same result up to the
CE mark and related states. -/
theorem sim_dequeue {ca : sch_dwrr.dwrr_params} {cb : sch_dwrr2.dwrr_params}
    (hcfg : same_config ca cb) (hQ : quanta_permitted cb) (fuel : Nat) (clk : Nat → Int)
    (now : Int) {a : sch_dwrr.dwrr_sched_data} {b : sch_dwrr2.dwrr_sched_data} (h : sim a b) :
    (sch_dwrr.dwrr_qdisc_dequeue fuel ca clk a = none ∧
      sch_dwrr2.dwrr_dequeue fuel cb now b = none) ∨
    ∃ a1 b1 ra rb ys, sch_dwrr.dwrr_qdisc_dequeue fuel ca clk a = some (a1, ra, ys) ∧
      sch_dwrr2.dwrr_dequeue fuel cb now b = some (b1, rb, ys) ∧
      ((ra = .overlimit ↔ rb = .overlimit) → exit_sim ra rb ∧ sim a1 b1) := by
  by_cases hb : b.active = []
  · right
    have ha : a.activeList = [] := h.active.trans hb
    refine ⟨a, b, .idle, .idle, [], ?_, ?_, fun _ => ⟨trivial, h⟩⟩
    · unfold sch_dwrr.dwrr_qdisc_dequeue
      rw [if_pos ha]
    · unfold sch_dwrr2.dwrr_dequeue
      rw [if_pos hb]
  · have ha : ¬ a.activeList = [] := by rw [h.active]; exact hb
    unfold sch_dwrr.dwrr_qdisc_dequeue sch_dwrr2.dwrr_dequeue
    rw [if_neg ha, if_neg hb]
    exact sim_loop hcfg hQ now fuel clk h


/-- One call in the two variants from related states. -/
theorem sim_exec_call {ca : sch_dwrr.dwrr_params} {cb : sch_dwrr2.dwrr_params}
    (hcfg : same_config ca cb) (hQ : quanta_permitted cb)
    {a : sch_dwrr.dwrr_sched_data} {b : sch_dwrr2.dwrr_sched_data} (h : sim a b)
    (c : sch_dwrr.call) :
    (sch_dwrr.exec_call ca a c = none ∧ sch_dwrr2.exec_call cb b c.refactored = none) ∨
    ∃ a1 b1 ra rb, sch_dwrr.exec_call ca a c = some (a1, ra) ∧
      sch_dwrr2.exec_call cb b c.refactored = some (b1, rb) ∧
      ((∀ ys, ra ≠ .deq .overlimit ys) → (∀ ys, rb ≠ .deq .overlimit ys) →
        result_sim ra rb ∧ sim a1 b1) := by
  cases c with
  | enqueue clk skb =>
    right
    obtain ⟨h1, h2⟩ := sim_enqueue hcfg h clk clk skb
    exact ⟨_, _, _, _, rfl, rfl, fun _ _ => ⟨h1, h2⟩⟩
  | dequeue fuel clk =>
    rcases sim_dequeue hcfg hQ fuel clk (clk 0) h with ⟨e1, e2⟩ | ⟨a1, b1, ra, rb, ys, e1, e2, e3⟩
    · left
      constructor
      · simp only [sch_dwrr.exec_call, e1]
      · simp only [sch_dwrr.call.refactored, sch_dwrr2.exec_call, e2]
    · right
      refine ⟨a1, b1, .deq ra ys, .deq rb ys, ?_, ?_, fun n1 n2 => ?_⟩
      · simp only [sch_dwrr.exec_call, e1]
      · simp only [sch_dwrr.call.refactored, sch_dwrr2.exec_call, e2]
      · have k1 : ra ≠ .overlimit := fun e => n1 ys (by rw [e])
        have k2 : rb ≠ .overlimit := fun e => n2 ys (by rw [e])
        obtain ⟨x1, x2⟩ := e3 ⟨fun e => absurd e k1, fun e => absurd e k2⟩
        exact ⟨⟨x1, rfl⟩, x2⟩

/-- Two runs of the two variants given the same calls under the same scheduling
settings, in which the token gate never defers. -/
theorem sim_exec_calls {la : List (sch_dwrr.dwrr_params × sch_dwrr.call)}
    {lb : List (sch_dwrr2.dwrr_params × sch_dwrr2.call)}
    (hl : List.Forall₂
      (fun x y => same_config x.1 y.1 ∧ quanta_permitted y.1 ∧ y.2 = x.2.refactored) la lb) :
    ∀ {a : sch_dwrr.dwrr_sched_data} {b : sch_dwrr2.dwrr_sched_data}, sim a b →
      ∀ a1 ra b1 rb, sch_dwrr.exec_calls la a = some (a1, ra) →
        sch_dwrr2.exec_calls lb b = some (b1, rb) →
        sch_dwrr.never_defers ra → sch_dwrr2.never_defers rb →
        List.Forall₂ result_sim ra rb ∧ sim a1 b1 := by
  induction hl with
  | nil =>
    intro a b h a1 ra b1 rb h1 h2 _ _
    simp only [sch_dwrr.exec_calls, Option.some.injEq, Prod.mk.injEq] at h1
    simp only [sch_dwrr2.exec_calls, Option.some.injEq, Prod.mk.injEq] at h2
    rw [← h1.1, ← h1.2, ← h2.1, ← h2.2]
    exact ⟨List.Forall₂.nil, h⟩
  | @cons x y la lb hxy _ ih =>
    intro a b h a1 ra b1 rb h1 h2 n1 n2
    obtain ⟨cfa, c⟩ := x
    obtain ⟨cfb, c2⟩ := y
    obtain ⟨hcfg, hQ, hc⟩ := hxy
    simp only at hcfg hQ hc
    subst hc
    rcases sim_exec_call hcfg hQ h c with ⟨e1, _⟩ | ⟨a2, b2, r1, r2, e1, e2, e3⟩
    · simp only [sch_dwrr.exec_calls, e1] at h1
      simp at h1
    · simp only [sch_dwrr.exec_calls, e1] at h1
      simp only [sch_dwrr2.exec_calls, e2] at h2
      cases f1 : sch_dwrr.exec_calls la a2 with
      | none =>
        rw [f1] at h1
        simp at h1
      | some v1 =>
        obtain ⟨a3, rs1⟩ := v1
        rw [f1] at h1
        simp only [Option.some.injEq, Prod.mk.injEq] at h1
        cases f2 : sch_dwrr2.exec_calls lb b2 with
        | none =>
          rw [f2] at h2
          simp at h2
        | some v2 =>
          obtain ⟨b3, rs2⟩ := v2
          rw [f2] at h2
          simp only [Option.some.injEq, Prod.mk.injEq] at h2
          obtain ⟨g1, g2⟩ := h1
          obtain ⟨g3, g4⟩ := h2
          subst g1 g2 g3 g4
          obtain ⟨k1, k2⟩ := e3 (fun ys e => n1 ys (by rw [e]; exact List.mem_cons_self _ _))
            (fun ys e => n2 ys (by rw [e]; exact List.mem_cons_self _ _))
          obtain ⟨m1, m2⟩ := ih k2 a3 rs1 b3 rs2 f1 f2
            (fun ys hm => n1 ys (List.mem_cons_of_mem _ hm))
            (fun ys hm => n2 ys (List.mem_cons_of_mem _ hm))
          exact ⟨List.Forall₂.cons k1 m1, m2⟩

/-- The two variants schedule identically as long as no call divides by zero
(`dwrr_qdisc_enqueue_traps`, `dwrr_enqueue_traps` and the like say when a call
does, which needs the MQ-ECN scheme).  The relation `sim` between a
state of sch_dwrr and a state of sch_dwrr2 says: equal rotation order, equal byte
counters (`sum_len_bytes`, `len_bytes` of every class, `qlen`), equal drop
counters and quanta, the same packets in every FIFO up to the CE mark, and for
each class in the rotation `deficit` of sch_dwrr2 equals `deficitCounter` of
sch_dwrr plus its quantum when `curr == 0` (without 32-bit wrap).  It holds
between the initial states; it is kept by an enqueue call made in both variants
under the same scheduling settings (quanta, WRR flag, buffer mode and capacities,
DSCP table), which returns the same code in both, so the same packets are
accepted and dropped; and for a dequeue call made in both variants under the same
settings with quanta in the range the sysctl table accepts, and any bound on the
passes of the loop, both calls reach the bound or both return, after the same
turns given up, and when the token gate defers in both or in neither they return
the same result (the same packet of the same class up to the CE mark, or no
packet for the same reason) and leave related states.  Hence two runs from the
initial states given the same calls, in which the token gate never defers, return
the same call by call and end in related states. -/
theorem variants_schedule_identically :
    (∀ (clka clkb : Nat → Int) (ra rb : Nat),
      sim (sch_dwrr.dwrr_qdisc_init clka ra) (sch_dwrr2.dwrr_init clkb rb)) ∧
    (∀ (ca : sch_dwrr.dwrr_params) (cb : sch_dwrr2.dwrr_params) (a : sch_dwrr.dwrr_sched_data)
      (b : sch_dwrr2.dwrr_sched_data) (clka clkb : Nat → Int) (skb : sk_buff),
      same_config ca cb → sim a b →
      sch_dwrr.dwrr_qdisc_enqueue_traps ca clka skb a = false →
      sch_dwrr2.dwrr_enqueue_traps cb clkb skb b = false →
      (sch_dwrr.dwrr_qdisc_enqueue ca clka skb a).1 = (sch_dwrr2.dwrr_enqueue cb clkb skb b).1 ∧
        sim (sch_dwrr.dwrr_qdisc_enqueue ca clka skb a).2
          (sch_dwrr2.dwrr_enqueue cb clkb skb b).2) ∧
    (∀ (ca : sch_dwrr.dwrr_params) (cb : sch_dwrr2.dwrr_params) (a : sch_dwrr.dwrr_sched_data)
      (b : sch_dwrr2.dwrr_sched_data) (fuel : Nat) (clk : Nat → Int) (now : Int),
      same_config ca cb → quanta_permitted cb → sim a b →
      sch_dwrr.dwrr_qdisc_dequeue_traps fuel ca clk a = false →
      sch_dwrr2.dwrr_dequeue_traps fuel cb now b = false →
      (sch_dwrr.dwrr_qdisc_dequeue fuel ca clk a = none ∧
        sch_dwrr2.dwrr_dequeue fuel cb now b = none) ∨
      ∃ a1 b1 ra rb ys, sch_dwrr.dwrr_qdisc_dequeue fuel ca clk a = some (a1, ra, ys) ∧
        sch_dwrr2.dwrr_dequeue fuel cb now b = some (b1, rb, ys) ∧
        ((ra = .overlimit ↔ rb = .overlimit) → exit_sim ra rb ∧ sim a1 b1)) ∧
    (∀ (la : List (sch_dwrr.dwrr_params × sch_dwrr.call))
      (lb : List (sch_dwrr2.dwrr_params × sch_dwrr2.call)) (clka clkb : Nat → Int)
      (ratea rateb : Nat),
      List.Forall₂
        (fun x y => same_config x.1 y.1 ∧ quanta_permitted y.1 ∧ y.2 = x.2.refactored) la lb →
      sch_dwrr.exec_calls_trap la (sch_dwrr.dwrr_qdisc_init clka ratea) = false →
      sch_dwrr2.exec_calls_trap lb (sch_dwrr2.dwrr_init clkb rateb) = false →
      ∀ a1 ra b1 rb,
        sch_dwrr.exec_calls la (sch_dwrr.dwrr_qdisc_init clka ratea) = some (a1, ra) →
        sch_dwrr2.exec_calls lb (sch_dwrr2.dwrr_init clkb rateb) = some (b1, rb) →
        sch_dwrr.never_defers ra → sch_dwrr2.never_defers rb →
        List.Forall₂ result_sim ra rb ∧ sim a1 b1) :=
  ⟨sim_init, fun _ _ _ _ clka clkb skb hc h _ _ => sim_enqueue hc h clka clkb skb,
    fun _ _ _ _ fuel clk now hc hQ h _ _ => sim_dequeue hc hQ fuel clk now h,
    fun _ _ clka clkb ratea rateb hl _ _ a1 ra b1 rb h1 h2 n1 n2 =>
      sim_exec_calls hl (sim_init clka clkb ratea rateb) a1 ra b1 rb h1 h2 n1 n2⟩


theorem same_config_init :
    same_config sch_dwrr.dwrr_qdisc_params_init sch_dwrr2.dwrr_params_init :=
  ⟨rfl, rfl, rfl, rfl, rfl, rfl⟩

theorem quanta_permitted_init : quanta_permitted sch_dwrr2.dwrr_params_init := by
  intro n _
  show (1538 : Int) ≤ 1538 ∧ (1538 : Int) ≤ 204800
  omega

set_option maxRecDepth 100000 in
/-- The two variants in the scenario: both accept the two packets, return the
first at the first dequeue and the second at the second dequeue after class 2
has given up its turn once, and end in related states. -/
theorem variants_schedule_identically_witness :
    ∃ a1 b1,
      sch_dwrr.exec_calls sch_dwrr.two_in_two_out (sch_dwrr.dwrr_qdisc_init (fun _ => 0) 125000000) =
        some (a1, [.code 0, .code 0, .deq (.sent 2 pkt_1500) [], .deq (.sent 2 pkt_1500) [2]]) ∧
      sch_dwrr2.exec_calls sch_dwrr2.two_in_two_out (sch_dwrr2.dwrr_init (fun _ => 0) 125000000) =
        some (b1, [.code 0, .code 0, .deq (.sent 2 pkt_1500) [], .deq (.sent 2 pkt_1500) [2]]) ∧
      List.Forall₂ result_sim
        [.code 0, .code 0, .deq (.sent 2 pkt_1500) [], .deq (.sent 2 pkt_1500) [2]]
        [.code 0, .code 0, .deq (.sent 2 pkt_1500) [], .deq (.sent 2 pkt_1500) [2]] ∧
      sim a1 b1 :=
  ⟨_, _, rfl, rfl,
    variants_schedule_identically.2.2.2 sch_dwrr.two_in_two_out sch_dwrr2.two_in_two_out
      (fun _ => 0) (fun _ => 0) 125000000 125000000
      (List.Forall₂.cons ⟨same_config_init, quanta_permitted_init, rfl⟩
        (List.Forall₂.cons ⟨same_config_init, quanta_permitted_init, rfl⟩
          (List.Forall₂.cons ⟨same_config_init, quanta_permitted_init, rfl⟩
            (List.Forall₂.cons ⟨same_config_init, quanta_permitted_init, rfl⟩
              List.Forall₂.nil))))
      rfl rfl _ _ _ _ rfl rfl (fun ys hm => by simp at hm) (fun ys hm => by simp at hm)⟩


/-! ### Accuracy of the length-to-time conversion -/

/-- Arithmetic of the fixed-point conversion: with `M = K / R` and
`L = len * M / 2^15` (both rounded down) and `K = k * 2^15`, `L` is at most
`len * k / R` and falls short of it by less than `1 + len / 2^15`. -/
theorem fixed_point_bounds (k R len : Nat) (hR : 0 < R) :
    ((len * (k * 2 ^ 15 / R) / 2 ^ 15 : Nat) : ℚ) ≤ (len : ℚ) * k / R ∧
      (len : ℚ) * k / R - ((len * (k * 2 ^ 15 / R) / 2 ^ 15 : Nat) : ℚ) < 1 + (len : ℚ) / 2 ^ 15 := by
  have hRq : (0 : ℚ) < R := by exact_mod_cast hR
  have hP : (0 : ℚ) < 2 ^ 15 := by norm_num
  have h1 : len * (k * 2 ^ 15 / R) / 2 ^ 15 * 2 ^ 15 ≤ len * (k * 2 ^ 15 / R) :=
    Nat.div_mul_le_self _ _
  have h2 : k * 2 ^ 15 / R * R ≤ k * 2 ^ 15 := Nat.div_mul_le_self _ _
  have h3 : len * (k * 2 ^ 15 / R) < (len * (k * 2 ^ 15 / R) / 2 ^ 15 + 1) * 2 ^ 15 := by
    have h := Nat.div_add_mod (len * (k * 2 ^ 15 / R)) (2 ^ 15)
    have hm := Nat.mod_lt (len * (k * 2 ^ 15 / R)) (by norm_num : 2 ^ 15 > 0)
    nlinarith
  have h4 : k * 2 ^ 15 < (k * 2 ^ 15 / R + 1) * R := by
    have h := Nat.div_add_mod (k * 2 ^ 15) R
    have hm := Nat.mod_lt (k * 2 ^ 15) hR
    nlinarith
  generalize len * (k * 2 ^ 15 / R) / 2 ^ 15 = L at h1 h3 ⊢
  generalize k * 2 ^ 15 / R = M at h1 h2 h3 h4 ⊢
  have q1 : (L : ℚ) * 2 ^ 15 ≤ len * M := by exact_mod_cast h1
  have q2 : (M : ℚ) * R ≤ k * 2 ^ 15 := by exact_mod_cast h2
  have q3 : (len : ℚ) * M < (L + 1) * 2 ^ 15 := by exact_mod_cast h3
  have q4 : (k : ℚ) * 2 ^ 15 < (M + 1) * R := by exact_mod_cast h4
  have hl : (0 : ℚ) ≤ len := Nat.cast_nonneg _
  constructor
  · rw [le_div_iff₀ hRq]
    have : (L : ℚ) * R * 2 ^ 15 ≤ len * k * 2 ^ 15 := by nlinarith
    nlinarith
  · rw [sub_lt_iff_lt_add, div_lt_iff₀ hRq]
    have e : (1 + (len : ℚ) / 2 ^ 15 + L) * R = ((2 ^ 15 + len + L * 2 ^ 15) * R) / 2 ^ 15 := by
      field_simp
    rw [e, lt_div_iff₀ hP]
    nlinarith


theorem l2t_ns_closed_form (r : sch_dwrr2.dwrr_rate_cfg) (h : 0 < r.rate_bps)
    (h64 : r.rate_bps < 18446744073709551616)
    (hm : 8000000000 * 2 ^ 15 / r.rate_bps < 4294967296) (len : Nat) (hl : len < 4294967296) :
    sch_dwrr2.l2t_ns (sch_dwrr2.precompute_ratedata r) len =
      len * (8000000000 * 2 ^ 15 / r.rate_bps) / 2 ^ 15 := by
  unfold sch_dwrr2.l2t_ns sch_dwrr2.precompute_ratedata
  rw [if_pos h]
  show ((len * (div64_u64 (8 * 1000000000 * 2 ^ 15) r.rate_bps % 4294967296)) %
    18446744073709551616) >>> 15 = _
  unfold div64_u64
  rw [Nat.mod_eq_of_lt h64]
  have e : 8 * 1000000000 * 2 ^ 15 % 18446744073709551616 = 8000000000 * 2 ^ 15 := by norm_num
  rw [e, Nat.mod_eq_of_lt hm, Nat.shiftRight_eq_div_pow]
  have hp : len * (8000000000 * 2 ^ 15 / r.rate_bps) < 18446744073709551616 := by
    have := Nat.mul_lt_mul'' hl hm
    omega
  rw [Nat.mod_eq_of_lt hp]

theorem l2t_ns_closed_form_qdisc (r : sch_dwrr.dwrr_rate_cfg) (h : 0 < r.rate_bps)
    (h64 : r.rate_bps < 18446744073709551616)
    (hm : 8000000000 * 2 ^ 15 / r.rate_bps < 4294967296) (len : Nat) (hl : len < 4294967296) :
    sch_dwrr.l2t_ns (sch_dwrr.dwrr_qdisc_precompute_ratedata r) len =
      len * (8000000000 * 2 ^ 15 / r.rate_bps) / 2 ^ 15 := by
  unfold sch_dwrr.l2t_ns sch_dwrr.dwrr_qdisc_precompute_ratedata
  rw [if_pos h]
  show ((len * (div64_u64 (8 * 1000000000 * 2 ^ 15) r.rate_bps % 4294967296)) %
    18446744073709551616) >>> 15 = _
  unfold div64_u64
  rw [Nat.mod_eq_of_lt h64]
  have e : 8 * 1000000000 * 2 ^ 15 % 18446744073709551616 = 8000000000 * 2 ^ 15 := by norm_num
  rw [e, Nat.mod_eq_of_lt hm, Nat.shiftRight_eq_div_pow]
  have hp : len * (8000000000 * 2 ^ 15 / r.rate_bps) < 18446744073709551616 := by
    have := Nat.mul_lt_mul'' hl hm
    omega
  rw [Nat.mod_eq_of_lt hp]

theorem closed_form_mono (M a b : Nat) (h : a ≤ b) : a * M / 2 ^ 15 ≤ b * M / 2 ^ 15 :=
  Nat.div_le_div_right (Nat.mul_le_mul_right M h)

/-- C25: accuracy of the length-to-time conversion, in both variants.  For every
rate `rate_bps > 0` (a 64-bit value) whose multiplier `8 * 10^9 * 2^15 / rate_bps`
fits in 32 bits and all 32-bit lengths `len ≤ len2` (the argument of `l2t_ns` is
an `unsigned int`): `l2t_ns` is non-decreasing in the length, `l2t_ns(r, len)`
never exceeds the exact transmission time `len * 8 * 10^9 / rate_bps` nanoseconds
(a rational number), and it falls short of it by less than `1 + len / 2^15`
nanoseconds. -/
theorem l2t_ns_accuracy :
    (∀ (r : sch_dwrr2.dwrr_rate_cfg) (len len2 : Nat), 0 < r.rate_bps →
      r.rate_bps < 18446744073709551616 → 8000000000 * 2 ^ 15 / r.rate_bps < 4294967296 →
      len ≤ len2 → len2 < 4294967296 →
      sch_dwrr2.l2t_ns (sch_dwrr2.precompute_ratedata r) len ≤
          sch_dwrr2.l2t_ns (sch_dwrr2.precompute_ratedata r) len2 ∧
        (sch_dwrr2.l2t_ns (sch_dwrr2.precompute_ratedata r) len : ℚ) ≤
          (len : ℚ) * 8000000000 / r.rate_bps ∧
        (len : ℚ) * 8000000000 / r.rate_bps -
            (sch_dwrr2.l2t_ns (sch_dwrr2.precompute_ratedata r) len : ℚ) <
          1 + (len : ℚ) / 2 ^ 15) ∧
    (∀ (r : sch_dwrr.dwrr_rate_cfg) (len len2 : Nat), 0 < r.rate_bps →
      r.rate_bps < 18446744073709551616 → 8000000000 * 2 ^ 15 / r.rate_bps < 4294967296 →
      len ≤ len2 → len2 < 4294967296 →
      sch_dwrr.l2t_ns (sch_dwrr.dwrr_qdisc_precompute_ratedata r) len ≤
          sch_dwrr.l2t_ns (sch_dwrr.dwrr_qdisc_precompute_ratedata r) len2 ∧
        (sch_dwrr.l2t_ns (sch_dwrr.dwrr_qdisc_precompute_ratedata r) len : ℚ) ≤
          (len : ℚ) * 8000000000 / r.rate_bps ∧
        (len : ℚ) * 8000000000 / r.rate_bps -
            (sch_dwrr.l2t_ns (sch_dwrr.dwrr_qdisc_precompute_ratedata r) len : ℚ) <
          1 + (len : ℚ) / 2 ^ 15) := by
  constructor
  · intro r len len2 h h64 hm hl hl2
    have hb := fixed_point_bounds 8000000000 r.rate_bps len h
    rw [l2t_ns_closed_form r h h64 hm len (by omega), l2t_ns_closed_form r h h64 hm len2 hl2]
    refine ⟨closed_form_mono _ _ _ hl, ?_, ?_⟩
    · have := hb.1
      push_cast at this ⊢
      exact this
    · have := hb.2
      push_cast at this ⊢
      exact this
  · intro r len len2 h h64 hm hl hl2
    have hb := fixed_point_bounds 8000000000 r.rate_bps len h
    rw [l2t_ns_closed_form_qdisc r h h64 hm len (by omega),
      l2t_ns_closed_form_qdisc r h h64 hm len2 hl2]
    refine ⟨closed_form_mono _ _ _ hl, ?_, ?_⟩
    · have := hb.1
      push_cast at this ⊢
      exact this
    · have := hb.2
      push_cast at this ⊢
      exact this

/-- The conversion at 1 Gbit/s: 1538 bytes cost 12304 ns, which is the exact
transmission time, and 84 bytes cost 672 ns. -/
theorem l2t_ns_accuracy_witness :
    sch_dwrr2.l2t_ns
        (sch_dwrr2.precompute_ratedata { rate_bps := 1000000000, mult := 0, shift := 0 }) 1538 =
      12304 ∧
    (sch_dwrr2.l2t_ns
          (sch_dwrr2.precompute_ratedata { rate_bps := 1000000000, mult := 0, shift := 0 }) 84 ≤
        sch_dwrr2.l2t_ns
          (sch_dwrr2.precompute_ratedata { rate_bps := 1000000000, mult := 0, shift := 0 }) 1538 ∧
      (sch_dwrr2.l2t_ns
          (sch_dwrr2.precompute_ratedata { rate_bps := 1000000000, mult := 0, shift := 0 }) 84 : ℚ) ≤
        ((84 : Nat) : ℚ) * 8000000000 / ((1000000000 : Nat) : ℚ) ∧
      ((84 : Nat) : ℚ) * 8000000000 / ((1000000000 : Nat) : ℚ) -
          (sch_dwrr2.l2t_ns
            (sch_dwrr2.precompute_ratedata { rate_bps := 1000000000, mult := 0, shift := 0 }) 84 : ℚ) <
        1 + ((84 : Nat) : ℚ) / 2 ^ 15) :=
  ⟨by decide,
    l2t_ns_accuracy.1 { rate_bps := 1000000000, mult := 0, shift := 0 } 84 1538 (by decide)
      (by decide) (by decide) (by decide) (by decide)⟩


/-! ### Induction over the reachable states with the admission test and the token gate -/

namespace sch_dwrr2

/-- Induction over the reachable states, block by block; the accepting branch
of `dwrr_enqueue` comes with the outcome of the admission test and the
releasing branch of `dwrr_dequeue` with the outcome of the token gate. -/
theorem reachable_induction_full (P : dwrr_params → Prop) (I : dwrr_sched_data → Prop)
    (h_init : ∀ clk rate, I (dwrr_init clk rate))
    (h_age : ∀ q rt, I q → I { q with round_time := rt })
    (h_drop : ∀ q i n, I q → I (dwrr_enqueue_drop q i n))
    (h_acc : ∀ cfg t q skb, P cfg → I q →
      dwrr_buffer_overfill cfg (skb_size skb) (q.queues (dwrr_classify cfg skb)) q = false →
      bfifo_backlog (q.queues (dwrr_classify cfg skb)).qdisc + skb.len ≤ dwrr_max_buffer_bytes →
      I (dwrr_enqueue_mark cfg t q (dwrr_classify cfg skb) skb))
    (h_thr : ∀ cfg now q len, I q → I (dwrr_dequeue_throttle cfg now q len))
    (h_rel : ∀ cfg now q i rest skb tl, P cfg → I q → q.active = i :: rest →
      (q.queues i).qdisc = skb :: tl → skb_size skb ≤ (q.queues i).deficit →
      0 ≤ tbf_schedule cfg (skb_size skb) q now →
      I (dwrr_dequeue_release cfg now q i rest skb tl))
    (h_yld : ∀ cfg q i rest skb tl, P cfg → I q → q.active = i :: rest →
      (q.queues i).qdisc = skb :: tl → (q.queues i).deficit < skb_size skb →
      I (dwrr_dequeue_yield cfg q i rest)) :
    (∀ q, Reachable P q → I q) ∧ (∀ q, Examined P q → I q) := by
  have h_iter_exit : ∀ cfg now q q1 r, P cfg → I q →
      dwrr_dequeue_iter cfg now q = .exit q1 r → I q1 := by
    intro cfg now q q1 r hc hI h
    rcases dwrr_dequeue_iter_exit h with ⟨_, h1, _⟩ | ⟨_, _, _, _, h1, _⟩ |
      ⟨i, rest, skb, tl, _, _, _, _, h1, _⟩ | ⟨i, rest, skb, tl, hq, hf, hd, ht, h1, _⟩
    · rw [h1]; exact hI
    · rw [h1]; exact hI
    · rw [h1]; exact h_thr _ _ _ _ hI
    · rw [h1]; exact h_rel _ _ _ _ _ _ _ hc hI hq hf hd ht
  have h_iter_again : ∀ cfg now q q1 j, P cfg → I q →
      dwrr_dequeue_iter cfg now q = .again q1 j → I q1 := by
    intro cfg now q q1 j hc hI h
    obtain ⟨rest, skb, tl, hq, hf, hd, h1⟩ := dwrr_dequeue_iter_again h
    rw [h1]; exact h_yld _ _ _ _ _ _ hc hI hq hf hd
  have h_loop : ∀ cfg now fuel q q1 r ys, P cfg → I q →
      dwrr_dequeue_loop cfg now fuel q = some (q1, r, ys) → I q1 := by
    intro cfg now fuel
    induction fuel with
    | zero => intro q q1 r ys _ _ h; simp [dwrr_dequeue_loop] at h
    | succ n ih =>
      intro q q1 r ys hc hI h
      unfold dwrr_dequeue_loop at h
      split at h
      · rename_i q2 r2 hit
        simp only [Option.some.injEq, Prod.mk.injEq] at h
        rw [← h.1]
        exact h_iter_exit _ _ _ _ _ hc hI hit
      · rename_i q2 j hit
        split at h
        · rename_i q3 r3 ys3 hl
          simp only [Option.some.injEq, Prod.mk.injEq] at h
          rw [← h.1]
          exact ih _ _ _ _ hc (h_iter_again _ _ _ _ _ hc hI hit) hl
        · simp at h
  have h_reach : ∀ q, Reachable P q → I q := by
    intro q hq
    induction hq with
    | init clk rate => exact h_init clk rate
    | enqueue cfg clk skb hc _ ih =>
      rcases dwrr_enqueue_cases cfg clk skb _ with ⟨n, h⟩ | ⟨ho, hb, h⟩
      · rw [h]; exact h_drop _ _ _ (h_age _ _ ih)
      · rw [h]; exact h_acc _ _ _ _ hc (h_age _ _ ih) ho hb
    | dequeue fuel cfg now hc _ hd ih =>
      unfold dwrr_dequeue at hd
      split at hd
      · simp only [Option.some.injEq, Prod.mk.injEq] at hd
        rw [← hd.1]; exact ih
      · exact h_loop _ _ _ _ _ _ _ hc ih hd
  refine ⟨h_reach, ?_⟩
  intro q hq
  induction hq with
  | entry hr _ => exact h_reach _ hr
  | again cfg now hc _ hit ih => exact h_iter_again _ _ _ _ _ hc ih hit

end sch_dwrr2

namespace sch_dwrr

/-- Induction over the reachable states of sch_dwrr, block by block; the
accepting branch of `dwrr_qdisc_enqueue` comes with the outcome of the admission
test and the releasing branch of `dwrr_qdisc_dequeue` with the outcome of the
token gate. -/
theorem reachable_induction_full_qdisc (P : dwrr_params → Prop) (I : dwrr_sched_data → Prop)
    (h_init : ∀ clk rate, I (dwrr_qdisc_init clk rate))
    (h_age : ∀ q rt, I q → I { q with round_time_ns := rt })
    (h_drop : ∀ q i n, I q → I (dwrr_qdisc_enqueue_drop q i n))
    (h_acc : ∀ cfg t q skb, P cfg → I q →
      enqueue_overfill cfg (skb_size skb) (q.queues (dwrr_qdisc_classify cfg skb)) q = false →
      bfifo_backlog (q.queues (dwrr_qdisc_classify cfg skb)).qdisc + skb.len ≤
        DWRR_QDISC_MAX_BUFFER_BYTES →
      I (dwrr_qdisc_enqueue_mark cfg t q (dwrr_qdisc_classify cfg skb) skb))
    (h_vis : ∀ q i rest, I q → q.activeList = i :: rest → I (dwrr_qdisc_dequeue_visit q i))
    (h_thr : ∀ cfg now q len, I q → I (dwrr_qdisc_dequeue_throttle cfg now q len))
    (h_rel : ∀ cfg clk q i rest skb tl, P cfg → I q → q.activeList = i :: rest →
      (q.queues i).qdisc = skb :: tl → skb_size skb ≤ (q.queues i).deficitCounter →
      dwrr_qdisc_toks cfg (clk 0) q > s64 (l2t_ns q.rate (skb_size skb)) →
      I (dwrr_qdisc_dequeue_release cfg clk q i rest skb tl))
    (h_yld : ∀ cfg t q i rest skb tl, P cfg → I q → q.activeList = i :: rest →
      (q.queues i).qdisc = skb :: tl → (q.queues i).deficitCounter < skb_size skb →
      I (dwrr_qdisc_dequeue_yield cfg t q i rest)) :
    (∀ q, Reachable P q → I q) ∧ (∀ q, Examined P q → I q) := by
  have h_iter_exit : ∀ cfg clk q q1 r, P cfg → I q →
      dwrr_qdisc_dequeue_iter cfg clk q = .exit q1 r → I q1 := by
    intro cfg clk q q1 r hc hI h
    rcases dwrr_qdisc_dequeue_iter_exit h with ⟨_, h1, _⟩ | ⟨i, rest, hq, _, h1, _⟩ |
      ⟨i, rest, skb, tl, hq, _, _, _, h1, _⟩ | ⟨i, rest, skb, tl, hq, hf, hd, ht, h1, _⟩
    · rw [h1]; exact hI
    · rw [h1]; exact h_vis _ _ _ hI hq
    · rw [h1]; exact h_thr _ _ _ _ (h_vis _ _ _ hI hq)
    · rw [h1]
      exact h_rel _ _ _ _ _ _ _ hc (h_vis _ _ _ hI hq) hq ((visit_qdisc q i).trans hf) hd ht
  have h_iter_again : ∀ cfg clk q q1 j, P cfg → I q →
      dwrr_qdisc_dequeue_iter cfg clk q = .again q1 j → I q1 := by
    intro cfg clk q q1 j hc hI h
    obtain ⟨rest, skb, tl, hq, hf, hd, h1⟩ := dwrr_qdisc_dequeue_iter_again h
    rw [h1]
    exact h_yld _ _ _ _ _ _ _ hc (h_vis _ _ _ hI hq) hq ((visit_qdisc q j).trans hf) hd
  have h_loop : ∀ cfg fuel clk q q1 r ys, P cfg → I q →
      dwrr_qdisc_dequeue_loop cfg fuel clk q = some (q1, r, ys) → I q1 := by
    intro cfg fuel
    induction fuel with
    | zero => intro clk q q1 r ys _ _ h; simp [dwrr_qdisc_dequeue_loop] at h
    | succ n ih =>
      intro clk q q1 r ys hc hI h
      unfold dwrr_qdisc_dequeue_loop at h
      split at h
      · rename_i q2 r2 hit
        simp only [Option.some.injEq, Prod.mk.injEq] at h
        rw [← h.1]
        exact h_iter_exit _ _ _ _ _ hc hI hit
      · rename_i q2 j hit
        split at h
        · rename_i q3 r3 ys3 hl
          simp only [Option.some.injEq, Prod.mk.injEq] at h
          rw [← h.1]
          exact ih _ _ _ _ _ hc (h_iter_again _ _ _ _ _ hc hI hit) hl
        · simp at h
  have h_reach : ∀ q, Reachable P q → I q := by
    intro q hq
    induction hq with
    | init clk rate => exact h_init clk rate
    | enqueue cfg clk skb hc _ ih =>
      rcases dwrr_qdisc_enqueue_cases cfg clk skb _ with ⟨n, h⟩ | ⟨ho, hb, h⟩
      · rw [h]; exact h_drop _ _ _ (h_age _ _ ih)
      · rw [h]; exact h_acc _ _ _ _ hc (h_age _ _ ih) ho hb
    | dequeue fuel cfg clk hc _ hd ih =>
      unfold dwrr_qdisc_dequeue at hd
      split at hd
      · simp only [Option.some.injEq, Prod.mk.injEq] at hd
        rw [← hd.1]; exact ih
      · exact h_loop _ _ _ _ _ _ _ hc ih hd
  refine ⟨h_reach, ?_⟩
  intro q hq
  induction hq with
  | entry hr _ => exact h_reach _ hr
  | again cfg clk hc _ hit ih => exact h_iter_again _ _ _ _ _ hc ih hit

theorem l2t_ns_init_lt_qdisc (rate x : Nat) (hx : x < 4294967296) :
    l2t_ns (dwrr_qdisc_precompute_ratedata
      { rate_bps := (rate % 4294967296) <<< 3, mult := 0, shift := 0 }) x
      < 562949953421312 := by
  unfold l2t_ns dwrr_qdisc_precompute_ratedata
  split
  · simp only [Nat.shiftRight_eq_div_pow]
    omega
  · simp only [Nat.shiftRight_eq_div_pow]
    omega

theorem skb_size_u32_qdisc (skb : sk_buff) : skb_size skb < 4294967296 := by
  unfold skb_size u32_add
  omega

/-- The rate is one set up by the initialisation and the tokens are not negative. -/
theorem tokens_nonneg_reachable_qdisc (P : dwrr_params → Prop)
    (hP : ∀ cfg, P cfg → 0 ≤ cfg.DWRR_QDISC_BUCKET_NS) :
    (∀ q, Reachable P q → (∃ rate, q.rate = dwrr_qdisc_precompute_ratedata
        { rate_bps := (rate % 4294967296) <<< 3, mult := 0, shift := 0 }) ∧ 0 ≤ q.tokens) ∧
    (∀ q, Examined P q → (∃ rate, q.rate = dwrr_qdisc_precompute_ratedata
        { rate_bps := (rate % 4294967296) <<< 3, mult := 0, shift := 0 }) ∧ 0 ≤ q.tokens) := by
  apply reachable_induction_full_qdisc P
    (fun q => (∃ rate, q.rate = dwrr_qdisc_precompute_ratedata
        { rate_bps := (rate % 4294967296) <<< 3, mult := 0, shift := 0 }) ∧ 0 ≤ q.tokens)
  · intro clk rate
    exact ⟨⟨rate, rfl⟩, le_refl _⟩
  · intro q rt h
    exact h
  · intro q i n h
    exact h
  · intro cfg t q skb _ h _ _
    exact h
  · intro q i rest h _
    exact h
  · intro cfg now q len h
    exact h
  · intro cfg clk q i rest skb tl hc h _ _ _ ht
    obtain ⟨⟨rate, hr⟩, _⟩ := h
    refine ⟨⟨rate, hr⟩, ?_⟩
    show 0 ≤ min (s64 (dwrr_qdisc_toks cfg (clk 0) q - s64 (l2t_ns q.rate (skb_size skb))))
      cfg.DWRR_QDISC_BUCKET_NS
    have hl := l2t_ns_init_lt_qdisc rate (skb_size skb) (skb_size_u32_qdisc skb)
    rw [← hr] at hl
    have hl' : (l2t_ns q.rate (skb_size skb) : Int) < 562949953421312 := by exact_mod_cast hl
    have hl0 : (0 : Int) ≤ l2t_ns q.rate (skb_size skb) := Int.ofNat_nonneg _
    have hs : s64 (l2t_ns q.rate (skb_size skb)) = l2t_ns q.rate (skb_size skb) :=
      sch_dwrr2.s64_of_small _ hl0 (by omega)
    rw [hs] at ht ⊢
    have htk : dwrr_qdisc_toks cfg (clk 0) q < 9223372036854775808 := by
      unfold dwrr_qdisc_toks s64
      omega
    have hd : s64 (dwrr_qdisc_toks cfg (clk 0) q - l2t_ns q.rate (skb_size skb)) =
        dwrr_qdisc_toks cfg (clk 0) q - l2t_ns q.rate (skb_size skb) :=
      sch_dwrr2.s64_of_small _ (by omega) (by omega)
    rw [hd]
    exact le_min (by omega) (hP cfg hc)
  · intro cfg t q i rest skb tl _ h _ _ _
    exact h

end sch_dwrr

/-- C23: the tokens are never negative, in both variants.  In every state
reachable from the initial state by enqueue and dequeue calls the stored value
`tokens` is at least 0: in sch_dwrr2 whatever the values of the sysctl variables
(the bucket depth in nanoseconds, `l2t_ns` of `dwrr_bucket_bytes` converted to 32
bits, is never negative), in sch_dwrr when every call is made with a bucket depth
`DWRR_QDISC_BUCKET_NS` that is not negative. -/
theorem tokens_never_negative :
    (∀ (P : sch_dwrr2.dwrr_params → Prop) (q : sch_dwrr2.dwrr_sched_data),
      sch_dwrr2.Reachable P q → 0 ≤ q.tokens) ∧
    (∀ (P : sch_dwrr.dwrr_params → Prop) (q : sch_dwrr.dwrr_sched_data),
      (∀ cfg, P cfg → 0 ≤ cfg.DWRR_QDISC_BUCKET_NS) → sch_dwrr.Reachable P q → 0 ≤ q.tokens) :=
  ⟨fun P q h => ((sch_dwrr2.tokens_range_reachable P).1 q h).2.1,
    fun P q hP h => ((sch_dwrr.tokens_nonneg_reachable_qdisc P hP).1 q h).2⟩


/-! ### Occupancy never exceeds capacity -/

namespace sch_dwrr2

theorem within_bound {m S : Int} {B : Nat → Int} {q : dwrr_sched_data}
    (hm : m = dwrr_shared_buffer ∨ m = dwrr_static_buffer) (hS : S ≤ 2147483647)
    (hB : ∀ n, n < 8 → B n ≤ 2147483647) (h : within_capacity m S B q) (i : Fin 8) :
    (q.queues i).len_bytes ≤ 2147483647 ∧
      (m = dwrr_shared_buffer → (q.queues i).len_bytes ≤ q.sum_len_bytes ∧
        q.sum_len_bytes ≤ 2147483647) := by
  rcases hm with e | e
  · obtain ⟨h1, h2⟩ := h.2.1 e
    have h3 : (q.queues i).len_bytes ≤ ∑ j, (q.queues j).len_bytes :=
      Finset.single_le_sum (f := fun j : Fin 8 => (q.queues j).len_bytes)
        (fun _ _ => Nat.zero_le _) (Finset.mem_univ i)
    refine ⟨by omega, fun _ => ⟨by omega, by omega⟩⟩
  · have h1 := h.2.2 e i
    have h2 := hB i.val i.isLt
    refine ⟨by omega, fun e2 => ?_⟩
    rw [e] at e2
    exact absurd e2 (by decide)

theorem within_update {m S : Int} {B : Nat → Int} {q q1 : dwrr_sched_data}
    (h : within_capacity m S B q) (i : Fin 8) (c : dwrr_class)
    (hq : q1.queues = Function.update q.queues i c) (hid : c.id = i.val)
    (hlen : c.len_bytes = (c.qdisc.map skb_size).sum)
    (hsh : m = dwrr_shared_buffer →
      q1.sum_len_bytes + (q.queues i).len_bytes = q.sum_len_bytes + c.len_bytes ∧
        (q1.sum_len_bytes : Int) ≤ S)
    (hst : m = dwrr_static_buffer → (c.len_bytes : Int) ≤ B i.val) :
    within_capacity m S B q1 := by
  refine ⟨fun j => ?_, fun e => ?_, fun e j => ?_⟩
  · rw [hq]
    by_cases hj : j = i
    · subst hj
      rw [Function.update_same]
      exact ⟨hid, hlen⟩
    · rw [Function.update_noteq hj]
      exact h.1 j
  · obtain ⟨h1, h2⟩ := hsh e
    obtain ⟨h3, _⟩ := h.2.1 e
    refine ⟨?_, h2⟩
    rw [hq]
    have key := len_bytes_sum_update q.queues i c
    omega
  · rw [hq]
    by_cases hj : j = i
    · subst hj
      rw [Function.update_same]
      exact hst e
    · rw [Function.update_noteq hj]
      exact h.2.2 e j

theorem within_same {m S : Int} {B : Nat → Int} {q q1 : dwrr_sched_data}
    (h : within_capacity m S B q)
    (hq : ∀ j, (q1.queues j).id = (q.queues j).id ∧ (q1.queues j).qdisc = (q.queues j).qdisc ∧
      (q1.queues j).len_bytes = (q.queues j).len_bytes)
    (hs : q1.sum_len_bytes = q.sum_len_bytes) : within_capacity m S B q1 := by
  refine ⟨fun j => ?_, fun e => ?_, fun e j => ?_⟩
  · rw [(hq j).1, (hq j).2.1, (hq j).2.2]
    exact h.1 j
  · rw [hs]
    have e2 : ∑ j, (q1.queues j).len_bytes = ∑ j, (q.queues j).len_bytes :=
      Finset.sum_congr rfl (fun j _ => (hq j).2.2)
    rw [e2]
    exact h.2.1 e
  · rw [(hq j).2.2]
    exact h.2.2 e j

theorem same_of_update (q : dwrr_sched_data) (i : Fin 8) (c : dwrr_class)
    (h1 : c.id = (q.queues i).id) (h2 : c.qdisc = (q.queues i).qdisc)
    (h3 : c.len_bytes = (q.queues i).len_bytes) (j : Fin 8) :
    (Function.update q.queues i c j).id = (q.queues j).id ∧
      (Function.update q.queues i c j).qdisc = (q.queues j).qdisc ∧
      (Function.update q.queues i c j).len_bytes = (q.queues j).len_bytes := by
  by_cases hj : j = i
  · subst hj
    rw [Function.update_same]
    exact ⟨h1, h2, h3⟩
  · rw [Function.update_noteq hj]
    exact ⟨rfl, rfl, rfl⟩

/-- With a fixed buffer configuration, capacities that are not negative and a mode
that is shared or static, every reachable state is within capacity. -/
theorem within_capacity_reachable (m S : Int) (B : Nat → Int)
    (hm : m = dwrr_shared_buffer ∨ m = dwrr_static_buffer)
    (hS0 : 0 ≤ S) (hS : S ≤ 2147483647)
    (hB : ∀ n, n < 8 → 0 ≤ B n ∧ B n ≤ 2147483647) :
    (∀ q, Reachable (buffer_config m S B) q → within_capacity m S B q) ∧
    (∀ q, Examined (buffer_config m S B) q → within_capacity m S B q) := by
  have hB2 : ∀ n, n < 8 → B n ≤ 2147483647 := fun n hn => (hB n hn).2
  apply reachable_induction_full (buffer_config m S B) (within_capacity m S B)
  · intro clk rate
    refine ⟨fun i => ⟨rfl, rfl⟩, fun _ => ⟨?_, hS0⟩, fun _ i => (hB i.val i.isLt).1⟩
    simp [dwrr_init]
  · intro q rt h
    exact within_same h (fun _ => ⟨rfl, rfl, rfl⟩) rfl
  · intro q i n h
    exact within_same h (same_of_update q i _ rfl rfl rfl) rfl
  · intro cfg t q skb hc h ho hb
    obtain ⟨hc1, hc2, hc3⟩ := hc
    have hbnd := within_bound hm hS hB2 h (dwrr_classify cfg skb)
    have hlen : skb.len ≤ dwrr_max_buffer_bytes := by omega
    have hsz := skb_size_le skb hlen
    have hno : ¬ (dwrr_buffer_overfill cfg (skb_size skb) (q.queues (dwrr_classify cfg skb)) q =
        true) := by rw [ho]; simp
    rw [dwrr_buffer_overfill_iff, not_or] at hno
    obtain ⟨hn1, hn2⟩ := hno
    have hcl : (dwrr_enqueue_class cfg t q (dwrr_classify cfg skb) skb).len_bytes =
        (q.queues (dwrr_classify cfg skb)).len_bytes + skb_size skb := by
      rw [enqueue_class_len_bytes]
      unfold u32_add
      omega
    have hmk : skb_size (dwrr_ecn_marking cfg skb
        (dwrr_enqueue_accept cfg t q (dwrr_classify cfg skb) skb)
        (dwrr_enqueue_class cfg t q (dwrr_classify cfg skb) skb)) = skb_size skb :=
      skb_size_congr (ecn_marking_len _ _ _ _)
    refine within_update h (dwrr_classify cfg skb)
      { dwrr_enqueue_class cfg t q (dwrr_classify cfg skb) skb with
        qdisc := (q.queues (dwrr_classify cfg skb)).qdisc ++
          [dwrr_ecn_marking cfg skb (dwrr_enqueue_accept cfg t q (dwrr_classify cfg skb) skb)
            (dwrr_enqueue_class cfg t q (dwrr_classify cfg skb) skb)] } rfl ?_ ?_ ?_ ?_
    · show (dwrr_enqueue_class cfg t q (dwrr_classify cfg skb) skb).id = _
      rw [enqueue_class_id]
      exact (h.1 _).1
    · show (dwrr_enqueue_class cfg t q (dwrr_classify cfg skb) skb).len_bytes =
        (((q.queues (dwrr_classify cfg skb)).qdisc ++ [dwrr_ecn_marking cfg skb
          (dwrr_enqueue_accept cfg t q (dwrr_classify cfg skb) skb)
          (dwrr_enqueue_class cfg t q (dwrr_classify cfg skb) skb)]).map skb_size).sum
      rw [hcl, (h.1 _).2, List.map_append, List.sum_append]
      simp only [List.map_cons, List.map_nil, List.sum_cons, List.sum_nil, Nat.add_zero]
      rw [hmk]
    · intro e
      obtain ⟨b1, b2⟩ := hbnd.2 e
      have hn1' : ¬ (q.sum_len_bytes + skb_size skb) % 4294967296 >
          u32_of_int cfg.dwrr_shared_buffer_bytes := fun x => hn1 ⟨hc1.trans e, x⟩
      have hu := u32_of_int_of_nonneg S hS0 (by omega)
      rw [hc2] at hn1'
      have hsum : (dwrr_enqueue_mark cfg t q (dwrr_classify cfg skb) skb).sum_len_bytes =
          q.sum_len_bytes + skb_size skb := by
        show u32_add q.sum_len_bytes (skb_size skb) = _
        unfold u32_add
        omega
      rw [hsum]
      constructor
      · show q.sum_len_bytes + skb_size skb + _ = q.sum_len_bytes +
          (dwrr_enqueue_class cfg t q (dwrr_classify cfg skb) skb).len_bytes
        rw [hcl]
        omega
      · rw [Nat.mod_eq_of_lt (by omega)] at hn1'
        omega
    · intro e
      show ((dwrr_enqueue_class cfg t q (dwrr_classify cfg skb) skb).len_bytes : Int) ≤ _
      rw [hcl]
      have hid := (h.1 (dwrr_classify cfg skb)).1
      have hn2' : ¬ ((q.queues (dwrr_classify cfg skb)).len_bytes + skb_size skb) % 4294967296 >
          u32_of_int (cfg.dwrr_queue_buffer_bytes (q.queues (dwrr_classify cfg skb)).id) :=
        fun x => hn2 ⟨hc1.trans e, x⟩
      rw [hid, hc3 _ (dwrr_classify cfg skb).isLt] at hn2'
      obtain ⟨hb0, hb1⟩ := hB (dwrr_classify cfg skb).val (dwrr_classify cfg skb).isLt
      have hu := u32_of_int_of_nonneg (B (dwrr_classify cfg skb).val) hb0 (by omega)
      rw [Nat.mod_eq_of_lt (by omega)] at hn2'
      push_cast
      omega
  · intro cfg now q len h
    exact within_same h (fun _ => ⟨rfl, rfl, rfl⟩) rfl
  · intro cfg now q i rest skb tl _ h _ hf _ _
    have hbnd := within_bound hm hS hB2 h i
    have hl : (q.queues i).len_bytes = skb_size skb + (tl.map skb_size).sum := by
      rw [(h.1 i).2, hf]
      simp
    have hcl : (dwrr_dequeue_release_class now q i skb tl).len_bytes = (tl.map skb_size).sum := by
      show u32_sub (q.queues i).len_bytes (skb_size skb) = _
      unfold u32_sub
      omega
    refine within_update h i (dwrr_dequeue_release_class now q i skb tl) rfl (h.1 i).1 hcl ?_ ?_
    · intro e
      obtain ⟨b1, b2⟩ := hbnd.2 e
      have hsum : (dwrr_dequeue_release cfg now q i rest skb tl).sum_len_bytes + skb_size skb =
          q.sum_len_bytes := by
        show u32_sub q.sum_len_bytes (skb_size skb) + skb_size skb = q.sum_len_bytes
        unfold u32_sub
        omega
      have h2 := (h.2.1 e).2
      rw [hcl]
      constructor
      · omega
      · omega
    · intro e
      rw [hcl]
      have := h.2.2 e i
      omega
  · intro cfg q i rest skb tl _ h _ _ _
    exact within_same h (same_of_update q i _ rfl rfl rfl) rfl

end sch_dwrr2


namespace sch_dwrr

theorem enqueue_class_len_bytes_qdisc (cfg : dwrr_params) (t : Int)
    (q : dwrr_sched_data) (i : Fin 8) (skb : sk_buff) :
    (dwrr_qdisc_enqueue_class cfg t q i skb).len_bytes =
      u32_add (q.queues i).len_bytes (skb_size skb) := by
  unfold dwrr_qdisc_enqueue_class
  split <;> rfl


theorem within_bound_qdisc {m S : Int} {B : Nat → Int} {q : dwrr_sched_data}
    (hm : m = DWRR_QDISC_SHARED_BUFFER ∨ m = DWRR_QDISC_STATIC_BUFFER) (hS : S ≤ 2147483647)
    (hB : ∀ n, n < 8 → B n ≤ 2147483647) (h : within_capacity m S B q) (i : Fin 8) :
    (q.queues i).len_bytes ≤ 2147483647 ∧
      (m = DWRR_QDISC_SHARED_BUFFER → (q.queues i).len_bytes ≤ q.sum_len_bytes ∧
        q.sum_len_bytes ≤ 2147483647) := by
  rcases hm with e | e
  · obtain ⟨h1, h2⟩ := h.2.1 e
    have h3 : (q.queues i).len_bytes ≤ ∑ j, (q.queues j).len_bytes :=
      Finset.single_le_sum (f := fun j : Fin 8 => (q.queues j).len_bytes)
        (fun _ _ => Nat.zero_le _) (Finset.mem_univ i)
    refine ⟨by omega, fun _ => ⟨by omega, by omega⟩⟩
  · have h1 := h.2.2 e i
    have h2 := hB i.val i.isLt
    refine ⟨by omega, fun e2 => ?_⟩
    rw [e] at e2
    exact absurd e2 (by decide)

theorem within_update_qdisc {m S : Int} {B : Nat → Int} {q q1 : dwrr_sched_data}
    (h : within_capacity m S B q) (i : Fin 8) (c : dwrr_class)
    (hq : q1.queues = Function.update q.queues i c) (hid : c.id = i.val)
    (hlen : c.len_bytes = (c.qdisc.map skb_size).sum)
    (hsh : m = DWRR_QDISC_SHARED_BUFFER →
      q1.sum_len_bytes + (q.queues i).len_bytes = q.sum_len_bytes + c.len_bytes ∧
        (q1.sum_len_bytes : Int) ≤ S)
    (hst : m = DWRR_QDISC_STATIC_BUFFER → (c.len_bytes : Int) ≤ B i.val) :
    within_capacity m S B q1 := by
  refine ⟨fun j => ?_, fun e => ?_, fun e j => ?_⟩
  · rw [hq]
    by_cases hj : j = i
    · subst hj
      rw [Function.update_same]
      exact ⟨hid, hlen⟩
    · rw [Function.update_noteq hj]
      exact h.1 j
  · obtain ⟨h1, h2⟩ := hsh e
    obtain ⟨h3, _⟩ := h.2.1 e
    refine ⟨?_, h2⟩
    rw [hq]
    have key := len_bytes_sum_update_qdisc q.queues i c
    omega
  · rw [hq]
    by_cases hj : j = i
    · subst hj
      rw [Function.update_same]
      exact hst e
    · rw [Function.update_noteq hj]
      exact h.2.2 e j

theorem within_same_qdisc {m S : Int} {B : Nat → Int} {q q1 : dwrr_sched_data}
    (h : within_capacity m S B q)
    (hq : ∀ j, (q1.queues j).id = (q.queues j).id ∧ (q1.queues j).qdisc = (q.queues j).qdisc ∧
      (q1.queues j).len_bytes = (q.queues j).len_bytes)
    (hs : q1.sum_len_bytes = q.sum_len_bytes) : within_capacity m S B q1 := by
  refine ⟨fun j => ?_, fun e => ?_, fun e j => ?_⟩
  · rw [(hq j).1, (hq j).2.1, (hq j).2.2]
    exact h.1 j
  · rw [hs]
    have e2 : ∑ j, (q1.queues j).len_bytes = ∑ j, (q.queues j).len_bytes :=
      Finset.sum_congr rfl (fun j _ => (hq j).2.2)
    rw [e2]
    exact h.2.1 e
  · rw [(hq j).2.2]
    exact h.2.2 e j

theorem same_of_update_qdisc (q : dwrr_sched_data) (i : Fin 8) (c : dwrr_class)
    (h1 : c.id = (q.queues i).id) (h2 : c.qdisc = (q.queues i).qdisc)
    (h3 : c.len_bytes = (q.queues i).len_bytes) (j : Fin 8) :
    (Function.update q.queues i c j).id = (q.queues j).id ∧
      (Function.update q.queues i c j).qdisc = (q.queues j).qdisc ∧
      (Function.update q.queues i c j).len_bytes = (q.queues j).len_bytes := by
  by_cases hj : j = i
  · subst hj
    rw [Function.update_same]
    exact ⟨h1, h2, h3⟩
  · rw [Function.update_noteq hj]
    exact ⟨rfl, rfl, rfl⟩

/-- With a fixed buffer configuration, capacities that are not negative and a mode
that is shared or static, every reachable state is within capacity. -/
theorem within_capacity_reachable_qdisc (m S : Int) (B : Nat → Int)
    (hm : m = DWRR_QDISC_SHARED_BUFFER ∨ m = DWRR_QDISC_STATIC_BUFFER)
    (hS0 : 0 ≤ S) (hS : S ≤ 2147483647)
    (hB : ∀ n, n < 8 → 0 ≤ B n ∧ B n ≤ 2147483647) :
    (∀ q, Reachable (buffer_config m S B) q → within_capacity m S B q) ∧
    (∀ q, Examined (buffer_config m S B) q → within_capacity m S B q) := by
  have hB2 : ∀ n, n < 8 → B n ≤ 2147483647 := fun n hn => (hB n hn).2
  apply reachable_induction_full_qdisc (buffer_config m S B) (within_capacity m S B)
  · intro clk rate
    refine ⟨fun i => ⟨rfl, rfl⟩, fun _ => ⟨?_, hS0⟩, fun _ i => (hB i.val i.isLt).1⟩
    simp [dwrr_qdisc_init]
  · intro q rt h
    exact within_same_qdisc h (fun _ => ⟨rfl, rfl, rfl⟩) rfl
  · intro q i n h
    exact within_same_qdisc h (same_of_update_qdisc q i _ rfl rfl rfl) rfl
  · intro cfg t q skb hc h ho hb
    obtain ⟨hc1, hc2, hc3⟩ := hc
    have hbnd := within_bound_qdisc hm hS hB2 h (dwrr_qdisc_classify cfg skb)
    have hlen : skb.len ≤ DWRR_QDISC_MAX_BUFFER_BYTES := by omega
    have hsz := skb_size_le_qdisc skb hlen
    have hno : ¬ (enqueue_overfill cfg (skb_size skb) (q.queues (dwrr_qdisc_classify cfg skb)) q =
        true) := by rw [ho]; simp
    rw [enqueue_overfill_iff, not_or] at hno
    obtain ⟨hn1, hn2⟩ := hno
    have hcl : (dwrr_qdisc_enqueue_class cfg t q (dwrr_qdisc_classify cfg skb) skb).len_bytes =
        (q.queues (dwrr_qdisc_classify cfg skb)).len_bytes + skb_size skb := by
      rw [enqueue_class_len_bytes_qdisc]
      unfold u32_add
      omega
    have hmk : skb_size (enqueue_ecn cfg skb
        (dwrr_qdisc_enqueue_accept cfg t q (dwrr_qdisc_classify cfg skb) skb)
        (dwrr_qdisc_enqueue_class cfg t q (dwrr_qdisc_classify cfg skb) skb)) = skb_size skb :=
      skb_size_congr_qdisc (enqueue_ecn_len _ _ _ _)
    refine within_update_qdisc h (dwrr_qdisc_classify cfg skb)
      { dwrr_qdisc_enqueue_class cfg t q (dwrr_qdisc_classify cfg skb) skb with
        qdisc := (q.queues (dwrr_qdisc_classify cfg skb)).qdisc ++
          [enqueue_ecn cfg skb (dwrr_qdisc_enqueue_accept cfg t q (dwrr_qdisc_classify cfg skb) skb)
            (dwrr_qdisc_enqueue_class cfg t q (dwrr_qdisc_classify cfg skb) skb)] } rfl ?_ ?_ ?_ ?_
    · show (dwrr_qdisc_enqueue_class cfg t q (dwrr_qdisc_classify cfg skb) skb).id = _
      rw [enqueue_class_id_qdisc]
      exact (h.1 _).1
    · show (dwrr_qdisc_enqueue_class cfg t q (dwrr_qdisc_classify cfg skb) skb).len_bytes =
        (((q.queues (dwrr_qdisc_classify cfg skb)).qdisc ++ [enqueue_ecn cfg skb
          (dwrr_qdisc_enqueue_accept cfg t q (dwrr_qdisc_classify cfg skb) skb)
          (dwrr_qdisc_enqueue_class cfg t q (dwrr_qdisc_classify cfg skb) skb)]).map skb_size).sum
      rw [hcl, (h.1 _).2, List.map_append, List.sum_append]
      simp only [List.map_cons, List.map_nil, List.sum_cons, List.sum_nil, Nat.add_zero]
      rw [hmk]
    · intro e
      obtain ⟨b1, b2⟩ := hbnd.2 e
      have hn1' : ¬ (q.sum_len_bytes + skb_size skb) % 4294967296 >
          u32_of_int cfg.DWRR_QDISC_SHARED_BUFFER_BYTES := fun x => hn1 ⟨hc1.trans e, x⟩
      have hu := u32_of_int_of_nonneg S hS0 (by omega)
      rw [hc2] at hn1'
      have hsum : (dwrr_qdisc_enqueue_mark cfg t q (dwrr_qdisc_classify cfg skb) skb).sum_len_bytes =
          q.sum_len_bytes + skb_size skb := by
        show u32_add q.sum_len_bytes (skb_size skb) = _
        unfold u32_add
        omega
      rw [hsum]
      constructor
      · show q.sum_len_bytes + skb_size skb + _ = q.sum_len_bytes +
          (dwrr_qdisc_enqueue_class cfg t q (dwrr_qdisc_classify cfg skb) skb).len_bytes
        rw [hcl]
        omega
      · rw [Nat.mod_eq_of_lt (by omega)] at hn1'
        omega
    · intro e
      show ((dwrr_qdisc_enqueue_class cfg t q (dwrr_qdisc_classify cfg skb) skb).len_bytes : Int) ≤ _
      rw [hcl]
      have hid := (h.1 (dwrr_qdisc_classify cfg skb)).1
      have hn2' : ¬ ((q.queues (dwrr_qdisc_classify cfg skb)).len_bytes + skb_size skb) % 4294967296 >
          u32_of_int (cfg.DWRR_QDISC_QUEUE_BUFFER_BYTES (q.queues (dwrr_qdisc_classify cfg skb)).id) :=
        fun x => hn2 ⟨hc1.trans e, x⟩
      rw [hid, hc3 _ (dwrr_qdisc_classify cfg skb).isLt] at hn2'
      obtain ⟨hb0, hb1⟩ := hB (dwrr_qdisc_classify cfg skb).val (dwrr_qdisc_classify cfg skb).isLt
      have hu := u32_of_int_of_nonneg (B (dwrr_qdisc_classify cfg skb).val) hb0 (by omega)
      rw [Nat.mod_eq_of_lt (by omega)] at hn2'
      push_cast
      omega
  · intro q i rest h _
    refine within_same_qdisc h (same_of_update_qdisc q i _ (visit_class_id q i) ?_ ?_) rfl
    · unfold dwrr_qdisc_dequeue_visit_class
      split <;> rfl
    · unfold dwrr_qdisc_dequeue_visit_class
      split <;> rfl
  · intro cfg now q len h
    exact within_same_qdisc h (fun _ => ⟨rfl, rfl, rfl⟩) rfl
  · intro cfg clk q i rest skb tl _ h _ hf _ _
    have hbnd := within_bound_qdisc hm hS hB2 h i
    have hl : (q.queues i).len_bytes = skb_size skb + (tl.map skb_size).sum := by
      rw [(h.1 i).2, hf]
      simp
    have hcl : (dwrr_qdisc_dequeue_release_class cfg (clk 1) q i skb tl).len_bytes =
        (tl.map skb_size).sum := by
      have e : (dwrr_qdisc_dequeue_release_class cfg (clk 1) q i skb tl).len_bytes =
          u32_sub (q.queues i).len_bytes (skb_size skb) := by
        unfold dwrr_qdisc_dequeue_release_class
        split <;> rfl
      rw [e]
      unfold u32_sub
      omega
    refine within_update_qdisc h i (dwrr_qdisc_dequeue_release_class cfg (clk 1) q i skb tl) rfl
      ((release_class_id cfg _ q i skb tl).trans (h.1 i).1) ?_ ?_ ?_
    · rw [hcl, release_class_qdisc]
    · intro e
      obtain ⟨b1, b2⟩ := hbnd.2 e
      have hsum : (dwrr_qdisc_dequeue_release cfg clk q i rest skb tl).sum_len_bytes +
          skb_size skb = q.sum_len_bytes := by
        show u32_sub q.sum_len_bytes (skb_size skb) + skb_size skb = q.sum_len_bytes
        unfold u32_sub
        omega
      have h2 := (h.2.1 e).2
      rw [hcl]
      constructor
      · omega
      · omega
    · intro e
      rw [hcl]
      have := h.2.2 e i
      omega
  · intro cfg t q i rest skb tl _ h _ _ _
    exact within_same_qdisc h (same_of_update_qdisc q i _ rfl rfl rfl) rfl

end sch_dwrr


/-- C22: occupancy never exceeds capacity, in both variants.  Fix the buffer
configuration: a mode `m` that is shared or static, a shared capacity `S` and
capacities `B n` of the eight classes, all from 0 to 2^31 - 1 (the sysctl
variables are non-negative C `int`s).  In every state reachable by calls made
under this configuration: in shared mode `sum_len_bytes` is at most the shared
capacity; in static mode the `len_bytes` of every class is at most the capacity
of that class (the entry the admission test reads, at the class's `id`); and the
32-bit addition the admission test makes for an arriving packet of up to 2^31
bytes on the wire (`sum_len_bytes + len` in shared mode, `cl->len_bytes + len`
in static mode) does not wrap. -/
theorem occupancy_within_capacity :
    (∀ (m S : Int) (B : Nat → Int) (q : sch_dwrr2.dwrr_sched_data) (cfg : sch_dwrr2.dwrr_params),
      m = sch_dwrr2.dwrr_shared_buffer ∨ m = sch_dwrr2.dwrr_static_buffer →
      0 ≤ S → S ≤ 2147483647 → (∀ n, n < 8 → 0 ≤ B n ∧ B n ≤ 2147483647) →
      sch_dwrr2.Reachable (sch_dwrr2.buffer_config m S B) q → sch_dwrr2.buffer_config m S B cfg →
      (cfg.dwrr_buffer_mode = sch_dwrr2.dwrr_shared_buffer →
        (q.sum_len_bytes : Int) ≤ cfg.dwrr_shared_buffer_bytes ∧
          ∀ skb, sch_dwrr2.skb_size skb ≤ 2147483648 →
            u32_add q.sum_len_bytes (sch_dwrr2.skb_size skb) =
              q.sum_len_bytes + sch_dwrr2.skb_size skb) ∧
      (cfg.dwrr_buffer_mode = sch_dwrr2.dwrr_static_buffer → ∀ i,
        ((q.queues i).len_bytes : Int) ≤ cfg.dwrr_queue_buffer_bytes (q.queues i).id ∧
          ∀ skb, sch_dwrr2.skb_size skb ≤ 2147483648 →
            u32_add (q.queues i).len_bytes (sch_dwrr2.skb_size skb) =
              (q.queues i).len_bytes + sch_dwrr2.skb_size skb)) ∧
    (∀ (m S : Int) (B : Nat → Int) (q : sch_dwrr.dwrr_sched_data) (cfg : sch_dwrr.dwrr_params),
      m = sch_dwrr.DWRR_QDISC_SHARED_BUFFER ∨ m = sch_dwrr.DWRR_QDISC_STATIC_BUFFER →
      0 ≤ S → S ≤ 2147483647 → (∀ n, n < 8 → 0 ≤ B n ∧ B n ≤ 2147483647) →
      sch_dwrr.Reachable (sch_dwrr.buffer_config m S B) q → sch_dwrr.buffer_config m S B cfg →
      (cfg.DWRR_QDISC_BUFFER_MODE = sch_dwrr.DWRR_QDISC_SHARED_BUFFER →
        (q.sum_len_bytes : Int) ≤ cfg.DWRR_QDISC_SHARED_BUFFER_BYTES ∧
          ∀ skb, sch_dwrr.skb_size skb ≤ 2147483648 →
            u32_add q.sum_len_bytes (sch_dwrr.skb_size skb) =
              q.sum_len_bytes + sch_dwrr.skb_size skb) ∧
      (cfg.DWRR_QDISC_BUFFER_MODE = sch_dwrr.DWRR_QDISC_STATIC_BUFFER → ∀ i,
        ((q.queues i).len_bytes : Int) ≤ cfg.DWRR_QDISC_QUEUE_BUFFER_BYTES (q.queues i).id ∧
          ∀ skb, sch_dwrr.skb_size skb ≤ 2147483648 →
            u32_add (q.queues i).len_bytes (sch_dwrr.skb_size skb) =
              (q.queues i).len_bytes + sch_dwrr.skb_size skb)) := by
  constructor
  · intro m S B q cfg hm hS0 hS hB hR hc
    have hw := (sch_dwrr2.within_capacity_reachable m S B hm hS0 hS hB).1 q hR
    obtain ⟨hc1, hc2, hc3⟩ := hc
    constructor
    · intro e
      have h1 := (hw.2.1 (hc1.symm.trans e)).2
      rw [hc2]
      refine ⟨h1, fun skb hs => ?_⟩
      unfold u32_add
      omega
    · intro e i
      have h1 := hw.2.2 (hc1.symm.trans e) i
      have h2 := hB i.val i.isLt
      rw [(hw.1 i).1, hc3 _ i.isLt]
      refine ⟨h1, fun skb hs => ?_⟩
      unfold u32_add
      omega
  · intro m S B q cfg hm hS0 hS hB hR hc
    have hw := (sch_dwrr.within_capacity_reachable_qdisc m S B hm hS0 hS hB).1 q hR
    obtain ⟨hc1, hc2, hc3⟩ := hc
    constructor
    · intro e
      have h1 := (hw.2.1 (hc1.symm.trans e)).2
      rw [hc2]
      refine ⟨h1, fun skb hs => ?_⟩
      unfold u32_add
      omega
    · intro e i
      have h1 := hw.2.2 (hc1.symm.trans e) i
      have h2 := hB i.val i.isLt
      rw [(hw.1 i).1, hc3 _ i.isLt]
      refine ⟨h1, fun skb hs => ?_⟩
      unfold u32_add
      omega

set_option maxRecDepth 100000 in
/-- Occupancy in the scenario: with the initial settings (shared mode, 2000000
bytes) and one packet of 1500 bytes queued, the port holds 1500 bytes. -/
theorem occupancy_within_capacity_witness :
    sch_dwrr2.gate_state.sum_len_bytes = 1500 ∧
    ((sch_dwrr2.dwrr_params_init.dwrr_buffer_mode = sch_dwrr2.dwrr_shared_buffer →
        (sch_dwrr2.gate_state.sum_len_bytes : Int) ≤
            sch_dwrr2.dwrr_params_init.dwrr_shared_buffer_bytes ∧
          ∀ skb, sch_dwrr2.skb_size skb ≤ 2147483648 →
            u32_add sch_dwrr2.gate_state.sum_len_bytes (sch_dwrr2.skb_size skb) =
              sch_dwrr2.gate_state.sum_len_bytes + sch_dwrr2.skb_size skb) ∧
      (sch_dwrr2.dwrr_params_init.dwrr_buffer_mode = sch_dwrr2.dwrr_static_buffer → ∀ i,
        ((sch_dwrr2.gate_state.queues i).len_bytes : Int) ≤
            sch_dwrr2.dwrr_params_init.dwrr_queue_buffer_bytes (sch_dwrr2.gate_state.queues i).id ∧
          ∀ skb, sch_dwrr2.skb_size skb ≤ 2147483648 →
            u32_add (sch_dwrr2.gate_state.queues i).len_bytes (sch_dwrr2.skb_size skb) =
              (sch_dwrr2.gate_state.queues i).len_bytes + sch_dwrr2.skb_size skb)) :=
  ⟨by decide,
    occupancy_within_capacity.1 0 2000000 (fun _ => 2000000) sch_dwrr2.gate_state
      sch_dwrr2.dwrr_params_init (Or.inl rfl) (by decide) (by decide)
      (fun _ _ => ⟨by show (0 : Int) ≤ 2000000; decide,
        by show (2000000 : Int) ≤ 2147483647; decide⟩)
      (sch_dwrr2.Reachable.enqueue sch_dwrr2.dwrr_params_init (fun _ => 0) pkt_1500
        ⟨rfl, rfl, fun _ _ => rfl⟩ (sch_dwrr2.Reachable.init (fun _ => 0) 125000000))
      ⟨rfl, rfl, fun _ _ => rfl⟩⟩

set_option maxRecDepth 100000 in
/-- The tokens in the scenario: after the packet costing 12000 ns has been
released at time 100000 from a bucket of 20000 ns, 8000 ns of tokens are left in
both variants. -/
theorem tokens_never_negative_witness :
    sch_dwrr2.gate_sent.1.tokens = 8000 ∧ sch_dwrr.gate_sent.1.tokens = 8000 ∧
      0 ≤ sch_dwrr2.gate_sent.1.tokens ∧ 0 ≤ sch_dwrr.gate_sent.1.tokens :=
  ⟨by decide, by decide,
    tokens_never_negative.1 (fun _ => True) sch_dwrr2.gate_sent.1
      (sch_dwrr2.Reachable.dequeue 1 sch_dwrr2.dwrr_params_init 100000 trivial
        (sch_dwrr2.Reachable.enqueue sch_dwrr2.dwrr_params_init (fun _ => 0) pkt_1500 trivial
          (sch_dwrr2.Reachable.init (fun _ => 0) 125000000))
        (rfl : sch_dwrr2.dwrr_dequeue 1 sch_dwrr2.dwrr_params_init 100000 sch_dwrr2.gate_state =
          some (sch_dwrr2.gate_sent.1, sch_dwrr2.gate_sent.2.1, sch_dwrr2.gate_sent.2.2))),
    tokens_never_negative.2 (fun cfg => cfg.DWRR_QDISC_BUCKET_NS = 20000) sch_dwrr.gate_sent.1
      (fun cfg h => by rw [h]; decide)
      (sch_dwrr.Reachable.dequeue 1 sch_dwrr.dwrr_qdisc_params_init (fun _ => 100000) rfl
        (sch_dwrr.Reachable.enqueue sch_dwrr.dwrr_qdisc_params_init (fun _ => 0) pkt_1500 rfl
          (sch_dwrr.Reachable.init (fun _ => 0) 125000000))
        (rfl : sch_dwrr.dwrr_qdisc_dequeue 1 sch_dwrr.dwrr_qdisc_params_init (fun _ => 100000)
            sch_dwrr.gate_state =
          some (sch_dwrr.gate_sent.1, sch_dwrr.gate_sent.2.1, sch_dwrr.gate_sent.2.2)))⟩


/-! ### One yield suffices -/

theorem mem_tail_append {j i : Fin 8} {l : List (Fin 8)} (h : j ∈ (l ++ [i]).tail) :
    j ∈ l.tail ∨ j = i := by
  cases l with
  | nil => simp at h
  | cons a l =>
    simp only [List.cons_append, List.tail_cons, List.mem_append, List.mem_singleton] at h
    exact h

namespace sch_dwrr2

theorem tail_credit_update {Q : Nat → Int} {q : dwrr_sched_data} (h : tail_credit Q q)
    (i : Fin 8) (c : dwrr_class) (l : List (Fin 8))
    (hl : ∀ j ∈ l.tail, j ≠ i → j ∈ q.active.tail)
    (hc : i ∈ l.tail → Q i.val ≤ (c.deficit : Int)) :
    ∀ j ∈ l.tail, Q j.val ≤ ((Function.update q.queues i c j).deficit : Int) := by
  intro j hj
  by_cases e : j = i
  · subst e
    rw [Function.update_same]
    exact hc hj
  · rw [Function.update_noteq e]
    exact h j (hl j hj e)

/-- With fixed quanta in the permitted range, in every reachable state the classes
of the rotation other than the head hold a deficit of at least their quantum. -/
theorem tail_credit_reachable (Q : Nat → Int)
    (hQ : ∀ n, n < 8 → 1538 ≤ Q n ∧ Q n ≤ 204800) :
    (∀ q, Reachable (quanta_config Q) q → active_ok q ∧ well_formed q ∧ tail_credit Q q) ∧
    (∀ q, Examined (quanta_config Q) q → active_ok q ∧ well_formed q ∧ tail_credit Q q) := by
  obtain ⟨a1, a2, a3, a4, a5, a6⟩ := active_ok_blocks (quanta_config Q)
  apply reachable_induction (quanta_config Q)
    (fun q => active_ok q ∧ well_formed q ∧ tail_credit Q q)
  · intro clk rate
    refine ⟨(active_ok_reachable (quanta_config Q)).1 _ (Reachable.init clk rate),
      (well_formed_reachable (quanta_config Q)).1 _ (Reachable.init clk rate), ?_⟩
    intro j hj
    simp [dwrr_init] at hj
  · intro q rt h
    exact ⟨a1 q rt h.1, wf_queues h.2.1 rfl, h.2.2⟩
  · intro q i n h
    refine ⟨a2 q i n h.1, wf_drop h.2.1 i n, ?_⟩
    exact tail_credit_update h.2.2 i _ q.active (fun j hj _ => hj) (fun hi => h.2.2 i hi)
  · intro cfg t q i skb hc h hb
    refine ⟨a3 cfg t q i skb hc h.1 hb, wf_mark h.2.1 cfg t i skb hb, ?_⟩
    show ∀ j ∈ (if ((q.queues i).qdisc ++ [skb]).length = 1 then q.active ++ [i]
      else q.active).tail, Q j.val ≤ ((Function.update q.queues i _ j).deficit : Int)
    have hid := (h.2.1 i).1
    by_cases e : ((q.queues i).qdisc ++ [skb]).length = 1
    · rw [if_pos e]
      refine tail_credit_update h.2.2 i _ (q.active ++ [i]) ?_ ?_
      · intro j hj hne
        rcases mem_tail_append hj with h1 | h1
        · exact h1
        · exact absurd h1 hne
      · intro _
        show Q i.val ≤ ((dwrr_enqueue_class cfg t q i skb).deficit : Int)
        unfold dwrr_enqueue_class
        rw [if_pos e]
        show Q i.val ≤ ((u32_of_int (cfg.dwrr_queue_quantum (q.queues i).id) : Nat) : Int)
        rw [hid, hc i.val i.isLt]
        have := hQ i.val i.isLt
        unfold u32_of_int
        omega
    · rw [if_neg e]
      refine tail_credit_update h.2.2 i _ q.active (fun j hj _ => hj) ?_
      intro hi
      show Q i.val ≤ ((dwrr_enqueue_class cfg t q i skb).deficit : Int)
      unfold dwrr_enqueue_class
      rw [if_neg e]
      exact h.2.2 i hi
  · intro cfg now q len h
    exact ⟨a4 cfg now q len h.1, wf_queues h.2.1 rfl, h.2.2⟩
  · intro cfg now q i rest skb tl hc h hq hf hd
    refine ⟨a5 cfg now q i rest skb tl hc h.1 hq hf hd, wf_release h.2.1 cfg now i rest skb tl hf,
      ?_⟩
    have hnd : (i :: rest).Nodup := by rw [← hq]; exact h.1.1
    have hni : i ∉ rest := (List.nodup_cons.mp hnd).1
    show ∀ j ∈ (if tl = [] then rest else i :: rest).tail,
      Q j.val ≤ ((Function.update q.queues i _ j).deficit : Int)
    by_cases e : tl = []
    · rw [if_pos e]
      refine tail_credit_update h.2.2 i _ rest ?_ ?_
      · intro j hj _
        rw [hq]
        exact List.mem_of_mem_tail hj
      · intro hi
        exact absurd (List.mem_of_mem_tail hi) hni
    · rw [if_neg e]
      refine tail_credit_update h.2.2 i _ (i :: rest) ?_ ?_
      · intro j hj _
        rw [hq]
        exact hj
      · intro hi
        exact absurd hi hni
  · intro cfg q i rest skb tl hc h hq hf hd
    refine ⟨a6 cfg q i rest skb tl hc h.1 hq hf hd, wf_yield h.2.1 cfg i rest, ?_⟩
    have hid := (h.2.1 i).1
    have hs : skb_size skb ≤ 2000024 :=
      skb_size_le skb ((h.2.1 i).2 skb (by rw [hf]; exact List.mem_cons_self _ _))
    have hQi := hQ i.val i.isLt
    have hy := yield_deficit cfg q i rest skb hid (by rw [hc i.val i.isLt]; exact hQi) hs
      (not_le.mpr hd)
    rw [hc i.val i.isLt] at hy
    show ∀ j ∈ (rest ++ [i]).tail,
      Q j.val ≤ ((Function.update q.queues i (dwrr_dequeue_yield_class cfg q i) j).deficit : Int)
    have hy2 : Q i.val ≤ ((dwrr_dequeue_yield_class cfg q i).deficit : Int) := by
      have e : ((dwrr_dequeue_yield cfg q i rest).queues i).deficit =
          (dwrr_dequeue_yield_class cfg q i).deficit := by
        show (Function.update q.queues i (dwrr_dequeue_yield_class cfg q i) i).deficit = _
        rw [Function.update_same]
      rw [← e]
      exact hy
    refine tail_credit_update h.2.2 i _ (rest ++ [i]) ?_ (fun _ => hy2)
    intro j hj hne
    rw [hq]
    rcases mem_tail_append hj with h1 | h1
    · exact List.mem_of_mem_tail h1
    · exact absurd h1 hne

/-- With fixed quanta in the permitted range and queued packets no longer than the
quantum of their class, a dequeue call gives up at most one turn. -/
theorem one_yield_of_reachable (Q : Nat → Int) (hQ : ∀ n, n < 8 → 1538 ≤ Q n ∧ Q n ≤ 204800)
    (q : dwrr_sched_data) (hR : Reachable (quanta_config Q) q)
    (hfit : ∀ j, ∀ p ∈ (q.queues j).qdisc, (skb_size p : Int) ≤ Q j.val) :
    (∀ j ∈ q.active.tail, ∀ p tl, (q.queues j).qdisc = p :: tl →
      skb_size p ≤ (q.queues j).deficit) ∧
    ∀ cfg now fuel, quanta_config Q cfg → 2 ≤ fuel → q.active ≠ [] →
      ∃ q1 r ys, dwrr_dequeue fuel cfg now q = some (q1, r, ys) ∧ ys.length ≤ 1 ∧
        (r = .overlimit ∨ ∃ i p, r = .sent i p) := by
  obtain ⟨hok, hwf, hcr⟩ := (tail_credit_reachable Q hQ).1 q hR
  have hcred : ∀ j ∈ q.active.tail, ∀ p tl, (q.queues j).qdisc = p :: tl →
      skb_size p ≤ (q.queues j).deficit := by
    intro j hj p tl hf
    have h1 := hcr j hj
    have h2 := hfit j p (by rw [hf]; exact List.mem_cons_self _ _)
    omega
  refine ⟨hcred, ?_⟩
  intro cfg now fuel hc hfu hne
  obtain ⟨i, rest, hl⟩ := List.exists_cons_of_ne_nil hne
  have hQc : ∀ k : Fin 8, 1538 ≤ cfg.dwrr_queue_quantum k.val ∧
      cfg.dwrr_queue_quantum k.val ≤ 204800 := by
    intro k
    rw [hc k.val k.isLt]
    exact hQ k.val k.isLt
  obtain ⟨q1, r, ys, h1, h2, h3⟩ := loop_terminates cfg now hQc [i] rest q hl hne hwf hok
    (by
      intro k _ skb hs
      rw [hc k.val k.isLt]
      cases hf : (q.queues k).qdisc with
      | nil => rw [hf] at hs; simp at hs
      | cons p tl =>
        rw [hf] at hs
        simp only [List.head?_cons, Option.some.injEq] at hs
        rw [← hs]
        exact hfit k p (by rw [hf]; exact List.mem_cons_self _ _))
    (by
      intro k hk skb hs
      have hk' : k ∈ q.active.tail := by rw [hl]; exact hk
      cases hf : (q.queues k).qdisc with
      | nil => rw [hf] at hs; simp at hs
      | cons p tl =>
        rw [hf] at hs
        simp only [List.head?_cons, Option.some.injEq] at hs
        rw [← hs]
        exact hcred k hk' p tl hf)
  refine ⟨q1, r, ys, ?_, h2, h3⟩
  unfold dwrr_dequeue
  rw [if_neg hne]
  have := loop_fuel_mono cfg now _ q _ (fuel - 2) h1
  rw [show [i].length + 1 + (fuel - 2) = fuel by simp; omega] at this
  exact this

end sch_dwrr2


namespace sch_dwrr

theorem tail_credit_update_qdisc {Q : Nat → Int} {q : dwrr_sched_data} (h : tail_credit Q q)
    (i : Fin 8) (c : dwrr_class) (l : List (Fin 8))
    (hl : ∀ j ∈ l.tail, j ≠ i → j ∈ q.activeList.tail)
    (hc : i ∈ l.tail → c.curr = 0 ∧ (c.quantum : Int) = Q i.val ∧ c.deficitCounter ≤ 2000024) :
    ∀ j ∈ l.tail, (Function.update q.queues i c j).curr = 0 ∧
      ((Function.update q.queues i c j).quantum : Int) = Q j.val ∧
      (Function.update q.queues i c j).deficitCounter ≤ 2000024 := by
  intro j hj
  by_cases e : j = i
  · subst e
    rw [Function.update_same]
    exact hc hj
  · rw [Function.update_noteq e]
    exact h j (hl j hj e)

theorem u32_quantum_permitted (x : Int) (h : 1538 ≤ x ∧ x ≤ 204800) :
    ((u32_of_int x : Nat) : Int) = x := by
  unfold u32_of_int
  omega

/-- With fixed quanta in the permitted range, in every reachable state of sch_dwrr
the classes of the rotation other than the head are not being served yet and
store their configured quantum. -/
theorem tail_credit_reachable_qdisc (Q : Nat → Int)
    (hQ : ∀ n, n < 8 → 1538 ≤ Q n ∧ Q n ≤ 204800) :
    (∀ q, Reachable (quanta_config Q) q → active_ok q ∧ well_formed q ∧ tail_credit Q q) ∧
    (∀ q, Examined (quanta_config Q) q → active_ok q ∧ well_formed q ∧ tail_credit Q q) := by
  obtain ⟨a1, a2, a3, a4, a5, a6, a7⟩ := active_ok_blocks_qdisc (quanta_config Q)
  apply reachable_induction_qdisc (quanta_config Q)
    (fun q => active_ok q ∧ well_formed q ∧ tail_credit Q q)
  · intro clk rate
    refine ⟨(active_ok_reachable_qdisc (quanta_config Q)).1 _ (Reachable.init clk rate),
      (well_formed_reachable_qdisc (quanta_config Q)).1 _ (Reachable.init clk rate), ?_⟩
    intro j hj
    simp [dwrr_qdisc_init] at hj
  · intro q rt h
    exact ⟨a1 q rt h.1, wf_queues_qdisc h.2.1 rfl, h.2.2⟩
  · intro q i n h
    refine ⟨a2 q i n h.1, wf_drop_qdisc h.2.1 i n, ?_⟩
    exact tail_credit_update_qdisc h.2.2 i _ q.activeList (fun j hj _ => hj)
      (fun hi => h.2.2 i hi)
  · intro cfg t q i skb hc h hb
    refine ⟨a3 cfg t q i skb hc h.1 hb, wf_mark_qdisc h.2.1 cfg t i skb hb, ?_⟩
    show ∀ j ∈ (if (q.queues i).active = 0 then q.activeList ++ [i] else q.activeList).tail,
      (Function.update q.queues i _ j).curr = 0 ∧
      ((Function.update q.queues i _ j).quantum : Int) = Q j.val ∧
      (Function.update q.queues i _ j).deficitCounter ≤ 2000024
    have hid := (h.2.1 i).1
    by_cases e : (q.queues i).active = 0
    · rw [if_pos e]
      refine tail_credit_update_qdisc h.2.2 i _ (q.activeList ++ [i]) ?_ ?_
      · intro j hj hne
        rcases mem_tail_append hj with h1 | h1
        · exact h1
        · exact absurd h1 hne
      · intro _
        show (dwrr_qdisc_enqueue_class cfg t q i skb).curr = 0 ∧
          ((dwrr_qdisc_enqueue_class cfg t q i skb).quantum : Int) = Q i.val ∧
          (dwrr_qdisc_enqueue_class cfg t q i skb).deficitCounter ≤ 2000024
        unfold dwrr_qdisc_enqueue_class
        rw [if_pos e]
        refine ⟨rfl, ?_, Nat.zero_le _⟩
        show ((u32_of_int (cfg.DWRR_QDISC_QUEUE_QUANTUM (q.queues i).id) : Nat) : Int) = Q i.val
        rw [hid, hc i.val i.isLt]
        exact u32_quantum_permitted _ (hQ i.val i.isLt)
    · rw [if_neg e]
      refine tail_credit_update_qdisc h.2.2 i _ q.activeList (fun j hj _ => hj) ?_
      intro hi
      show (dwrr_qdisc_enqueue_class cfg t q i skb).curr = 0 ∧
        ((dwrr_qdisc_enqueue_class cfg t q i skb).quantum : Int) = Q i.val ∧
        (dwrr_qdisc_enqueue_class cfg t q i skb).deficitCounter ≤ 2000024
      unfold dwrr_qdisc_enqueue_class
      rw [if_neg e]
      exact h.2.2 i hi
  · intro q i rest h hq
    refine ⟨a4 q i rest h.1 hq, wf_visit h.2.1 i, ?_⟩
    have hnd : (i :: rest).Nodup := by rw [← hq]; exact h.1.1
    have hni : i ∉ rest := (List.nodup_cons.mp hnd).1
    show ∀ j ∈ q.activeList.tail, (Function.update q.queues i _ j).curr = 0 ∧
      ((Function.update q.queues i _ j).quantum : Int) = Q j.val ∧
      (Function.update q.queues i _ j).deficitCounter ≤ 2000024
    refine tail_credit_update_qdisc h.2.2 i _ q.activeList (fun j hj _ => hj) ?_
    intro hi
    rw [hq] at hi
    exact absurd hi hni
  · intro cfg now q len h
    exact ⟨a5 cfg now q len h.1, wf_queues_qdisc h.2.1 rfl, h.2.2⟩
  · intro cfg clk q i rest skb tl hc h hq hf hd
    refine ⟨a6 cfg clk q i rest skb tl hc h.1 hq hf hd,
      wf_release_qdisc h.2.1 cfg clk i rest skb tl hf, ?_⟩
    have hnd : (i :: rest).Nodup := by rw [← hq]; exact h.1.1
    have hni : i ∉ rest := (List.nodup_cons.mp hnd).1
    show ∀ j ∈ (if tl = [] then rest else i :: rest).tail,
      (Function.update q.queues i _ j).curr = 0 ∧
      ((Function.update q.queues i _ j).quantum : Int) = Q j.val ∧
      (Function.update q.queues i _ j).deficitCounter ≤ 2000024
    by_cases e : tl = []
    · rw [if_pos e]
      refine tail_credit_update_qdisc h.2.2 i _ rest ?_ ?_
      · intro j hj _
        rw [hq]
        exact List.mem_of_mem_tail hj
      · intro hi
        exact absurd (List.mem_of_mem_tail hi) hni
    · rw [if_neg e]
      refine tail_credit_update_qdisc h.2.2 i _ (i :: rest) ?_ ?_
      · intro j hj _
        rw [hq]
        exact hj
      · intro hi
        exact absurd hi hni
  · intro cfg t q i rest skb tl hc h hq hf hd
    refine ⟨a7 cfg t q i rest skb tl hc h.1 hq hf hd, wf_yield_qdisc h.2.1 cfg t i rest, ?_⟩
    have hid := (h.2.1 i).1
    have hs : skb_size skb ≤ 2000024 :=
      skb_size_le_qdisc skb ((h.2.1 i).2 skb (by rw [hf]; exact List.mem_cons_self _ _))
    show ∀ j ∈ (rest ++ [i]).tail,
      (Function.update q.queues i (dwrr_qdisc_dequeue_yield_class cfg t q i) j).curr = 0 ∧
      ((Function.update q.queues i (dwrr_qdisc_dequeue_yield_class cfg t q i) j).quantum : Int) =
        Q j.val ∧
      (Function.update q.queues i (dwrr_qdisc_dequeue_yield_class cfg t q i) j).deficitCounter ≤
        2000024
    refine tail_credit_update_qdisc h.2.2 i _ (rest ++ [i]) ?_ ?_
    · intro j hj hne
      rw [hq]
      rcases mem_tail_append hj with h1 | h1
      · exact List.mem_of_mem_tail h1
      · exact absurd h1 hne
    · intro _
      refine ⟨rfl, ?_, ?_⟩
      · show ((u32_of_int (cfg.DWRR_QDISC_QUEUE_QUANTUM (q.queues i).id) : Nat) : Int) = Q i.val
        rw [hid, hc i.val i.isLt]
        exact u32_quantum_permitted _ (hQ i.val i.isLt)
      · show (if cfg.DWRR_QDISC_ENABLE_WRR = DWRR_QDISC_WRR_ON then 0
          else (q.queues i).deficitCounter) ≤ 2000024
        split
        · omega
        · omega

/-- With fixed quanta in the permitted range and queued packets no longer than the
quantum of their class, a dequeue call of sch_dwrr gives up at most one turn. -/
theorem one_yield_of_reachable_qdisc (Q : Nat → Int)
    (hQ : ∀ n, n < 8 → 1538 ≤ Q n ∧ Q n ≤ 204800)
    (q : dwrr_sched_data) (hR : Reachable (quanta_config Q) q)
    (hfit : ∀ j, ∀ p ∈ (q.queues j).qdisc, (skb_size p : Int) ≤ Q j.val) :
    (∀ j ∈ q.activeList.tail, ∀ p tl, (q.queues j).qdisc = p :: tl →
      skb_size p ≤ ((dwrr_qdisc_dequeue_visit q j).queues j).deficitCounter) ∧
    ∀ cfg clk fuel, quanta_config Q cfg → 2 ≤ fuel → q.activeList ≠ [] →
      ∃ q1 r ys, dwrr_qdisc_dequeue fuel cfg clk q = some (q1, r, ys) ∧ ys.length ≤ 1 ∧
        (r = .overlimit ∨ ∃ i p, r = .sent i p) := by
  obtain ⟨hok, hwf, hcr⟩ := (tail_credit_reachable_qdisc Q hQ).1 q hR
  have hcred : ∀ j ∈ q.activeList.tail, ∀ p tl, (q.queues j).qdisc = p :: tl →
      skb_size p ≤ ((dwrr_qdisc_dequeue_visit q j).queues j).deficitCounter := by
    intro j hj p tl hf
    obtain ⟨h1, h2, h3⟩ := hcr j hj
    have h4 := hfit j p (by rw [hf]; exact List.mem_cons_self _ _)
    have h5 := hQ j.val j.isLt
    show skb_size p ≤ (Function.update q.queues j (dwrr_qdisc_dequeue_visit_class q j) j).deficitCounter
    rw [Function.update_same]
    unfold dwrr_qdisc_dequeue_visit_class
    rw [if_pos h1]
    show skb_size p ≤ u32_add (q.queues j).deficitCounter (q.queues j).quantum
    unfold u32_add
    omega
  refine ⟨hcred, ?_⟩
  intro cfg clk fuel hc hfu hne
  obtain ⟨i, rest, hl⟩ := List.exists_cons_of_ne_nil hne
  have hQc : ∀ k : Fin 8, 1538 ≤ cfg.DWRR_QDISC_QUEUE_QUANTUM k.val ∧
      cfg.DWRR_QDISC_QUEUE_QUANTUM k.val ≤ 204800 := by
    intro k
    rw [hc k.val k.isLt]
    exact hQ k.val k.isLt
  obtain ⟨q1, r, ys, h1, h2, h3⟩ := loop_terminates_qdisc cfg hQc [i] rest clk q hl hne hwf hok
    (by
      intro k _ skb hs
      rw [hc k.val k.isLt]
      cases hf : (q.queues k).qdisc with
      | nil => rw [hf] at hs; simp at hs
      | cons p tl =>
        rw [hf] at hs
        simp only [List.head?_cons, Option.some.injEq] at hs
        rw [← hs]
        exact hfit k p (by rw [hf]; exact List.mem_cons_self _ _))
    (by
      intro k hk skb hs
      have hk' : k ∈ q.activeList.tail := by rw [hl]; exact hk
      cases hf : (q.queues k).qdisc with
      | nil => rw [hf] at hs; simp at hs
      | cons p tl =>
        rw [hf] at hs
        simp only [List.head?_cons, Option.some.injEq] at hs
        rw [← hs]
        exact hcred k hk' p tl hf)
  refine ⟨q1, r, ys, ?_, h2, h3⟩
  unfold dwrr_qdisc_dequeue
  rw [if_neg hne]
  have := loop_fuel_mono_qdisc cfg _ clk q _ (fuel - 2) h1
  rw [show [i].length + 1 + (fuel - 2) = fuel by simp; omega] at this
  exact this

end sch_dwrr


/-! ### Rate conformance of sch_dwrr2 -/

namespace sch_dwrr2

/-- The arithmetic of `tbf_schedule` does not wrap for any reading of the clock
in the range of `s64` that is not before the check-point. -/
theorem tbf_schedule_exact_s64 (cfg : dwrr_params) (q : dwrr_sched_data) (now : Int) (len : Nat)
    (hr : tokens_range q) (hlen : len < 4294967296) (h0 : 0 ≤ q.time_ns) (h1 : q.time_ns ≤ now)
    (h2 : now < 9223372036854775808) :
    tbf_schedule cfg len q now = tbf_toks cfg q now - l2t_ns q.rate len ∧
      s64 (l2t_ns q.rate (u32_of_int cfg.dwrr_bucket_bytes)) =
        l2t_ns q.rate (u32_of_int cfg.dwrr_bucket_bytes) := by
  obtain ⟨⟨rate, hrate⟩, ht0, ht1⟩ := hr
  have hb := l2t_ns_init_lt rate (u32_of_int cfg.dwrr_bucket_bytes) (u32_of_int_lt _)
  have hp := l2t_ns_init_lt rate len hlen
  rw [← hrate] at hb hp
  unfold tbf_schedule tbf_toks
  simp only
  have e1 : s64 (now - q.time_ns) = now - q.time_ns := by unfold s64; omega
  have e2 : s64 (l2t_ns q.rate (u32_of_int cfg.dwrr_bucket_bytes)) =
      l2t_ns q.rate (u32_of_int cfg.dwrr_bucket_bytes) := by unfold s64; omega
  have e3 : s64 (l2t_ns q.rate len) = l2t_ns q.rate len := by unfold s64; omega
  rw [e1, e2, e3]
  have hm0 : 0 ≤ min (now - q.time_ns) (l2t_ns q.rate (u32_of_int cfg.dwrr_bucket_bytes) : Int) :=
    le_min (by omega) (by omega)
  have hm1 : min (now - q.time_ns) (l2t_ns q.rate (u32_of_int cfg.dwrr_bucket_bytes) : Int) ≤
      l2t_ns q.rate (u32_of_int cfg.dwrr_bucket_bytes) := min_le_right _ _
  have e4 : s64 (min (now - q.time_ns) (l2t_ns q.rate (u32_of_int cfg.dwrr_bucket_bytes) : Int) +
      q.tokens) = min (now - q.time_ns) (l2t_ns q.rate (u32_of_int cfg.dwrr_bucket_bytes) : Int) +
      q.tokens := by unfold s64; omega
  rw [e4]
  refine ⟨?_, rfl⟩
  unfold s64
  omega

theorem enqueue_tokens (cfg : dwrr_params) (clk : Nat → Int) (skb : sk_buff)
    (q : dwrr_sched_data) :
    (dwrr_enqueue cfg clk skb q).2.tokens = q.tokens ∧
      (dwrr_enqueue cfg clk skb q).2.time_ns = q.time_ns ∧
      (dwrr_enqueue cfg clk skb q).2.rate = q.rate := by
  rcases dwrr_enqueue_cases cfg clk skb q with ⟨n, h⟩ | ⟨_, _, h⟩
  · rw [h]
    exact ⟨rfl, rfl, rfl⟩
  · rw [h]
    exact ⟨rfl, rfl, rfl⟩

/-- What a call of `dwrr_dequeue` does to the token bucket: either it returns no
packet and leaves tokens and check-point alone, or it returns a packet, moves
the check-point to `now` and takes the cost of the packet from the tokens
available at `now`. -/
theorem dequeue_tokens (P : dwrr_params → Prop) {fuel : Nat} {cfg : dwrr_params} {now : Int}
    {q q1 : dwrr_sched_data} {r : deq_exit} {ys : List (Fin 8)} (hR : Reachable P q)
    (h : dwrr_dequeue fuel cfg now q = some (q1, r, ys))
    (h0 : 0 ≤ q.time_ns) (h1 : q.time_ns ≤ now) (h2 : now < 9223372036854775808) :
    q1.rate = q.rate ∧
    ((sent_cost q.rate (.deq r ys) = 0 ∧ q1.tokens = q.tokens ∧ q1.time_ns = q.time_ns) ∨
      (q1.time_ns = now ∧
        (sent_cost q.rate (.deq r ys) : Int) + q1.tokens ≤
          min (now - q.time_ns) (l2t_ns q.rate (u32_of_int cfg.dwrr_bucket_bytes)) +
            q.tokens)) := by
  refine ⟨dequeue_rate h, ?_⟩
  by_cases hr : r = .idle
  · left
    subst hr
    unfold dwrr_dequeue at h
    split at h
    · simp only [Option.some.injEq, Prod.mk.injEq] at h
      rw [← h.1]
      exact ⟨rfl, rfl, rfl⟩
    · obtain ⟨q0, _, _, _, hit⟩ := loop_last_pass fuel h
      rcases dwrr_dequeue_iter_exit hit with ⟨_, _, hx⟩ | ⟨_, _, _, _, _, hx⟩ |
        ⟨_, _, _, _, _, _, _, _, _, hx⟩ | ⟨_, _, _, _, _, _, _, _, _, hx⟩ <;> simp at hx
  · obtain ⟨q0, hu, hrate, _, hit⟩ := dequeue_last_pass h hr
    have ht0 : tokens_range q0 := tokens_range_congr ((tokens_range_reachable P).1 q hR) hu hrate
    rcases dwrr_dequeue_iter_exit hit with ⟨_, hq1, hx⟩ | ⟨_, _, _, _, hq1, hx⟩ |
      ⟨_, _, _, _, _, _, _, _, hq1, hx⟩ | ⟨i, rest, skb, tl, _, hf, _, _, hq1, hx⟩
    · left
      rw [hq1, hx]
      exact ⟨rfl, hu.2.2.1, hu.2.2.2⟩
    · left
      rw [hq1, hx]
      exact ⟨rfl, hu.2.2.1, hu.2.2.2⟩
    · left
      rw [hq1, hx]
      exact ⟨rfl, hu.2.2.1, hu.2.2.2⟩
    · right
      obtain ⟨he, hb⟩ := tbf_schedule_exact_s64 cfg q0 now (skb_size skb) ht0 (skb_size_u32 skb)
        (by rw [hu.2.2.2]; exact h0) (by rw [hu.2.2.2]; exact h1) (by omega)
      have htk : q1.tokens = min (tbf_toks cfg q now - l2t_ns q.rate (skb_size skb))
          (l2t_ns q.rate (u32_of_int cfg.dwrr_bucket_bytes)) := by
        rw [hq1]
        show min (tbf_schedule cfg (skb_size skb) q0 now)
          (s64 (l2t_ns q0.rate (u32_of_int cfg.dwrr_bucket_bytes))) = _
        rw [he, hb, tbf_toks_congr cfg now hu hrate, hrate]
      have hcost : sent_cost q.rate (.deq r ys) = l2t_ns q.rate (skb_size skb) := by
        rw [hx]
        show l2t_ns q.rate (skb_size (dwrr_dequeue_packet cfg now q0 i rest skb tl)) = _
        rw [skb_size_congr (dequeue_packet_len cfg now q0 i rest skb tl)]
      refine ⟨by rw [hq1]; rfl, ?_⟩
      rw [hcost, htk]
      unfold tbf_toks
      have := min_le_left (min (now - q.time_ns)
        (l2t_ns q.rate (u32_of_int cfg.dwrr_bucket_bytes) : Int) + q.tokens -
          l2t_ns q.rate (skb_size skb))
        (l2t_ns q.rate (u32_of_int cfg.dwrr_bucket_bytes) : Int)
      omega

/-- A call keeps the state among the reachable ones. -/
theorem exec_call_reachable (P : dwrr_params → Prop) {cfg : dwrr_params} {q q1 : dwrr_sched_data}
    {c : call} {r : call_result} (hc : P cfg) (hR : Reachable P q)
    (h : exec_call cfg q c = some (q1, r)) : Reachable P q1 := by
  cases c with
  | enqueue clk skb =>
    simp only [exec_call, Option.some.injEq, Prod.mk.injEq] at h
    rw [← h.1]
    exact Reachable.enqueue cfg clk skb hc hR
  | dequeue fuel now =>
    simp only [exec_call] at h
    split at h
    · rename_i q2 r2 ys hd
      simp only [Option.some.injEq, Prod.mk.injEq] at h
      rw [← h.1]
      exact Reachable.dequeue fuel cfg now hc hR hd
    · simp at h

/-- What one call does to the token bucket. -/
theorem exec_call_tokens (P : dwrr_params → Prop) {cfg : dwrr_params} {q q1 : dwrr_sched_data}
    {c : call} {r : call_result} {lo t1 : Int} (hR : Reachable P q)
    (h : exec_call cfg q c = some (q1, r)) (h0 : 0 ≤ q.time_ns) (h1 : q.time_ns ≤ lo)
    (ho : clock_ordered lo [(cfg, c)]) (hb : clock_before t1 [(cfg, c)])
    (h2 : t1 < 9223372036854775808) :
    q1.rate = q.rate ∧
    ((sent_cost q.rate r = 0 ∧ q1.tokens = q.tokens ∧ q1.time_ns = q.time_ns) ∨
      (∃ fuel now, c = .dequeue fuel now ∧ q1.time_ns = now ∧
        (sent_cost q.rate r : Int) + q1.tokens ≤
          min (now - q.time_ns) (l2t_ns q.rate (u32_of_int cfg.dwrr_bucket_bytes)) +
            q.tokens)) := by
  cases c with
  | enqueue clk skb =>
    simp only [exec_call, Option.some.injEq, Prod.mk.injEq] at h
    obtain ⟨e1, e2, e3⟩ := enqueue_tokens cfg clk skb q
    rw [← h.1, ← h.2]
    exact ⟨e3, Or.inl ⟨rfl, e1, e2⟩⟩
  | dequeue fuel now =>
    simp only [exec_call] at h
    split at h
    · rename_i q2 r2 ys hd
      simp only [Option.some.injEq, Prod.mk.injEq] at h
      have hlo : lo ≤ now := ho.1
      have ht1 : now ≤ t1 := hb (cfg, .dequeue fuel now) (List.mem_singleton.mpr rfl) fuel now rfl
      obtain ⟨k1, k2⟩ := dequeue_tokens P hR hd h0 (by omega) (by omega)
      rw [← h.1, ← h.2]
      refine ⟨k1, ?_⟩
      rcases k2 with k2 | k2
      · exact Or.inl k2
      · exact Or.inr ⟨fuel, now, rfl, k2⟩
    · simp at h

end sch_dwrr2


namespace sch_dwrr2

theorem total_cost_cons (rate : dwrr_rate_cfg) (r : call_result) (rs : List call_result) :
    total_cost rate (r :: rs) = sent_cost rate r + total_cost rate rs := by
  unfold total_cost
  rw [List.map_cons, List.sum_cons]

/-- The clock readings of the calls after the first one. -/
theorem clock_tail {lo t1 : Int} {cfg : dwrr_params} {c : call}
    {cs : List (dwrr_params × call)} (ho : clock_ordered lo ((cfg, c) :: cs))
    (hb : clock_before t1 ((cfg, c) :: cs)) :
    clock_ordered lo [(cfg, c)] ∧ clock_before t1 [(cfg, c)] ∧ clock_before t1 cs ∧
      ∃ lo1, lo ≤ lo1 ∧ (lo ≤ t1 → lo1 ≤ t1) ∧ clock_ordered lo1 cs ∧
        (∀ fuel now, c = .dequeue fuel now → lo1 = now) := by
  have hb1 : clock_before t1 [(cfg, c)] := by
    intro x hx
    rw [List.mem_singleton] at hx
    rw [hx]
    exact hb (cfg, c) (List.mem_cons_self _ _)
  have hb2 : clock_before t1 cs := fun x hx => hb x (List.mem_cons_of_mem _ hx)
  cases c with
  | enqueue clk skb =>
    refine ⟨trivial, hb1, hb2, lo, le_refl _, fun h => h, ho, ?_⟩
    intro fuel now h
    cases h
  | dequeue fuel now =>
    refine ⟨⟨ho.1, trivial⟩, hb1, hb2, now, ho.1,
      fun _ => hb (cfg, .dequeue fuel now) (List.mem_cons_self _ _) fuel now rfl, ho.2, ?_⟩
    intro fuel1 now1 h
    cases h
    rfl

theorem exec_calls_cons {cfg : dwrr_params} {c : call} {cs : List (dwrr_params × call)}
    {q q1 : dwrr_sched_data} {rs : List call_result}
    (h : exec_calls ((cfg, c) :: cs) q = some (q1, rs)) :
    ∃ q2 r rs1, exec_call cfg q c = some (q2, r) ∧ exec_calls cs q2 = some (q1, rs1) ∧
      rs = r :: rs1 := by
  simp only [exec_calls] at h
  split at h
  · simp at h
  · rename_i q2 r h1
    split at h
    · simp at h
    · rename_i q3 rs1 h2
      simp only [Option.some.injEq, Prod.mk.injEq] at h
      exact ⟨q2, r, rs1, h1, by rw [h2, h.1], h.2.symm⟩

/-- A run keeps the state among the reachable ones. -/
theorem exec_calls_reachable (P : dwrr_params → Prop) :
    ∀ (l : List (dwrr_params × call)) (q q1 : dwrr_sched_data) (rs : List call_result),
      (∀ x ∈ l, P x.1) → Reachable P q → exec_calls l q = some (q1, rs) → Reachable P q1 := by
  intro l
  induction l with
  | nil =>
    intro q q1 rs _ hR h
    simp only [exec_calls, Option.some.injEq, Prod.mk.injEq] at h
    rw [← h.1]
    exact hR
  | cons x cs ih =>
    intro q q1 rs hP hR h
    obtain ⟨cfg, c⟩ := x
    obtain ⟨q2, r, rs1, h1, h2, _⟩ := exec_calls_cons h
    exact ih q2 q1 rs1 (fun y hy => hP y (List.mem_cons_of_mem _ hy))
      (exec_call_reachable P (hP (cfg, c) (List.mem_cons_self _ _)) hR h1) h2

/-- Over a run that starts at the check-point of the bucket, the costs of the
packets returned and the tokens left do not exceed the tokens at the start and
the time elapsed. -/
theorem run_tokens (b : Int) :
    ∀ (l : List (dwrr_params × call)) (q q1 : dwrr_sched_data) (rs : List call_result)
      (lo t1 : Int),
      Reachable (fun cfg => cfg.dwrr_bucket_bytes = b) q →
      (∀ x ∈ l, x.1.dwrr_bucket_bytes = b) → exec_calls l q = some (q1, rs) →
      0 ≤ q.time_ns → q.time_ns ≤ lo → clock_ordered lo l → clock_before t1 l → lo ≤ t1 →
      t1 < 9223372036854775808 →
      (total_cost q.rate rs : Int) + q1.tokens ≤ q.tokens + (t1 - q.time_ns) := by
  intro l
  induction l with
  | nil =>
    intro q q1 rs lo t1 _ _ h _ h1 _ _ h3 _
    simp only [exec_calls, Option.some.injEq, Prod.mk.injEq] at h
    rw [← h.1, ← h.2]
    show ((0 : Nat) : Int) + q.tokens ≤ _
    omega
  | cons x cs ih =>
    intro q q1 rs lo t1 hR hP h h0 h1 ho hb h3 h4
    obtain ⟨cfg, c⟩ := x
    obtain ⟨q2, r, rs1, e1, e2, e3⟩ := exec_calls_cons h
    obtain ⟨ho1, hb1, hb2, lo1, hlo, hlt, ho2, hnow⟩ := clock_tail ho hb
    have hR2 := exec_call_reachable _ (hP (cfg, c) (List.mem_cons_self _ _)) hR e1
    have hP2 : ∀ y ∈ cs, y.1.dwrr_bucket_bytes = b := fun y hy => hP y (List.mem_cons_of_mem _ hy)
    obtain ⟨hrate, hs⟩ := exec_call_tokens _ hR e1 h0 h1 ho1 hb1 h4
    have hlo1 : lo1 ≤ t1 := hlt h3
    rw [e3, total_cost_cons]
    rcases hs with ⟨c0, k0, t0⟩ | ⟨fuel, now, hc, t0, k0⟩
    · have := ih q2 q1 rs1 lo1 t1 hR2 hP2 e2 (by rw [t0]; exact h0) (by rw [t0]; omega) ho2 hb2
        hlo1 h4
      rw [hrate, k0, t0] at this
      rw [c0]
      push_cast
      omega
    · have el := hnow fuel now hc
      have := ih q2 q1 rs1 lo1 t1 hR2 hP2 e2 (by rw [t0]; omega) (by rw [t0, el]) ho2 hb2
        hlo1 h4
      rw [hrate, t0] at this
      have hm := min_le_left (now - q.time_ns)
        (l2t_ns q.rate (u32_of_int cfg.dwrr_bucket_bytes) : Int)
      push_cast
      omega

end sch_dwrr2


namespace sch_dwrr2

/-- Over a run whose dequeue calls read times from `lo` to `t1`, the costs of the
packets returned do not exceed the length of the window and twice the depth of
the bucket. -/
theorem run_cost (b : Int) :
    ∀ (l : List (dwrr_params × call)) (q q1 : dwrr_sched_data) (rs : List call_result)
      (lo t0 t1 : Int),
      Reachable (fun cfg => cfg.dwrr_bucket_bytes = b) q →
      (∀ x ∈ l, x.1.dwrr_bucket_bytes = b) → exec_calls l q = some (q1, rs) →
      0 ≤ q.time_ns → q.time_ns ≤ lo → t0 ≤ lo → clock_ordered lo l → clock_before t1 l →
      lo ≤ t1 → t1 < 9223372036854775808 →
      (total_cost q.rate rs : Int) ≤ (t1 - t0) + 2 * (l2t_ns q.rate (u32_of_int b) : Int) := by
  intro l
  induction l with
  | nil =>
    intro q q1 rs lo t0 t1 _ _ h _ _ h2 _ _ h3 _
    simp only [exec_calls, Option.some.injEq, Prod.mk.injEq] at h
    rw [← h.2]
    show ((0 : Nat) : Int) ≤ _
    omega
  | cons x cs ih =>
    intro q q1 rs lo t0 t1 hR hP h h0 h1 h2 ho hb h3 h4
    obtain ⟨cfg, c⟩ := x
    obtain ⟨q2, r, rs1, e1, e2, e3⟩ := exec_calls_cons h
    obtain ⟨ho1, hb1, hb2, lo1, hlo, hlt, ho2, hnow⟩ := clock_tail ho hb
    have hb0 : cfg.dwrr_bucket_bytes = b := hP (cfg, c) (List.mem_cons_self _ _)
    have hR2 := exec_call_reachable (fun cfg => cfg.dwrr_bucket_bytes = b) hb0 hR e1
    have hP2 : ∀ y ∈ cs, y.1.dwrr_bucket_bytes = b := fun y hy => hP y (List.mem_cons_of_mem _ hy)
    obtain ⟨hrate, hs⟩ := exec_call_tokens _ hR e1 h0 h1 ho1 hb1 h4
    have hlo1 : lo1 ≤ t1 := hlt h3
    rw [e3, total_cost_cons]
    rcases hs with ⟨c0, k0, t0e⟩ | ⟨fuel, now, hc, t0e, k0⟩
    · have := ih q2 q1 rs1 lo1 t0 t1 hR2 hP2 e2 (by rw [t0e]; exact h0) (by rw [t0e]; omega)
        (by omega) ho2 hb2 hlo1 h4
      rw [hrate] at this
      rw [c0]
      push_cast
      omega
    · have el := hnow fuel now hc
      have hA := run_tokens b cs q2 q1 rs1 lo1 t1 hR2 hP2 e2 (by rw [t0e]; omega)
        (by rw [t0e, el]) ho2 hb2 hlo1 h4
      rw [hrate, t0e] at hA
      have hK := ((tokens_ok_reachable b).1 q hR).2
      have hK1 := ((tokens_range_reachable _).1 q1
        (exec_calls_reachable _ cs q2 q1 rs1 hP2 hR2 e2)).2.1
      have hm := min_le_right (now - q.time_ns)
        (l2t_ns q.rate (u32_of_int cfg.dwrr_bucket_bytes) : Int)
      rw [hb0] at hm k0
      push_cast
      omega

end sch_dwrr2


/-! ### Rate conformance of sch_dwrr -/

namespace sch_dwrr

theorem enqueue_tokens_qdisc (cfg : dwrr_params) (clk : Nat → Int) (skb : sk_buff)
    (q : dwrr_sched_data) :
    (dwrr_qdisc_enqueue cfg clk skb q).2.tokens = q.tokens ∧
      (dwrr_qdisc_enqueue cfg clk skb q).2.time_ns = q.time_ns ∧
      (dwrr_qdisc_enqueue cfg clk skb q).2.rate = q.rate := by
  rcases dwrr_qdisc_enqueue_cases cfg clk skb q with ⟨n, h⟩ | ⟨_, _, h⟩
  · rw [h]
    exact ⟨rfl, rfl, rfl⟩
  · rw [h]
    exact ⟨rfl, rfl, rfl⟩

/-- A call of the loop that returns: the passes before the last one leave FIFOs,
byte counters, tokens, time check-point and rate alone, and the last pass, which
reads the clock after one reading for each turn given up, leaves the loop. -/
theorem loop_last_pass_qdisc {cfg : dwrr_params} (fuel : Nat) :
    ∀ {clk : Nat → Int} {q q1 : dwrr_sched_data} {r : deq_exit} {ys : List (Fin 8)},
      dwrr_qdisc_dequeue_loop cfg fuel clk q = some (q1, r, ys) →
      ∃ q0, untouched q q0 ∧ q0.rate = q.rate ∧
        dwrr_qdisc_dequeue_iter cfg (fun n => clk (n + ys.length)) q0 = .exit q1 r := by
  induction fuel with
  | zero => intro clk q q1 r ys h; simp [dwrr_qdisc_dequeue_loop] at h
  | succ n ih =>
    intro clk q q1 r ys h
    unfold dwrr_qdisc_dequeue_loop at h
    split at h
    · rename_i q2 r2 hit
      simp only [Option.some.injEq, Prod.mk.injEq] at h
      obtain ⟨h1, h2, h3⟩ := h
      subst h1 h2 h3
      exact ⟨q, untouched_refl_qdisc q, rfl, hit⟩
    · rename_i q2 j hit
      split at h
      · rename_i q3 r3 ys3 hl
        simp only [Option.some.injEq, Prod.mk.injEq] at h
        obtain ⟨h1, h2, h3⟩ := h
        subst h1 h2 h3
        obtain ⟨q0, hu, hr, h0⟩ := ih hl
        obtain ⟨rest2, _, _, _, _, _, hy⟩ := dwrr_qdisc_dequeue_iter_again hit
        refine ⟨q0, untouched_trans_qdisc ?_ hu, ?_, h0⟩
        · rw [hy]
          exact untouched_trans_qdisc (untouched_visit q j) (untouched_yield_qdisc cfg _ _ j rest2)
        · rw [hr, hy]
          rfl
      · simp at h

/-- The arithmetic of the releasing branch without wrap-around: the cost of the
packet and the tokens left do not exceed the tokens available. -/
theorem release_arith (now T B K : Int) (pkt : Nat) (h0 : 0 ≤ T) (h1 : T ≤ now)
    (h2 : now < 9223372036854775808) (hB0 : 0 ≤ B) (hB : B ≤ 2147483647) (hK0 : 0 ≤ K)
    (hK : K ≤ B) (hp : pkt < 562949953421312)
    (hg : s64 (min (s64 (now - T)) B + K) > s64 pkt) :
    (pkt : Int) + min (s64 (s64 (min (s64 (now - T)) B + K) - s64 pkt)) B ≤
      min (now - T) B + K := by
  have e1 : s64 (now - T) = now - T := by
    unfold s64
    omega
  rw [e1] at hg ⊢
  have e2 : s64 (pkt : Int) = pkt := by
    unfold s64
    omega
  rw [e2] at hg ⊢
  have m1 := min_le_right (now - T) B
  have m2 : 0 ≤ min (now - T) B := le_min (by omega) hB0
  have e3 : s64 (min (now - T) B + K) = min (now - T) B + K := by
    unfold s64
    omega
  rw [e3] at hg ⊢
  have e4 : s64 (min (now - T) B + K - pkt) = min (now - T) B + K - pkt := by
    unfold s64
    omega
  rw [e4]
  have m3 := min_le_left (min (now - T) B + K - pkt) B
  omega

/-- What a call of `dwrr_qdisc_dequeue` does to the token bucket: either it
returns no packet and leaves tokens and check-point alone, or it returns a
packet, moves the check-point to the reading `now` of its last pass and takes
the cost of the packet from the tokens available then. -/
theorem dequeue_tokens_qdisc (P : dwrr_params → Prop)
    (hP : ∀ cfg, P cfg → 0 ≤ cfg.DWRR_QDISC_BUCKET_NS) {fuel : Nat} {cfg : dwrr_params}
    {clk : Nat → Int} {q q1 : dwrr_sched_data} {r : deq_exit} {ys : List (Fin 8)}
    (hR : Reachable P q) (h : dwrr_qdisc_dequeue fuel cfg clk q = some (q1, r, ys))
    (h0 : 0 ≤ q.time_ns) (h1 : ∀ k, q.time_ns ≤ clk k)
    (h2 : ∀ k, clk k < 9223372036854775808) (hB0 : 0 ≤ cfg.DWRR_QDISC_BUCKET_NS)
    (hB : cfg.DWRR_QDISC_BUCKET_NS ≤ 2147483647) (hK : q.tokens ≤ cfg.DWRR_QDISC_BUCKET_NS) :
    q1.rate = q.rate ∧
    ((sent_cost q.rate (.deq r ys) = 0 ∧ q1.tokens = q.tokens ∧ q1.time_ns = q.time_ns) ∨
      (∃ k, q1.time_ns = clk k ∧
        (sent_cost q.rate (.deq r ys) : Int) + q1.tokens ≤
          min (clk k - q.time_ns) cfg.DWRR_QDISC_BUCKET_NS + q.tokens)) := by
  unfold dwrr_qdisc_dequeue at h
  split at h
  · simp only [Option.some.injEq, Prod.mk.injEq] at h
    rw [← h.1, ← h.2.1]
    exact ⟨rfl, Or.inl ⟨rfl, rfl, rfl⟩⟩
  · obtain ⟨q0, hu, hrate, hit⟩ := loop_last_pass_qdisc fuel h
    obtain ⟨⟨rt, hrt⟩, hK0⟩ := (tokens_nonneg_reachable_qdisc P hP).1 q hR
    rcases dwrr_qdisc_dequeue_iter_exit hit with ⟨_, hq1, hx⟩ | ⟨i, _, _, _, hq1, hx⟩ |
      ⟨i, _, _, _, _, _, _, _, hq1, hx⟩ | ⟨i, rest, skb, tl, _, hf, _, hg, hq1, hx⟩
    · rw [hq1, hx]
      exact ⟨hrate, Or.inl ⟨rfl, hu.2.2.1, hu.2.2.2⟩⟩
    · rw [hq1, hx]
      exact ⟨hrate, Or.inl ⟨rfl, hu.2.2.1, hu.2.2.2⟩⟩
    · rw [hq1, hx]
      exact ⟨hrate, Or.inl ⟨rfl, hu.2.2.1, hu.2.2.2⟩⟩
    · have hq1r : q1.rate = q.rate := by
        rw [hq1]
        exact hrate
      refine ⟨hq1r, Or.inr ⟨0 + ys.length, by rw [hq1]; rfl, ?_⟩⟩
      have hcost : sent_cost q.rate (.deq r ys) = l2t_ns q.rate (skb_size skb) := by
        rw [hx]
        show l2t_ns q.rate (skb_size (dequeue_ecn cfg skb _ _)) = _
        rw [skb_size_congr_qdisc (dequeue_ecn_len cfg skb _ _)]
      have hlt : l2t_ns q.rate (skb_size skb) < 562949953421312 := by
        rw [hrt]
        exact l2t_ns_init_lt_qdisc rt _ (skb_size_u32_qdisc skb)
      have hvr : (dwrr_qdisc_dequeue_visit q0 i).rate = q.rate := hrate
      have htk : q1.tokens =
          min (s64 (s64 (min (s64 (clk (0 + ys.length) - q.time_ns)) cfg.DWRR_QDISC_BUCKET_NS +
            q.tokens) - s64 (l2t_ns q.rate (skb_size skb)))) cfg.DWRR_QDISC_BUCKET_NS := by
        rw [hq1, ← hu.2.2.1, ← hu.2.2.2, ← hrate]
        rfl
      have hg1 : s64 (min (s64 (clk (0 + ys.length) - q.time_ns)) cfg.DWRR_QDISC_BUCKET_NS +
          q.tokens) > s64 (l2t_ns q.rate (skb_size skb)) := by
        rw [← hu.2.2.1, ← hu.2.2.2, ← hrate]
        exact hg
      rw [hcost, htk]
      exact release_arith _ _ _ _ _ h0 (h1 _) (h2 _) hB0 hB hK0 hK hlt hg1

end sch_dwrr


namespace sch_dwrr

theorem total_cost_cons_qdisc (rate : dwrr_rate_cfg) (r : call_result) (rs : List call_result) :
    total_cost rate (r :: rs) = sent_cost rate r + total_cost rate rs := by
  unfold total_cost
  rw [List.map_cons, List.sum_cons]

theorem exec_calls_cons_qdisc {cfg : dwrr_params} {c : call} {cs : List (dwrr_params × call)}
    {q q1 : dwrr_sched_data} {rs : List call_result}
    (h : exec_calls ((cfg, c) :: cs) q = some (q1, rs)) :
    ∃ q2 r rs1, exec_call cfg q c = some (q2, r) ∧ exec_calls cs q2 = some (q1, rs1) ∧
      rs = r :: rs1 := by
  simp only [exec_calls] at h
  split at h
  · simp at h
  · rename_i q2 r h1
    split at h
    · simp at h
    · rename_i q3 rs1 h2
      simp only [Option.some.injEq, Prod.mk.injEq] at h
      exact ⟨q2, r, rs1, h1, by rw [h2, h.1], h.2.symm⟩

/-- A call keeps the state among the reachable ones. -/
theorem exec_call_reachable_qdisc (P : dwrr_params → Prop) {cfg : dwrr_params}
    {q q1 : dwrr_sched_data} {c : call} {r : call_result} (hc : P cfg) (hR : Reachable P q)
    (h : exec_call cfg q c = some (q1, r)) : Reachable P q1 := by
  cases c with
  | enqueue clk skb =>
    simp only [exec_call, Option.some.injEq, Prod.mk.injEq] at h
    rw [← h.1]
    exact Reachable.enqueue cfg clk skb hc hR
  | dequeue fuel clk =>
    simp only [exec_call] at h
    split at h
    · rename_i q2 r2 ys hd
      simp only [Option.some.injEq, Prod.mk.injEq] at h
      rw [← h.1]
      exact Reachable.dequeue fuel cfg clk hc hR hd
    · simp at h

/-- A run keeps the state among the reachable ones. -/
theorem exec_calls_reachable_qdisc (P : dwrr_params → Prop) :
    ∀ (l : List (dwrr_params × call)) (q q1 : dwrr_sched_data) (rs : List call_result),
      (∀ x ∈ l, P x.1) → Reachable P q → exec_calls l q = some (q1, rs) → Reachable P q1 := by
  intro l
  induction l with
  | nil =>
    intro q q1 rs _ hR h
    simp only [exec_calls, Option.some.injEq, Prod.mk.injEq] at h
    rw [← h.1]
    exact hR
  | cons x cs ih =>
    intro q q1 rs hP hR h
    obtain ⟨cfg, c⟩ := x
    obtain ⟨q2, r, rs1, h1, h2, _⟩ := exec_calls_cons_qdisc h
    exact ih q2 q1 rs1 (fun y hy => hP y (List.mem_cons_of_mem _ hy))
      (exec_call_reachable_qdisc P (hP (cfg, c) (List.mem_cons_self _ _)) hR h1) h2

/-- What the first call of a run does to the token bucket, with a time `lo1`
from which the clock readings of the rest of the run are ordered. -/
theorem exec_call_tokens_qdisc (B : Int) (hB0 : 0 ≤ B) (hB : B ≤ 2147483647)
    {cfg : dwrr_params} {q q2 : dwrr_sched_data} {c : call} {r : call_result}
    {cs : List (dwrr_params × call)} {lo t1 : Int}
    (hR : Reachable (fun cfg => cfg.DWRR_QDISC_BUCKET_NS = B) q)
    (hcfg : cfg.DWRR_QDISC_BUCKET_NS = B) (h : exec_call cfg q c = some (q2, r))
    (h0 : 0 ≤ q.time_ns) (h1 : q.time_ns ≤ lo) (ho : clock_ordered lo ((cfg, c) :: cs))
    (hb : clock_before t1 ((cfg, c) :: cs)) (h3 : lo ≤ t1) (h4 : t1 < 9223372036854775808) :
    q2.rate = q.rate ∧ clock_before t1 cs ∧
    ∃ lo1, lo ≤ lo1 ∧ lo1 ≤ t1 ∧ clock_ordered lo1 cs ∧
      ((sent_cost q.rate r = 0 ∧ q2.tokens = q.tokens ∧ q2.time_ns = q.time_ns) ∨
        (q2.time_ns = lo1 ∧ (sent_cost q.rate r : Int) + q2.tokens ≤ min (lo1 - q.time_ns) B +
          q.tokens)) := by
  have hb2 : clock_before t1 cs := fun x hx => hb x (List.mem_cons_of_mem _ hx)
  cases c with
  | enqueue clk skb =>
    simp only [exec_call, Option.some.injEq, Prod.mk.injEq] at h
    obtain ⟨e1, e2, e3⟩ := enqueue_tokens_qdisc cfg clk skb q
    rw [← h.1, ← h.2]
    exact ⟨e3, hb2, lo, le_refl _, h3, ho, Or.inl ⟨rfl, e1, e2⟩⟩
  | dequeue fuel clk =>
    simp only [exec_call] at h
    split at h
    · rename_i q3 r3 ys hd
      simp only [Option.some.injEq, Prod.mk.injEq] at h
      have ht1 : ∀ k, clk k ≤ t1 :=
        hb (cfg, .dequeue fuel clk) (List.mem_cons_self _ _) fuel clk rfl
      have hK := (tokens_le_bucket_qdisc B hB0).1 q hR
      obtain ⟨k1, k2⟩ := dequeue_tokens_qdisc (fun cfg => cfg.DWRR_QDISC_BUCKET_NS = B)
        (fun c hc => by rw [hc]; exact hB0) hR hd h0 (fun k => le_trans h1 (ho.1 k))
        (fun k => lt_of_le_of_lt (ht1 k) h4) (by rw [hcfg]; exact hB0) (by rw [hcfg]; exact hB)
        (by rw [hcfg]; exact hK)
      rw [← h.1, ← h.2]
      refine ⟨k1, hb2, ?_⟩
      rcases k2 with k2 | ⟨k, k2, k3⟩
      · exact ⟨clk 0, ho.1 0, ht1 0, ho.2 0, Or.inl k2⟩
      · rw [hcfg] at k3
        refine ⟨clk k, ho.1 k, ht1 k, ho.2 k, Or.inr ⟨k2, k3⟩⟩
    · simp at h

/-- Over a run that starts at the check-point of the bucket, the costs of the
packets returned and the tokens left do not exceed the tokens at the start and
the time elapsed. -/
theorem run_tokens_qdisc (B : Int) (hB0 : 0 ≤ B) (hB : B ≤ 2147483647) :
    ∀ (l : List (dwrr_params × call)) (q q1 : dwrr_sched_data) (rs : List call_result)
      (lo t1 : Int),
      Reachable (fun cfg => cfg.DWRR_QDISC_BUCKET_NS = B) q →
      (∀ x ∈ l, x.1.DWRR_QDISC_BUCKET_NS = B) → exec_calls l q = some (q1, rs) →
      0 ≤ q.time_ns → q.time_ns ≤ lo → clock_ordered lo l → clock_before t1 l → lo ≤ t1 →
      t1 < 9223372036854775808 →
      (total_cost q.rate rs : Int) + q1.tokens ≤ q.tokens + (t1 - q.time_ns) := by
  intro l
  induction l with
  | nil =>
    intro q q1 rs lo t1 _ _ h _ h1 _ _ h3 _
    simp only [exec_calls, Option.some.injEq, Prod.mk.injEq] at h
    rw [← h.1, ← h.2]
    show ((0 : Nat) : Int) + q.tokens ≤ _
    omega
  | cons x cs ih =>
    intro q q1 rs lo t1 hR hP h h0 h1 ho hb h3 h4
    obtain ⟨cfg, c⟩ := x
    obtain ⟨q2, r, rs1, e1, e2, e3⟩ := exec_calls_cons_qdisc h
    have hcfg : cfg.DWRR_QDISC_BUCKET_NS = B := hP (cfg, c) (List.mem_cons_self _ _)
    have hR2 := exec_call_reachable_qdisc (fun cfg => cfg.DWRR_QDISC_BUCKET_NS = B) hcfg hR e1
    have hP2 : ∀ y ∈ cs, y.1.DWRR_QDISC_BUCKET_NS = B :=
      fun y hy => hP y (List.mem_cons_of_mem _ hy)
    obtain ⟨hrate, hb2, lo1, hlo, hlo1, ho2, hs⟩ :=
      exec_call_tokens_qdisc B hB0 hB hR hcfg e1 h0 h1 ho hb h3 h4
    rw [e3, total_cost_cons_qdisc]
    rcases hs with ⟨c0, k0, t0⟩ | ⟨t0, k0⟩
    · have := ih q2 q1 rs1 lo1 t1 hR2 hP2 e2 (by rw [t0]; exact h0) (by rw [t0]; omega) ho2 hb2
        hlo1 h4
      rw [hrate, k0, t0] at this
      rw [c0]
      push_cast
      omega
    · have := ih q2 q1 rs1 lo1 t1 hR2 hP2 e2 (by rw [t0]; omega) (by rw [t0]) ho2 hb2
        hlo1 h4
      rw [hrate, t0] at this
      have hm := min_le_left (lo1 - q.time_ns) B
      push_cast
      omega

/-- Over a run whose dequeue calls read times from `lo` to `t1`, the costs of the
packets returned do not exceed the length of the window and twice the depth of
the bucket. -/
theorem run_cost_qdisc (B : Int) (hB0 : 0 ≤ B) (hB : B ≤ 2147483647) :
    ∀ (l : List (dwrr_params × call)) (q q1 : dwrr_sched_data) (rs : List call_result)
      (lo t0 t1 : Int),
      Reachable (fun cfg => cfg.DWRR_QDISC_BUCKET_NS = B) q →
      (∀ x ∈ l, x.1.DWRR_QDISC_BUCKET_NS = B) → exec_calls l q = some (q1, rs) →
      0 ≤ q.time_ns → q.time_ns ≤ lo → t0 ≤ lo → clock_ordered lo l → clock_before t1 l →
      lo ≤ t1 → t1 < 9223372036854775808 →
      (total_cost q.rate rs : Int) ≤ (t1 - t0) + 2 * B := by
  intro l
  induction l with
  | nil =>
    intro q q1 rs lo t0 t1 _ _ h _ _ h2 _ _ h3 _
    simp only [exec_calls, Option.some.injEq, Prod.mk.injEq] at h
    rw [← h.2]
    show ((0 : Nat) : Int) ≤ _
    omega
  | cons x cs ih =>
    intro q q1 rs lo t0 t1 hR hP h h0 h1 h2 ho hb h3 h4
    obtain ⟨cfg, c⟩ := x
    obtain ⟨q2, r, rs1, e1, e2, e3⟩ := exec_calls_cons_qdisc h
    have hcfg : cfg.DWRR_QDISC_BUCKET_NS = B := hP (cfg, c) (List.mem_cons_self _ _)
    have hR2 := exec_call_reachable_qdisc (fun cfg => cfg.DWRR_QDISC_BUCKET_NS = B) hcfg hR e1
    have hP2 : ∀ y ∈ cs, y.1.DWRR_QDISC_BUCKET_NS = B :=
      fun y hy => hP y (List.mem_cons_of_mem _ hy)
    obtain ⟨hrate, hb2, lo1, hlo, hlo1, ho2, hs⟩ :=
      exec_call_tokens_qdisc B hB0 hB hR hcfg e1 h0 h1 ho hb h3 h4
    rw [e3, total_cost_cons_qdisc]
    rcases hs with ⟨c0, k0, t0e⟩ | ⟨t0e, k0⟩
    · have := ih q2 q1 rs1 lo1 t0 t1 hR2 hP2 e2 (by rw [t0e]; exact h0) (by rw [t0e]; omega)
        (by omega) ho2 hb2 hlo1 h4
      rw [hrate] at this
      rw [c0]
      push_cast
      omega
    · have hA := run_tokens_qdisc B hB0 hB cs q2 q1 rs1 lo1 t1 hR2 hP2 e2 (by rw [t0e]; omega)
        (by rw [t0e]) ho2 hb2 hlo1 h4
      rw [hrate, t0e] at hA
      have hK := (tokens_le_bucket_qdisc B hB0).1 q hR
      have hK1 := ((tokens_nonneg_reachable_qdisc (fun cfg => cfg.DWRR_QDISC_BUCKET_NS = B)
        (fun c hc => by rw [hc]; exact hB0)).1 q1
        (exec_calls_reachable_qdisc _ cs q2 q1 rs1 hP2 hR2 e2)).2
      have hm := min_le_right (lo1 - q.time_ns) B
      push_cast
      omega

end sch_dwrr


/-- C21: rate conformance, in both variants.  Take a reachable state whose
check-point of the token bucket is a time from 0 to `t0`, and make any calls
while the bucket depth keeps one value (`dwrr_bucket_bytes = b` in sch_dwrr2,
where the depth in nanoseconds is `l2t_ns` of `b` as an unsigned 32-bit number;
`DWRR_QDISC_BUCKET_NS = B` with `B` a non-negative C `int` in sch_dwrr); the rate
is the one the state was set up with.  When the clock readings of the dequeue
calls do not decrease from call to call and lie between `t0` and `t1`, a time in
the range of `s64`, the transmit costs `l2t_ns(rate, len)` of all the packets
these calls return add up to at most `(t1 - t0)` plus twice the bucket depth in
nanoseconds. -/
theorem rate_conformance :
    (∀ (b : Int) (q q1 : sch_dwrr2.dwrr_sched_data)
      (l : List (sch_dwrr2.dwrr_params × sch_dwrr2.call)) (rs : List sch_dwrr2.call_result)
      (t0 t1 : Int),
      sch_dwrr2.Reachable (fun cfg => cfg.dwrr_bucket_bytes = b) q →
      (∀ x ∈ l, x.1.dwrr_bucket_bytes = b) →
      0 ≤ q.time_ns → q.time_ns ≤ t0 → t0 ≤ t1 → t1 < 9223372036854775808 →
      sch_dwrr2.clock_ordered t0 l → sch_dwrr2.clock_before t1 l →
      sch_dwrr2.exec_calls l q = some (q1, rs) →
      (sch_dwrr2.total_cost q.rate rs : Int) ≤
        (t1 - t0) + 2 * (sch_dwrr2.l2t_ns q.rate (u32_of_int b) : Int)) ∧
    (∀ (B : Int) (q q1 : sch_dwrr.dwrr_sched_data)
      (l : List (sch_dwrr.dwrr_params × sch_dwrr.call)) (rs : List sch_dwrr.call_result)
      (t0 t1 : Int),
      0 ≤ B → B ≤ 2147483647 →
      sch_dwrr.Reachable (fun cfg => cfg.DWRR_QDISC_BUCKET_NS = B) q →
      (∀ x ∈ l, x.1.DWRR_QDISC_BUCKET_NS = B) →
      0 ≤ q.time_ns → q.time_ns ≤ t0 → t0 ≤ t1 → t1 < 9223372036854775808 →
      sch_dwrr.clock_ordered t0 l → sch_dwrr.clock_before t1 l →
      sch_dwrr.exec_calls l q = some (q1, rs) →
      (sch_dwrr.total_cost q.rate rs : Int) ≤ (t1 - t0) + 2 * B) :=
  ⟨fun b q q1 l rs t0 t1 hR hP h0 h1 h2 h3 ho hb h =>
      sch_dwrr2.run_cost b l q q1 rs t0 t0 t1 hR hP h h0 h1 (le_refl _) ho hb h2 h3,
    fun B q q1 l rs t0 t1 hB0 hB hR hP h0 h1 h2 h3 ho hb h =>
      sch_dwrr.run_cost_qdisc B hB0 hB l q q1 rs t0 t0 t1 hR hP h h0 h1 (le_refl _) ho hb h2 h3⟩


set_option maxRecDepth 100000 in
/-- Rate conformance in the scenario, for both variants: at a rate of 1 Gbit/s a
packet of 1500 bytes on the wire costs 12000 ns; the two packets returned at times 100000
and 200000 cost 24000 ns, within the window of 100000 ns and twice the bucket
depth (20000 ns in both: 2500 bytes in sch_dwrr2). -/
theorem rate_conformance_witness :
    (sch_dwrr2.total_cost (sch_dwrr2.dwrr_init (fun _ => 0) 125000000).rate
        [.code 0, .code 0, .deq (.sent 2 pkt_1500) [], .deq (.sent 2 pkt_1500) [2]] = 24000 ∧
      sch_dwrr2.l2t_ns (sch_dwrr2.dwrr_init (fun _ => 0) 125000000).rate (u32_of_int 2500) =
        20000 ∧
      (sch_dwrr2.total_cost (sch_dwrr2.dwrr_init (fun _ => 0) 125000000).rate
        [.code 0, .code 0, .deq (.sent 2 pkt_1500) [], .deq (.sent 2 pkt_1500) [2]] : Int) ≤
        (200000 - 100000) + 2 * (sch_dwrr2.l2t_ns
          (sch_dwrr2.dwrr_init (fun _ => 0) 125000000).rate (u32_of_int 2500) : Int)) ∧
    (sch_dwrr.total_cost (sch_dwrr.dwrr_qdisc_init (fun _ => 0) 125000000).rate
        [.code 0, .code 0, .deq (.sent 2 pkt_1500) [], .deq (.sent 2 pkt_1500) [2]] = 24000 ∧
      (sch_dwrr.total_cost (sch_dwrr.dwrr_qdisc_init (fun _ => 0) 125000000).rate
        [.code 0, .code 0, .deq (.sent 2 pkt_1500) [], .deq (.sent 2 pkt_1500) [2]] : Int) ≤
        (200000 - 100000) + 2 * 20000) :=
  ⟨⟨by decide, by decide,
      rate_conformance.1 2500 (sch_dwrr2.dwrr_init (fun _ => 0) 125000000) _
        sch_dwrr2.two_in_two_out _ 100000 200000 (sch_dwrr2.Reachable.init (fun _ => 0) 125000000)
        (by
          intro x hx
          simp only [sch_dwrr2.two_in_two_out, List.mem_cons, List.mem_singleton,
            List.not_mem_nil, or_false] at hx
          rcases hx with h | h | h | h <;> rw [h] <;> rfl)
        (by decide) (by decide) (by decide) (by decide)
        ⟨by decide, by decide, trivial⟩
        (by
          intro x hx fuel now h
          simp only [sch_dwrr2.two_in_two_out, List.mem_cons, List.mem_singleton,
            List.not_mem_nil, or_false] at hx
          rcases hx with e | e | e | e <;> rw [e] at h <;>
            simp only [sch_dwrr2.call.dequeue.injEq, reduceCtorEq] at h
          · rw [← h.2]
            decide
          · rw [← h.2])
        rfl⟩,
    ⟨by decide,
      rate_conformance.2 20000 (sch_dwrr.dwrr_qdisc_init (fun _ => 0) 125000000) _
        sch_dwrr.two_in_two_out _ 100000 200000 (by decide) (by decide)
        (sch_dwrr.Reachable.init (fun _ => 0) 125000000)
        (by
          intro x hx
          simp only [sch_dwrr.two_in_two_out, List.mem_cons, List.mem_singleton,
            List.not_mem_nil, or_false] at hx
          rcases hx with h | h | h | h <;> rw [h] <;> rfl)
        (by decide) (by decide) (by decide) (by decide)
        ⟨fun _ => by show (100000 : Int) ≤ 100000; decide,
          fun _ => ⟨fun _ => by show (100000 : Int) ≤ 200000; decide, fun _ => trivial⟩⟩
        (by
          intro x hx fuel clk h k
          simp only [sch_dwrr.two_in_two_out, List.mem_cons, List.mem_singleton,
            List.not_mem_nil, or_false] at hx
          rcases hx with e | e | e | e <;> rw [e] at h <;>
            simp only [sch_dwrr.call.dequeue.injEq, reduceCtorEq] at h
          · rw [← h.2]
            show (100000 : Int) ≤ 200000
            decide
          · rw [← h.2])
        rfl⟩⟩


/-! ### The state in which the loop of sch_dwrr2 makes its last pass -/

namespace sch_dwrr2

theorem yields_keeps (cfg : dwrr_params) (I : dwrr_sched_data → Prop)
    (hy : ∀ q i rest, I q → I (dwrr_dequeue_yield cfg q i rest)) :
    ∀ (ys : List (Fin 8)) (q : dwrr_sched_data), I q → I (dwrr_dequeue_yields cfg ys q) := by
  intro ys
  induction ys with
  | nil => intro q h; exact h
  | cons i ys ih => intro q h; exact ih _ (hy q i _ h)

theorem untouched_yields (cfg : dwrr_params) (ys : List (Fin 8)) (q : dwrr_sched_data) :
    untouched q (dwrr_dequeue_yields cfg ys q) ∧ (dwrr_dequeue_yields cfg ys q).rate = q.rate :=
  yields_keeps cfg (fun q0 => untouched q q0 ∧ q0.rate = q.rate)
    (fun q0 i rest h => ⟨untouched_trans h.1 (untouched_yield cfg q0 i rest), h.2⟩) ys q
    ⟨untouched_refl q, rfl⟩

/-- A call of the loop that returns makes its last pass in the state reached by
the turns given up, in which the rotation has moved on by one class for each
turn given up. -/
theorem loop_exit_state {cfg : dwrr_params} {now : Int} (fuel : Nat) :
    ∀ {q q1 : dwrr_sched_data} {r : deq_exit} {ys : List (Fin 8)},
      dwrr_dequeue_loop cfg now fuel q = some (q1, r, ys) →
      dwrr_dequeue_iter cfg now (dwrr_dequeue_yields cfg ys q) = .exit q1 r ∧
        (dwrr_dequeue_yields cfg ys q).active = q.active.rotate ys.length ∧
        dwrr_dequeue_loop_traps cfg now fuel q =
          dwrr_dequeue_iter_traps cfg now (dwrr_dequeue_yields cfg ys q) := by
  induction fuel with
  | zero => intro q q1 r ys h; simp [dwrr_dequeue_loop] at h
  | succ n ih =>
    intro q q1 r ys h
    unfold dwrr_dequeue_loop at h
    split at h
    · rename_i q2 r2 hit
      simp only [Option.some.injEq, Prod.mk.injEq] at h
      obtain ⟨h1, h2, h3⟩ := h
      subst h1 h2 h3
      refine ⟨hit, (List.rotate_zero _).symm, ?_⟩
      rw [dwrr_dequeue_loop_traps, hit]
      rfl
    · rename_i q2 j hit
      split at h
      · rename_i q3 r3 ys3 hl
        simp only [Option.some.injEq, Prod.mk.injEq] at h
        obtain ⟨h1, h2, h3⟩ := h
        subst h1 h2 h3
        obtain ⟨rest2, _, _, hq, _, _, hy2⟩ := dwrr_dequeue_iter_again hit
        obtain ⟨e1, e2, e3⟩ := ih hl
        have ey : dwrr_dequeue_yields cfg (j :: ys3) q = dwrr_dequeue_yields cfg ys3 q2 := by
          show dwrr_dequeue_yields cfg ys3 (dwrr_dequeue_yield cfg q j q.active.tail) = _
          rw [hq, hy2]
          rfl
        rw [ey]
        refine ⟨e1, ?_, ?_⟩
        · rw [e2, hy2, hq, List.length_cons, List.rotate_cons_succ]
          rfl
        · rw [dwrr_dequeue_loop_traps, hit]
          exact e3
      · simp at h

/-- The same for a call of `dwrr_dequeue` that enters the loop. -/
theorem dequeue_exit_state {fuel : Nat} {cfg : dwrr_params} {now : Int}
    {q q1 : dwrr_sched_data} {r : deq_exit} {ys : List (Fin 8)}
    (h : dwrr_dequeue fuel cfg now q = some (q1, r, ys)) (hr : r ≠ .idle) :
    dwrr_dequeue_iter cfg now (dwrr_dequeue_yields cfg ys q) = .exit q1 r ∧
      (dwrr_dequeue_yields cfg ys q).active = q.active.rotate ys.length ∧
      dwrr_dequeue_traps fuel cfg now q =
        dwrr_dequeue_iter_traps cfg now (dwrr_dequeue_yields cfg ys q) := by
  unfold dwrr_dequeue at h
  unfold dwrr_dequeue_traps
  split at h
  · simp only [Option.some.injEq, Prod.mk.injEq] at h
    exact absurd h.2.1.symm hr
  · rename_i hne
    rw [if_neg hne]
    exact loop_exit_state fuel h

/-- The state left by a call of `dwrr_dequeue` that returns a packet. -/
theorem dequeue_success_of_reachable (P : dwrr_params → Prop) (fuel : Nat) (cfg : dwrr_params)
    (now : Int) (q q1 : dwrr_sched_data) (i : Fin 8) (p : sk_buff) (ys : List (Fin 8))
    (hR : Reachable P q) (hc : counters_exact q)
    (h : dwrr_dequeue fuel cfg now q = some (q1, .sent i p, ys))
    (h0 : 0 ≤ q.time_ns) (h1 : q.time_ns ≤ now) (h2 : now < 4611686018427387904) :
    ∃ rest skb tl,
      (dwrr_dequeue_yields cfg ys q).active = q.active.rotate ys.length ∧
      (dwrr_dequeue_yields cfg ys q).active = i :: rest ∧
      ((dwrr_dequeue_yields cfg ys q).queues i).qdisc = skb :: tl ∧
      (q.queues i).qdisc = skb :: tl ∧ (p = skb ∨ p = INET_ECN_set_ce skb) ∧
      skb_size skb ≤ ((dwrr_dequeue_yields cfg ys q).queues i).deficit ∧
      q1.active = (if tl = [] then rest else i :: rest) ∧
      (q1.queues i).qdisc = tl ∧
      q1.sum_len_bytes + skb_size skb = q.sum_len_bytes ∧
      (q1.queues i).len_bytes + skb_size skb = (q.queues i).len_bytes ∧
      (q1.queues i).deficit + skb_size skb = ((dwrr_dequeue_yields cfg ys q).queues i).deficit ∧
      q1.time_ns = now ∧
      q1.tokens = min (tbf_toks cfg q now - l2t_ns q.rate (skb_size skb))
        (l2t_ns q.rate (u32_of_int cfg.dwrr_bucket_bytes)) ∧
      (∀ j, j ≠ i → q1.queues j = (dwrr_dequeue_yields cfg ys q).queues j) ∧
      ∀ j, j ≠ i → (q1.queues j).qdisc = (q.queues j).qdisc ∧
        (q1.queues j).len_bytes = (q.queues j).len_bytes := by
  obtain ⟨hit, hrot, _⟩ := dequeue_exit_state h (by simp)
  obtain ⟨hu, hr⟩ := untouched_yields cfg ys q
  have hd0 : deficit_u32 (dwrr_dequeue_yields cfg ys q) :=
    yields_keeps cfg deficit_u32 (fun q i rest hq => deficit_u32_yield hq cfg i rest) ys q
      ((deficit_u32_reachable P).1 q hR)
  generalize dwrr_dequeue_yields cfg ys q = q0 at hit hrot hu hr hd0 ⊢
  have hc0 : counters_exact q0 := counters_exact_same hc hu.1 hu.2.1
  have ht0 : tokens_range q0 := tokens_range_congr ((tokens_range_reachable P).1 q hR) hu hr
  rcases dwrr_dequeue_iter_exit hit with ⟨_, _, hx⟩ | ⟨_, _, _, _, _, hx⟩ |
    ⟨_, _, _, _, _, _, _, _, _, hx⟩ | ⟨i2, rest, skb, tl, hq, hf, hdef, _, hq1, hx⟩
  · simp at hx
  · simp at hx
  · simp at hx
  · simp only [deq_exit.sent.injEq] at hx
    obtain ⟨hi, hp⟩ := hx
    subst hi
    obtain ⟨_, hs, hl⟩ := counters_exact_release hc0 cfg now i rest skb tl hf
    rw [← hq1] at hs hl
    obtain ⟨he, hb⟩ := tbf_schedule_exact cfg q0 now (skb_size skb) ht0 (skb_size_u32 skb)
      (by rw [hu.2.2.2]; exact h0) (by rw [hu.2.2.2]; exact h1) (by omega)
    have hqs : q1.queues = Function.update q0.queues i
        (dwrr_dequeue_release_class now q0 i skb tl) := by rw [hq1]; rfl
    refine ⟨rest, skb, tl, hrot, hq, hf, ?_, ?_, hdef, ?_, ?_, ?_, ?_, ?_, ?_, ?_, ?_, ?_⟩
    · rw [← (hu.1 i).1]
      exact hf
    · rw [hp]
      exact dequeue_packet_cases cfg now q0 i rest skb tl
    · rw [hq1]
      rfl
    · rw [hqs, Function.update_same]
      rfl
    · rw [hs]
      exact hu.2.1
    · rw [hl]
      exact (hu.1 i).2
    · rw [hqs, Function.update_same]
      show u32_sub (q0.queues i).deficit (skb_size skb) + skb_size skb = (q0.queues i).deficit
      have := hd0 i
      have := skb_size_u32 skb
      unfold u32_sub
      omega
    · rw [hq1]
      rfl
    · rw [hq1]
      show min (tbf_schedule cfg (skb_size skb) q0 now)
        (s64 (l2t_ns q0.rate (u32_of_int cfg.dwrr_bucket_bytes))) = _
      rw [he, hb, tbf_toks_congr cfg now hu hr, hr]
    · intro j hj
      rw [hqs, Function.update_noteq hj]
    · intro j hj
      rw [hqs, Function.update_noteq hj]
      exact hu.1 j

end sch_dwrr2


/-- C17: successful dequeue in sch_dwrr2.  In every state reached from
`dwrr_init` through calls of `dwrr_enqueue` and `dwrr_dequeue` in which the byte
counters are exact (they are after any history that enqueues no packet of length
zero: `counters_exact_init`, `counters_exact_enqueue`, `counters_exact_dequeue`),
with a clock that does not run backwards (`0 ≤ time_ns ≤ now < 2^62`): whenever
`dwrr_dequeue` returns a packet `p` of class `i` after the classes of `ys` have
given up their turn, let `q0 = dwrr_dequeue_yields cfg ys q` be the state in
which the loop exits, computed from the entry state `q` by the turns given up
(the entry state itself when there is none).  The rotation of `q0` is that of
`q` moved on by one class for each turn given up, class `i` is at its head, and
`p` is the head packet `skb` of the FIFO of `i`, with or without the CE mark;
with `len` the on-wire length of `skb`, which the deficit of `i` in `q0` covers,
`sum_len_bytes`, the `len_bytes` of class `i` and the deficit of class `i` each
decrease by exactly `len`, stated as `new + len = old` over the natural numbers,
so nothing underflows (the deficit is compared with its value in `q0`, which is
its value on entry when no turn was given up; the byte counters are those of the
entry state); the FIFO of class `i` loses its
head and the class leaves the rotation when the FIFO is emptied; `time_ns` becomes
`now`; `tokens` becomes `min(toks - pkt_ns, bucket_ns)` with `toks = min(now - old
time_ns, bucket_ns) + old tokens`; and every other class is as in `q0`, with the
FIFO and `len_bytes` it had on entry. -/
theorem dequeue_success :
    ∀ (P : sch_dwrr2.dwrr_params → Prop) (fuel : Nat) (cfg : sch_dwrr2.dwrr_params) (now : Int)
      (q q1 : sch_dwrr2.dwrr_sched_data) (i : Fin 8) (p : sk_buff) (ys : List (Fin 8)),
      sch_dwrr2.Reachable P q → sch_dwrr2.counters_exact q →
      sch_dwrr2.dwrr_dequeue fuel cfg now q = some (q1, .sent i p, ys) →
      0 ≤ q.time_ns → q.time_ns ≤ now → now < 4611686018427387904 →
      ∃ rest skb tl,
        (sch_dwrr2.dwrr_dequeue_yields cfg ys q).active = q.active.rotate ys.length ∧
        (sch_dwrr2.dwrr_dequeue_yields cfg ys q).active = i :: rest ∧
        ((sch_dwrr2.dwrr_dequeue_yields cfg ys q).queues i).qdisc = skb :: tl ∧
        (q.queues i).qdisc = skb :: tl ∧ (p = skb ∨ p = INET_ECN_set_ce skb) ∧
        sch_dwrr2.skb_size skb ≤ ((sch_dwrr2.dwrr_dequeue_yields cfg ys q).queues i).deficit ∧
        q1.active = (if tl = [] then rest else i :: rest) ∧
        (q1.queues i).qdisc = tl ∧
        q1.sum_len_bytes + sch_dwrr2.skb_size skb = q.sum_len_bytes ∧
        (q1.queues i).len_bytes + sch_dwrr2.skb_size skb = (q.queues i).len_bytes ∧
        (q1.queues i).deficit + sch_dwrr2.skb_size skb =
          ((sch_dwrr2.dwrr_dequeue_yields cfg ys q).queues i).deficit ∧
        (ys = [] → (q1.queues i).deficit + sch_dwrr2.skb_size skb = (q.queues i).deficit) ∧
        q1.time_ns = now ∧
        q1.tokens = min (sch_dwrr2.tbf_toks cfg q now -
            sch_dwrr2.l2t_ns q.rate (sch_dwrr2.skb_size skb))
          (sch_dwrr2.l2t_ns q.rate (u32_of_int cfg.dwrr_bucket_bytes)) ∧
        (∀ j, j ≠ i → q1.queues j = (sch_dwrr2.dwrr_dequeue_yields cfg ys q).queues j) ∧
        ∀ j, j ≠ i → (q1.queues j).qdisc = (q.queues j).qdisc ∧
          (q1.queues j).len_bytes = (q.queues j).len_bytes :=
  fun P fuel cfg now q q1 i p ys hR hc h h0 h1 h2 => by
    obtain ⟨rest, skb, tl, a1, a2, a3, a4, a5, a6, a7, a8, a9, a10, a11, a12, a13, a14, a15⟩ :=
      sch_dwrr2.dequeue_success_of_reachable P fuel cfg now q q1 i p ys hR hc h h0 h1 h2
    exact ⟨rest, skb, tl, a1, a2, a3, a4, a5, a6, a7, a8, a9, a10, a11,
      fun e => by subst e; exact a11, a12, a13, a14, a15⟩

set_option maxRecDepth 100000 in
/-- The successful dequeue in the scenario of two packets of 1500 bytes costing
12000 ns each: the second is dequeued at time 200000 after class 2 has given up
its turn once, which raises its deficit from 38 to 1576; the byte counters go
from 1500 to 0, the deficit from 1576 to 76, the class leaves the rotation, and
16000 ns of tokens are left. -/
theorem dequeue_success_witness :
    (sch_dwrr2.dwrr_dequeue 2 sch_dwrr2.dwrr_params_init 200000 sch_dwrr2.one_left.1 =
        some (sch_dwrr2.one_yield_sent.1, .sent 2 pkt_1500, [2]) ∧
      sch_dwrr2.one_left.1.sum_len_bytes = 1500 ∧
      sch_dwrr2.one_yield_sent.1.sum_len_bytes = 0 ∧
      (sch_dwrr2.one_left.1.queues 2).deficit = 38 ∧
      ((sch_dwrr2.dwrr_dequeue_yields sch_dwrr2.dwrr_params_init [2]
        sch_dwrr2.one_left.1).queues 2).deficit = 1576 ∧
      (sch_dwrr2.one_yield_sent.1.queues 2).deficit = 76 ∧
      sch_dwrr2.one_yield_sent.1.active = [] ∧
      sch_dwrr2.one_yield_sent.1.tokens = 16000) ∧
    ∃ rest skb tl,
      (sch_dwrr2.dwrr_dequeue_yields sch_dwrr2.dwrr_params_init [2]
        sch_dwrr2.one_left.1).active = sch_dwrr2.one_left.1.active.rotate [(2 : Fin 8)].length ∧
      (sch_dwrr2.dwrr_dequeue_yields sch_dwrr2.dwrr_params_init [2]
        sch_dwrr2.one_left.1).active = 2 :: rest ∧
      ((sch_dwrr2.dwrr_dequeue_yields sch_dwrr2.dwrr_params_init [2]
        sch_dwrr2.one_left.1).queues 2).qdisc = skb :: tl ∧
      (sch_dwrr2.one_left.1.queues 2).qdisc = skb :: tl ∧
      (pkt_1500 = skb ∨ pkt_1500 = INET_ECN_set_ce skb) ∧
      sch_dwrr2.skb_size skb ≤ ((sch_dwrr2.dwrr_dequeue_yields sch_dwrr2.dwrr_params_init [2]
        sch_dwrr2.one_left.1).queues 2).deficit ∧
      sch_dwrr2.one_yield_sent.1.active = (if tl = [] then rest else 2 :: rest) ∧
      (sch_dwrr2.one_yield_sent.1.queues 2).qdisc = tl ∧
      sch_dwrr2.one_yield_sent.1.sum_len_bytes + sch_dwrr2.skb_size skb =
        sch_dwrr2.one_left.1.sum_len_bytes ∧
      (sch_dwrr2.one_yield_sent.1.queues 2).len_bytes + sch_dwrr2.skb_size skb =
        (sch_dwrr2.one_left.1.queues 2).len_bytes ∧
      (sch_dwrr2.one_yield_sent.1.queues 2).deficit + sch_dwrr2.skb_size skb =
        ((sch_dwrr2.dwrr_dequeue_yields sch_dwrr2.dwrr_params_init [2]
          sch_dwrr2.one_left.1).queues 2).deficit ∧
      ([(2 : Fin 8)] = [] → (sch_dwrr2.one_yield_sent.1.queues 2).deficit +
        sch_dwrr2.skb_size skb = (sch_dwrr2.one_left.1.queues 2).deficit) ∧
      sch_dwrr2.one_yield_sent.1.time_ns = 200000 ∧
      sch_dwrr2.one_yield_sent.1.tokens =
        min (sch_dwrr2.tbf_toks sch_dwrr2.dwrr_params_init sch_dwrr2.one_left.1 200000 -
            sch_dwrr2.l2t_ns sch_dwrr2.one_left.1.rate (sch_dwrr2.skb_size skb))
          (sch_dwrr2.l2t_ns sch_dwrr2.one_left.1.rate
            (u32_of_int sch_dwrr2.dwrr_params_init.dwrr_bucket_bytes)) ∧
      (∀ j, j ≠ 2 → sch_dwrr2.one_yield_sent.1.queues j =
        (sch_dwrr2.dwrr_dequeue_yields sch_dwrr2.dwrr_params_init [2]
          sch_dwrr2.one_left.1).queues j) ∧
      ∀ j, j ≠ 2 → (sch_dwrr2.one_yield_sent.1.queues j).qdisc =
          (sch_dwrr2.one_left.1.queues j).qdisc ∧
        (sch_dwrr2.one_yield_sent.1.queues j).len_bytes =
          (sch_dwrr2.one_left.1.queues j).len_bytes :=
  ⟨⟨rfl, by decide, by decide, by decide, by decide, by decide, by decide, by decide⟩,
    dequeue_success (fun _ => True) 2 sch_dwrr2.dwrr_params_init 200000 sch_dwrr2.one_left.1
      sch_dwrr2.one_yield_sent.1 2 pkt_1500 [2]
      (sch_dwrr2.Reachable.dequeue 1 sch_dwrr2.dwrr_params_init 100000 trivial
        (sch_dwrr2.Reachable.enqueue sch_dwrr2.dwrr_params_init (fun _ => 20) pkt_1500 trivial
          (sch_dwrr2.Reachable.enqueue sch_dwrr2.dwrr_params_init (fun _ => 0) pkt_1500 trivial
            (sch_dwrr2.Reachable.init (fun _ => 0) 125000000)))
        (rfl : sch_dwrr2.dwrr_dequeue 1 sch_dwrr2.dwrr_params_init 100000 sch_dwrr2.two_queued =
          some (sch_dwrr2.one_left.1, sch_dwrr2.one_left.2.1, sch_dwrr2.one_left.2.2)))
      (sch_dwrr2.counters_exact_dequeue
        (sch_dwrr2.counters_exact_enqueue
          (sch_dwrr2.counters_exact_enqueue
            (sch_dwrr2.counters_exact_init (fun _ => 0) 125000000)
            sch_dwrr2.dwrr_params_init (fun _ => 0) pkt_1500 (by decide))
          sch_dwrr2.dwrr_params_init (fun _ => 20) pkt_1500 (by decide))
        (rfl : sch_dwrr2.dwrr_dequeue 1 sch_dwrr2.dwrr_params_init 100000 sch_dwrr2.two_queued =
          some (sch_dwrr2.one_left.1, sch_dwrr2.one_left.2.1, sch_dwrr2.one_left.2.2)))
      rfl (by decide) (by decide) (by decide)⟩


/-! ### Calls as the kernel runs them: sch_dwrr2 -/

namespace sch_dwrr2

/-- `dwrr_ecn_marking` traps exactly under the MQ-ECN scheme, when the round time
is a positive multiple of `2^32` or the rate in bits per second is a multiple of
`2^32` (zero included). -/
theorem ecn_marking_traps_iff (cfg : dwrr_params) (q : dwrr_sched_data) :
    dwrr_ecn_marking_traps cfg q = true ↔
      cfg.dwrr_ecn_scheme = dwrr_mq_ecn ∧
        ((0 < q.round_time ∧ q.round_time % 4294967296 = 0) ∨
          q.rate.rate_bps % 4294967296 = 0) := by
  unfold dwrr_ecn_marking_traps dwrr_mq_ecn_marking_traps div_u64_traps u32_of_int
  simp only [Bool.and_eq_true, Bool.or_eq_true, decide_eq_true_eq, gt_iff_lt]
  constructor
  · rintro ⟨h1, h2 | h2⟩
    · exact ⟨h1, Or.inl ⟨h2.1, by omega⟩⟩
    · exact ⟨h1, Or.inr h2⟩
  · rintro ⟨h1, h2 | h2⟩
    · exact ⟨h1, Or.inl ⟨h2.1, by omega⟩⟩
    · exact ⟨h1, Or.inr h2⟩

/-- A pass that leaves the loop traps exactly when it releases a packet, dequeue
marking is enabled and `dwrr_ecn_marking` traps on the state the release leaves. -/
theorem iter_traps_of_exit {cfg : dwrr_params} {now : Int} {q q1 : dwrr_sched_data}
    {r : deq_exit} (h : dwrr_dequeue_iter cfg now q = .exit q1 r) :
    dwrr_dequeue_iter_traps cfg now q =
      (r.skb.isSome && (decide (cfg.dwrr_enable_dequeue_ecn = dwrr_enable) &&
        dwrr_ecn_marking_traps cfg q1)) := by
  rcases dwrr_dequeue_iter_exit h with ⟨hq, _, hx⟩ | ⟨i, rest, hq, hf, _, hx⟩ |
    ⟨i, rest, skb, tl, hq, hf, hd, ht, _, hx⟩ | ⟨i, rest, skb, tl, hq, hf, hd, ht, hq1, hx⟩
  · rw [hx]
    unfold dwrr_dequeue_iter_traps
    simp only [hq]
    rfl
  · rw [hx]
    unfold dwrr_dequeue_iter_traps
    simp only [hq, hf]
    rfl
  · rw [hx]
    unfold dwrr_dequeue_iter_traps
    simp only [hq, hf]
    rw [decide_eq_true ht]
    simp [deq_exit.skb]
  · rw [hx, hq1]
    unfold dwrr_dequeue_iter_traps
    simp only [hq, hf]
    rw [decide_eq_true hd, decide_eq_false (not_lt.mpr ht)]
    simp [deq_exit.skb]

/-- A call of `dwrr_dequeue` whose loop leaves: it traps exactly when it releases
a packet, dequeue marking is enabled and `dwrr_ecn_marking` traps on the state the
release leaves; otherwise it returns. -/
theorem dequeue_run_of_some {fuel : Nat} {cfg : dwrr_params} {now : Int}
    {q q1 : dwrr_sched_data} {r : deq_exit} {ys : List (Fin 8)}
    (h : dwrr_dequeue fuel cfg now q = some (q1, r, ys)) :
    dwrr_dequeue_traps fuel cfg now q =
        (r.skb.isSome && (decide (cfg.dwrr_enable_dequeue_ecn = dwrr_enable) &&
          dwrr_ecn_marking_traps cfg q1)) ∧
      dwrr_dequeue_run fuel cfg now q =
        if dwrr_dequeue_traps fuel cfg now q = true then .trapped ys else .returned q1 r ys := by
  constructor
  · by_cases hr : r = .idle
    · subst hr
      unfold dwrr_dequeue at h
      unfold dwrr_dequeue_traps
      split at h
      · rename_i he
        rw [if_pos he]
        rfl
      · rename_i he
        obtain ⟨hit, _, _⟩ := loop_exit_state fuel h
        rcases dwrr_dequeue_iter_exit hit with ⟨_, _, hx⟩ | ⟨_, _, _, _, _, hx⟩ |
          ⟨_, _, _, _, _, _, _, _, _, hx⟩ | ⟨_, _, _, _, _, _, _, _, _, hx⟩ <;> simp at hx
    · obtain ⟨hit, _, ht⟩ := dequeue_exit_state h hr
      rw [ht]
      exact iter_traps_of_exit hit
  · unfold dwrr_dequeue_run
    rw [h]

/-- The outcome of a call of `dwrr_dequeue` whose loop leaves: the call returns,
or it traps, which can happen only on the releasing branch with dequeue marking
enabled under the MQ-ECN scheme. -/
theorem dequeue_run_cases {fuel : Nat} {cfg : dwrr_params} {now : Int}
    {q q1 : dwrr_sched_data} {r : deq_exit} {ys : List (Fin 8)}
    (h : dwrr_dequeue fuel cfg now q = some (q1, r, ys)) :
    (dwrr_dequeue_run fuel cfg now q = .returned q1 r ys ∧
        dwrr_dequeue_traps fuel cfg now q = false) ∨
      (dwrr_dequeue_run fuel cfg now q = .trapped ys ∧
        dwrr_dequeue_traps fuel cfg now q = true ∧ (∃ i p, r = .sent i p) ∧
        cfg.dwrr_enable_dequeue_ecn = dwrr_enable ∧ dwrr_ecn_marking_traps cfg q1 = true) := by
  obtain ⟨h1, h2⟩ := dequeue_run_of_some h
  by_cases ht : dwrr_dequeue_traps fuel cfg now q = true
  · right
    rw [if_pos ht] at h2
    rw [ht] at h1
    have h3 := h1.symm
    simp only [Bool.and_eq_true, decide_eq_true_eq] at h3
    refine ⟨h2, ht, ?_, h3.2.1, h3.2.2⟩
    cases r with
    | sent i p => exact ⟨i, p, rfl⟩
    | idle => simp [deq_exit.skb] at h3
    | no_class => simp [deq_exit.skb] at h3
    | no_packet => simp [deq_exit.skb] at h3
    | overlimit => simp [deq_exit.skb] at h3
  · left
    rw [if_neg ht] at h2
    exact ⟨h2, by simpa using ht⟩

/-- A call that returns in the kernel is a call whose result the model computes. -/
theorem dequeue_of_run_returned {fuel : Nat} {cfg : dwrr_params} {now : Int}
    {q q1 : dwrr_sched_data} {r : deq_exit} {ys : List (Fin 8)}
    (h : dwrr_dequeue_run fuel cfg now q = .returned q1 r ys) :
    dwrr_dequeue fuel cfg now q = some (q1, r, ys) ∧
      dwrr_dequeue_traps fuel cfg now q = false := by
  unfold dwrr_dequeue_run at h
  split at h
  · simp at h
  · rename_i q2 r2 ys2 hd
    split at h
    · simp at h
    · rename_i ht
      simp only [deq_run.returned.injEq] at h
      obtain ⟨e1, e2, e3⟩ := h
      subst e1 e2 e3
      exact ⟨hd, by simpa using ht⟩

/-- A call of `dwrr_enqueue` traps exactly when it accepts the packet and
`dwrr_ecn_marking` traps on the state it leaves. -/
theorem enqueue_traps_iff (cfg : dwrr_params) (clk : Nat → Int) (skb : sk_buff)
    (q : dwrr_sched_data) :
    dwrr_enqueue_traps cfg clk skb q =
      (decide ((dwrr_enqueue cfg clk skb q).1 = NET_XMIT_SUCCESS) &&
        dwrr_ecn_marking_traps cfg (dwrr_enqueue cfg clk skb q).2) := by
  unfold dwrr_enqueue_traps dwrr_enqueue
  simp only
  split
  · simp [NET_XMIT_DROP, NET_XMIT_SUCCESS]
  · split
    · simp [NET_XMIT_DROP, NET_XMIT_SUCCESS]
    · simp only [decide_True, Bool.true_and]
      rfl

end sch_dwrr2


/-! ### Calls as the kernel runs them: sch_dwrr -/

namespace sch_dwrr

/-- The marking block of `dwrr_qdisc_dequeue` traps only with dequeue marking
enabled under the MQ-ECN scheme, when the round time is positive and the rate is
zero. -/
theorem dequeue_ecn_traps_iff (cfg : dwrr_params) (q : dwrr_sched_data) (cl : dwrr_class) :
    dequeue_ecn_traps cfg q cl = true ↔
      cfg.DWRR_QDISC_ENABLE_DEQUEUE_ECN = DWRR_QDISC_DEQUEUE_ECN_ON ∧
        cfg.DWRR_QDISC_ECN_SCHEME = DWRR_QDISC_MQ_ECN ∧ 0 < q.round_time_ns ∧
        q.rate.rate_bps % 18446744073709551616 = 0 := by
  unfold dequeue_ecn_traps ecn_thresh_traps
  by_cases he : cfg.DWRR_QDISC_ENABLE_DEQUEUE_ECN = DWRR_QDISC_DEQUEUE_ECN_ON
  · rw [if_pos he]
    by_cases hs : cfg.DWRR_QDISC_ECN_SCHEME = DWRR_QDISC_MQ_ECN
    · have h1 : ¬ cfg.DWRR_QDISC_ECN_SCHEME = DWRR_QDISC_QUEUE_ECN := by
        rw [hs]
        decide
      have h2 : ¬ cfg.DWRR_QDISC_ECN_SCHEME = DWRR_QDISC_PORT_ECN := by
        rw [hs]
        decide
      rw [if_neg (fun h => h1 h.1), if_neg (fun h => h2 h.1), if_pos hs]
      simp only [Bool.and_eq_true, decide_eq_true_eq, gt_iff_lt]
      exact ⟨fun h => ⟨he, hs, h.1, h.2⟩, fun h => ⟨h.2.2.1, h.2.2.2⟩⟩
    · constructor
      · intro h
        exfalso
        split at h
        · simp at h
        · split at h
          · simp at h
          · simp at h
      · intro h
        exact absurd h.2.1 hs
  · rw [if_neg he]
    constructor
    · intro h
      simp at h
    · intro h
      exact absurd h.1 he

/-- The marking block of `dwrr_qdisc_enqueue` traps only with enqueue marking
under the MQ-ECN scheme, when the round time is positive and the rate is zero. -/
theorem enqueue_ecn_traps_iff (cfg : dwrr_params) (q : dwrr_sched_data) (cl : dwrr_class) :
    enqueue_ecn_traps cfg q cl = true ↔
      cfg.DWRR_QDISC_ENABLE_DEQUEUE_ECN = DWRR_QDISC_DEQUEUE_ECN_OFF ∧
        cfg.DWRR_QDISC_ECN_SCHEME = DWRR_QDISC_MQ_ECN ∧ 0 < q.round_time_ns ∧
        q.rate.rate_bps % 18446744073709551616 = 0 := by
  unfold enqueue_ecn_traps ecn_thresh_traps
  by_cases he : cfg.DWRR_QDISC_ENABLE_DEQUEUE_ECN = DWRR_QDISC_DEQUEUE_ECN_OFF
  · rw [if_pos he]
    by_cases hs : cfg.DWRR_QDISC_ECN_SCHEME = DWRR_QDISC_MQ_ECN
    · have h1 : ¬ cfg.DWRR_QDISC_ECN_SCHEME = DWRR_QDISC_QUEUE_ECN := by
        rw [hs]
        decide
      have h2 : ¬ cfg.DWRR_QDISC_ECN_SCHEME = DWRR_QDISC_PORT_ECN := by
        rw [hs]
        decide
      rw [if_neg (fun h => h1 h.1), if_neg (fun h => h2 h.1), if_pos hs]
      simp only [Bool.and_eq_true, decide_eq_true_eq, gt_iff_lt]
      exact ⟨fun h => ⟨he, hs, h.1, h.2⟩, fun h => ⟨h.2.2.1, h.2.2.2⟩⟩
    · constructor
      · intro h
        exfalso
        split at h
        · simp at h
        · split at h
          · simp at h
          · simp at h
      · intro h
        exact absurd h.2.1 hs
  · rw [if_neg he]
    constructor
    · intro h
      simp at h
    · intro h
      exact absurd h.1 he

/-- A pass that leaves the loop and traps is a pass that releases a packet, with
dequeue marking enabled under the MQ-ECN scheme and a rate of zero. -/
theorem iter_traps_of_exit_qdisc {cfg : dwrr_params} {clk : Nat → Int}
    {q q1 : dwrr_sched_data} {r : deq_exit}
    (h : dwrr_qdisc_dequeue_iter cfg clk q = .exit q1 r)
    (ht : dwrr_qdisc_dequeue_iter_traps cfg clk q = true) :
    (∃ i p, r = .sent i p) ∧
      cfg.DWRR_QDISC_ENABLE_DEQUEUE_ECN = DWRR_QDISC_DEQUEUE_ECN_ON ∧
      cfg.DWRR_QDISC_ECN_SCHEME = DWRR_QDISC_MQ_ECN ∧
      q.rate.rate_bps % 18446744073709551616 = 0 := by
  rcases dwrr_qdisc_dequeue_iter_exit h with ⟨hq, _, hx⟩ | ⟨i, rest, hq, hf, _, hx⟩ |
    ⟨i, rest, skb, tl, hq, hf, hd, hg, _, hx⟩ | ⟨i, rest, skb, tl, hq, hf, hd, hg, hq1, hx⟩
  · unfold dwrr_qdisc_dequeue_iter_traps at ht
    simp only [hq] at ht
    simp at ht
  · unfold dwrr_qdisc_dequeue_iter_traps at ht
    simp only [hq, hf] at ht
    simp at ht
  · unfold dwrr_qdisc_dequeue_iter_traps at ht
    simp only [hq, hf] at ht
    rw [decide_eq_false hg] at ht
    simp at ht
  · unfold dwrr_qdisc_dequeue_iter_traps at ht
    simp only [hq, hf] at ht
    rw [decide_eq_true hd, decide_eq_true hg] at ht
    simp only [Bool.true_and] at ht
    obtain ⟨h1, h2, _, h4⟩ := (dequeue_ecn_traps_iff _ _ _).mp ht
    exact ⟨⟨i, _, hx⟩, h1, h2, h4⟩

/-- A pass that does not leave the loop does not trap. -/
theorem loop_traps_true_qdisc {cfg : dwrr_params} (fuel : Nat) :
    ∀ {clk : Nat → Int} {q q1 : dwrr_sched_data} {r : deq_exit} {ys : List (Fin 8)},
      dwrr_qdisc_dequeue_loop cfg fuel clk q = some (q1, r, ys) →
      dwrr_qdisc_dequeue_loop_traps cfg fuel clk q = true →
      (∃ i p, r = .sent i p) ∧
        cfg.DWRR_QDISC_ENABLE_DEQUEUE_ECN = DWRR_QDISC_DEQUEUE_ECN_ON ∧
        cfg.DWRR_QDISC_ECN_SCHEME = DWRR_QDISC_MQ_ECN ∧
        q.rate.rate_bps % 18446744073709551616 = 0 := by
  induction fuel with
  | zero => intro clk q q1 r ys h; simp [dwrr_qdisc_dequeue_loop] at h
  | succ n ih =>
    intro clk q q1 r ys h ht
    unfold dwrr_qdisc_dequeue_loop at h
    rw [dwrr_qdisc_dequeue_loop_traps] at ht
    split at h
    · rename_i q2 r2 hit
      simp only [Option.some.injEq, Prod.mk.injEq] at h
      obtain ⟨h1, h2, h3⟩ := h
      subst h1 h2 h3
      rw [hit] at ht
      exact iter_traps_of_exit_qdisc hit ht
    · rename_i q2 j hit
      split at h
      · rename_i q3 r3 ys3 hl
        simp only [Option.some.injEq, Prod.mk.injEq] at h
        obtain ⟨h1, h2, h3⟩ := h
        subst h1 h2 h3
        rw [hit] at ht
        obtain ⟨rest2, _, _, _, _, _, hy⟩ := dwrr_qdisc_dequeue_iter_again hit
        obtain ⟨e1, e2, e3, e4⟩ := ih hl ht
        refine ⟨e1, e2, e3, ?_⟩
        rw [hy] at e4
        exact e4
      · simp at h

/-- The outcome of a call of `dwrr_qdisc_dequeue` whose loop leaves: the call
returns, or it traps, which can happen only on the releasing branch with dequeue
marking enabled under the MQ-ECN scheme and a rate of zero. -/
theorem dequeue_run_cases_qdisc {fuel : Nat} {cfg : dwrr_params} {clk : Nat → Int}
    {q q1 : dwrr_sched_data} {r : deq_exit} {ys : List (Fin 8)}
    (h : dwrr_qdisc_dequeue fuel cfg clk q = some (q1, r, ys)) :
    (dwrr_qdisc_dequeue_run fuel cfg clk q = .returned q1 r ys ∧
        dwrr_qdisc_dequeue_traps fuel cfg clk q = false) ∨
      (dwrr_qdisc_dequeue_run fuel cfg clk q = .trapped ys ∧
        dwrr_qdisc_dequeue_traps fuel cfg clk q = true ∧ (∃ i p, r = .sent i p) ∧
        cfg.DWRR_QDISC_ENABLE_DEQUEUE_ECN = DWRR_QDISC_DEQUEUE_ECN_ON ∧
        cfg.DWRR_QDISC_ECN_SCHEME = DWRR_QDISC_MQ_ECN ∧
        q.rate.rate_bps % 18446744073709551616 = 0) := by
  have hrun : dwrr_qdisc_dequeue_run fuel cfg clk q =
      if dwrr_qdisc_dequeue_traps fuel cfg clk q = true then .trapped ys
      else .returned q1 r ys := by
    unfold dwrr_qdisc_dequeue_run
    rw [h]
  by_cases ht : dwrr_qdisc_dequeue_traps fuel cfg clk q = true
  · right
    rw [if_pos ht] at hrun
    refine ⟨hrun, ht, ?_⟩
    unfold dwrr_qdisc_dequeue at h
    unfold dwrr_qdisc_dequeue_traps at ht
    split at h
    · rename_i he
      rw [if_pos he] at ht
      simp at ht
    · rename_i he
      rw [if_neg he] at ht
      exact loop_traps_true_qdisc fuel h ht
  · left
    rw [if_neg ht] at hrun
    exact ⟨hrun, by simpa using ht⟩

/-- A call that returns in the kernel is a call whose result the model computes. -/
theorem dequeue_of_run_returned_qdisc {fuel : Nat} {cfg : dwrr_params} {clk : Nat → Int}
    {q q1 : dwrr_sched_data} {r : deq_exit} {ys : List (Fin 8)}
    (h : dwrr_qdisc_dequeue_run fuel cfg clk q = .returned q1 r ys) :
    dwrr_qdisc_dequeue fuel cfg clk q = some (q1, r, ys) ∧
      dwrr_qdisc_dequeue_traps fuel cfg clk q = false := by
  unfold dwrr_qdisc_dequeue_run at h
  split at h
  · simp at h
  · rename_i q2 r2 ys2 hd
    split at h
    · simp at h
    · rename_i ht
      simp only [deq_run.returned.injEq] at h
      obtain ⟨e1, e2, e3⟩ := h
      subst e1 e2 e3
      exact ⟨hd, by simpa using ht⟩

end sch_dwrr


/-! ### One yield suffices: the call as the kernel runs it -/

namespace sch_dwrr2

/-- The outcome of a call whose loop leaves through the token check after the
turns given up by `ys`: it returns, deferring or with a packet, or it traps in
the dequeue marking of the releasing branch. -/
theorem run_of_token_check {fuel : Nat} {cfg : dwrr_params} {now : Int}
    {q q1 : dwrr_sched_data} {r : deq_exit} {ys : List (Fin 8)}
    (h : dwrr_dequeue fuel cfg now q = some (q1, r, ys))
    (hr : r = .overlimit ∨ ∃ i p, r = .sent i p) :
    (∃ q1 r, dwrr_dequeue_run fuel cfg now q = .returned q1 r ys ∧
        (r = .overlimit ∨ ∃ i p, r = .sent i p)) ∨
      (dwrr_dequeue_run fuel cfg now q = .trapped ys ∧
        cfg.dwrr_enable_dequeue_ecn = dwrr_enable ∧ cfg.dwrr_ecn_scheme = dwrr_mq_ecn) := by
  rcases dequeue_run_cases h with ⟨h1, _⟩ | ⟨h1, _, _, h2, h3⟩
  · exact Or.inl ⟨q1, r, h1, hr⟩
  · exact Or.inr ⟨h1, h2, ((ecn_marking_traps_iff cfg q1).mp h3).1⟩

end sch_dwrr2

namespace sch_dwrr

/-- The outcome of a call whose loop leaves through the token check after the
turns given up by `ys`: it returns, deferring or with a packet, or it traps in
the dequeue marking of the releasing branch. -/
theorem run_of_token_check_qdisc {fuel : Nat} {cfg : dwrr_params} {clk : Nat → Int}
    {q q1 : dwrr_sched_data} {r : deq_exit} {ys : List (Fin 8)}
    (h : dwrr_qdisc_dequeue fuel cfg clk q = some (q1, r, ys))
    (hr : r = .overlimit ∨ ∃ i p, r = .sent i p) :
    (∃ q1 r, dwrr_qdisc_dequeue_run fuel cfg clk q = .returned q1 r ys ∧
        (r = .overlimit ∨ ∃ i p, r = .sent i p)) ∨
      (dwrr_qdisc_dequeue_run fuel cfg clk q = .trapped ys ∧
        cfg.DWRR_QDISC_ENABLE_DEQUEUE_ECN = DWRR_QDISC_DEQUEUE_ECN_ON ∧
        cfg.DWRR_QDISC_ECN_SCHEME = DWRR_QDISC_MQ_ECN) := by
  rcases dequeue_run_cases_qdisc h with ⟨h1, _⟩ | ⟨h1, _, _, h2, h3, _⟩
  · exact Or.inl ⟨q1, r, h1, hr⟩
  · exact Or.inr ⟨h1, h2, h3⟩

end sch_dwrr

/-- C24: one yield suffices, in both variants.  Fix quanta `Q n` of the eight
classes in the range the sysctl table accepts (1538 to 204800); the WRR flag and
the other settings may take any value in any call.  In every reachable state in
which every queued packet is on the wire no longer than the quantum of its
class: every class of the rotation other than the head has a deficit that covers
its head packet (in sch_dwrr: the deficit counter it is seen with at its next
visit, which adds the quantum), and a dequeue call on a rotation that is not
empty comes, for every bound of at least two passes on its loop, to the token
check after at most one turn given up: the call as the kernel runs it returns
after that turn, deferring or with a packet, or it has taken the releasing branch
and traps in the dequeue marking, which needs dequeue marking enabled under the
MQ-ECN scheme. -/
theorem one_yield_suffices :
    (∀ (Q : Nat → Int) (q : sch_dwrr2.dwrr_sched_data),
      (∀ n, n < 8 → 1538 ≤ Q n ∧ Q n ≤ 204800) →
      sch_dwrr2.Reachable (sch_dwrr2.quanta_config Q) q →
      (∀ j, ∀ p ∈ (q.queues j).qdisc, (sch_dwrr2.skb_size p : Int) ≤ Q j.val) →
      (∀ j ∈ q.active.tail, ∀ p tl, (q.queues j).qdisc = p :: tl →
        sch_dwrr2.skb_size p ≤ (q.queues j).deficit) ∧
      ∀ cfg now fuel, sch_dwrr2.quanta_config Q cfg → 2 ≤ fuel → q.active ≠ [] →
        ∃ ys : List (Fin 8), ys.length ≤ 1 ∧
          ((∃ q1 r, sch_dwrr2.dwrr_dequeue_run fuel cfg now q = .returned q1 r ys ∧
              (r = .overlimit ∨ ∃ i p, r = .sent i p)) ∨
            (sch_dwrr2.dwrr_dequeue_run fuel cfg now q = .trapped ys ∧
              cfg.dwrr_enable_dequeue_ecn = sch_dwrr2.dwrr_enable ∧
              cfg.dwrr_ecn_scheme = sch_dwrr2.dwrr_mq_ecn))) ∧
    (∀ (Q : Nat → Int) (q : sch_dwrr.dwrr_sched_data),
      (∀ n, n < 8 → 1538 ≤ Q n ∧ Q n ≤ 204800) →
      sch_dwrr.Reachable (sch_dwrr.quanta_config Q) q →
      (∀ j, ∀ p ∈ (q.queues j).qdisc, (sch_dwrr.skb_size p : Int) ≤ Q j.val) →
      (∀ j ∈ q.activeList.tail, ∀ p tl, (q.queues j).qdisc = p :: tl →
        sch_dwrr.skb_size p ≤
          ((sch_dwrr.dwrr_qdisc_dequeue_visit q j).queues j).deficitCounter) ∧
      ∀ cfg clk fuel, sch_dwrr.quanta_config Q cfg → 2 ≤ fuel → q.activeList ≠ [] →
        ∃ ys : List (Fin 8), ys.length ≤ 1 ∧
          ((∃ q1 r, sch_dwrr.dwrr_qdisc_dequeue_run fuel cfg clk q = .returned q1 r ys ∧
              (r = .overlimit ∨ ∃ i p, r = .sent i p)) ∨
            (sch_dwrr.dwrr_qdisc_dequeue_run fuel cfg clk q = .trapped ys ∧
              cfg.DWRR_QDISC_ENABLE_DEQUEUE_ECN = sch_dwrr.DWRR_QDISC_DEQUEUE_ECN_ON ∧
              cfg.DWRR_QDISC_ECN_SCHEME = sch_dwrr.DWRR_QDISC_MQ_ECN))) := by
  refine ⟨fun Q q hQ hR hfit => ?_, fun Q q hQ hR hfit => ?_⟩
  · obtain ⟨h1, h2⟩ := sch_dwrr2.one_yield_of_reachable Q hQ q hR hfit
    refine ⟨h1, fun cfg now fuel hc hf hne => ?_⟩
    obtain ⟨q1, r, ys, hd, hlen, hr⟩ := h2 cfg now fuel hc hf hne
    exact ⟨ys, hlen, sch_dwrr2.run_of_token_check hd hr⟩
  · obtain ⟨h1, h2⟩ := sch_dwrr.one_yield_of_reachable_qdisc Q hQ q hR hfit
    refine ⟨h1, fun cfg clk fuel hc hf hne => ?_⟩
    obtain ⟨q1, r, ys, hd, hlen, hr⟩ := h2 cfg clk fuel hc hf hne
    exact ⟨ys, hlen, sch_dwrr.run_of_token_check_qdisc hd hr⟩

set_option maxRecDepth 100000 in
/-- One yield in the scenario: with a deficit of 38 bytes left and a packet of
1500 bytes at the head, the dequeue at time 200000 gives up one turn of class 2
and then returns the packet. -/
theorem one_yield_suffices_witness :
    (sch_dwrr2.one_left.1.queues 2).deficit = 38 ∧
    sch_dwrr2.dwrr_dequeue_run 2 sch_dwrr2.dwrr_params_init 200000 sch_dwrr2.one_left.1 =
      .returned sch_dwrr2.one_yield_sent.1 (.sent 2 pkt_1500) [2] ∧
    ∃ ys : List (Fin 8), ys.length ≤ 1 ∧
      ((∃ q1 r, sch_dwrr2.dwrr_dequeue_run 2 sch_dwrr2.dwrr_params_init 200000
            sch_dwrr2.one_left.1 = .returned q1 r ys ∧
          (r = .overlimit ∨ ∃ i p, r = .sent i p)) ∨
        (sch_dwrr2.dwrr_dequeue_run 2 sch_dwrr2.dwrr_params_init 200000
            sch_dwrr2.one_left.1 = .trapped ys ∧
          sch_dwrr2.dwrr_params_init.dwrr_enable_dequeue_ecn = sch_dwrr2.dwrr_enable ∧
          sch_dwrr2.dwrr_params_init.dwrr_ecn_scheme = sch_dwrr2.dwrr_mq_ecn)) :=
  ⟨by decide, rfl,
    (one_yield_suffices.1 (fun _ => 1538) sch_dwrr2.one_left.1
      (fun _ _ => ⟨by show (1538 : Int) ≤ 1538; decide, by show (1538 : Int) ≤ 204800; decide⟩)
      (sch_dwrr2.Reachable.dequeue 1 sch_dwrr2.dwrr_params_init 100000 (fun _ _ => rfl)
        (sch_dwrr2.Reachable.enqueue sch_dwrr2.dwrr_params_init (fun _ => 20) pkt_1500
          (fun _ _ => rfl)
          (sch_dwrr2.Reachable.enqueue sch_dwrr2.dwrr_params_init (fun _ => 0) pkt_1500
            (fun _ _ => rfl) (sch_dwrr2.Reachable.init (fun _ => 0) 125000000)))
        (rfl : sch_dwrr2.dwrr_dequeue 1 sch_dwrr2.dwrr_params_init 100000 sch_dwrr2.two_queued =
          some (sch_dwrr2.one_left.1, sch_dwrr2.one_left.2.1, sch_dwrr2.one_left.2.2)))
      (by decide)).2 sch_dwrr2.dwrr_params_init 200000 2 (fun _ _ => rfl) (by decide)
      (by decide)⟩


/-! ### Wake-up deadline: the call as the kernel runs it -/

namespace sch_dwrr2

end sch_dwrr2

namespace sch_dwrr2

theorem turns_short_le (cl : dwrr_class) : turns_short cl ≤ turns_needed cl := by
  unfold turns_short turns_needed
  cases cl.qdisc with
  | nil => exact Nat.le_refl _
  | cons skb tl =>
    show (skb_size skb - cl.deficit + 1537) / 1538 ≤ (skb_size skb + 1537) / 1538
    omega

theorem yields_left_le (q : dwrr_sched_data) : yields_left q ≤ yield_bound q := by
  unfold yields_left yield_bound
  exact List.sum_le_sum (fun i _ => turns_short_le (q.queues i))

/-- In DRR mode a turn given up brings the class at least 1538 bytes closer to
its head packet. -/
theorem turns_short_yield (cfg : dwrr_params) (q : dwrr_sched_data) (i : Fin 8)
    (rest : List (Fin 8)) (skb : sk_buff) (tl : List sk_buff)
    (hf : (q.queues i).qdisc = skb :: tl) (hid : (q.queues i).id = i.val)
    (hQ : 1538 ≤ cfg.dwrr_queue_quantum i.val ∧ cfg.dwrr_queue_quantum i.val ≤ 204800)
    (hw : cfg.dwrr_enable_wrr ≠ dwrr_enable) (hs : skb_size skb ≤ 2000024)
    (hd : ¬ skb_size skb ≤ (q.queues i).deficit) :
    turns_short ((dwrr_dequeue_yield cfg q i rest).queues i) + 1 ≤ turns_short (q.queues i) := by
  have e : (dwrr_dequeue_yield cfg q i rest).queues i = dwrr_dequeue_yield_class cfg q i := by
    show Function.update q.queues i (dwrr_dequeue_yield_class cfg q i) i = _
    rw [Function.update_same]
  rw [e]
  unfold turns_short
  have e1 : (dwrr_dequeue_yield_class cfg q i).qdisc = skb :: tl := hf
  have e2 : (dwrr_dequeue_yield_class cfg q i).deficit =
      u32_add (q.queues i).deficit (u32_of_int (cfg.dwrr_queue_quantum (q.queues i).id)) := by
    show (if cfg.dwrr_enable_wrr = dwrr_enable then _ else _) = _
    rw [if_neg hw]
  simp only [e1, hf, e2, hid]
  unfold u32_add u32_of_int
  omega

/-- In DRR mode, with permitted quanta, the loop leaves through the token check
after at most `M` turns given up when the classes of the rotation still have at
most `M` turns to give up. -/
theorem drr_loop_terminates (cfg : dwrr_params) (now : Int)
    (hQ : ∀ i : Fin 8, 1538 ≤ cfg.dwrr_queue_quantum i.val ∧
      cfg.dwrr_queue_quantum i.val ≤ 204800)
    (hw : cfg.dwrr_enable_wrr ≠ dwrr_enable) :
    ∀ (M : Nat) (q : dwrr_sched_data), yields_left q ≤ M → q.active ≠ [] →
      well_formed q → active_ok q →
      ∃ q1 r ys, dwrr_dequeue_loop cfg now (M + 1) q = some (q1, r, ys) ∧
        ys.length ≤ M ∧ (r = .overlimit ∨ ∃ i p, r = .sent i p) := by
  intro M
  induction M with
  | zero =>
    intro q hM hne hwf hok
    obtain ⟨i, rest, hl⟩ := List.exists_cons_of_ne_nil hne
    have hi : i ∈ q.active := by rw [hl]; exact List.mem_cons_self _ _
    have hfne : (q.queues i).qdisc ≠ [] := (hok.2 i).mp hi
    obtain ⟨skb, tl, hf⟩ := List.exists_cons_of_ne_nil hfne
    have hfit : skb_size skb ≤ (q.queues i).deficit := by
      unfold yields_left at hM
      rw [hl, List.map_cons, List.sum_cons] at hM
      have h0 : turns_short (q.queues i) = 0 := by omega
      unfold turns_short at h0
      simp only [hf] at h0
      omega
    obtain ⟨q1, r, hit, hres⟩ := @iter_fits cfg now _ _ _ _ _ hl hf hfit
    refine ⟨q1, r, [], ?_, Nat.le_refl _, ?_⟩
    · show dwrr_dequeue_loop cfg now 1 q = _
      unfold dwrr_dequeue_loop
      rw [hit]
    · rcases hres with h | ⟨p, h⟩
      · exact Or.inl h
      · exact Or.inr ⟨i, p, h⟩
  | succ M ih =>
    intro q hM hne hwf hok
    obtain ⟨i, rest, hl⟩ := List.exists_cons_of_ne_nil hne
    have hi : i ∈ q.active := by rw [hl]; exact List.mem_cons_self _ _
    have hfne : (q.queues i).qdisc ≠ [] := (hok.2 i).mp hi
    obtain ⟨skb, tl, hf⟩ := List.exists_cons_of_ne_nil hfne
    by_cases hfit : skb_size skb ≤ (q.queues i).deficit
    · obtain ⟨q1, r, hit, hres⟩ := @iter_fits cfg now _ _ _ _ _ hl hf hfit
      refine ⟨q1, r, [], ?_, Nat.zero_le _, ?_⟩
      · unfold dwrr_dequeue_loop
        rw [hit]
      · rcases hres with h | ⟨p, h⟩
        · exact Or.inl h
        · exact Or.inr ⟨i, p, h⟩
    · have hit := @iter_yields cfg now _ _ _ _ _ hl hf hfit
      obtain ⟨_, _, _, _, _, fy⟩ := active_ok_blocks (fun _ => True)
      have hok' : active_ok (dwrr_dequeue_yield cfg q i rest) :=
        fy cfg q i rest skb tl trivial hok hl hf (not_le.mp hfit)
      have hwf' : well_formed (dwrr_dequeue_yield cfg q i rest) := wf_yield hwf cfg i _
      have hact : (dwrr_dequeue_yield cfg q i rest).active = rest ++ [i] := rfl
      have hnd : (i :: rest).Nodup := by rw [← hl]; exact hok.1
      have hs : skb_size skb ≤ 2000024 :=
        skb_size_le skb ((hwf i).2 skb (by rw [hf]; exact List.mem_cons_self _ _))
      have hstep := turns_short_yield cfg q i rest skb tl hf (hwf i).1 (hQ i) hw hs hfit
      have hrest : rest.map (fun j => turns_short ((dwrr_dequeue_yield cfg q i rest).queues j)) =
          rest.map (fun j => turns_short (q.queues j)) := by
        apply List.map_congr_left
        intro j hj
        have hji : j ≠ i := by
          intro e
          subst e
          exact (List.nodup_cons.mp hnd).1 hj
        have e : (dwrr_dequeue_yield cfg q i rest).queues j = q.queues j := by
          show Function.update q.queues i _ j = _
          rw [Function.update_noteq hji]
        rw [e]
      have hM' : yields_left (dwrr_dequeue_yield cfg q i rest) ≤ M := by
        unfold yields_left at hM ⊢
        rw [hl, List.map_cons, List.sum_cons] at hM
        rw [hact, List.map_append, List.sum_append, hrest, List.map_singleton,
          List.sum_singleton]
        omega
      obtain ⟨q1, r, ys, hlp, hlen, hres⟩ := ih (dwrr_dequeue_yield cfg q i rest) hM'
        (by rw [hact]; simp) hwf' hok'
      refine ⟨q1, r, i :: ys, ?_, ?_, hres⟩
      · show dwrr_dequeue_loop cfg now ((M + 1) + 1) q = _
        unfold dwrr_dequeue_loop
        rw [hit]
        simp only [hlp]
      · simp only [List.length_cons]
        omega

/-- In DRR mode, with permitted quanta, a call of `dwrr_dequeue` in a reachable
state leaves its loop through the token check after at most `yield_bound` turns
given up. -/
theorem drr_dequeue_terminates (P : dwrr_params → Prop) (q : dwrr_sched_data)
    (cfg : dwrr_params) (now : Int) (fuel : Nat) (hr : Reachable P q) (hne : q.active ≠ [])
    (hQ : ∀ i : Fin 8, 1538 ≤ cfg.dwrr_queue_quantum i.val ∧
      cfg.dwrr_queue_quantum i.val ≤ 204800)
    (hw : cfg.dwrr_enable_wrr ≠ dwrr_enable) (hf : yield_bound q + 1 ≤ fuel) :
    ∃ q1 r ys, dwrr_dequeue fuel cfg now q = some (q1, r, ys) ∧
      ys.length ≤ yield_bound q ∧ (r = .overlimit ∨ ∃ i p, r = .sent i p) := by
  obtain ⟨q1, r, ys, hl, hlen, hres⟩ := drr_loop_terminates cfg now hQ hw (yield_bound q) q
    (yields_left_le q) hne ((well_formed_reachable P).1 q hr) ((active_ok_reachable P).1 q hr)
  refine ⟨q1, r, ys, ?_, hlen, hres⟩
  unfold dwrr_dequeue
  rw [if_neg hne]
  have := loop_fuel_mono cfg now _ q _ (fuel - (yield_bound q + 1)) hl
  rw [show yield_bound q + 1 + (fuel - (yield_bound q + 1)) = fuel by omega] at this
  exact this

end sch_dwrr2


namespace sch_dwrr

theorem turns_short_le_qdisc (q : dwrr_sched_data) (i : Fin 8) :
    turns_short q i ≤ turns_needed (q.queues i) := by
  unfold turns_short turns_needed
  cases (q.queues i).qdisc with
  | nil => exact Nat.le_refl _
  | cons skb tl =>
    show (skb_size skb - ((dwrr_qdisc_dequeue_visit q i).queues i).deficitCounter + 1537) / 1538 ≤
      (skb_size skb + 1537) / 1538
    omega

theorem yields_left_le_qdisc (q : dwrr_sched_data) : yields_left q ≤ yield_bound q := by
  unfold yields_left yield_bound
  exact List.sum_le_sum (fun i _ => turns_short_le_qdisc q i)

/-- The deficit counter a class is seen with at its next visit after it has given
up its turn in DRR mode: the one of this visit plus the quantum. -/
theorem visit_after_yield (cfg : dwrr_params) (t : Int) (q : dwrr_sched_data) (i : Fin 8)
    (rest : List (Fin 8)) (hid : (q.queues i).id = i.val)
    (hw : cfg.DWRR_QDISC_ENABLE_WRR ≠ DWRR_QDISC_WRR_ON) :
    ((dwrr_qdisc_dequeue_visit
      (dwrr_qdisc_dequeue_yield cfg t (dwrr_qdisc_dequeue_visit q i) i rest) i).queues
        i).deficitCounter =
      u32_add ((dwrr_qdisc_dequeue_visit q i).queues i).deficitCounter
        (u32_of_int (cfg.DWRR_QDISC_QUEUE_QUANTUM i.val)) := by
  have hid' : ((dwrr_qdisc_dequeue_visit q i).queues i).id = i.val := by
    show (Function.update q.queues i _ i).id = _
    rw [Function.update_same, visit_class_id]
    exact hid
  have hv : ∀ Y : dwrr_sched_data,
      (dwrr_qdisc_dequeue_visit Y i).queues i = dwrr_qdisc_dequeue_visit_class Y i := by
    intro Y
    show Function.update Y.queues i (dwrr_qdisc_dequeue_visit_class Y i) i = _
    rw [Function.update_same]
  have e2 : (dwrr_qdisc_dequeue_yield cfg t (dwrr_qdisc_dequeue_visit q i) i rest).queues i =
      dwrr_qdisc_dequeue_yield_class cfg t (dwrr_qdisc_dequeue_visit q i) i := by
    show Function.update (dwrr_qdisc_dequeue_visit q i).queues i
      (dwrr_qdisc_dequeue_yield_class cfg t (dwrr_qdisc_dequeue_visit q i) i) i = _
    rw [Function.update_same]
  have e3 : (dwrr_qdisc_dequeue_yield_class cfg t (dwrr_qdisc_dequeue_visit q i) i).curr = 0 :=
    rfl
  rw [hv (dwrr_qdisc_dequeue_yield cfg t (dwrr_qdisc_dequeue_visit q i) i rest)]
  unfold dwrr_qdisc_dequeue_visit_class
  rw [e2, if_pos e3]
  show u32_add (if cfg.DWRR_QDISC_ENABLE_WRR = DWRR_QDISC_WRR_ON then 0
      else ((dwrr_qdisc_dequeue_visit q i).queues i).deficitCounter)
    (u32_of_int (cfg.DWRR_QDISC_QUEUE_QUANTUM ((dwrr_qdisc_dequeue_visit q i).queues i).id)) = _
  rw [if_neg hw, hid']

/-- In DRR mode, with permitted quanta, the loop leaves through the token check
after at most `M` turns given up when the classes of the rotation still have at
most `M` turns to give up. -/
theorem drr_loop_terminates_qdisc (cfg : dwrr_params)
    (hQ : ∀ i : Fin 8, 1538 ≤ cfg.DWRR_QDISC_QUEUE_QUANTUM i.val ∧
      cfg.DWRR_QDISC_QUEUE_QUANTUM i.val ≤ 204800)
    (hw : cfg.DWRR_QDISC_ENABLE_WRR ≠ DWRR_QDISC_WRR_ON) :
    ∀ (M : Nat) (clk : Nat → Int) (q : dwrr_sched_data), yields_left q ≤ M →
      q.activeList ≠ [] → well_formed q → active_ok q →
      ∃ q1 r ys, dwrr_qdisc_dequeue_loop cfg (M + 1) clk q = some (q1, r, ys) ∧
        ys.length ≤ M ∧ (r = .overlimit ∨ ∃ i p, r = .sent i p) := by
  intro M
  induction M with
  | zero =>
    intro clk q hM hne hwf hok
    obtain ⟨i, rest, hl⟩ := List.exists_cons_of_ne_nil hne
    have hi : i ∈ q.activeList := by rw [hl]; exact List.mem_cons_self _ _
    have hfne : (q.queues i).qdisc ≠ [] := ((hok.2 i).1 hi).2
    obtain ⟨skb, tl, hf⟩ := List.exists_cons_of_ne_nil hfne
    have hfit : skb_size skb ≤ ((dwrr_qdisc_dequeue_visit q i).queues i).deficitCounter := by
      unfold yields_left at hM
      rw [hl, List.map_cons, List.sum_cons] at hM
      have h0 : turns_short q i = 0 := by omega
      unfold turns_short at h0
      simp only [hf] at h0
      omega
    obtain ⟨q1, r, hit, hres⟩ := @iter_fits_qdisc cfg clk _ _ _ _ _ hl hf hfit
    refine ⟨q1, r, [], ?_, Nat.le_refl _, ?_⟩
    · show dwrr_qdisc_dequeue_loop cfg 1 clk q = _
      unfold dwrr_qdisc_dequeue_loop
      rw [hit]
    · rcases hres with h | ⟨p, h⟩
      · exact Or.inl h
      · exact Or.inr ⟨i, p, h⟩
  | succ M ih =>
    intro clk q hM hne hwf hok
    obtain ⟨i, rest, hl⟩ := List.exists_cons_of_ne_nil hne
    have hi : i ∈ q.activeList := by rw [hl]; exact List.mem_cons_self _ _
    have hfne : (q.queues i).qdisc ≠ [] := ((hok.2 i).1 hi).2
    obtain ⟨skb, tl, hf⟩ := List.exists_cons_of_ne_nil hfne
    by_cases hfit : skb_size skb ≤ ((dwrr_qdisc_dequeue_visit q i).queues i).deficitCounter
    · obtain ⟨q1, r, hit, hres⟩ := @iter_fits_qdisc cfg clk _ _ _ _ _ hl hf hfit
      refine ⟨q1, r, [], ?_, Nat.zero_le _, ?_⟩
      · unfold dwrr_qdisc_dequeue_loop
        rw [hit]
      · rcases hres with h | ⟨p, h⟩
        · exact Or.inl h
        · exact Or.inr ⟨i, p, h⟩
    · have hit := @iter_yields_qdisc cfg clk _ _ _ _ _ hl hf hfit
      obtain ⟨_, _, _, fv, _, _, fy⟩ := active_ok_blocks_qdisc (fun _ => True)
      have hokv := fv q i rest hok hl
      have hok' : active_ok
          (dwrr_qdisc_dequeue_yield cfg (clk 0) (dwrr_qdisc_dequeue_visit q i) i rest) :=
        fy cfg (clk 0) _ i rest skb tl trivial hokv hl ((visit_qdisc q i).trans hf)
          (not_le.mp hfit)
      have hwf' : well_formed
          (dwrr_qdisc_dequeue_yield cfg (clk 0) (dwrr_qdisc_dequeue_visit q i) i rest) :=
        wf_yield_qdisc (wf_visit hwf i) cfg _ i _
      have hact : (dwrr_qdisc_dequeue_yield cfg (clk 0) (dwrr_qdisc_dequeue_visit q i) i
          rest).activeList = rest ++ [i] := rfl
      have hu := untouched_trans_qdisc (untouched_visit q i)
        (untouched_yield_qdisc cfg (clk 0) (dwrr_qdisc_dequeue_visit q i) i rest)
      have hfifo : ∀ j, ((dwrr_qdisc_dequeue_yield cfg (clk 0) (dwrr_qdisc_dequeue_visit q i) i
          rest).queues j).qdisc = (q.queues j).qdisc := fun j => (hu.1 j).1
      have hnd : (i :: rest).Nodup := by rw [← hl]; exact hok.1
      have hs : skb_size skb ≤ 2000024 :=
        skb_size_le_qdisc skb ((hwf i).2 skb (by rw [hf]; exact List.mem_cons_self _ _))
      have hstep : turns_short
          (dwrr_qdisc_dequeue_yield cfg (clk 0) (dwrr_qdisc_dequeue_visit q i) i rest) i + 1 ≤
          turns_short q i := by
        unfold turns_short
        simp only [hfifo i, hf]
        rw [visit_after_yield cfg (clk 0) q i rest (hwf i).1 hw]
        have := hQ i
        unfold u32_add u32_of_int
        omega
      have hrest : rest.map (turns_short
          (dwrr_qdisc_dequeue_yield cfg (clk 0) (dwrr_qdisc_dequeue_visit q i) i rest)) =
          rest.map (turns_short q) := by
        apply List.map_congr_left
        intro j hj
        have hji : j ≠ i := by
          intro e
          subst e
          exact (List.nodup_cons.mp hnd).1 hj
        have e : (dwrr_qdisc_dequeue_yield cfg (clk 0) (dwrr_qdisc_dequeue_visit q i) i
            rest).queues j = q.queues j := by
          show Function.update (dwrr_qdisc_dequeue_visit q i).queues i _ j = _
          rw [Function.update_noteq hji]
          exact visit_other q (Ne.symm hji)
        unfold turns_short
        rw [hfifo j, visit_congr e]
      have hM' : yields_left
          (dwrr_qdisc_dequeue_yield cfg (clk 0) (dwrr_qdisc_dequeue_visit q i) i rest) ≤ M := by
        unfold yields_left at hM ⊢
        rw [hl, List.map_cons, List.sum_cons] at hM
        rw [hact, List.map_append, List.sum_append, hrest, List.map_singleton,
          List.sum_singleton]
        omega
      obtain ⟨q1, r, ys, hlp, hlen, hres⟩ := ih (fun n => clk (n + 1))
        (dwrr_qdisc_dequeue_yield cfg (clk 0) (dwrr_qdisc_dequeue_visit q i) i rest) hM'
        (by rw [hact]; simp) hwf' hok'
      refine ⟨q1, r, i :: ys, ?_, ?_, hres⟩
      · show dwrr_qdisc_dequeue_loop cfg ((M + 1) + 1) clk q = _
        unfold dwrr_qdisc_dequeue_loop
        rw [hit]
        simp only [hlp]
      · simp only [List.length_cons]
        omega

/-- In DRR mode, with permitted quanta, a call of `dwrr_qdisc_dequeue` in a
reachable state leaves its loop through the token check after at most
`yield_bound` turns given up. -/
theorem drr_dequeue_terminates_qdisc (P : dwrr_params → Prop) (q : dwrr_sched_data)
    (cfg : dwrr_params) (clk : Nat → Int) (fuel : Nat) (hr : Reachable P q)
    (hne : q.activeList ≠ [])
    (hQ : ∀ i : Fin 8, 1538 ≤ cfg.DWRR_QDISC_QUEUE_QUANTUM i.val ∧
      cfg.DWRR_QDISC_QUEUE_QUANTUM i.val ≤ 204800)
    (hw : cfg.DWRR_QDISC_ENABLE_WRR ≠ DWRR_QDISC_WRR_ON) (hf : yield_bound q + 1 ≤ fuel) :
    ∃ q1 r ys, dwrr_qdisc_dequeue fuel cfg clk q = some (q1, r, ys) ∧
      ys.length ≤ yield_bound q ∧ (r = .overlimit ∨ ∃ i p, r = .sent i p) := by
  obtain ⟨q1, r, ys, hl, hlen, hres⟩ := drr_loop_terminates_qdisc cfg hQ hw (yield_bound q)
    clk q (yields_left_le_qdisc q) hne ((well_formed_reachable_qdisc P).1 q hr)
    ((active_ok_reachable_qdisc P).1 q hr)
  refine ⟨q1, r, ys, ?_, hlen, hres⟩
  unfold dwrr_qdisc_dequeue
  rw [if_neg hne]
  have := loop_fuel_mono_qdisc cfg _ clk q _ (fuel - (yield_bound q + 1)) hl
  rw [show yield_bound q + 1 + (fuel - (yield_bound q + 1)) = fuel by omega] at this
  exact this

end sch_dwrr


/-- C15 as amended: in both variants, for every reachable state with a rotation
that is not empty and for permitted quanta (1538 to 204800), the dequeue loop
comes to the token check, where the call as the kernel runs it returns, with a
packet or through the token-starved exit, or has taken the releasing branch and
traps in the dequeue marking (which needs dequeue marking enabled under the
MQ-ECN scheme).  In DRR mode this happens for every length of the queued
packets, after at most `yield_bound` turns given up: the sum, over the classes
of the rotation, of the wire length of the head packet divided by 1538 and
rounded up.  In DRR and in WRR mode it happens after at most as many turns given
up as there are classes in the rotation when the head packet of each class of
the rotation is not longer on the wire than the quantum configured for the
class.  Every bound on the passes that exceeds the bound on the turns lets the
call come to its end. -/
theorem dequeue_terminates :
    (∀ (P : sch_dwrr2.dwrr_params → Prop) (q : sch_dwrr2.dwrr_sched_data)
        (cfg : sch_dwrr2.dwrr_params) (now : Int) (fuel : Nat),
      sch_dwrr2.Reachable P q → q.active ≠ [] →
      (∀ i : Fin 8, 1538 ≤ cfg.dwrr_queue_quantum i.val ∧
        cfg.dwrr_queue_quantum i.val ≤ 204800) →
      cfg.dwrr_enable_wrr ≠ sch_dwrr2.dwrr_enable →
      sch_dwrr2.yield_bound q + 1 ≤ fuel →
      ∃ ys : List (Fin 8), ys.length ≤ sch_dwrr2.yield_bound q ∧
        ((∃ q1 r, sch_dwrr2.dwrr_dequeue_run fuel cfg now q = .returned q1 r ys ∧
            (r = .overlimit ∨ ∃ i p, r = .sent i p)) ∨
          (sch_dwrr2.dwrr_dequeue_run fuel cfg now q = .trapped ys ∧
            cfg.dwrr_enable_dequeue_ecn = sch_dwrr2.dwrr_enable ∧
            cfg.dwrr_ecn_scheme = sch_dwrr2.dwrr_mq_ecn))) ∧
    (∀ (P : sch_dwrr2.dwrr_params → Prop) (q : sch_dwrr2.dwrr_sched_data)
        (cfg : sch_dwrr2.dwrr_params) (now : Int) (fuel : Nat),
      sch_dwrr2.Reachable P q → q.active ≠ [] →
      (∀ i : Fin 8, 1538 ≤ cfg.dwrr_queue_quantum i.val ∧
        cfg.dwrr_queue_quantum i.val ≤ 204800) →
      (∀ i ∈ q.active, ∀ skb, (q.queues i).qdisc.head? = some skb →
        (sch_dwrr2.skb_size skb : Int) ≤ cfg.dwrr_queue_quantum i.val) →
      q.active.length + 1 ≤ fuel →
      ∃ ys : List (Fin 8), ys.length ≤ q.active.length ∧
        ((∃ q1 r, sch_dwrr2.dwrr_dequeue_run fuel cfg now q = .returned q1 r ys ∧
            (r = .overlimit ∨ ∃ i p, r = .sent i p)) ∨
          (sch_dwrr2.dwrr_dequeue_run fuel cfg now q = .trapped ys ∧
            cfg.dwrr_enable_dequeue_ecn = sch_dwrr2.dwrr_enable ∧
            cfg.dwrr_ecn_scheme = sch_dwrr2.dwrr_mq_ecn))) ∧
    (∀ (P : sch_dwrr.dwrr_params → Prop) (q : sch_dwrr.dwrr_sched_data)
        (cfg : sch_dwrr.dwrr_params) (clk : Nat → Int) (fuel : Nat),
      sch_dwrr.Reachable P q → q.activeList ≠ [] →
      (∀ i : Fin 8, 1538 ≤ cfg.DWRR_QDISC_QUEUE_QUANTUM i.val ∧
        cfg.DWRR_QDISC_QUEUE_QUANTUM i.val ≤ 204800) →
      cfg.DWRR_QDISC_ENABLE_WRR ≠ sch_dwrr.DWRR_QDISC_WRR_ON →
      sch_dwrr.yield_bound q + 1 ≤ fuel →
      ∃ ys : List (Fin 8), ys.length ≤ sch_dwrr.yield_bound q ∧
        ((∃ q1 r, sch_dwrr.dwrr_qdisc_dequeue_run fuel cfg clk q = .returned q1 r ys ∧
            (r = .overlimit ∨ ∃ i p, r = .sent i p)) ∨
          (sch_dwrr.dwrr_qdisc_dequeue_run fuel cfg clk q = .trapped ys ∧
            cfg.DWRR_QDISC_ENABLE_DEQUEUE_ECN = sch_dwrr.DWRR_QDISC_DEQUEUE_ECN_ON ∧
            cfg.DWRR_QDISC_ECN_SCHEME = sch_dwrr.DWRR_QDISC_MQ_ECN))) ∧
    (∀ (P : sch_dwrr.dwrr_params → Prop) (q : sch_dwrr.dwrr_sched_data)
        (cfg : sch_dwrr.dwrr_params) (clk : Nat → Int) (fuel : Nat),
      sch_dwrr.Reachable P q → q.activeList ≠ [] →
      (∀ i : Fin 8, 1538 ≤ cfg.DWRR_QDISC_QUEUE_QUANTUM i.val ∧
        cfg.DWRR_QDISC_QUEUE_QUANTUM i.val ≤ 204800) →
      (∀ i ∈ q.activeList, ∀ skb, (q.queues i).qdisc.head? = some skb →
        (sch_dwrr.skb_size skb : Int) ≤ cfg.DWRR_QDISC_QUEUE_QUANTUM i.val) →
      q.activeList.length + 1 ≤ fuel →
      ∃ ys : List (Fin 8), ys.length ≤ q.activeList.length ∧
        ((∃ q1 r, sch_dwrr.dwrr_qdisc_dequeue_run fuel cfg clk q = .returned q1 r ys ∧
            (r = .overlimit ∨ ∃ i p, r = .sent i p)) ∨
          (sch_dwrr.dwrr_qdisc_dequeue_run fuel cfg clk q = .trapped ys ∧
            cfg.DWRR_QDISC_ENABLE_DEQUEUE_ECN = sch_dwrr.DWRR_QDISC_DEQUEUE_ECN_ON ∧
            cfg.DWRR_QDISC_ECN_SCHEME = sch_dwrr.DWRR_QDISC_MQ_ECN))) := by
  refine ⟨fun P q cfg now fuel hr hne hQ hw hf => ?_, fun P q cfg now fuel hr hne hQ hh hf => ?_,
    fun P q cfg clk fuel hr hne hQ hw hf => ?_, fun P q cfg clk fuel hr hne hQ hh hf => ?_⟩
  · obtain ⟨q1, r, ys, hd, hlen, hres⟩ :=
      sch_dwrr2.drr_dequeue_terminates P q cfg now fuel hr hne hQ hw hf
    exact ⟨ys, hlen, sch_dwrr2.run_of_token_check hd hres⟩
  · obtain ⟨q1, r, ys, hd, hlen, hres⟩ :=
      sch_dwrr2.dequeue_terminates_of_heads P q cfg now fuel hr hne hQ hh hf
    exact ⟨ys, hlen, sch_dwrr2.run_of_token_check hd hres⟩
  · obtain ⟨q1, r, ys, hd, hlen, hres⟩ :=
      sch_dwrr.drr_dequeue_terminates_qdisc P q cfg clk fuel hr hne hQ hw hf
    exact ⟨ys, hlen, sch_dwrr.run_of_token_check_qdisc hd hres⟩
  · obtain ⟨q1, r, ys, hd, hlen, hres⟩ :=
      sch_dwrr.dequeue_terminates_of_heads_qdisc P q cfg clk fuel hr hne hQ hh hf
    exact ⟨ys, hlen, sch_dwrr.run_of_token_check_qdisc hd hres⟩

set_option maxRecDepth 100000 in
/-- Termination in the scenario of one packet of 5024 bytes in DRR mode with the
quantum 1538, in both variants: the bound on the turns is 4 and the call at time
100000 returns through the token-starved exit after class 2 has given up its
turn three times.  In WRR mode in `sch_dwrr2`, with a deficit of 38 bytes left
and a packet of 1500 bytes at the head, the call at time 200000 returns the
packet after class 2 has given up its turn once; in `sch_dwrr`, with one packet
of 1500 bytes just enqueued, no turn is given up. -/
theorem dequeue_terminates_witness :
    (sch_dwrr2.yield_bound sch_dwrr2.long_state = 4 ∧
      (∃ q1, sch_dwrr2.dwrr_dequeue_run 5 sch_dwrr2.dwrr_params_init 100000
        sch_dwrr2.long_state = .returned q1 .overlimit [2, 2, 2]) ∧
      ∃ ys : List (Fin 8), ys.length ≤ sch_dwrr2.yield_bound sch_dwrr2.long_state ∧
        ((∃ q1 r, sch_dwrr2.dwrr_dequeue_run 5 sch_dwrr2.dwrr_params_init 100000
              sch_dwrr2.long_state = .returned q1 r ys ∧
            (r = .overlimit ∨ ∃ i p, r = .sent i p)) ∨
          (sch_dwrr2.dwrr_dequeue_run 5 sch_dwrr2.dwrr_params_init 100000
              sch_dwrr2.long_state = .trapped ys ∧
            sch_dwrr2.dwrr_params_init.dwrr_enable_dequeue_ecn = sch_dwrr2.dwrr_enable ∧
            sch_dwrr2.dwrr_params_init.dwrr_ecn_scheme = sch_dwrr2.dwrr_mq_ecn))) ∧
    (sch_dwrr.yield_bound sch_dwrr.long_state = 4 ∧
      (∃ q1, sch_dwrr.dwrr_qdisc_dequeue_run 5 sch_dwrr.dwrr_qdisc_params_init
        (fun _ => 100000) sch_dwrr.long_state = .returned q1 .overlimit [2, 2, 2]) ∧
      ∃ ys : List (Fin 8), ys.length ≤ sch_dwrr.yield_bound sch_dwrr.long_state ∧
        ((∃ q1 r, sch_dwrr.dwrr_qdisc_dequeue_run 5 sch_dwrr.dwrr_qdisc_params_init
              (fun _ => 100000) sch_dwrr.long_state = .returned q1 r ys ∧
            (r = .overlimit ∨ ∃ i p, r = .sent i p)) ∨
          (sch_dwrr.dwrr_qdisc_dequeue_run 5 sch_dwrr.dwrr_qdisc_params_init
              (fun _ => 100000) sch_dwrr.long_state = .trapped ys ∧
            sch_dwrr.dwrr_qdisc_params_init.DWRR_QDISC_ENABLE_DEQUEUE_ECN =
              sch_dwrr.DWRR_QDISC_DEQUEUE_ECN_ON ∧
            sch_dwrr.dwrr_qdisc_params_init.DWRR_QDISC_ECN_SCHEME =
              sch_dwrr.DWRR_QDISC_MQ_ECN))) ∧
    ((∃ q1, sch_dwrr2.dwrr_dequeue_run 2 sch_dwrr2.wrr_cfg 200000 sch_dwrr2.one_left.1 =
        .returned q1 (.sent 2 pkt_1500) [2]) ∧
      ∃ ys : List (Fin 8), ys.length ≤ sch_dwrr2.one_left.1.active.length ∧
        ((∃ q1 r, sch_dwrr2.dwrr_dequeue_run 2 sch_dwrr2.wrr_cfg 200000 sch_dwrr2.one_left.1 =
              .returned q1 r ys ∧ (r = .overlimit ∨ ∃ i p, r = .sent i p)) ∨
          (sch_dwrr2.dwrr_dequeue_run 2 sch_dwrr2.wrr_cfg 200000 sch_dwrr2.one_left.1 =
              .trapped ys ∧
            sch_dwrr2.wrr_cfg.dwrr_enable_dequeue_ecn = sch_dwrr2.dwrr_enable ∧
            sch_dwrr2.wrr_cfg.dwrr_ecn_scheme = sch_dwrr2.dwrr_mq_ecn))) ∧
    (∃ ys : List (Fin 8), ys.length ≤ sch_dwrr.gate_state.activeList.length ∧
      ((∃ q1 r, sch_dwrr.dwrr_qdisc_dequeue_run 2 sch_dwrr.dwrr_qdisc_params_init
            (fun _ => 100000) sch_dwrr.gate_state = .returned q1 r ys ∧
          (r = .overlimit ∨ ∃ i p, r = .sent i p)) ∨
        (sch_dwrr.dwrr_qdisc_dequeue_run 2 sch_dwrr.dwrr_qdisc_params_init
            (fun _ => 100000) sch_dwrr.gate_state = .trapped ys ∧
          sch_dwrr.dwrr_qdisc_params_init.DWRR_QDISC_ENABLE_DEQUEUE_ECN =
            sch_dwrr.DWRR_QDISC_DEQUEUE_ECN_ON ∧
          sch_dwrr.dwrr_qdisc_params_init.DWRR_QDISC_ECN_SCHEME =
            sch_dwrr.DWRR_QDISC_MQ_ECN))) :=
  ⟨⟨by decide, ⟨_, rfl⟩,
      dequeue_terminates.1 (fun _ => True) sch_dwrr2.long_state sch_dwrr2.dwrr_params_init
        100000 5
        (sch_dwrr2.Reachable.enqueue sch_dwrr2.dwrr_params_init (fun _ => 0) pkt_5000 trivial
          (sch_dwrr2.Reachable.init (fun _ => 0) 125000000))
        (by decide) (by decide) (by decide) (by decide)⟩,
    ⟨by decide, ⟨_, rfl⟩,
      dequeue_terminates.2.2.1 (fun _ => True) sch_dwrr.long_state
        sch_dwrr.dwrr_qdisc_params_init (fun _ => 100000) 5
        (sch_dwrr.Reachable.enqueue sch_dwrr.dwrr_qdisc_params_init (fun _ => 0) pkt_5000
          trivial (sch_dwrr.Reachable.init (fun _ => 0) 125000000))
        (by decide) (by decide) (by decide) (by decide)⟩,
    ⟨⟨_, rfl⟩,
      dequeue_terminates.2.1 (fun _ => True) sch_dwrr2.one_left.1 sch_dwrr2.wrr_cfg 200000 2
        (sch_dwrr2.Reachable.dequeue 1 sch_dwrr2.dwrr_params_init 100000 trivial
          (sch_dwrr2.Reachable.enqueue sch_dwrr2.dwrr_params_init (fun _ => 20) pkt_1500 trivial
            (sch_dwrr2.Reachable.enqueue sch_dwrr2.dwrr_params_init (fun _ => 0) pkt_1500
              trivial (sch_dwrr2.Reachable.init (fun _ => 0) 125000000)))
          (rfl : sch_dwrr2.dwrr_dequeue 1 sch_dwrr2.dwrr_params_init 100000
              sch_dwrr2.two_queued =
            some (sch_dwrr2.one_left.1, sch_dwrr2.one_left.2.1, sch_dwrr2.one_left.2.2)))
        (by decide) (by decide) (by decide) (by decide)⟩,
    dequeue_terminates.2.2.2 (fun _ => True) sch_dwrr.gate_state sch_dwrr.dwrr_qdisc_params_init
      (fun _ => 100000) 2
      (sch_dwrr.Reachable.enqueue sch_dwrr.dwrr_qdisc_params_init (fun _ => 0) pkt_1500 trivial
        (sch_dwrr.Reachable.init (fun _ => 0) 125000000))
      (by decide) (by decide) (by decide) (by decide)⟩


set_option maxRecDepth 100000 in
/-- C13: the claim fails on a division by zero in the marking of `sch_dwrr2`.
Take the rate 536870912 bytes per second (`rate_bps = 2^32`, which `div_u64`
converts to the 32-bit divisor 0) and two settings of the sysctl variables that
differ only in the ECN scheme: disabled in the first, MQ-ECN in the second.  The
first call of either run enqueues a packet of 1500 bytes into the initial state.
With the scheme disabled the call returns `NET_XMIT_SUCCESS`; under MQ-ECN the
same call accepts the packet and then traps in `dwrr_mq_ecn_marking`, in the
division by the rate, so it returns nothing.  The same happens with the rate 0. -/
theorem marking_trap_stops_enqueue :
    sch_dwrr2.ecn_only sch_dwrr2.plain_cfg (sch_dwrr2.mq_cfg 30000) ∧
    (sch_dwrr2.dwrr_init (fun _ => 0) 536870912).rate.rate_bps = 4294967296 ∧
    div_u64_traps (sch_dwrr2.dwrr_init (fun _ => 0) 536870912).rate.rate_bps = true ∧
    (∃ q1, sch_dwrr2.dwrr_enqueue_run sch_dwrr2.plain_cfg (fun _ => 0) pkt_1500
        (sch_dwrr2.dwrr_init (fun _ => 0) 536870912) = some (NET_XMIT_SUCCESS, q1)) ∧
    sch_dwrr2.dwrr_enqueue_run (sch_dwrr2.mq_cfg 30000) (fun _ => 0) pkt_1500
        (sch_dwrr2.dwrr_init (fun _ => 0) 536870912) = none ∧
    (sch_dwrr2.dwrr_init (fun _ => 0) 0).rate.rate_bps = 0 ∧
    (∃ q1, sch_dwrr2.dwrr_enqueue_run sch_dwrr2.plain_cfg (fun _ => 0) pkt_1500
        (sch_dwrr2.dwrr_init (fun _ => 0) 0) = some (NET_XMIT_SUCCESS, q1)) ∧
    sch_dwrr2.dwrr_enqueue_run (sch_dwrr2.mq_cfg 30000) (fun _ => 0) pkt_1500
        (sch_dwrr2.dwrr_init (fun _ => 0) 0) = none :=
  ⟨⟨rfl, rfl, rfl, rfl, rfl, rfl, rfl⟩, by decide, by decide, ⟨_, rfl⟩, rfl, by decide,
    ⟨_, rfl⟩, rfl⟩

set_option maxRecDepth 100000 in
/-- C20: the claim fails on a division by zero that only `sch_dwrr2` makes.  Take
the same settings in both variants (the values after initialisation, with the
MQ-ECN scheme and port threshold 30000) and the rate 536870912 bytes per second,
for which `rate_bps = 2^32`.  The first call enqueues a packet of 1500 bytes into
the initial state.  `sch_dwrr` accepts it and returns `NET_XMIT_SUCCESS`: the
round time is 0 and its threshold is taken without a division (and its division
would be by the 64-bit `rate_bps`, which is not zero).  `sch_dwrr2` accepts the
packet too and then traps in `dwrr_mq_ecn_marking`: `div_u64` takes the divisor
`rate_bps` as a 32-bit number, which is 0.  The same happens with the rate 0. -/
theorem variants_differ_by_trap :
    same_config (sch_dwrr.mq_cfg 30000) (sch_dwrr2.mq_cfg 30000) ∧
    quanta_permitted (sch_dwrr2.mq_cfg 30000) ∧
    (sch_dwrr.dwrr_qdisc_init (fun _ => 0) 536870912).rate.rate_bps = 4294967296 ∧
    (sch_dwrr2.dwrr_init (fun _ => 0) 536870912).rate.rate_bps = 4294967296 ∧
    (∃ a1, sch_dwrr.dwrr_qdisc_enqueue_run (sch_dwrr.mq_cfg 30000) (fun _ => 0) pkt_1500
        (sch_dwrr.dwrr_qdisc_init (fun _ => 0) 536870912) = some (NET_XMIT_SUCCESS, a1)) ∧
    sch_dwrr2.dwrr_enqueue_run (sch_dwrr2.mq_cfg 30000) (fun _ => 0) pkt_1500
        (sch_dwrr2.dwrr_init (fun _ => 0) 536870912) = none ∧
    (∃ a1, sch_dwrr.dwrr_qdisc_enqueue_run (sch_dwrr.mq_cfg 30000) (fun _ => 0) pkt_1500
        (sch_dwrr.dwrr_qdisc_init (fun _ => 0) 0) = some (NET_XMIT_SUCCESS, a1)) ∧
    sch_dwrr2.dwrr_enqueue_run (sch_dwrr2.mq_cfg 30000) (fun _ => 0) pkt_1500
        (sch_dwrr2.dwrr_init (fun _ => 0) 0) = none :=
  ⟨⟨rfl, rfl, rfl, rfl, rfl, rfl⟩, quanta_permitted_init, by decide, by decide, ⟨_, rfl⟩,
    rfl, ⟨_, rfl⟩, rfl⟩
